import Mathlib

/-!
# Object-file and debug-line reader (libcxx `experimental/stacktrace/libobjreader`)

A shallow embedding of the byte cursor (`util/Bytes.h`), the image registry
(`image/Image.h`), the section and symbol tables (`objfile/SectionTable.h`,
`objfile/SymbolTable.h`), the Mach-O reader (`objfile/MachO64File.cpp`), the object reader
(`ObjectReader.cpp`, `objfile/ObjectFile.cpp`), the DWARF 5 line-number reader
(`debug/DWARFDebugInfo.{h,cpp}`) and the resolver (`stacktrace.cpp`), followed by theorems
about them.

Conventions of the embedding.
* Pointers, `size_t` and `uintptr_t` are natural numbers below `2 ^ 64`; arithmetic on them
  wraps modulo `2 ^ 64`. `unsigned` wraps modulo `2 ^ 32`.
* A call returns `Except Fault α`: `.error .rangeError` is a thrown `std::range_error`,
  `.error .undefined` is behaviour the language leaves undefined. Assertions are compiled
  in: a failed `assert` is `.error .abort`.
* A `std::map` keyed by address is its sequence of entries in ascending key order.
* A pointer to an element of a container whose elements never change is the element pointed
  to; a pointer to an `ObjectFile`, which changes as its tables are built, is the position
  of the object among the objects the reader has created.
* A call that changes the state of an object returns the state afterwards next to its
  result.
-/

deriving instance DecidableEq for Except

namespace ObjReader

/-- Ways in which a call fails to return a value. -/
inductive Fault where
  /-- A `std::range_error` was thrown. -/
  | rangeError
  /-- Undefined behaviour: `__builtin_unreachable()`, a load outside the mapped file, an
  unchecked container index out of range, stepping an iterator before `begin()`, a division
  by zero, a shift by a count outside `[0, 64)`, a signed overflow, the use of a pointer that
  was never given a value, a member access through a null pointer. -/
  | undefined
  /-- A failed `assert`. -/
  | abort
  /-- The iteration bound of a modelled loop was used up. It has no counterpart in the
  source: the bounds exceed the number of bytes of the mapped file, and every iteration of
  a modelled loop consumes at least one of them. The one loop an input can keep from
  consuming anything, that of `eachLoadCommand`, does not terminate in the source on such an
  input. -/
  | fuel
  /-- A `std::out_of_range` was thrown (`std::vector::at`). -/
  | outOfRange
  deriving DecidableEq, Repr

abbrev Byte := Fin 256

/-! ## `util/Bytes.h` -/

/-- The cursor `struct Bytes`: the byte range `[base_, limit_)`. The two pointers are
addresses; `mem` is the content of the mapped file they point into and `org` the address
its first byte is mapped at. -/
structure Bytes where
  org : Nat
  mem : List Byte
  base_ : Nat
  limit_ : Nat
  deriving DecidableEq, Repr

namespace Bytes

/-- The byte stored at address `a`, when `a` lies in the mapped file. -/
def load (c : Bytes) (a : Nat) : Except Fault Nat :=
  if c.org ≤ a then
    match c.mem.get? (a - c.org) with
    | some b => .ok b.val
    | none => .error .undefined
  else .error .undefined

/-- An unaligned little-endian load of `w` bytes at address `a` (`*(U *)base_` on the
little-endian targets the reader supports). -/
def loadLE (c : Bytes) (a : Nat) : Nat → Except Fault Nat
  | 0 => .ok 0
  | w + 1 => do
    let b ← c.load a
    let rest ← c.loadLE ((a + 1) % 2 ^ 64) w
    pure (b + 256 * rest)

/-- Embeds `size()`: `limit_ - base_` as a `size_t`. -/
def size (c : Bytes) : Nat := (c.limit_ + 2 ^ 64 - c.base_) % 2 ^ 64

/-- Embeds `operator bool`. -/
def toBool (c : Bytes) : Bool := c.size != 0

/-- Embeds `slice(size_t off)`: throws when `base_ > limit_ - off`, the subtraction being
pointer arithmetic. -/
def slice (c : Bytes) (off : Nat) : Except Fault Bytes :=
  if c.base_ > (c.limit_ + 2 ^ 64 - off % 2 ^ 64) % 2 ^ 64 then .error .rangeError
  else .ok { c with base_ := (c.base_ + off) % 2 ^ 64 }

/-- Embeds `truncate(size_t newSize)`. -/
def truncate (c : Bytes) (newSize : Nat) : Bytes :=
  { c with limit_ := min ((c.base_ + newSize) % 2 ^ 64) c.limit_ }

/-- Embeds `iget<T, U>(T *dest)` for an unsigned `U` of `w` bytes no wider than `T`: the
value loaded and the cursor `slice(sizeof(U))`. The source loads before `slice` checks the
range; a load whose `slice` throws never reaches the caller, so the check is made first. -/
def iget (c : Bytes) (w : Nat) : Except Fault (Nat × Bytes) := do
  let next ← c.slice w
  let v ← c.loadLE c.base_ w
  pure (v, next)

/-- Loop of `uleb`: `z` is the `uint64_t` accumulator, `r` the `int` counter. The first
argument bounds the iterations; every iteration loads one more byte of the mapped file, so
`mem.length + 1` iterations are never all used. -/
def ulebLoop : Nat → Bytes → Nat → Int → Except Fault (Nat × Int × Bytes)
  | 0, _, _, _ => .error .fuel
  | fuel + 1, ret, z, r => do
    let (byte, ret) ← ret.iget 1
    let z := z ||| (byte &&& 0x7f)
    let z := (z >>> 7) ||| ((z <<< 57) % 2 ^ 64)
    if r - 7 < -(2 ^ 31) then throw .undefined
    let r := r - 7
    if byte &&& 0x80 = 0 then pure (z, r, ret) else ulebLoop fuel ret z r

/-- Embeds `uleb<Z>(Z *dest)` for an unsigned `Z` of `zbits` bits: the value stored in
`*dest` and the returned cursor. -/
def uleb (c : Bytes) (zbits : Nat) : Except Fault (Nat × Bytes) := do
  let (z, r, ret) ← ulebLoop (c.mem.length + 1) c 0 64
  let r := Int.tmod r 64
  if r < 0 then throw .undefined
  pure ((z >>> r.toNat) % 2 ^ zbits, ret)

/-- Loop of `sleb`. -/
def slebLoop : Nat → Bytes → Nat → Int → Except Fault (Nat × Int × Bytes)
  | 0, _, _, _ => .error .fuel
  | fuel + 1, ret, z, r => do
    let (byte, ret) ← ret.iget 1
    let z := z >>> 7
    let z := z ||| ((byte <<< 57) % 2 ^ 64)
    if r - 7 < -(2 ^ 31) then throw .undefined
    let r := r - 7
    if byte &&& 0x80 = 0 then pure (z, r, ret) else slebLoop fuel ret z r

/-- The `int64_t` with the bit pattern of the `uint64_t` `z`. -/
def toInt64 (z : Nat) : Int := if z % 2 ^ 64 < 2 ^ 63 then (z % 2 ^ 64 : Nat) else (z % 2 ^ 64 : Nat) - 2 ^ 64

/-- Embeds `sleb<int64_t>(int64_t *dest)`: `*dest = int64_t(z) >> r`, an arithmetic shift. -/
def sleb (c : Bytes) : Except Fault (Int × Bytes) := do
  let (z, r, ret) ← slebLoop (c.mem.length + 1) c 0 64
  if r < 0 ∨ 64 ≤ r then throw .undefined
  pure (toInt64 z >>> r.toNat, ret)

end Bytes

/-- The cursor `c` lies in the mapped file and its first bytes are exactly `bs`. -/
def Bytes.StartsWith (c : Bytes) (bs : List Byte) : Prop :=
  c.org ≤ c.base_ ∧ c.base_ + bs.length ≤ c.limit_ ∧ c.limit_ < 2 ^ 64 ∧
    (c.mem.drop (c.base_ - c.org)).take bs.length = bs

instance (c : Bytes) (bs : List Byte) : Decidable (c.StartsWith bs) := by
  unfold Bytes.StartsWith
  infer_instance

/-- The cursor `c` advanced by `n` bytes. -/
def Bytes.advance (c : Bytes) (n : Nat) : Bytes := { c with base_ := c.base_ + n }

/-- The little-endian value of a sequence of bytes. -/
def leValue : List Byte → Nat
  | [] => 0
  | b :: bs => b.val + 256 * leValue bs

/-- The unsigned value of a sequence of 7-bit groups, least significant group first. -/
def groupsValue : List Byte → Nat
  | [] => 0
  | b :: bs => b.val % 128 + 128 * groupsValue bs

/-- A cursor over the whole of `bs`, mapped at address `0x100000000`. -/
def Bytes.ofList (bs : List Byte) : Bytes :=
  { org := 0x100000000, mem := bs, base_ := 0x100000000, limit_ := 0x100000000 + bs.length }

/-- Embeds `str(size_t off)`: the `std::string_view` built from the C string at
`base_ + off`, which runs to the first NUL byte whatever `limit_` is. -/
def Bytes.str (c : Bytes) (off : Nat) : Except Fault (List Byte) :=
  let a := (c.base_ + off) % 2 ^ 64
  if c.org ≤ a then scan (c.mem.drop (a - c.org)) else .error .undefined
where
  /-- The bytes before the first NUL. -/
  scan : List Byte → Except Fault (List Byte)
    | [] => .error .undefined
    | b :: bs => if b = 0 then .ok [] else do
      let rest ← scan bs
      pure (b :: rest)

/-! ## `std::map` keyed by address -/

/-- A `std::map<uintptr_t, V>` (`Memory::Map`): the entries in ascending key order. An
iterator is a position in the list, `end()` being the length. -/
abbrev AddrMap (V : Type) := List (Nat × V)

namespace AddrMap

variable {V : Type}

/-- Embeds `emplace(k, v)`: inserts the entry unless the key is already present. -/
def emplace : AddrMap V → Nat → V → AddrMap V
  | [], k, v => [(k, v)]
  | (k', v') :: rest, k, v =>
    if k < k' then (k, v) :: (k', v') :: rest
    else if k = k' then (k', v') :: rest
    else (k', v') :: emplace rest k v

/-- Embeds `m[k] = v`: inserts the entry or overwrites the value under `k`. -/
def assign : AddrMap V → Nat → V → AddrMap V
  | [], k, v => [(k, v)]
  | (k', v') :: rest, k, v =>
    if k < k' then (k, v) :: (k', v') :: rest
    else if k = k' then (k, v) :: rest
    else (k', v') :: assign rest k v

/-- Embeds `upper_bound(k)`: the position of the first entry whose key is greater than
`k`, the length when there is none. -/
def upperBound : AddrMap V → Nat → Nat
  | [], _ => 0
  | (k', _) :: rest, k => if k < k' then 0 else upperBound rest k + 1

/-- The entries are in strictly ascending key order. -/
def Ascending (m : AddrMap V) : Prop := m.Pairwise (fun a b => a.1 < b.1)

/-- The map after the calls `emplace(k, v)` for each `(k, v)` of `ops` in turn. -/
def emplaceAll (m : AddrMap V) (ops : List (Nat × V)) : AddrMap V :=
  ops.foldl (fun m e => m.emplace e.1 e.2) m

end AddrMap

/-! ## SLEB128 encoding -/

/-- The standard SLEB128 encoding of `v`, least significant group first, by the algorithm of
DWARF 5, appendix C: emit the low seven bits and shift arithmetically right by seven, until
what is left is `0` with bit 6 of the group clear or `-1` with bit 6 of the group set; every
group but the last carries the continuation bit. It is not code of the reader: it says what
the decoder is given. The first argument bounds the number of groups. -/
def slebEncodeAux : Nat → Int → List Byte
  | 0, _ => []
  | fuel + 1, v =>
    let byte := (v % 128).toNat
    let rest := v / 128
    if (rest = 0 ∧ byte < 64) ∨ (rest = -1 ∧ 64 ≤ byte) then [Fin.ofNat byte]
    else Fin.ofNat (byte + 128) :: slebEncodeAux fuel rest

/-- The standard SLEB128 encoding of a 64-bit integer `v`; ten groups hold 70 bits. -/
def slebEncode (v : Int) : List Byte := slebEncodeAux 10 v

/-! ## `image/Image.h` -/

/-- The record `struct Image`. -/
structure Image where
  name : String
  addr : Nat
  slide : Int
  isMainProgram : Bool
  deriving DecidableEq, Repr

/-- The registry `struct Images`. The maps hold `Image *` into `images_`, whose elements
never move or change, so the pointee stands for the pointer. `byName_` is only written. -/
structure Images where
  images_ : List Image
  byName_ : List (String × Image)
  byAddr_ : AddrMap Image
  deriving DecidableEq, Repr

namespace Images

/-- Embeds the constructor `Images(ObjectReader &)`: all three containers empty. -/
def new : Images := { images_ := [], byName_ := [], byAddr_ := [] }

/-- Embeds `add(Image &&)`. -/
def add (s : Images) (im : Image) : Images :=
  { images_ := s.images_ ++ [im]
    byName_ := (im.name, im) :: s.byName_.filter (fun e => e.1 != im.name)
    byAddr_ := s.byAddr_.assign im.addr im }

/-- Embeds `atAddr(uintptr_t)`; `none` is `nullptr`. -/
def atAddr (s : Images) (addr : Nat) : Except Fault (Option Image) :=
  let it := s.byAddr_.upperBound addr
  if it = s.byAddr_.length then .ok none
  else
    match it with
    | 0 => .error .undefined
    | i + 1 =>
      if i = s.byAddr_.length then .ok none
      else
        match s.byAddr_.get? i with
        | some e => .ok (some e.2)
        | none => .error .undefined

/-- The registry after `add` has been called on each image of `ims` in turn. -/
def build (ims : List Image) : Images := ims.foldl add new

end Images

/-! ## `debug/SourceLoc.h` -/

/-- The record `struct SourceLoc`; a `std::string_view` is the bytes it views. -/
structure SourceLoc where
  addr_ : Nat
  dir_ : List Byte
  file_ : List Byte
  line_ : Nat
  deriving DecidableEq, Repr

/-- The value-initialised `SourceLoc{}`. -/
def SourceLoc.empty : SourceLoc := { addr_ := 0, dir_ := [], file_ := [], line_ := 0 }

/-- Embeds `operator bool`: `addr_ || line_`. -/
def SourceLoc.toBool (s : SourceLoc) : Bool := s.addr_ != 0 || s.line_ != 0

/-! ## `debug/DWARFDebugInfo.h` -/

namespace dwarf5

/-- The enumeration `ContentType` (the `DW_LNCT_*` codes). -/
inductive ContentType where
  | INVALID | path | dirindex | timestamp | size | md5
  deriving DecidableEq, Repr

/-- Embeds `contentType(unsigned)`. The table has six elements of four bytes, so the guard
`x <= sizeof(types)` is `x ≤ 24`; an index past the table is an out-of-bounds read. -/
def contentType (x : Nat) : Except Fault ContentType :=
  if x ≤ 24 then
    match [ContentType.INVALID, .path, .dirindex, .timestamp, .size, .md5].get? x with
    | some t => .ok t
    | none => .error .undefined
  else .ok .INVALID

/-- The table `types` of `formType`: a `FormType` is its `uint8_t` code (`INVALID = 0`,
`udata = 0x0f`, `line_strp = 0x1f`, ...); the reserved code 2 maps to `INVALID`. -/
def formTypes : List Nat :=
  [0x00, 0x01, 0x00, 0x03, 0x04, 0x05, 0x06, 0x07, 0x08, 0x09, 0x0a, 0x0b, 0x0c, 0x0d, 0x0e,
   0x0f, 0x10, 0x11, 0x12, 0x13, 0x14, 0x15, 0x16, 0x17, 0x18, 0x19, 0x1a, 0x1b, 0x1c, 0x1d,
   0x1e, 0x1f, 0x20, 0x21, 0x22, 0x23, 0x24, 0x25, 0x26, 0x27, 0x28, 0x29, 0x2a, 0x2b, 0x2c]

/-- Embeds `formType(unsigned)`. The table has 45 elements of one byte, so the guard
`x <= sizeof(types)` is `x ≤ 45`. -/
def formType (x : Nat) : Except Fault Nat :=
  if x ≤ 45 then
    match formTypes.get? x with
    | some t => .ok t
    | none => .error .undefined
  else .ok 0

/-- The record `struct EntryFormat`. -/
structure EntryFormat where
  contentType : ContentType
  formType : Nat
  deriving DecidableEq, Repr

/-- The record `struct EntryData`: `values` and the four arrays of `kMax = 4` slots. -/
structure EntryData where
  values : Nat
  contentTypes : List ContentType
  formTypes : List Nat
  u64s : List Nat
  strs : List (List Byte)
  deriving DecidableEq, Repr

namespace EntryData

/-- A default-initialised `EntryData`. -/
def new : EntryData :=
  { values := 0
    contentTypes := List.replicate 4 .INVALID
    formTypes := List.replicate 4 0
    u64s := List.replicate 4 0
    strs := List.replicate 4 [] }

/-- Embeds the static `read(pos, ftype, is64Bit, u64, str, lineStrs)`; `u64` and `str` are
the referenced slots, returned with the cursor. -/
def readForm (pos : Bytes) (ftype : Nat) (is64Bit : Bool) (u64 : Nat) (str : List Byte)
    (lineStrs : Bytes) : Except Fault (Bytes × Nat × List Byte) :=
  if ftype = 0x1f then do
    let (tmpU64, pos) ← if is64Bit then pos.iget 8 else pos.iget 4
    let s ← lineStrs.str tmpU64
    pure (pos, u64, s)
  else if ftype = 0x0f then do
    let (v, pos) ← pos.uleb 64
    pure (pos, v, str)
  else .error .undefined

/-- Embeds the member `read(pos, ctype, ftype, is64Bit, lineStrs)`. -/
def read (d : EntryData) (pos : Bytes) (ctype : ContentType) (ftype : Nat) (is64Bit : Bool)
    (lineStrs : Bytes) : Except Fault (Bytes × EntryData) :=
  if d.values = 4 then .error .rangeError
  else do
    let (pos, u64, str) ←
      readForm pos ftype is64Bit (d.u64s.getD d.values 0) (d.strs.getD d.values []) lineStrs
    pure (pos,
      { values := d.values + 1
        contentTypes := d.contentTypes.set d.values ctype
        formTypes := d.formTypes.set d.values ftype
        u64s := d.u64s.set d.values u64
        strs := d.strs.set d.values str })

/-- Embeds `pathStr()`. -/
def pathStr (d : EntryData) : List Byte :=
  match (List.range 4).find? (fun i => d.contentTypes.getD i .INVALID == .path) with
  | some i => d.strs.getD i []
  | none => []

/-- Embeds `dirIndex()`. -/
def dirIndex (d : EntryData) : Nat :=
  match (List.range 4).find? (fun i => d.contentTypes.getD i .INVALID == .dirindex) with
  | some i => d.u64s.getD i 0
  | none => 0

end EntryData

/-- The record `struct Header`. -/
structure Header where
  length : Nat
  is64bit : Bool
  version : Nat
  addrSize : Nat
  segSelectorSize : Nat
  minInsnLength : Nat
  maxOpsPerInsn : Nat
  defaultIsStmt : Bool
  lineBase : Int
  lineRange : Nat
  opcodeBase : Nat
  stdOpcodeLens : List Nat
  deriving DecidableEq, Repr

end dwarf5

/-! ## `debug/DWARFDebugInfo.cpp`: the line-number machine -/

open dwarf5 in
/-- The state `struct DWARF5DebugMachine`. The register `addr` (a `std::byte *`) is an
address below `2 ^ 64`; `opIndex` (an `int`) only ever holds `0` or a remainder modulo
`maxOpsPerInsn`, so it is a natural number; `file`, `line`, `column`, `isa` and `discrim`
are `unsigned`. -/
structure DWARF5DebugMachine where
  lineData_ : Bytes
  lineStrs_ : Bytes
  nextUnit_ : Bytes
  header_ : Header
  dirEntryFormats : List EntryFormat
  directories : List EntryData
  fileEntryFormats : List EntryFormat
  filenames : List EntryData
  insn_ : Bytes
  addr : Nat
  opIndex : Nat
  file : Nat
  line : Nat
  column : Nat
  isStmt : Bool
  basicBlock : Bool
  endSeq : Bool
  prologEnd : Bool
  epilogBegin : Bool
  isa : Nat
  discrim : Nat
  deriving DecidableEq, Repr

namespace DWARF5DebugMachine

open dwarf5

/-- Embeds `reset()`. -/
def reset (m : DWARF5DebugMachine) : DWARF5DebugMachine :=
  { m with
    addr := 0
    opIndex := 0
    file := 1
    line := 1
    column := 0
    isStmt := m.header_.defaultIsStmt
    basicBlock := false
    endSeq := false
    prologEnd := false
    epilogBegin := false
    isa := 0
    discrim := 0 }

/-- The loop reading `stdOpcodeLens[0 .. opcodeBase - 2]`. -/
def readOpcodeLens : Nat → Bytes → List Nat → Except Fault (Bytes × List Nat)
  | 0, cur, acc => .ok (cur, acc)
  | n + 1, cur, acc => do
    let (v, cur) ← cur.iget 1
    readOpcodeLens n cur (acc ++ [v])

/-- The loops `while (dirEntryFormatCount--)` and `while (fileEntryFormatCount--)`. -/
def readFormats : Nat → Bytes → List EntryFormat → Except Fault (Bytes × List EntryFormat)
  | 0, cur, acc => .ok (cur, acc)
  | n + 1, cur, acc => do
    let (ct, cur) ← cur.uleb 32
    let (ft, cur) ← cur.uleb 32
    let c ← contentType ct
    let f ← formType ft
    readFormats n cur (acc ++ [{ contentType := c, formType := f }])

/-- The loop `for (auto &fmt : formats)` in the body of `while (dirCount--)` and of
`while (fileCount--)`: each round reads one value into the record `d` and then appends `d`
to `out` (`emplace_back(std::move(d))`, which copies the record: all its members are
trivially copyable or `std::string_view`). -/
def readRecord (is64bit : Bool) (lineStrs : Bytes) :
    List EntryFormat → Bytes → EntryData → List EntryData →
      Except Fault (Bytes × EntryData × List EntryData)
  | [], cur, d, out => .ok (cur, d, out)
  | fmt :: rest, cur, d, out => do
    let (cur, d) ← d.read cur fmt.contentType fmt.formType is64bit lineStrs
    readRecord is64bit lineStrs rest cur d (out ++ [d])

/-- The loops `while (dirCount--)` and `while (fileCount--)`. -/
def readRecords (is64bit : Bool) (lineStrs : Bytes) (formats : List EntryFormat) :
    Nat → Bytes → List EntryData → Except Fault (Bytes × List EntryData)
  | 0, cur, out => .ok (cur, out)
  | n + 1, cur, out => do
    let (cur, _, out) ← readRecord is64bit lineStrs formats cur EntryData.new out
    readRecords is64bit lineStrs formats n cur out

/-- The `int8_t` with the bit pattern of the byte `v`. -/
def toInt8 (v : Nat) : Int := if v < 128 then (v : Int) else (v : Int) - 256

/-- The start of the constructor: `header_.length` is read as a `uint32_t`; when it is
`0xffffffff` the length is read again from the next eight bytes and `header_.is64bit` is
set. The result is `header_.length`, `header_.is64bit` and the cursor past the field. -/
def readUnitLength (lineData : Bytes) : Except Fault (Nat × Bool × Bytes) := do
  let (len32, cur) ← lineData.iget 4
  if len32 ≠ 0xffffffff then pure (len32, false, cur)
  else do
    let (len64, cur) ← cur.iget 8
    pure (len64, true, cur)

/-- The read of `headerLength`: `cur.iget(&headerLength)` (a `size_t`) when `is64bit`, else
`cur.iget<size_t, uint32_t>(&headerLength)`. -/
def readHeaderLength (is64bit : Bool) (cur : Bytes) : Except Fault (Nat × Bytes) :=
  if is64bit then cur.iget 8 else cur.iget 4

/-- The constructor `DWARF5DebugMachine(reader, lineData, lineStrs)` up to the last file
record: the machine with its header and tables parsed, the cursor `cur` after the last file
record, and `programStart`. At this point `insn_` is the default (null) cursor and the
registers `addr` .. `epilogBegin` are uninitialised; they are shown as zero. `assert` is
taken as compiled in. -/
def readHeader (lineData lineStrs : Bytes) :
    Except Fault (DWARF5DebugMachine × Bytes × Bytes) := do
  let (length, is64bit, cur) ← readUnitLength lineData
  let nextUnit ← cur.slice length
  let cur := cur.truncate length
  let (version, cur) ← cur.iget 2
  let (addrSize, cur) ← cur.iget 1
  let (segSelectorSize, cur) ← cur.iget 1
  let (headerLength, cur) ← readHeaderLength is64bit cur
  let programStart ← cur.slice headerLength
  let (minInsnLength, cur) ← cur.iget 1
  let (maxOpsPerInsn, cur) ← cur.iget 1
  let (defaultIsStmt, cur) ← cur.iget 1
  let (lineBase, cur) ← cur.iget 1
  let (lineRange, cur) ← cur.iget 1
  let (opcodeBase, cur) ← cur.iget 1
  if ¬ opcodeBase < 32 then throw .abort
  let (cur, lens) ← readOpcodeLens (opcodeBase - 1) cur []
  let (dirEntryFormatCount, cur) ← cur.iget 1
  let (cur, dirEntryFormats) ← readFormats dirEntryFormatCount cur []
  let (dirCount, cur) ← cur.uleb 64
  let (cur, directories) ← readRecords is64bit lineStrs dirEntryFormats dirCount cur []
  let (fileEntryFormatCount, cur) ← cur.iget 1
  let (cur, fileEntryFormats) ← readFormats fileEntryFormatCount cur []
  let (fileCount, cur) ← cur.uleb 64
  let (cur, filenames) ← readRecords is64bit lineStrs fileEntryFormats fileCount cur []
  let m : DWARF5DebugMachine :=
    { lineData_ := lineData
      lineStrs_ := lineStrs
      nextUnit_ := nextUnit
      header_ :=
        { length := length
          is64bit := is64bit
          version := version
          addrSize := addrSize
          segSelectorSize := segSelectorSize
          minInsnLength := minInsnLength
          maxOpsPerInsn := maxOpsPerInsn
          defaultIsStmt := defaultIsStmt != 0
          lineBase := toInt8 lineBase
          lineRange := lineRange
          opcodeBase := opcodeBase
          stdOpcodeLens := lens }
      dirEntryFormats := dirEntryFormats
      directories := directories
      fileEntryFormats := fileEntryFormats
      filenames := filenames
      insn_ := { lineData with base_ := 0, limit_ := 0 }
      addr := 0
      opIndex := 0
      file := 0
      line := 0
      column := 0
      isStmt := false
      basicBlock := false
      endSeq := false
      prologEnd := false
      epilogBegin := false
      isa := 0
      discrim := 0 }
  pure (m, cur, programStart)

/-- Embeds the constructor `DWARF5DebugMachine(reader, lineData, lineStrs)`: `readHeader`,
then the early return when the header does not end at `programStart` (the registers are
then never read, the instruction stream being empty), else `insn_ = cur` and `reset()`. -/
def new (lineData lineStrs : Bytes) : Except Fault DWARF5DebugMachine := do
  let (m, cur, programStart) ← readHeader lineData lineStrs
  if cur.base_ ≠ programStart.base_ then pure m
  else pure ({ m with insn_ := cur }).reset

/-- Embeds `emitLoc(SourceLoc &)`: the location written. `filenames[file]` and
`directories[...]` are unchecked `std::vector` subscripts. -/
def emitLoc (m : DWARF5DebugMachine) : Except Fault SourceLoc :=
  match m.filenames.get? m.file with
  | none => .error .undefined
  | some fileEntry =>
    match m.directories.get? fileEntry.dirIndex with
    | none => .error .undefined
    | some dirEntry =>
      .ok { addr_ := m.addr, dir_ := dirEntry.pathStr, file_ := fileEntry.pathStr, line_ := m.line }

/-- Embeds `addrAndOpAdvance(uint64_t)`. -/
def addrAndOpAdvance (m : DWARF5DebugMachine) (operAdvance : Nat) :
    Except Fault DWARF5DebugMachine :=
  if m.header_.maxOpsPerInsn = 0 then .error .undefined
  else
    .ok { m with
      addr := (m.addr +
        (m.header_.minInsnLength * (((m.opIndex + operAdvance) % 2 ^ 64) / m.header_.maxOpsPerInsn))
          % 2 ^ 64) % 2 ^ 64
      opIndex := ((m.opIndex + operAdvance) % 2 ^ 64) % m.header_.maxOpsPerInsn }

/-- The value of the `unsigned` register `line` after `line += d` for a signed `d`. -/
def addLine (line : Nat) (d : Int) : Nat := (((line : Int) + d) % 2 ^ 32).toNat

/-- The result type of `nextLoc(SourceLoc &)`: the `bool` returned, the content of `ret`
afterwards and the machine afterwards. -/
abbrev StepResult := Except Fault (Bool × SourceLoc × DWARF5DebugMachine)

/-- Extended opcode 1, `DW_LNE_end_sequence`. -/
def endSequence (m : DWARF5DebugMachine) : StepResult := do
  let loc ← ({ m with endSeq := true } : DWARF5DebugMachine).emitLoc
  pure (true, loc, ({ m with endSeq := true } : DWARF5DebugMachine).reset)

/-- Extended opcode 2, `DW_LNE_set_address`. -/
def setAddress (m : DWARF5DebugMachine) (ret : SourceLoc) : StepResult := do
  let (a, insn) ← if m.header_.addrSize = 8 then m.insn_.iget 8 else m.insn_.iget 4
  pure (false, ret, { m with insn_ := insn, addr := a })

/-- Extended opcode 3, `DW_LNE_set_discriminator`. -/
def setDiscriminator (m : DWARF5DebugMachine) (ret : SourceLoc) : StepResult := do
  let (v, insn) ← m.insn_.uleb 32
  pure (false, ret, { m with insn_ := insn, discrim := v })

/-- The branch `op == 0` of `nextLoc(SourceLoc &)` (6.2.5.3 Extended Opcodes), entered
with `insn_` just past the byte `00`: `[size] [extOp]` are read, then the `switch`. -/
def extendedOpcode (m : DWARF5DebugMachine) (ret : SourceLoc) : StepResult := do
  let (_, insn) ← m.insn_.uleb 64
  let (op, insn) ← insn.iget 1
  if op = 1 then ({ m with insn_ := insn } : DWARF5DebugMachine).endSequence
  else if op = 2 then ({ m with insn_ := insn } : DWARF5DebugMachine).setAddress ret
  else if op = 3 then ({ m with insn_ := insn } : DWARF5DebugMachine).setDiscriminator ret
  else throw .undefined

/-- Standard opcode 1, `DW_LNS_copy`. -/
def copy (m : DWARF5DebugMachine) : StepResult := do
  let loc ← m.emitLoc
  pure (true, loc,
    { m with discrim := 0, basicBlock := false, prologEnd := false, epilogBegin := false })

/-- Standard opcode 2, `DW_LNS_advance_pc`. -/
def advancePc (m : DWARF5DebugMachine) (ret : SourceLoc) : StepResult := do
  let (utmp, insn) ← m.insn_.uleb 64
  let m ← ({ m with insn_ := insn } : DWARF5DebugMachine).addrAndOpAdvance utmp
  pure (false, ret, m)

/-- Standard opcode 3, `DW_LNS_advance_line`. -/
def advanceLine (m : DWARF5DebugMachine) (ret : SourceLoc) : StepResult := do
  let (stmp, insn) ← m.insn_.sleb
  pure (false, ret, { m with insn_ := insn, line := addLine m.line stmp })

/-- Standard opcode 4, `DW_LNS_set_file`. -/
def setFile (m : DWARF5DebugMachine) (ret : SourceLoc) : StepResult := do
  let (utmp, insn) ← m.insn_.uleb 64
  pure (false, ret, { m with insn_ := insn, file := utmp % 2 ^ 32 })

/-- Standard opcode 5, `DW_LNS_set_column`. -/
def setColumn (m : DWARF5DebugMachine) (ret : SourceLoc) : StepResult := do
  let (utmp, insn) ← m.insn_.uleb 64
  pure (false, ret, { m with insn_ := insn, column := utmp % 2 ^ 32 })

/-- Standard opcode 8, `DW_LNS_const_add_pc`. -/
def constAddPc (m : DWARF5DebugMachine) (ret : SourceLoc) : StepResult := do
  if m.header_.lineRange = 0 then throw .undefined
  let m ← m.addrAndOpAdvance ((255 - m.header_.opcodeBase) / m.header_.lineRange)
  pure (false, ret, m)

/-- Standard opcode 9, `DW_LNS_fixed_advance_pc`. -/
def fixedAdvancePc (m : DWARF5DebugMachine) (ret : SourceLoc) : StepResult := do
  let (utmp, insn) ← m.insn_.iget 2
  pure (false, ret, { m with insn_ := insn, addr := (m.addr + utmp) % 2 ^ 64 })

/-- Standard opcode 12, `DW_LNS_set_isa`. -/
def setIsa (m : DWARF5DebugMachine) (ret : SourceLoc) : StepResult := do
  let (utmp, insn) ← m.insn_.uleb 64
  pure (false, ret, { m with insn_ := insn, isa := utmp % 2 ^ 32 })

/-- The branch `op < header_.opcodeBase` of `nextLoc(SourceLoc &)` (6.2.5.2 Standard
Opcodes), entered with `insn_` just past the opcode byte `op`: the `switch`. Opcodes 6
(`DW_LNS_negate_stmt`), 7 (`DW_LNS_set_basic_block`), 10 (`DW_LNS_set_prologue_end`) and 11
(`DW_LNS_set_epilogue_begin`) change one flag. -/
def standardOpcode (m : DWARF5DebugMachine) (ret : SourceLoc) (op : Nat) : StepResult :=
  if op = 1 then m.copy
  else if op = 2 then m.advancePc ret
  else if op = 3 then m.advanceLine ret
  else if op = 4 then m.setFile ret
  else if op = 5 then m.setColumn ret
  else if op = 6 then .ok (false, ret, { m with isStmt := !m.isStmt })
  else if op = 7 then .ok (false, ret, { m with basicBlock := true })
  else if op = 8 then m.constAddPc ret
  else if op = 9 then m.fixedAdvancePc ret
  else if op = 10 then .ok (false, ret, { m with prologEnd := true })
  else if op = 11 then .ok (false, ret, { m with epilogBegin := true })
  else if op = 12 then m.setIsa ret
  else .error .undefined

/-- The last branch of `nextLoc(SourceLoc &)` (6.2.5.1 Special Opcodes), entered with
`insn_` just past the opcode byte `op`. -/
def specialOpcode (m : DWARF5DebugMachine) (op : Nat) : StepResult := do
  let adjOp := (op - m.header_.opcodeBase) % 256
  let lr := m.header_.lineRange
  if lr = 0 then throw .undefined
  let opAdv := (adjOp / lr) % 256
  let m ← m.addrAndOpAdvance opAdv
  let m := { m with line := addLine m.line (m.header_.lineBase + ((adjOp % lr : Nat) : Int)) }
  let loc ← m.emitLoc
  pure (true, loc,
    { m with basicBlock := false, prologEnd := false, epilogBegin := false, discrim := 0 })

/-- Embeds `bool nextLoc(SourceLoc &ret)`: the result, the content of `ret` afterwards and
the machine afterwards. The three branches of the source are `extendedOpcode`,
`standardOpcode` and `specialOpcode`. -/
def nextLocInto (m : DWARF5DebugMachine) (ret : SourceLoc) : StepResult :=
  if !m.insn_.toBool then .ok (true, ret, m)
  else do
    let (op, insn) ← m.insn_.iget 1
    if op = 0 then ({ m with insn_ := insn } : DWARF5DebugMachine).extendedOpcode ret
    else if op < m.header_.opcodeBase then
      ({ m with insn_ := insn } : DWARF5DebugMachine).standardOpcode ret op
    else ({ m with insn_ := insn } : DWARF5DebugMachine).specialOpcode op

/-- The loop `while (!gotNext)` of `nextLoc()`. Every round that does not finish consumes
at least one byte of the mapped file, which bounds the rounds. -/
def nextLocLoop : Nat → DWARF5DebugMachine → SourceLoc →
    Except Fault (SourceLoc × DWARF5DebugMachine)
  | 0, _, _ => .error .fuel
  | fuel + 1, m, ret => do
    let (gotNext, ret, m) ← m.nextLocInto ret
    if gotNext then pure (ret, m) else nextLocLoop fuel m ret

/-- Embeds `SourceLoc nextLoc()`. -/
def nextLoc (m : DWARF5DebugMachine) : Except Fault (SourceLoc × DWARF5DebugMachine) :=
  nextLocLoop (m.insn_.mem.length + 1) m SourceLoc.empty

end DWARF5DebugMachine

/-! ## `debug/DWARFDebugInfo.cpp`: the table -/

/-- The state `struct DWARFDebugTable`; `machine_` is `none` when the `Unique` is null. -/
structure DWARFDebugTable where
  lineData_ : Bytes
  lineStrs_ : Bytes
  locs_ : AddrMap SourceLoc
  machine_ : Option DWARF5DebugMachine
  deriving DecidableEq, Repr

namespace DWARFDebugTable

/-- The key `~0` converted to `uintptr_t`. -/
def maxAddr : Nat := 2 ^ 64 - 1

/-- Embeds the constructor `DWARFDebugTable(reader, lineData, lineStrs)`. -/
def new (lineData lineStrs : Bytes) : DWARFDebugTable :=
  { lineData_ := lineData
    lineStrs_ := lineStrs
    locs_ := AddrMap.emplace [] 0 SourceLoc.empty
    machine_ := none }

/-- The inner loop `while (machine_)` of `sourceLocAtAddr`. -/
def driveMachine : Nat → DWARFDebugTable → Except Fault DWARFDebugTable
  | 0, _ => .error .fuel
  | fuel + 1, t =>
    match t.machine_ with
    | none => .ok t
    | some m => do
      let (loc, m) ← m.nextLoc
      if loc.toBool then
        driveMachine fuel { t with locs_ := t.locs_.emplace loc.addr_ loc, machine_ := some m }
      else
        driveMachine fuel
          { t with locs_ := t.locs_.emplace maxAddr SourceLoc.empty, machine_ := none }

/-- The outer loop `while (machine_ || lineData_)` of `sourceLocAtAddr`. -/
def driveUnits : Nat → DWARFDebugTable → Except Fault DWARFDebugTable
  | 0, _ => .error .fuel
  | fuel + 1, t =>
    if t.machine_.isSome || t.lineData_.toBool then do
      let t ←
        match t.machine_ with
        | some _ => pure t
        | none => do
          let m ← DWARF5DebugMachine.new t.lineData_ t.lineStrs_
          pure { t with machine_ := some m, lineData_ := m.nextUnit_ }
      let t ← driveMachine (t.lineData_.mem.length + 2) t
      driveUnits fuel t
    else .ok t

/-- The lookup that ends `sourceLocAtAddr`: `upper_bound(addr)`, `--it`, `it->second`. -/
def floorLoc (locs : AddrMap SourceLoc) (addr : Nat) : Except Fault SourceLoc :=
  match locs.upperBound addr with
  | 0 => .error .undefined
  | i + 1 =>
    match locs.get? i with
    | some e => .ok e.2
    | none => .error .undefined

/-- Embeds `sourceLocAtAddr(uintptr_t)`: the location returned and the table afterwards. -/
def sourceLocAtAddr (t : DWARFDebugTable) (addr : Nat) :
    Except Fault (SourceLoc × DWARFDebugTable) := do
  let t ← driveUnits (t.lineData_.mem.length + 2) t
  let loc ← floorLoc t.locs_ addr
  pure (loc, t)

end DWARFDebugTable

/-! ## `objfile/Section.h`, `objfile/SectionTable.h` -/

/-- The record `struct Section`; a `std::string_view` is the bytes it views. -/
structure Section where
  name : List Byte
  virt_addr : Nat
  virt_size : Nat
  binary_offset : Nat
  binary_size : Nat
  deriving DecidableEq, Repr

/-- Embeds `Section::operator bool`. -/
def Section.toBool (s : Section) : Bool := !s.name.isEmpty

/-- Embeds `find(k) != end()` and the entry found, on a `std::map` keyed by address. -/
def AddrMap.find {V : Type} : AddrMap V → Nat → Option V
  | [], _ => none
  | (k', v') :: rest, k => if k' = k then some v' else AddrMap.find rest k

/-- A `std::map` keyed by `std::string_view` (compared by content). The reader only calls
`find`, `emplace` and `operator[]` on such maps and never iterates over them, so the entries
are kept in the order of insertion. -/
abbrev NameMap (K V : Type) := List (K × V)

namespace NameMap

variable {K V : Type} [DecidableEq K]

/-- Embeds `find(k)`: the value under `k`, `none` for `end()`. -/
def find : NameMap K V → K → Option V
  | [], _ => none
  | (k', v') :: rest, k => if k' = k then some v' else find rest k

/-- Embeds `emplace(k, v)`: inserts the entry unless the key is already present. -/
def emplace (m : NameMap K V) (k : K) (v : V) : NameMap K V :=
  match m.find k with
  | some _ => m
  | none => m ++ [(k, v)]

/-- Embeds `m[k] = v`: inserts the entry or overwrites the value under `k`. -/
def assign : NameMap K V → K → V → NameMap K V
  | [], k, v => [(k, v)]
  | (k', v') :: rest, k, v => if k' = k then (k, v) :: rest else (k', v') :: assign rest k v

end NameMap

/-- The state `struct SectionTable`. A `Section *` is `none` for `nullptr` and otherwise the
section pointed to: the elements of `sections_` never move or change. -/
structure SectionTable where
  sections_ : List Section
  byIndex_ : List (Option Section)
  byAddr_ : AddrMap (Option Section)
  byName_ : NameMap (List Byte) (Option Section)
  deriving DecidableEq, Repr

namespace SectionTable

/-- Embeds the constructor `SectionTable(ObjectReader &)`: the dummy entry at index 0 and the
low and high sentinels `0` and `~0` of the address map. -/
def new : SectionTable :=
  { sections_ := []
    byIndex_ := [none]
    byAddr_ := (AddrMap.emplace [] 0 none).emplace (2 ^ 64 - 1) none
    byName_ := [] }

/-- Embeds `add(Section &&)`. -/
def add (t : SectionTable) (s : Section) : SectionTable :=
  if s.virt_size = 0 ∨ s.virt_addr = 0 ∨ (t.byAddr_.find s.virt_addr).isSome then t
  else
    { sections_ := t.sections_ ++ [s]
      byIndex_ := t.byIndex_ ++ [some s]
      byAddr_ := t.byAddr_.assign s.virt_addr (some s)
      byName_ := t.byName_.assign s.name (some s) }

/-- Embeds `atIndex(uint32_t)`: `byIndex_.at(index)`, which throws past the end. -/
def atIndex (t : SectionTable) (index : Nat) : Except Fault (Option Section) :=
  match t.byIndex_.get? index with
  | some p => .ok p
  | none => .error .outOfRange

/-- Embeds `atAddress(uintptr_t)`: `upper_bound(addr)`, `--it`, `it->second`. -/
def atAddress (t : SectionTable) (addr : Nat) : Except Fault (Option Section) :=
  match t.byAddr_.upperBound addr with
  | 0 => .error .undefined
  | i + 1 =>
    match t.byAddr_.get? i with
    | some e => .ok e.2
    | none => .error .undefined

/-- Embeds `byName(std::string_view)`. -/
def byName (t : SectionTable) (name : List Byte) : Option Section :=
  match t.byName_.find name with
  | some p => p
  | none => none

/-- The table after `add` has been called on each section of `ss` in turn. -/
def build (ss : List Section) : SectionTable := ss.foldl add new

end SectionTable

/-! ## `objfile/Symbol.h`, `objfile/SymbolTable.h` -/

/-- The record `struct Symbol`; `section_` is the member `section`. -/
structure Symbol where
  addr : Nat
  name : List Byte
  section_ : Option Section
  deriving DecidableEq, Repr

/-- The value-initialised `Symbol{}`. -/
def Symbol.empty : Symbol := { addr := 0, name := [], section_ := none }

/-- Embeds `Symbol::operator bool`. -/
def Symbol.toBool (s : Symbol) : Bool := !s.name.isEmpty

/-- The state `struct SymbolTable`. -/
structure SymbolTable where
  byAddr_ : AddrMap Symbol
  byName_ : NameMap (List Byte) Nat
  deriving DecidableEq, Repr

namespace SymbolTable

/-- Embeds the constructor `SymbolTable(ObjectReader &)`: the low and high sentinels. -/
def new : SymbolTable :=
  { byAddr_ := (AddrMap.emplace [] 0 Symbol.empty).emplace (2 ^ 64 - 1) Symbol.empty
    byName_ := [] }

/-- Embeds `add(Symbol &&)`. -/
def add (t : SymbolTable) (sym : Symbol) : SymbolTable :=
  { byAddr_ := t.byAddr_.emplace sym.addr sym
    byName_ := t.byName_.emplace sym.name sym.addr }

/-- Embeds `atAddress(uintptr_t)`; `none` is `nullptr`. -/
def atAddress (t : SymbolTable) (addr : Nat) : Except Fault (Option Symbol) :=
  let it := t.byAddr_.upperBound addr
  if it = t.byAddr_.length then .ok none
  else
    match it with
    | 0 => .error .undefined
    | i + 1 =>
      match t.byAddr_.get? i with
      | some e => .ok (some e.2)
      | none => .error .undefined

/-- The table after `add` has been called on each symbol of `syms` in turn. -/
def build (syms : List Symbol) : SymbolTable := syms.foldl add new

end SymbolTable


/-! ## `objfile/MachO64File.cpp` -/

/-- Embeds `get<T>(T **t)` for a record type `T` of `tsize` bytes: the pointer stored in
`*t` and the cursor past the record. -/
def Bytes.get (c : Bytes) (tsize : Nat) : Except Fault (Nat × Bytes) :=
  if c.size < tsize then .error .abort
  else .ok (c.base_, { c with base_ := (c.base_ + tsize) % 2 ^ 64 })

/-- Embeds the overload `slice(size_t off, size_t new_size)`. -/
def Bytes.slice2 (c : Bytes) (off newSize : Nat) : Except Fault Bytes := do
  let s ← c.slice off
  pure (s.truncate newSize)

/-- The member of `w` bytes at offset `off` of the record at address `ptr`. -/
def Bytes.field (c : Bytes) (ptr off w : Nat) : Except Fault Nat :=
  c.loadLE ((ptr + off) % 2 ^ 64) w

/-- The content of the `std::string_view` of `n` characters at address `a`. -/
def Bytes.view (c : Bytes) (a : Nat) : Nat → Except Fault (List Byte)
  | 0 => .ok []
  | n + 1 => do
    let b ← c.load a
    let rest ← c.view ((a + 1) % 2 ^ 64) n
    pure (Fin.ofNat b :: rest)

namespace macho

/-- The command code `LC_SYMTAB`. -/
def LC_SYMTAB : Nat := 0x02

/-- The command code `LC_SEGMENT_64`. -/
def LC_SEGMENT_64 : Nat := 0x19

/-- The loop `while (cur)` of `eachLoadCommand`. The state the callback captures by
reference is passed through it. -/
def eachLoadCommandLoop {σ : Type} (cb : σ → Bytes → Nat → Except Fault σ) :
    Nat → Bytes → σ → Except Fault σ
  | 0, _, _ => .error .fuel
  | fuel + 1, cur, st =>
    if cur.toBool then do
      let (cmd, _) ← cur.get 8
      let cmdsize ← cur.field cmd 4 4
      let st ← cb st (cur.truncate cmdsize) cmd
      let cur ← cur.slice cmdsize
      eachLoadCommandLoop cb fuel cur st
    else .ok st

/-- Embeds `eachLoadCommand(Bytes cur, cb)`: `sizeofcmds` is the member at offset 20 of the
32-byte `mach_header_64`, `cmdsize` the member at offset 4 of a `load_command`. -/
def eachLoadCommand {σ : Type} (cur : Bytes) (cb : σ → Bytes → Nat → Except Fault σ)
    (init : σ) : Except Fault σ := do
  let (header, cur) ← cur.get 32
  let sizeofcmds ← cur.field header 20 4
  let cur := cur.truncate sizeofcmds
  eachLoadCommandLoop cb (cur.size + 1) cur init

/-- Embeds `eachSegment(Bytes here, cb)`. -/
def eachSegment {σ : Type} (here : Bytes) (cb : σ → Bytes → Nat → Except Fault σ)
    (init : σ) : Except Fault σ :=
  eachLoadCommand here
    (fun st cur cmd => do
      let c ← cur.field cmd 0 4
      if c = LC_SEGMENT_64 then cb st cur cmd else pure st)
    init

/-- The loop `while (cur)` of `eachSection` over the 80-byte `section_64` records. -/
def eachSectionLoop {σ : Type} (cb : σ → Nat → Except Fault σ) :
    Nat → Bytes → σ → Except Fault σ
  | 0, _, _ => .error .fuel
  | fuel + 1, cur, st =>
    if cur.toBool then do
      let (sec, cur) ← cur.get 80
      let st ← cb st sec
      eachSectionLoop cb fuel cur st
    else .ok st

/-- The callback `eachSection` passes to `eachSegment`, on the cursor `cur` over one
`LC_SEGMENT_64` command: the records start past the 72-byte `segment_command_64`. -/
def sectionsOfSegment {σ : Type} (cb : σ → Nat → Except Fault σ) (st : σ) (cur : Bytes) :
    Except Fault σ := do
  let cur ← cur.slice 72
  eachSectionLoop cb (cur.size + 1) cur st

/-- Embeds `eachSection(Bytes here, cb)`. -/
def eachSection {σ : Type} (here : Bytes) (cb : σ → Nat → Except Fault σ)
    (init : σ) : Except Fault σ :=
  eachSegment here (fun st cur _ => sectionsOfSegment cb st cur) init

/-- The loop `while (size > 0 && !sec->sectname[size - 1]) --size` of `genSectionTable`,
started at `size`. -/
def trimmedSize (file : Bytes) (sec : Nat) : Nat → Except Fault Nat
  | 0 => .ok 0
  | size + 1 => do
    let ch ← file.load ((sec + size) % 2 ^ 64)
    if ch = 0 then trimmedSize file sec size else .ok (size + 1)

/-- The `Section` that the callback of `genSectionTable` builds from the `section_64` at
address `sec`: `sectname` at offset 0, `addr` at 32, `size` at 40, `offset` at 48. -/
def sectionOf (file : Bytes) (sec : Nat) : Except Fault Section := do
  let size ← trimmedSize file sec 16
  let name ← file.view sec size
  let addr ← file.field sec 32 8
  let sz ← file.field sec 40 8
  let offset ← file.field sec 48 4
  pure { name := name, virt_addr := addr, virt_size := sz, binary_offset := offset,
         binary_size := sz }

/-- The callback `genSectionTable` passes to `eachSection`: `ret->add({...})` on the record
at address `sec`. -/
def addSection (file : Bytes) (ret : SectionTable) (sec : Nat) : Except Fault SectionTable := do
  let s ← sectionOf file sec
  pure (ret.add s)

/-- Embeds `MachO64File::genSectionTable()` on the mapped file `file`. -/
def genSectionTable (file : Bytes) : Except Fault SectionTable :=
  eachSection file (addSection file) SectionTable.new

/-- Embeds `nlist_64::type()` on the byte `n_type`. -/
def nlistType (n_type : Nat) : Nat := n_type &&& 0xee

/-- The body of the loop `while (syms)` of `genSymbolTable` once `get` has stored the
address `sym` of the 16-byte `nlist_64`: `n_strx` at offset 0, `n_type` at 4, `n_sect` at 5,
`n_value` at 8. The local `sec` is declared without an initialiser and assigned only when
`n_sect` is nonzero; `none` is its indeterminate value, and passing that to `add` is
undefined. -/
def symbolStep (file strs : Bytes) (secTable : SectionTable) (sym : Nat) (ret : SymbolTable) :
    Except Fault SymbolTable := do
  let n_strx ← file.field sym 0 4
  let name ← strs.str n_strx
  let addr ← file.field sym 8 8
  let n_sect ← file.field sym 5 1
  let sec : Option (Option Section) ←
    if n_sect ≠ 0 then do
      let p ← secTable.atIndex n_sect
      pure (some p)
    else pure none
  if addr ≠ 0 ∧ name ≠ [] then do
    let n_type ← file.field sym 4 1
    if nlistType n_type = 0x24 ∨ nlistType n_type = 0x0a ∨ nlistType n_type = 0x0e then
      match sec with
      | some p => pure (ret.add { addr := addr, name := name, section_ := p })
      | none => .error .undefined
    else pure ret
  else pure ret

/-- The loop `while (syms)` of `genSymbolTable`. -/
def symbolLoop (file strs : Bytes) (secTable : SectionTable) :
    Nat → Bytes → SymbolTable → Except Fault SymbolTable
  | 0, _, _ => .error .fuel
  | fuel + 1, syms, ret =>
    if syms.toBool then do
      let (sym, syms) ← syms.get 16
      let ret ← symbolStep file strs secTable sym ret
      symbolLoop file strs secTable fuel syms ret
    else .ok ret

/-- The callback of `genSymbolTable` on the load command at address `cmd`: for an
`LC_SYMTAB`, `symoff` is the member at offset 8, `nsyms` at 12, `stroff` at 16 and `strsize`
at 20. -/
def symtabCommand (file : Bytes) (secTable : SectionTable) (ret : SymbolTable) (cmd : Nat) :
    Except Fault SymbolTable := do
  let c ← file.field cmd 0 4
  if c = LC_SYMTAB then do
    let symoff ← file.field cmd 8 4
    let nsyms ← file.field cmd 12 4
    let syms ← file.slice2 symoff (nsyms * 16)
    let stroff ← file.field cmd 16 4
    let strsize ← file.field cmd 20 4
    let strs ← file.slice2 stroff strsize
    symbolLoop file strs secTable (syms.size + 1) syms ret
  else pure ret

/-- Embeds `MachO64File::genSymbolTable()` on the mapped file `file`, `secTable` being the
table `sectionTable()` returns. -/
def genSymbolTable (file : Bytes) (secTable : SectionTable) : Except Fault SymbolTable :=
  eachLoadCommand file (fun ret _ cmd => symtabCommand file secTable ret cmd) SymbolTable.new

end macho


/-! ## The operating system as `ObjectReader` sees it -/

/-- A call to the operating system. -/
inductive Syscall where
  | open (path : String)
  | lseek (fd : Nat)
  | mmap (fd size : Nat)
  | munmap (addr size : Nat)
  | close (fd : Nat)
  deriving DecidableEq, Repr

/-- The part of the operating system the reader talks to. -/
structure Os where
  /-- The regular files that can be opened for reading, by path. -/
  files : NameMap String (List Byte)
  /-- The open descriptors, each with the path it was opened on. -/
  fds : List (Nat × String)
  /-- The address at which the next mapping is placed. -/
  mapAt : Nat
  /-- The calls made so far, the latest last. -/
  calls : List Syscall
  deriving DecidableEq, Repr

namespace Os

/-- The lowest descriptor not in use. -/
def lowestFree (fds : List (Nat × String)) : Nat :=
  ((List.range (fds.length + 1)).find? (fun n => fds.all (fun e => e.1 != n))).getD fds.length

/-- The content of the file descriptor `fd` is open on. -/
def content (os : Os) (fd : Nat) : Option (List Byte) :=
  match os.fds.lookup fd with
  | some path => os.files.find path
  | none => none

/-- The call `::open(path, O_RDONLY)`: `none` is the result `-1`. -/
def «open» (os : Os) (path : String) : Option Nat × Os :=
  let os := { os with calls := os.calls ++ [Syscall.open path] }
  match os.files.find path with
  | none => (none, os)
  | some _ =>
    let fd := lowestFree os.fds
    (some fd, { os with fds := os.fds ++ [(fd, path)] })

/-- The call `lseek(fd, 0, SEEK_END)` converted to `size_t`. -/
def lseekEnd (os : Os) (fd : Nat) : Nat × Os :=
  let os' := { os with calls := os.calls ++ [.lseek fd] }
  match os.content fd with
  | some bs => (bs.length, os')
  | none => (2 ^ 64 - 1, os')

/-- The call `::mmap(nullptr, size, PROT_READ, MAP_FILE | MAP_PRIVATE, fd, 0)`. -/
def mmap (os : Os) (fd size : Nat) : Nat × Os :=
  (os.mapAt,
   { os with mapAt := os.mapAt + 4096 * (size / 4096 + 1), calls := os.calls ++ [.mmap fd size] })

/-- The call `::munmap(addr, size)`. -/
def munmap (os : Os) (addr size : Nat) : Os :=
  { os with calls := os.calls ++ [.munmap addr size] }

/-- The call `close(fd)`. -/
def close (os : Os) (fd : Nat) : Os :=
  { os with fds := os.fds.filter (fun e => e.1 != fd), calls := os.calls ++ [.close fd] }

/-- The test `fs::exists(p) && fs::is_regular_file(p)`. -/
def isRegularFile (os : Os) (path : String) : Bool := (os.files.find path).isSome

end Os

/-! ## `objfile/ObjectFile.{h,cpp}` -/

/-- A `std::string_view` over the characters of a path, as `ObjectReader::open` receives it
and keeps it, as a key of `openFiles_` and as `ObjectFile::path_`: the characters, and
whether they are held by a temporary `std::string` of the statement that makes the call, as
in `reader.open(file.string())`. A view of a temporary is alive during that call and dead in
every later statement; the other views (`image->name`, whose characters the loader owns)
outlive the reader. -/
structure StringView where
  text : String
  temporary : Bool
  deriving DecidableEq, Repr

/-- The view of a C string that outlives the reader, as `image->name`. -/
def StringView.ofCString (s : String) : StringView := { text := s, temporary := false }

/-- The view of a temporary `std::string` with the characters `s`, as `file.string()`. -/
def StringView.ofTemporary (s : String) : StringView := { text := s, temporary := true }

/-- The state `struct DWARFDebugInfo`: the tables, one per file that holds line data. -/
structure DWARFDebugInfo where
  tables_ : List DWARFDebugTable
  deriving DecidableEq, Repr

/-- The state `struct ObjectFile` (every object file is a `MachO64File`). `bytes` is the
base class `Bytes`, the whole mapping; a null `Unique` is `none`. `path_` is the
`std::string_view` the constructor was given, not a copy of its characters. -/
structure ObjectFile where
  bytes : Bytes
  path_ : StringView
  fd_ : Nat
  mmap_ : Nat
  size_ : Nat
  debugInfo_ : Option DWARFDebugInfo
  sectionTable_ : Option SectionTable
  symbolTable_ : Option SymbolTable
  deriving DecidableEq, Repr

namespace ObjectFile

/-- Embeds the constructor `MachO64File(reader, path, fd, mmap, size)`, `content` being the
bytes mapped at `mmap`. -/
def new (path : StringView) (fd mmap size : Nat) (content : List Byte) : ObjectFile :=
  { bytes := { org := mmap, mem := content, base_ := mmap, limit_ := (mmap + size) % 2 ^ 64 }
    path_ := path
    fd_ := fd
    mmap_ := mmap
    size_ := size
    debugInfo_ := none
    sectionTable_ := none
    symbolTable_ := none }

/-- Embeds `sectionContent(Section &)`. -/
def sectionContent (f : ObjectFile) (sec : Section) : Except Fault Bytes :=
  f.bytes.slice2 sec.binary_offset sec.binary_size

/-- Embeds `sectionTable()`: the table and the object afterwards. -/
def sectionTable (f : ObjectFile) : Except Fault (SectionTable × ObjectFile) :=
  match f.sectionTable_ with
  | some t => .ok (t, f)
  | none => do
    let t ← macho.genSectionTable f.bytes
    pure (t, { f with sectionTable_ := some t })

/-- Embeds `symbolTable()`: the table and the object afterwards. `genSymbolTable` starts
with a call of `sectionTable()`. -/
def symbolTable (f : ObjectFile) : Except Fault (SymbolTable × ObjectFile) :=
  match f.symbolTable_ with
  | some t => .ok (t, f)
  | none => do
    let (secTable, f) ← f.sectionTable
    let t ← macho.genSymbolTable f.bytes secTable
    pure (t, { f with symbolTable_ := some t })

end ObjectFile

/-! ## `ObjectReader.{h,cpp}` -/

/-- The state `struct ObjectReader`. `objects` are the `ObjectFile` objects created so far, in
the order of their creation, and an `ObjectFile *` is the position of its object in that
sequence; `openFiles_` is the `Map<std::string_view, Unique<ObjectFile>>`: its keys are the
views `open` was called with, not copies of their characters, and each holds the pointer its
`Unique<ObjectFile>` owns (`none` when that is null). -/
structure ObjectReader where
  objects : List ObjectFile
  openFiles_ : NameMap StringView (Option Nat)
  deriving DecidableEq, Repr

namespace ObjectReader

/-- Embeds the constructor `ObjectReader(Memory &)`. -/
def new : ObjectReader := { objects := [], openFiles_ := [] }

/-- Embeds `openFiles_.find(path)`, `none` for `end()`. The map orders its keys by their
characters, so the search reads the characters of keys of the map; which keys it reads is
the choice of the library, and the search is undefined as soon as one key of the map is
dead, that is the view of a temporary of an earlier statement. -/
def findOpenFile (r : ObjectReader) (path : StringView) : Except Fault (Option (Option Nat)) :=
  if r.openFiles_.any (fun e => e.1.temporary) then .error .undefined
  else .ok ((r.openFiles_.find? (fun e => e.1.text == path.text)).map Prod.snd)

/-- Embeds `open(std::string_view path)`: the `std::optional<ObjectFile *>` returned, the
reader and the operating system afterwards. `assert(ref)` is reached on both branches of the
test of the magic number. `openFiles_.emplace(path, std::move(ref))` runs only after `find`
has not found the characters of `path`, so it inserts, with the view `path` as the key. -/
def «open» (r : ObjectReader) (os : Os) (path : StringView) :
    Except Fault (Option (Option Nat) × ObjectReader × Os) :=
  match r.findOpenFile path with
  | .error e => .error e
  | .ok (some p) => .ok (some p, r, os)
  | .ok none =>
    match os.open path.text with
    | (none, os) => .ok (none, r, os)
    | (some fd, os) =>
      let (size, os) := os.lseekEnd fd
      if size < 64 then .ok (none, r, os.close fd)
      else
        let (mmap, os) := os.mmap fd size
        if mmap = 0 then .ok (none, r, os.close fd)
        else
          let content := (os.content fd).getD []
          let magic32 := leValue (content.take 4)
          if magic32 = 0xfeedfacf then
            let ref := r.objects.length
            .ok (some (some ref),
              { objects := r.objects ++ [ObjectFile.new path fd mmap size content]
                openFiles_ := r.openFiles_ ++ [(path, some ref)] },
              os)
          else
            .error .abort

/-- The object an `ObjectFile *` points to. -/
def deref (r : ObjectReader) (p : Nat) : Except Fault ObjectFile :=
  match r.objects.get? p with
  | some f => .ok f
  | none => .error .undefined

/-- The call `p->sectionTable()`. -/
def sectionTable (r : ObjectReader) (p : Nat) : Except Fault (SectionTable × ObjectReader) := do
  let f ← r.deref p
  let (t, f) ← f.sectionTable
  pure (t, { r with objects := r.objects.set p f })

/-- The call `p->symbolTable()`. -/
def symbolTable (r : ObjectReader) (p : Nat) : Except Fault (SymbolTable × ObjectReader) := do
  let f ← r.deref p
  let (t, f) ← f.symbolTable
  pure (t, { r with objects := r.objects.set p f })

end ObjectReader


/-! ## `debug/DWARFDebugInfo.cpp`: discovery of the line tables -/

/-- The path before the last `/` of `p` (`fs::path::parent_path`), for a path without a
trailing `/`. -/
def parentPath (p : String) : String :=
  let cs := p.toList.reverse.dropWhile (fun ch => ch != '/')
  match cs with
  | [] => ""
  | [_] => "/"
  | _ :: rest => String.mk rest.reverse

/-- The part of `p` after its last `/` (`fs::path::filename`). -/
def fileName (p : String) : String :=
  String.mk (p.toList.reverse.takeWhile (fun ch => ch != '/')).reverse

/-- The path `a / b` (`fs::path::operator/` with a relative `b`). -/
def joinPath (a b : String) : String :=
  if a = "" then b else if a.back = '/' then a ++ b else a ++ "/" ++ b

/-- The characters of a section name. -/
def nameBytes (s : String) : List Byte := s.toList.map (fun ch => Fin.ofNat ch.toNat)

namespace DWARFDebugInfo

/-- The files the constructor searches: the binary and, when it exists as a regular file,
`dir/filename.dSYM/Contents/Resources/DWARF/filename`. The test
`if (dynamic_cast<MachO64File &>(objFile))` converts the file through `Bytes::operator bool`. -/
def searchPaths (os : Os) (objFile : ObjectFile) : List String :=
  let binPath := objFile.path_.text
  let dir := parentPath binPath
  let filename := fileName binPath
  if objFile.bytes.toBool then
    let dsymDwarfPath :=
      joinPath (joinPath (joinPath (joinPath (joinPath dir (filename ++ ".dSYM")) "Contents")
        "Resources") "DWARF") filename
    if os.isRegularFile dsymDwarfPath then [binPath, dsymDwarfPath] else [binPath]
  else [binPath]

/-- The body of the loop `for (auto &file : files)` of the constructor. The argument of
`reader.open(file.string())` is the view of a temporary `std::string`, which is destroyed at
the end of that statement. -/
def addFile (st : List DWARFDebugTable × ObjectReader × Os) (file : String) :
    Except Fault (List DWARFDebugTable × ObjectReader × Os) := do
  let (tables, r, os) := st
  let (obj, r, os) ← r.open os (.ofTemporary file)
  match obj with
  | none => pure (tables, r, os)
  | some none => .error .undefined
  | some (some p) =>
    let (secs, r) ← r.sectionTable p
    let f ← r.deref p
    match secs.byName (nameBytes "__debug_line"), secs.byName (nameBytes "__debug_line_str") with
    | some lineDataSec, some lineStrsSec =>
      let lineData ← f.sectionContent lineDataSec
      let lineStrs ← f.sectionContent lineStrsSec
      pure (tables ++ [DWARFDebugTable.new lineData lineStrs], r, os)
    | _, _ =>
      match secs.byName (nameBytes ".debug_line"), secs.byName (nameBytes ".debug_line_str") with
      | some lineDataSec, some lineStrsSec =>
        let lineData ← f.sectionContent lineDataSec
        let lineStrs ← f.sectionContent lineStrsSec
        pure (tables ++ [DWARFDebugTable.new lineData lineStrs], r, os)
      | _, _ => pure (tables, r, os)

/-- Embeds the constructor `DWARFDebugInfo(reader, objFile)`, `p` pointing to `objFile`. It
starts by copying the characters of `objFile.path()`, which are gone when that view is one
of a temporary of an earlier statement. -/
def new (r : ObjectReader) (os : Os) (p : Nat) :
    Except Fault (DWARFDebugInfo × ObjectReader × Os) := do
  let objFile ← r.deref p
  if objFile.path_.temporary then throw .undefined
  let (tables, r, os) ← (searchPaths os objFile).foldlM addFile ([], r, os)
  pure ({ tables_ := tables }, r, os)

/-- The loop of `sourceLocAtAddr` over the tables, `ret` being the local it assigns. -/
def sourceLocLoop : List DWARFDebugTable → Nat → SourceLoc →
    Except Fault (SourceLoc × List DWARFDebugTable)
  | [], _, ret => .ok (ret, [])
  | table :: rest, addr, _ => do
    let (ret, table) ← table.sourceLocAtAddr addr
    if ret.toBool then pure (ret, table :: rest)
    else do
      let (ret, rest) ← sourceLocLoop rest addr ret
      pure (ret, table :: rest)

/-- Embeds `DWARFDebugInfo::sourceLocAtAddr(uintptr_t)`. -/
def sourceLocAtAddr (d : DWARFDebugInfo) (addr : Nat) :
    Except Fault (SourceLoc × DWARFDebugInfo) := do
  let (ret, tables) ← sourceLocLoop d.tables_ addr SourceLoc.empty
  pure (ret, { tables_ := tables })

end DWARFDebugInfo

namespace ObjectReader

/-- The call `p->debugInfo()`, which builds the `DWARFDebugInfo` on first use. -/
def debugInfo (r : ObjectReader) (os : Os) (p : Nat) :
    Except Fault (DWARFDebugInfo × ObjectReader × Os) := do
  let f ← r.deref p
  match f.debugInfo_ with
  | some d => pure (d, r, os)
  | none =>
    let (d, r, os) ← DWARFDebugInfo.new r os p
    let f ← r.deref p
    pure (d, { r with objects := r.objects.set p { f with debugInfo_ := some d } }, os)

/-- The call `p->debugInfo().sourceLocAtAddr(addr)`. -/
def sourceLocAtAddr (r : ObjectReader) (os : Os) (p addr : Nat) :
    Except Fault (SourceLoc × ObjectReader × Os) := do
  let (d, r, os) ← r.debugInfo os p
  let (loc, d) ← d.sourceLocAtAddr addr
  let f ← r.deref p
  pure (loc, { r with objects := r.objects.set p { f with debugInfo_ := some d } }, os)

end ObjectReader

/-! ## `stacktrace.cpp` -/

/-- The members of `std::stacktrace_entry` that `__stacktrace_access` hands out. -/
structure stacktrace_entry where
  __addr_ : Nat
  __symbol_ : List Byte
  __file_ : List Byte
  __line_ : Nat
  deriving DecidableEq, Repr

/-- Modelled from the spec: `stacktrace_entry::operator bool`, declared in the header
`<experimental/stacktrace>`; an entry is empty when its address is zero. -/
def stacktrace_entry.toBool (e : stacktrace_entry) : Bool := e.__addr_ != 0

/-- What `__populate_entries` is given besides the entries: the images the loader reports,
in its order (`OSXImages`), and the demangler `__cxa_demangle`, as the status it reports and
the C string it leaves in the 512-byte buffer. -/
structure Process where
  loaded : List Image
  demangle : List Byte → Int × List Byte

/-- The body of the loop of `__populate_entries` on the entry `e`. -/
def populateEntry (proc : Process) (procImages : Images) (st : ObjectReader × Os)
    (e : stacktrace_entry) : Except Fault (stacktrace_entry × ObjectReader × Os) := do
  let (objReader, os) := st
  if !e.toBool then pure (e, objReader, os)
  else
    let image ← procImages.atAddr e.__addr_
    match image with
    | none => pure (e, objReader, os)
    | some image =>
      let unslid := (((e.__addr_ : Int) - image.slide) % 2 ^ 64).toNat
      let (objFile, objReader, os) ← objReader.open os (.ofCString image.name)
      match objFile with
      | none => pure (e, objReader, os)
      | some none => .error .undefined
      | some (some p) =>
        let (symTable, objReader) ← objReader.symbolTable p
        let sym ← symTable.atAddress unslid
        match sym with
        | none => pure (e, objReader, os)
        | some sym =>
          if sym.name = [] then pure (e, objReader, os)
          else
            let (status, buffer) := proc.demangle sym.name
            let e := { e with __symbol_ := if status ≠ 0 then sym.name else buffer }
            let (loc, objReader, os) ← objReader.sourceLocAtAddr os p unslid
            if loc.toBool then
              pure ({ e with __file_ := loc.file_, __line_ := loc.line_ }, objReader, os)
            else pure (e, objReader, os)

/-- The loop of `__populate_entries` over the entries. -/
def populateLoop (proc : Process) (procImages : Images) :
    List stacktrace_entry → ObjectReader × Os → Except Fault (List stacktrace_entry × Os)
  | [], st => .ok ([], st.2)
  | e :: rest, st => do
    let (e, objReader, os) ← populateEntry proc procImages st e
    let (rest, os) ← populateLoop proc procImages rest (objReader, os)
    pure (e :: rest, os)

/-- Embeds `__populate_entries(entries, size, alloc_func, dealloc_func)`: the entries and
the operating system afterwards. -/
def __populate_entries (proc : Process) (os : Os) (entries : List stacktrace_entry) :
    Except Fault (List stacktrace_entry × Os) :=
  populateLoop proc (Images.build proc.loaded) entries (ObjectReader.new, os)


/-- The address index of a section table is in ascending key order and holds the two
sentinels and, under its virtual address, each accepted section. -/
def SectionTable.Indexed (t : SectionTable) : Prop :=
  t.byAddr_.Ascending ∧
  (∀ s ∈ t.sections_, (s.virt_addr, some s) ∈ t.byAddr_) ∧
  (∀ e ∈ t.byAddr_, e = (0, none) ∨ e = (2 ^ 64 - 1, none) ∨
    ∃ s ∈ t.sections_, e = (s.virt_addr, some s))

/-! ## Symbol records -/

/-- The `w` bytes of the little-endian integer `n`. -/
def leBytes : Nat → Nat → List Byte
  | 0, _ => []
  | w + 1, n => Fin.ofNat (n % 256) :: leBytes w (n / 256)

namespace macho

/-- The record `struct nlist_64`. -/
structure nlist_64 where
  n_strx : Fin (2 ^ 32)
  n_type : Fin (2 ^ 8)
  n_sect : Fin (2 ^ 8)
  n_desc : Fin (2 ^ 16)
  n_value : Fin (2 ^ 64)
  deriving DecidableEq, Repr

/-- The 16 bytes of an `nlist_64` in the file. -/
def nlist_64.bytes (r : nlist_64) : List Byte :=
  leBytes 4 r.n_strx.val ++ (leBytes 1 r.n_type.val ++ (leBytes 1 r.n_sect.val ++
    (leBytes 2 r.n_desc.val ++ leBytes 8 r.n_value.val)))

/-- The rule of the specification for a symbol record whose name is `name`: the record is
added when the name is non-empty, `n_value` is nonzero and `n_type & 0xEE` is one of `0x24`
(`N_FUN`), `0x0A` (`N_SECT`) and `0x0E` (`N_INDR`). -/
def specAdded (name : List Byte) (r : nlist_64) : Bool :=
  decide (name ≠ [] ∧ r.n_value.val ≠ 0 ∧
    (r.n_type.val &&& 0xEE = 0x24 ∨ r.n_type.val &&& 0xEE = 0x0A ∨ r.n_type.val &&& 0xEE = 0x0E))

/-- The symbol of the specification for a record whose name is `name`: `addr = n_value`,
the name, and the section at index `n_sect` of the section table. -/
def specSymbol (secTable : SectionTable) (name : List Byte) (r : nlist_64) : Symbol :=
  { addr := r.n_value.val, name := name, section_ := secTable.byIndex_.getD r.n_sect.val none }

end macho

/-- The reader and the operating system after `open` has been called on each path of `paths`
in turn. -/
def ObjectReader.opens (r : ObjectReader) (os : Os) :
    List StringView → Except Fault (ObjectReader × Os)
  | [] => .ok (r, os)
  | path :: rest => do
    let (_, r, os) ← r.open os path
    ObjectReader.opens r os rest

/-! ## `util/Bytes.h`: the loads at an offset -/

namespace Bytes

/-- Embeds `u8(size_t i)`: throws when `base_ >= limit_ - i`, the subtraction being pointer
arithmetic, else loads `base_[i]`. -/
def u8 (c : Bytes) (i : Nat) : Except Fault Nat :=
  if c.base_ ≥ (c.limit_ + 2 ^ 64 - i % 2 ^ 64) % 2 ^ 64 then .error .rangeError
  else c.load ((c.base_ + i) % 2 ^ 64)

/-- Embeds `u16(size_t i)`. The language leaves open which operand of `|` is evaluated
first; the low byte is loaded first here, and the only exception either load throws is the
same `std::range_error`. -/
def u16 (c : Bytes) (i : Nat) : Except Fault Nat := do
  let lo ← c.u8 i
  let hi ← c.u8 ((i + 1) % 2 ^ 64)
  pure (lo ||| (hi <<< 8) % 2 ^ 16)

/-- Embeds `u32(size_t i)`. -/
def u32 (c : Bytes) (i : Nat) : Except Fault Nat := do
  let lo ← c.u16 i
  let hi ← c.u16 ((i + 2) % 2 ^ 64)
  pure (lo ||| (hi <<< 16) % 2 ^ 32)

/-- Embeds `u64(size_t i)`. -/
def u64 (c : Bytes) (i : Nat) : Except Fault Nat := do
  let lo ← c.u32 i
  let hi ← c.u32 ((i + 4) % 2 ^ 64)
  pure (lo ||| (hi <<< 32) % 2 ^ 64)

/-- The signed integer of `bits` bits with the bit pattern of `v` (`v < 2 ^ bits`). -/
def toSigned (bits v : Nat) : Int :=
  if v < 2 ^ (bits - 1) then (v : Int) else (v : Int) - 2 ^ bits

/-- Embeds `i8(size_t i)`. -/
def i8 (c : Bytes) (i : Nat) : Except Fault Int := do
  let v ← c.u8 i
  pure (toSigned 8 v)

/-- Embeds `i16(size_t i)`. -/
def i16 (c : Bytes) (i : Nat) : Except Fault Int := do
  let v ← c.u16 i
  pure (toSigned 16 v)

/-- Embeds `i32(size_t i)`. -/
def i32 (c : Bytes) (i : Nat) : Except Fault Int := do
  let v ← c.u32 i
  pure (toSigned 32 v)

/-- Embeds `i64(size_t i)`. -/
def i64 (c : Bytes) (i : Nat) : Except Fault Int := do
  let v ← c.u64 i
  pure (toSigned 64 v)

/-- Embeds `copy<T>(T &t)` for a `T` of `tsize` bytes: the bytes copied into `t`, as a
little-endian integer, and the cursor past them. -/
def copy (c : Bytes) (tsize : Nat) : Except Fault (Nat × Bytes) :=
  if c.size < tsize then .error .abort
  else do
    let v ← c.loadLE c.base_ tsize
    pure (v, { c with base_ := (c.base_ + tsize) % 2 ^ 64 })

/-- The data-model invariant of a cursor: `base ≤ limit`, both addresses of 64 bits. -/
def Valid (c : Bytes) : Prop := c.base_ ≤ c.limit_ ∧ c.limit_ < 2 ^ 64

instance (c : Bytes) : Decidable c.Valid := by
  unfold Valid
  infer_instance

end Bytes


/-- The cursor `r` lies inside the cursor `c`: same mapping, same limit, and
`c.base ≤ r.base ≤ r.limit`. -/
def Bytes.Within (r c : Bytes) : Prop :=
  r.org = c.org ∧ r.mem = c.mem ∧ r.limit_ = c.limit_ ∧ c.base_ ≤ r.base_ ∧ r.base_ ≤ r.limit_

instance (r c : Bytes) : Decidable (r.Within c) := by unfold Bytes.Within; infer_instance

/-! ## Section records -/

namespace macho

/-- The record `struct section_64`: `sectname` and `segname` are `char[16]`, and `tail` holds
the 28 bytes of the members `align` .. `reserved3`, which the reader does not look at. -/
structure section_64 where
  sectname : List Byte
  segname : List Byte
  addr : Fin (2 ^ 64)
  size : Fin (2 ^ 64)
  offset : Fin (2 ^ 32)
  tail : List Byte
  deriving DecidableEq, Repr

/-- The widths of the array members of a `section_64`. -/
def section_64.WellFormed (r : section_64) : Prop :=
  r.sectname.length = 16 ∧ r.segname.length = 16 ∧ r.tail.length = 28

instance (r : section_64) : Decidable r.WellFormed := by
  unfold section_64.WellFormed; infer_instance

/-- The 80 bytes of a `section_64` in the file. -/
def section_64.bytes (r : section_64) : List Byte :=
  r.sectname ++ (r.segname ++ (leBytes 8 r.addr.val ++ (leBytes 8 r.size.val ++
    (leBytes 4 r.offset.val ++ r.tail))))

/-- A name right-trimmed of NUL: all trailing NUL bytes removed. -/
def rtrimNul (name : List Byte) : List Byte := name.rdropWhile (fun b => b = 0)

/-- The section of the specification for a section record: the name is `sectname`
right-trimmed of NUL, `virt_addr = addr`, `virt_size = size`, `binary_offset = offset`,
`binary_size = size`. -/
def specSection (r : section_64) : Section :=
  { name := rtrimNul r.sectname, virt_addr := r.addr.val, virt_size := r.size.val,
    binary_offset := r.offset.val, binary_size := r.size.val }

end macho

/-! ## One instruction of the line-number program -/

namespace DWARF5DebugMachine

/-- One call of `nextLoc(SourceLoc &)` as a relation between the machine `m` and the content
`ret` of the location before the call, and the `bool` returned, the content of the location
and the machine after it: one case for the exhausted stream and one per instruction, each
with the reads made from the instruction stream. `nextLocInto_executed` shows that every
call that returns is one of these cases. -/
inductive Executed (m : DWARF5DebugMachine) (ret : SourceLoc) :
    Bool → SourceLoc → DWARF5DebugMachine → Prop
  | exhausted (h : m.insn_.toBool = false) : Executed m ret true ret m
  | endSequence (c1 c2 insn : Bytes) (len : Nat) (loc : SourceLoc)
      (h0 : m.insn_.toBool = true) (h1 : m.insn_.iget 1 = .ok (0, c1)) (h2 : c1.uleb 64 = .ok (len, c2))
      (h3 : c2.iget 1 = .ok (1, insn))
      (hloc : ({ m with insn_ := insn, endSeq := true } : DWARF5DebugMachine).emitLoc = .ok loc) :
      Executed m ret true loc
        ({ m with insn_ := insn, endSeq := true } : DWARF5DebugMachine).reset
  | setAddress (c1 c2 c3 insn : Bytes) (len a : Nat)
      (h0 : m.insn_.toBool = true) (h1 : m.insn_.iget 1 = .ok (0, c1)) (h2 : c1.uleb 64 = .ok (len, c2))
      (h3 : c2.iget 1 = .ok (2, c3))
      (h4 : (if m.header_.addrSize = 8 then c3.iget 8 else c3.iget 4) = .ok (a, insn)) :
      Executed m ret false ret { m with insn_ := insn, addr := a }
  | setDiscriminator (c1 c2 c3 insn : Bytes) (len v : Nat)
      (h0 : m.insn_.toBool = true) (h1 : m.insn_.iget 1 = .ok (0, c1)) (h2 : c1.uleb 64 = .ok (len, c2))
      (h3 : c2.iget 1 = .ok (3, c3)) (h4 : c3.uleb 32 = .ok (v, insn)) :
      Executed m ret false ret { m with insn_ := insn, discrim := v }
  | copy (insn : Bytes) (loc : SourceLoc)
      (h0 : m.insn_.toBool = true) (h1 : m.insn_.iget 1 = .ok (1, insn)) (hb : 1 < m.header_.opcodeBase)
      (hloc : ({ m with insn_ := insn } : DWARF5DebugMachine).emitLoc = .ok loc) :
      Executed m ret true loc
        { m with insn_ := insn, discrim := 0, basicBlock := false, prologEnd := false,
                 epilogBegin := false }
  | advancePc (c1 insn : Bytes) (utmp : Nat) (m1 : DWARF5DebugMachine)
      (h0 : m.insn_.toBool = true) (h1 : m.insn_.iget 1 = .ok (2, c1)) (hb : 2 < m.header_.opcodeBase)
      (h2 : c1.uleb 64 = .ok (utmp, insn))
      (h3 : ({ m with insn_ := insn } : DWARF5DebugMachine).addrAndOpAdvance utmp = .ok m1) :
      Executed m ret false ret m1
  | advanceLine (c1 insn : Bytes) (stmp : Int)
      (h0 : m.insn_.toBool = true) (h1 : m.insn_.iget 1 = .ok (3, c1)) (hb : 3 < m.header_.opcodeBase)
      (h2 : c1.sleb = .ok (stmp, insn)) :
      Executed m ret false ret { m with insn_ := insn, line := addLine m.line stmp }
  | setFile (c1 insn : Bytes) (utmp : Nat)
      (h0 : m.insn_.toBool = true) (h1 : m.insn_.iget 1 = .ok (4, c1)) (hb : 4 < m.header_.opcodeBase)
      (h2 : c1.uleb 64 = .ok (utmp, insn)) :
      Executed m ret false ret { m with insn_ := insn, file := utmp % 2 ^ 32 }
  | setColumn (c1 insn : Bytes) (utmp : Nat)
      (h0 : m.insn_.toBool = true) (h1 : m.insn_.iget 1 = .ok (5, c1)) (hb : 5 < m.header_.opcodeBase)
      (h2 : c1.uleb 64 = .ok (utmp, insn)) :
      Executed m ret false ret { m with insn_ := insn, column := utmp % 2 ^ 32 }
  | negateStmt (insn : Bytes)
      (h0 : m.insn_.toBool = true) (h1 : m.insn_.iget 1 = .ok (6, insn)) (hb : 6 < m.header_.opcodeBase) :
      Executed m ret false ret { m with insn_ := insn, isStmt := !m.isStmt }
  | setBasicBlock (insn : Bytes)
      (h0 : m.insn_.toBool = true) (h1 : m.insn_.iget 1 = .ok (7, insn)) (hb : 7 < m.header_.opcodeBase) :
      Executed m ret false ret { m with insn_ := insn, basicBlock := true }
  | constAddPc (insn : Bytes) (m1 : DWARF5DebugMachine)
      (h0 : m.insn_.toBool = true) (h1 : m.insn_.iget 1 = .ok (8, insn)) (hb : 8 < m.header_.opcodeBase)
      (hlr : m.header_.lineRange ≠ 0)
      (h3 : ({ m with insn_ := insn } : DWARF5DebugMachine).addrAndOpAdvance
        ((255 - m.header_.opcodeBase) / m.header_.lineRange) = .ok m1) :
      Executed m ret false ret m1
  | fixedAdvancePc (c1 insn : Bytes) (utmp : Nat)
      (h0 : m.insn_.toBool = true) (h1 : m.insn_.iget 1 = .ok (9, c1)) (hb : 9 < m.header_.opcodeBase)
      (h2 : c1.iget 2 = .ok (utmp, insn)) :
      Executed m ret false ret { m with insn_ := insn, addr := (m.addr + utmp) % 2 ^ 64 }
  | setPrologueEnd (insn : Bytes)
      (h0 : m.insn_.toBool = true) (h1 : m.insn_.iget 1 = .ok (10, insn)) (hb : 10 < m.header_.opcodeBase) :
      Executed m ret false ret { m with insn_ := insn, prologEnd := true }
  | setEpilogueBegin (insn : Bytes)
      (h0 : m.insn_.toBool = true) (h1 : m.insn_.iget 1 = .ok (11, insn)) (hb : 11 < m.header_.opcodeBase) :
      Executed m ret false ret { m with insn_ := insn, epilogBegin := true }
  | setIsa (c1 insn : Bytes) (utmp : Nat)
      (h0 : m.insn_.toBool = true) (h1 : m.insn_.iget 1 = .ok (12, c1)) (hb : 12 < m.header_.opcodeBase)
      (h2 : c1.uleb 64 = .ok (utmp, insn)) :
      Executed m ret false ret { m with insn_ := insn, isa := utmp % 2 ^ 32 }
  | special (op : Nat) (insn : Bytes) (m1 : DWARF5DebugMachine) (loc : SourceLoc)
      (h0 : m.insn_.toBool = true) (h1 : m.insn_.iget 1 = .ok (op, insn)) (hop : op ≠ 0) (hb : ¬ op < m.header_.opcodeBase)
      (hlr : m.header_.lineRange ≠ 0)
      (h3 : ({ m with insn_ := insn } : DWARF5DebugMachine).addrAndOpAdvance
        ((((op - m.header_.opcodeBase) % 256) / m.header_.lineRange) % 256) = .ok m1)
      (hloc : ({ m1 with line := addLine m1.line (m1.header_.lineBase +
          ((((op - m.header_.opcodeBase) % 256) % m.header_.lineRange : Nat) : Int)) } :
        DWARF5DebugMachine).emitLoc = .ok loc) :
      Executed m ret true loc
        { m1 with
          line := addLine m1.line (m1.header_.lineBase +
            ((((op - m.header_.opcodeBase) % 256) % m.header_.lineRange : Nat) : Int))
          basicBlock := false, prologEnd := false, epilogBegin := false, discrim := 0 }

/-- The states a machine goes through from the state `m0` on, one call of
`nextLoc(SourceLoc &)` after the other. -/
inductive Reachable (m0 : DWARF5DebugMachine) : DWARF5DebugMachine → Prop
  | init : Reachable m0 m0
  | step {m m' : DWARF5DebugMachine} {ret ret' : SourceLoc} {b : Bool}
      (hr : Reachable m0 m) (hs : m.nextLocInto ret = .ok (b, ret', m')) : Reachable m0 m'

/-- The amount `addrAndOpAdvance(operAdvance)` adds to `addr` in the state `m`. -/
def addrAdvance (m : DWARF5DebugMachine) (operAdvance : Nat) : Nat :=
  (m.header_.minInsnLength *
    (((m.opIndex + operAdvance) % 2 ^ 64) / m.header_.maxOpsPerInsn)) % 2 ^ 64

/-- What an instruction does to the address register: it adds an amount (zero for the
instructions that leave the register alone), it assigns it (`DW_LNE_set_address`), or it
ends the sequence (`DW_LNE_end_sequence`, which emits a row and resets the register). -/
inductive AddrEffect where
  | advance (d : Nat)
  | assign
  | endSequence
  deriving DecidableEq, Repr

/-- The effect on the address register of the instruction at the front of the instruction
stream, decoded as `nextLoc(SourceLoc &)` decodes it; `none` when the stream is exhausted or
the instruction cannot be read. -/
def addrEffect (m : DWARF5DebugMachine) : Option AddrEffect :=
  if !m.insn_.toBool then none
  else
    match m.insn_.iget 1 with
    | .error _ => none
    | .ok (op, insn) =>
      if op = 0 then
        match insn.uleb 64 with
        | .error _ => none
        | .ok (_, insn) =>
          match insn.iget 1 with
          | .error _ => none
          | .ok (ext, _) =>
            if ext = 1 then some .endSequence
            else if ext = 2 then some .assign
            else some (.advance 0)
      else if op < m.header_.opcodeBase then
        if op = 2 then
          match insn.uleb 64 with
          | .error _ => none
          | .ok (utmp, _) => some (.advance (m.addrAdvance utmp))
        else if op = 8 then
          some (.advance (m.addrAdvance ((255 - m.header_.opcodeBase) / m.header_.lineRange)))
        else if op = 9 then
          match insn.iget 2 with
          | .error _ => none
          | .ok (utmp, _) => some (.advance utmp)
        else some (.advance 0)
      else
        some (.advance
          (m.addrAdvance ((((op - m.header_.opcodeBase) % 256) / m.header_.lineRange) % 256)))

/-- The sum of the amounts that the instructions executed by one call of `nextLoc()` add to
the address register, the instruction that emits the row included; `none` when one of them
is `DW_LNE_set_address` or the call does not return a row. -/
def rowAdvance : Nat → DWARF5DebugMachine → SourceLoc → Option Nat
  | 0, _, _ => none
  | fuel + 1, m, ret =>
    match m.addrEffect, m.nextLocInto ret with
    | some (.advance d), .ok (true, _, _) => some d
    | some (.advance d), .ok (false, ret, m) => (rowAdvance fuel m ret).map (fun t => d + t)
    | some .endSequence, .ok (true, _, _) => some 0
    | _, _ => none

end DWARF5DebugMachine

/-! ## `util/Memory.h` -/

/-- A call of one of the two functions the caller handed to `Memory`: `allocBytes_(size)` or
`deallocBytes_(ptr, size)`. -/
inductive MemCall where
  | allocBytes (size : Nat)
  | deallocBytes (ptr : Nat) (size : Nat)
  deriving DecidableEq, Repr

/-- The class `Memory` as the caller's two functions see it: the calls they have received,
oldest first. `allocBytes_` is the address the caller's function returns for a size, which
may depend on the calls it received before. -/
structure Memory where
  allocBytes_ : List MemCall → Nat → Nat
  calls : List MemCall

namespace Memory

/-- Embeds `Alloc<T>::allocate(size_t n)` for a `T` of size `sizeofT` and alignment
`alignofT`: `size = n * sizeof(T) + alignof(T) - 1` in `size_t`, handed to `allocBytes_`. -/
def Alloc.allocate (mem : Memory) (sizeofT alignofT n : Nat) : Nat × Memory :=
  let size := (n * sizeofT + alignofT + 2 ^ 64 - 1) % 2 ^ 64
  (mem.allocBytes_ mem.calls size, { mem with calls := mem.calls ++ [.allocBytes size] })

/-- Embeds `Alloc<T>::deallocate(T *ptr, size_t n)`: `mem_.deallocBytes_((std::byte *)ptr, n)`. -/
def Alloc.deallocate (mem : Memory) (ptr n : Nat) : Memory :=
  { mem with calls := mem.calls ++ [.deallocBytes ptr n] }

/-- The class `Unique<T>`: the pointer `obj_`, and of `deleter_` the count it hands to
`deallocate` (`none` for the empty deleter `[] {}`). -/
structure Unique where
  obj_ : Nat
  deleter_ : Option Nat
  deriving DecidableEq, Repr

/-- Embeds `makeUnique<T>(args...)`: the object is built at `alloc.allocate(1)` and the
deleter calls `alloc.deallocate(ret, 1)`. -/
def makeUnique (mem : Memory) (sizeofT alignofT : Nat) : Unique × Memory :=
  let (ret, mem) := Alloc.allocate mem sizeofT alignofT 1
  ({ obj_ := ret, deleter_ := some 1 }, mem)

/-- Embeds `Unique<T>::clear()`. -/
def Unique.clear (u : Unique) (mem : Memory) : Unique × Memory :=
  if u.obj_ ≠ 0 then
    match u.deleter_ with
    | some n => ({ obj_ := 0, deleter_ := none }, Alloc.deallocate mem u.obj_ n)
    | none => ({ obj_ := 0, deleter_ := none }, mem)
  else (u, mem)

end Memory


/-! ## `stacktrace.cpp`: `__build_entries` -/

/-- The value `_Unwind_Reason_Code` the callback of `__build_entries` returns. -/
inductive UnwindReason where
  | noReason
  | endOfStack
  deriving DecidableEq, Repr

/-- The local `struct trace_fn` of `__build_entries`: the counters `skip` and `max_depth`
(both `size_t`), and for `append` the entries it has been called with, oldest first. -/
structure trace_fn where
  skip : Nat
  max_depth : Nat
  appended : List stacktrace_entry
  deriving DecidableEq, Repr

/-- Embeds `trace_fn::operator()(context, self)` on a frame whose instruction pointer
(`_Unwind_GetIPInfo`) is `ip`: a default-constructed entry is given the address and handed
to `append`. -/
def trace_fn.call (self : trace_fn) (ip : Nat) : UnwindReason × trace_fn :=
  if self.skip ≠ 0 then (.noReason, { self with skip := self.skip - 1 })
  else if self.max_depth = 0 then (.endOfStack, self)
  else
    (.noReason,
      { self with
        max_depth := self.max_depth - 1
        appended := self.appended ++
          [{ __addr_ := ip, __symbol_ := [], __file_ := [], __line_ := 0 }] })

/-- The unwinder's `_Unwind_Backtrace(callback, &tf)`, which is not code of this repository:
it calls the callback on the frames of the calling thread, innermost first (`frames` holds
their instruction pointers), until the callback returns something other than
`_URC_NO_REASON` or the frames run out. -/
def unwindBacktrace : List Nat → trace_fn → trace_fn
  | [], tf => tf
  | ip :: rest, tf =>
    match tf.call ip with
    | (.noReason, tf) => unwindBacktrace rest tf
    | (.endOfStack, tf) => tf

/-- Embeds `__build_entries(__append, __skip, __max_depth)` on a thread whose frames are
`frames`: the entries handed to `__append`, in order. `1 + __skip` is `size_t` arithmetic. -/
def __build_entries (frames : List Nat) (__skip __max_depth : Nat) : List stacktrace_entry :=
  if __max_depth = 0 then []
  else
    (unwindBacktrace frames
      { skip := (1 + __skip) % 2 ^ 64, max_depth := __max_depth, appended := [] }).appended


/-! ## Storage requested by `DWARFDebugInfo::DWARFDebugInfo` -/

/-- Where a container or an owned object takes its storage from: `Memory::Alloc<T>`, which
hands the request to the caller's `allocBytes_`, or `std::allocator<T>`, which is
`operator new`. -/
inductive Allocator where
  | caller
  | processDefault
  deriving DecidableEq, Repr

/-- A block of storage an object of the constructor holds: the allocator it came from, the
object (by its name in the source) and the number of characters or elements it is for. -/
structure Storage where
  allocator : Allocator
  object : String
  count : Nat
  deriving DecidableEq, Repr

/-- The storage of a `std::filesystem::path` or `std::string` with the text `text`. The
text of a `path` is a `path::string_type`, that is a `std::string`, whose allocator is
`std::allocator<char>`; a text of up to `inlineCapacity` characters is kept inside the
string object (22 characters in this library on a 64-bit target), a longer one in a block
from that allocator. -/
def stringStorage (inlineCapacity : Nat) (object text : String) : List Storage :=
  if text.length ≤ inlineCapacity then []
  else [{ allocator := .processDefault, object := object, count := text.length }]

/-- The storage of a node of `files`, a `Memory::List<fs::path>`: the node comes from
`Memory::Alloc`, the text of the path it holds from `std::allocator`. -/
def nodeStorage (inlineCapacity : Nat) (object text : String) : List Storage :=
  { allocator := .caller, object := object, count := 1 } ::
    stringStorage inlineCapacity object text

namespace DWARFDebugInfo

/-- The storage held by the objects the constructor `DWARFDebugInfo(reader, objFile)`
creates up to and including the calls `file.string()` of its loop, in the order of the
source: `binPath`, `dir`, `filename`, the node `files.push_back(binPath)`; for a Mach-O
file `filenameDSym`, the results of the five `operator/` that end in `dsymDwarfPath`, and
the node `files.push_back(dsymDwarfPath)` when that file exists; then the `std::string`
each `file.string()` returns. The paths are those of `searchPaths`. -/
def storage (inlineCapacity : Nat) (os : Os) (objFile : ObjectFile) : List Storage :=
  let binPath := objFile.path_.text
  let dir := parentPath binPath
  let filename := fileName binPath
  stringStorage inlineCapacity "binPath" binPath ++
  stringStorage inlineCapacity "dir" dir ++
  stringStorage inlineCapacity "filename" filename ++
  nodeStorage inlineCapacity "files[0]" binPath ++
  (if objFile.bytes.toBool then
    let filenameDSym := filename ++ ".dSYM"
    let p1 := joinPath dir filenameDSym
    let p2 := joinPath p1 "Contents"
    let p3 := joinPath p2 "Resources"
    let p4 := joinPath p3 "DWARF"
    let dsymDwarfPath := joinPath p4 filename
    stringStorage inlineCapacity "filenameDSym" filenameDSym ++
    stringStorage inlineCapacity "dir / filenameDSym" p1 ++
    stringStorage inlineCapacity "... / Contents" p2 ++
    stringStorage inlineCapacity "... / Resources" p3 ++
    stringStorage inlineCapacity "... / DWARF" p4 ++
    stringStorage inlineCapacity "dsymDwarfPath" dsymDwarfPath ++
    (if os.isRegularFile dsymDwarfPath then
      nodeStorage inlineCapacity "files[1]" dsymDwarfPath
    else [])
  else []) ++
  (searchPaths os objFile).flatMap (fun file => stringStorage inlineCapacity "file.string()" file)

end DWARFDebugInfo


/-! ## Termination of the modelled loops -/

/-- The modelled call ends within the iteration bounds of its loops: it returns, raises, or
is undefined, but does not use up a bound. -/
def Terminates {α : Type} (x : Except Fault α) : Prop := x ≠ .error .fuel

/-- The file `c` points into is mapped inside the address space, away from the address 0 and
from the top. -/
def Bytes.Mapped (c : Bytes) : Prop := 0 < c.org ∧ c.org + c.mem.length < 2 ^ 64

/-- The cursor `r` points into the mapping `c` points into. -/
def Bytes.SameMap (r c : Bytes) : Prop := r.org = c.org ∧ r.mem = c.mem

/-- The cursor `r` points into the mapping of `c` and starts further on, `c` starting inside
the mapped file and `r` at most at its end. -/
def Bytes.Forward (c r : Bytes) : Prop :=
  r.org = c.org ∧ r.mem = c.mem ∧ c.org ≤ c.base_ ∧ c.base_ < r.base_ ∧
    r.base_ ≤ c.org + c.mem.length

/-- The number of mapped bytes from the start of the cursor to the end of the mapped file;
0 for a cursor that starts in front of the mapped file. -/
def Bytes.ahead (c : Bytes) : Nat :=
  if c.org ≤ c.base_ then c.org + c.mem.length - c.base_ else 0


/-! ## Sample line-number units -/

namespace Sample

/-- The string section `"dir\0a.c\0b.c\0"`. -/
def lineStrings : List Byte :=
  [0x64, 0x69, 0x72, 0x00, 0x61, 0x2e, 0x63, 0x00, 0x62, 0x2e, 0x63, 0x00]

/-- A DWARF 5 header from `version` to the last file record: 8-byte addresses,
`minInsnLength = 1`, `maxOpsPerInsn = 1`, `defaultIsStmt = 1`, `lineBase = -5`,
`lineRange = 14`, `opcodeBase = 13`; directory format `(path, line_strp)` with the one
directory `"dir"`; file format `(path, line_strp)` with the two files `"a.c"` and `"b.c"`. -/
def header : List Byte :=
  [0x05, 0x00, 0x08, 0x00, 0x26, 0x00, 0x00, 0x00, 0x01, 0x01, 0x01, 0xfb, 0x0e, 0x0d,
   0x00, 0x01, 0x01, 0x01, 0x01, 0x00, 0x00, 0x00, 0x01, 0x00, 0x00, 0x01,
   0x01, 0x01, 0x1f, 0x01, 0x00, 0x00, 0x00, 0x00,
   0x01, 0x01, 0x1f, 0x02, 0x04, 0x00, 0x00, 0x00, 0x08, 0x00, 0x00, 0x00]

/-- The same header with the single file `"a.c"`. -/
def headerOneFile : List Byte :=
  [0x05, 0x00, 0x08, 0x00, 0x22, 0x00, 0x00, 0x00, 0x01, 0x01, 0x01, 0xfb, 0x0e, 0x0d,
   0x00, 0x01, 0x01, 0x01, 0x01, 0x00, 0x00, 0x00, 0x01, 0x00, 0x00, 0x01,
   0x01, 0x01, 0x1f, 0x01, 0x00, 0x00, 0x00, 0x00,
   0x01, 0x01, 0x1f, 0x01, 0x04, 0x00, 0x00, 0x00]

/-- The same header with the file format `(path, line_strp), (dirindex, udata)`: each of
the two file records holds a name and the directory index 0. -/
def headerTwoValues : List Byte :=
  [0x05, 0x00, 0x08, 0x00, 0x2a, 0x00, 0x00, 0x00, 0x01, 0x01, 0x01, 0xfb, 0x0e, 0x0d,
   0x00, 0x01, 0x01, 0x01, 0x01, 0x00, 0x00, 0x00, 0x01, 0x00, 0x00, 0x01,
   0x01, 0x01, 0x1f, 0x01, 0x00, 0x00, 0x00, 0x00,
   0x02, 0x01, 0x1f, 0x02, 0x0f, 0x02, 0x04, 0x00, 0x00, 0x00, 0x00, 0x08, 0x00, 0x00, 0x00, 0x00]

/-- The unit made of a 32-bit `unit_length`, a header and a program (shorter than 256
bytes together). -/
def unitOf (hdr program : List Byte) : List Byte :=
  [Fin.ofNat (hdr.length + program.length), 0, 0, 0] ++ hdr ++ program

/-- The line section holding `unit` and the string section `lineStrings`, one after the
other in a file mapped at `0x100000000`. -/
def sections (unit : List Byte) : Bytes × Bytes :=
  ({ org := 0x100000000, mem := unit ++ lineStrings,
     base_ := 0x100000000, limit_ := 0x100000000 + unit.length },
   { org := 0x100000000, mem := unit ++ lineStrings,
     base_ := 0x100000000 + unit.length,
     limit_ := 0x100000000 + unit.length + lineStrings.length })

/-- A freshly constructed table over `unit`. -/
def tableOf (unit : List Byte) : DWARFDebugTable :=
  DWARFDebugTable.new (sections unit).1 (sections unit).2

/-- `DW_LNE_set_address 0x1000`; special opcode 30; `DW_LNE_end_sequence`. -/
def program : List Byte :=
  [0x00, 0x09, 0x02, 0x00, 0x10, 0x00, 0x00, 0x00, 0x00, 0x00, 0x00, 0x1e, 0x00, 0x01, 0x01]

/-- `DW_LNE_set_address 0x1000`; `DW_LNS_copy`; `DW_LNS_advance_line 1`; `DW_LNS_copy`;
`DW_LNE_end_sequence`. -/
def programRepeatedAddr : List Byte :=
  [0x00, 0x09, 0x02, 0x00, 0x10, 0x00, 0x00, 0x00, 0x00, 0x00, 0x00, 0x01, 0x03, 0x01, 0x01,
   0x00, 0x01, 0x01]

/-- `DW_LNS_advance_line -1`; `DW_LNS_copy`; `DW_LNE_set_address 0x2000`;
`DW_LNS_advance_line 5`; `DW_LNS_copy`; `DW_LNE_end_sequence`. -/
def programZeroRow : List Byte :=
  [0x03, 0x7f, 0x01, 0x00, 0x09, 0x02, 0x00, 0x20, 0x00, 0x00, 0x00, 0x00, 0x00, 0x00, 0x03,
   0x05, 0x01, 0x00, 0x01, 0x01]

/-- `DW_LNE_set_address 0x1000`; `DW_LNS_copy`; `DW_LNE_end_sequence`. -/
def programCopy : List Byte :=
  [0x00, 0x09, 0x02, 0x00, 0x10, 0x00, 0x00, 0x00, 0x00, 0x00, 0x00, 0x01, 0x00, 0x01, 0x01]

/-- A directory or file record holding the one value `path = s`. -/
def pathEntry (s : List Byte) : dwarf5.EntryData :=
  { values := 1
    contentTypes := [.path, .INVALID, .INVALID, .INVALID]
    formTypes := [0x1f, 0, 0, 0]
    u64s := [0, 0, 0, 0]
    strs := [s, [], [], []] }

/-- The machine that the constructor builds from the unit `unitOf header program`: the
parsed header and tables, the instruction stream over `program`, the initial registers. -/
def machineOf (program : List Byte) : DWARF5DebugMachine :=
  { lineData_ := (sections (unitOf header program)).1
    lineStrs_ := (sections (unitOf header program)).2
    nextUnit_ :=
      { (sections (unitOf header program)).1 with
        base_ := 0x100000000 + 4 + header.length + program.length }
    header_ :=
      { length := header.length + program.length
        is64bit := false
        version := 5
        addrSize := 8
        segSelectorSize := 0
        minInsnLength := 1
        maxOpsPerInsn := 1
        defaultIsStmt := true
        lineBase := -5
        lineRange := 14
        opcodeBase := 13
        stdOpcodeLens := [0, 1, 1, 1, 1, 0, 0, 0, 1, 0, 0, 1] }
    dirEntryFormats := [{ contentType := .path, formType := 0x1f }]
    directories := [pathEntry [0x64, 0x69, 0x72]]
    fileEntryFormats := [{ contentType := .path, formType := 0x1f }]
    filenames := [pathEntry [0x61, 0x2e, 0x63], pathEntry [0x62, 0x2e, 0x63]]
    insn_ :=
      { (sections (unitOf header program)).1 with base_ := 0x100000000 + 4 + header.length }
    addr := 0
    opIndex := 0
    file := 1
    line := 1
    column := 0
    isStmt := true
    basicBlock := false
    endSeq := false
    prologEnd := false
    epilogBegin := false
    isa := 0
    discrim := 0 }

/-- The row of file `"b.c"` (file 1) in directory `"dir"`. -/
def row (addr line : Nat) : SourceLoc :=
  { addr_ := addr, dir_ := [0x64, 0x69, 0x72], file_ := [0x62, 0x2e, 0x63], line_ := line }

end Sample

/-! ## Sample Mach-O files -/

namespace Sample

/-- The `w` bytes of the little-endian integer `n`. -/
def le : Nat → Nat → List Byte
  | 0, _ => []
  | w + 1, n => Fin.ofNat (n % 256) :: le w (n / 256)

/-- The characters of `s`. -/
def chars (s : String) : List Byte := nameBytes s

/-- The fixed-width field `char[16]` holding `s`, padded with NUL. -/
def name16 (s : String) : List Byte := (chars s ++ List.replicate 16 0).take 16

/-- A `section_64` record of segment `__TEXT`. -/
def section64 (sectname : String) (addr size offset : Nat) : List Byte :=
  name16 sectname ++ name16 "__TEXT" ++ le 8 addr ++ le 8 size ++ le 4 offset ++
    List.replicate 28 0

/-- An `LC_SEGMENT_64` command over the section records `secs` (80 bytes each). -/
def segment64 (secs : List (List Byte)) : List Byte :=
  le 4 0x19 ++ le 4 (72 + 80 * secs.length) ++ name16 "__TEXT" ++ List.replicate 32 0 ++
    le 4 7 ++ le 4 5 ++ le 4 secs.length ++ le 4 0 ++ secs.flatten

/-- An `LC_SYMTAB` command. -/
def symtab (symoff nsyms stroff strsize : Nat) : List Byte :=
  le 4 0x02 ++ le 4 24 ++ le 4 symoff ++ le 4 nsyms ++ le 4 stroff ++ le 4 strsize

/-- An `nlist_64` record. -/
def nlist (n_strx n_type n_sect n_value : Nat) : List Byte :=
  le 4 n_strx ++ le 1 n_type ++ le 1 n_sect ++ le 2 0 ++ le 8 n_value

/-- The string table `"\0_main\0_helper\0"`. -/
def strtab : List Byte := [0] ++ chars "_main" ++ [0] ++ chars "_helper" ++ [0]

/-- A Mach-O 64 file: the header, one segment command over `secs`, one `LC_SYMTAB` command,
the symbol records `syms`, the string table `strtab` and the bytes `tail`. -/
def machO (secs syms : List (List Byte)) (tail : List Byte) : List Byte :=
  le 4 0xfeedfacf ++ le 4 0x0100000c ++ le 4 0 ++ le 4 2 ++ le 4 2 ++
    le 4 (72 + 80 * secs.length + 24) ++ le 4 0 ++ le 4 0 ++
  segment64 secs ++
  symtab (32 + 72 + 80 * secs.length + 24) syms.length
    (32 + 72 + 80 * secs.length + 24 + 16 * syms.length) strtab.length ++
  syms.flatten ++ strtab ++ tail

/-- The section `__text` at `0x1000`, 16 bytes. -/
def text : Section :=
  { name := chars "__text", virt_addr := 0x1000, virt_size := 16, binary_offset := 0x200,
    binary_size := 16 }

/-- The section `__const` at `0x2000`, 8 bytes. -/
def const : Section :=
  { name := chars "__const", virt_addr := 0x2000, virt_size := 8, binary_offset := 0x210,
    binary_size := 8 }

/-- The file `machO` with the sections `text` and `const` and the symbols `_main`
(type `0x0f`, section 1, `0x1000`) and `_helper` (type `0x0e`, section 1, `0x1008`). -/
def app : List Byte :=
  machO [section64 "__text" 0x1000 16 0x200, section64 "__const" 0x2000 8 0x210]
    [nlist 1 0x0f 1 0x1000, nlist 7 0x0e 1 0x1008] []

/-- The file `app` with the further sections `__debug_line` and `__debug_line_str` at the
end of the file, holding the unit `unitOf header programCopy` and `lineStrings`. -/
def appDebug : List Byte :=
  machO
    [section64 "__text" 0x1000 16 0x200,
     section64 "__debug_line" 0x3000 (unitOf header programCopy).length 415,
     section64 "__debug_line_str" 0x4000 lineStrings.length
       (415 + (unitOf header programCopy).length)]
    [nlist 1 0x0f 1 0x1000, nlist 7 0x0e 1 0x1008]
    (unitOf header programCopy ++ lineStrings)

/-- An operating system with the one file `content` at `/bin/app`, the standard descriptors
open and the next mapping at `0x100000000`. -/
def osWith (content : List Byte) : Os :=
  { files := [("/bin/app", content)]
    fds := [(0, "stdin"), (1, "stdout"), (2, "stderr")]
    mapAt := 0x100000000
    calls := [] }

/-- A process with the images `ims` and a demangler that fails on every name. -/
def processOf (ims : List Image) : Process :=
  { loaded := ims, demangle := fun _ => (-2, []) }

/-- An entry that holds the address `addr` only. -/
def entry (addr : Nat) : stacktrace_entry :=
  { __addr_ := addr, __symbol_ := [], __file_ := [], __line_ := 0 }

end Sample


namespace Sample

/-- The file `app` with `_helper` turned into an indirect external symbol: type `0x0b`,
`n_sect = 0` (`NO_SECT`), a nonzero `n_value`. -/
def appIndirect : List Byte :=
  machO [section64 "__text" 0x1000 16 0x200, section64 "__const" 0x2000 8 0x210]
    [nlist 1 0x0f 1 0x1000, nlist 7 0x0b 0 0x1008] []

/-- A relocatable object file: its first section `__text` is at address 0, its second
section `__const` at `0x10`; `_main` is in section 1 and `_helper` in section 2. -/
def object : List Byte :=
  machO [section64 "__text" 0 16 0x200, section64 "__const" 0x10 8 0x210]
    [nlist 1 0x0f 1 0x4, nlist 7 0x0e 2 0x10] []

/-- The file `app` with an empty section `__empty` between `__text` and `__const`. -/
def appEmptySection : List Byte :=
  machO [section64 "__text" 0x1000 16 0x200, section64 "__empty" 0x1800 0 0x210,
      section64 "__const" 0x2000 8 0x210]
    [nlist 1 0x0f 1 0x1000, nlist 7 0x0e 3 0x2000] []

/-- A file of 128 bytes that starts `DE AD BE EF`. -/
def unknownMagic : List Byte := [0xDE, 0xAD, 0xBE, 0xEF] ++ List.replicate 124 0

/-- The object `open` creates for `/bin/app` with content `content`, first descriptor and
first mapping of `osWith`. -/
def objectFileOf (content : List Byte) : ObjectFile :=
  ObjectFile.new (.ofCString "/bin/app") 3 0x100000000 content.length content

/-- The reader after `open` has created the object for `/bin/app` with content `app`. -/
def readerOpened : ObjectReader :=
  { objects := [objectFileOf app], openFiles_ := [(.ofCString "/bin/app", some 0)] }

/-- The operating system `osWith app` after that call of `open`. -/
def osOpened : Os :=
  { files := [("/bin/app", app)]
    fds := [(0, "stdin"), (1, "stdout"), (2, "stderr"), (3, "/bin/app")]
    mapAt := 0x100001000
    calls := [.open "/bin/app", .lseek 3, .mmap 3 335] }

end Sample

namespace Sample

/-- A cursor over the last eight bytes of a file of sixteen bytes `01 .. 10` mapped at
`0x100000000`. -/
def tail8 : Bytes :=
  { org := 0x100000000
    mem := [0x01, 0x02, 0x03, 0x04, 0x05, 0x06, 0x07, 0x08, 0x09, 0x0a, 0x0b, 0x0c, 0x0d, 0x0e,
      0x0f, 0x10]
    base_ := 0x100000008
    limit_ := 0x100000010 }

/-- The default-constructed cursor `Bytes()`: both pointers null. -/
def nullCursor : Bytes := { tail8 with base_ := 0, limit_ := 0 }

end Sample

namespace Sample

/-- The section records of `appDebug` as `section_64` values. -/
def sections64 : List macho.section_64 :=
  [⟨name16 "__text", name16 "__TEXT", 0x1000, 16, 0x200, List.replicate 28 0⟩,
   ⟨name16 "__debug_line", name16 "__TEXT", 0x3000,
     Fin.ofNat (unitOf header programCopy).length, 415, List.replicate 28 0⟩,
   ⟨name16 "__debug_line_str", name16 "__TEXT", 0x4000, Fin.ofNat lineStrings.length,
     Fin.ofNat (415 + (unitOf header programCopy).length), List.replicate 28 0⟩]

/-- The cursor over the three section records of `appDebug`, which follow the 32-byte file
header and the 72-byte segment command. -/
def sectionRecords : Bytes :=
  { Bytes.ofList appDebug with base_ := 0x100000000 + 104, limit_ := 0x100000000 + 104 + 240 }

end Sample


namespace Sample

/-- The header `header` of a 64-bit unit: `headerLength` and the three `line_strp` offsets
take eight bytes each. -/
def header64 : List Byte :=
  [0x05, 0x00, 0x08, 0x00, 0x32, 0x00, 0x00, 0x00, 0x00, 0x00, 0x00, 0x00,
   0x01, 0x01, 0x01, 0xfb, 0x0e, 0x0d,
   0x00, 0x01, 0x01, 0x01, 0x01, 0x00, 0x00, 0x00, 0x01, 0x00, 0x00, 0x01,
   0x01, 0x01, 0x1f, 0x01, 0x00, 0x00, 0x00, 0x00, 0x00, 0x00, 0x00, 0x00,
   0x01, 0x01, 0x1f, 0x02, 0x04, 0x00, 0x00, 0x00, 0x00, 0x00, 0x00, 0x00,
   0x08, 0x00, 0x00, 0x00, 0x00, 0x00, 0x00, 0x00]

/-- The unit made of the escape `0xffffffff`, a 64-bit `unit_length`, a header and a
program (shorter than 256 bytes together). -/
def unit64Of (hdr program : List Byte) : List Byte :=
  [0xff, 0xff, 0xff, 0xff, Fin.ofNat (hdr.length + program.length), 0, 0, 0, 0, 0, 0, 0] ++
    hdr ++ program

/-- The header `header` with `headerLength = 0x27`, one more than the 38 bytes that follow
the field up to the last file record. -/
def headerLongLength : List Byte :=
  [0x05, 0x00, 0x08, 0x00, 0x27, 0x00, 0x00, 0x00, 0x01, 0x01, 0x01, 0xfb, 0x0e, 0x0d,
   0x00, 0x01, 0x01, 0x01, 0x01, 0x00, 0x00, 0x00, 0x01, 0x00, 0x00, 0x01,
   0x01, 0x01, 0x1f, 0x01, 0x00, 0x00, 0x00, 0x00,
   0x01, 0x01, 0x1f, 0x02, 0x04, 0x00, 0x00, 0x00, 0x08, 0x00, 0x00, 0x00]

/-- The header `headerOneFile` with the file format `(path, DW_FORM_string)`: the one file
record is the inline string `"a.c"`. -/
def headerStringForm : List Byte :=
  [0x05, 0x00, 0x08, 0x00, 0x22, 0x00, 0x00, 0x00, 0x01, 0x01, 0x01, 0xfb, 0x0e, 0x0d,
   0x00, 0x01, 0x01, 0x01, 0x01, 0x00, 0x00, 0x00, 0x01, 0x00, 0x00, 0x01,
   0x01, 0x01, 0x1f, 0x01, 0x00, 0x00, 0x00, 0x00,
   0x01, 0x01, 0x08, 0x01, 0x61, 0x2e, 0x63, 0x00]

/-- The header `headerStringForm` with `fileCount = 0` (and `headerLength = 0x1e`): the
format names `DW_FORM_string`, no record uses it. -/
def headerStringFormNoFile : List Byte :=
  [0x05, 0x00, 0x08, 0x00, 0x1e, 0x00, 0x00, 0x00, 0x01, 0x01, 0x01, 0xfb, 0x0e, 0x0d,
   0x00, 0x01, 0x01, 0x01, 0x01, 0x00, 0x00, 0x00, 0x01, 0x00, 0x00, 0x01,
   0x01, 0x01, 0x1f, 0x01, 0x00, 0x00, 0x00, 0x00,
   0x01, 0x01, 0x08, 0x00]

/-- Two units, one after the other in the line section: the first with the file format
`(path, DW_FORM_string)`, the second the well-formed `unitOf header programCopy`. -/
def stringFormThenGood : List Byte :=
  unitOf headerStringForm programCopy ++ unitOf header programCopy

end Sample

namespace Sample

/-- The line section and the string section of the 64-bit unit
`unit64Of header64 programCopy`. -/
def dwarf64 : Bytes × Bytes := sections (unit64Of header64 programCopy)

/-- The machine as the header parse of the 64-bit unit leaves it: `insn_` is still the
default cursor and the registers have not been reset. -/
def parsed64 : DWARF5DebugMachine :=
  { machineOf programCopy with
    lineData_ := dwarf64.1
    lineStrs_ := dwarf64.2
    nextUnit_ := { dwarf64.1 with base_ := 0x100000000 + 89 }
    header_ := { (machineOf programCopy).header_ with length := 77, is64bit := true }
    insn_ := { dwarf64.1 with base_ := 0, limit_ := 0 }
    file := 0
    line := 0
    isStmt := false }

/-- The cursor after the last file record of the 64-bit unit, 74 bytes into the section. -/
def afterHeader64 : Bytes := { dwarf64.1 with base_ := 0x100000000 + 74 }

end Sample

namespace Sample

/-- The line section and the string section of the unit whose `headerLength` is one more
than the length of its header. -/
def longLength : Bytes × Bytes := sections (unitOf headerLongLength programCopy)

/-- The machine as the header parse of that unit leaves it. -/
def parsedLongLength : DWARF5DebugMachine :=
  { machineOf programCopy with
    lineData_ := longLength.1
    lineStrs_ := longLength.2
    nextUnit_ := { longLength.1 with base_ := 0x100000000 + 65 }
    insn_ := { longLength.1 with base_ := 0, limit_ := 0 }
    file := 0
    line := 0
    isStmt := false }

end Sample


namespace Sample

/-- Two well-formed units, one after the other in the line section. -/
def twoUnits : List Byte := unitOf header programCopy ++ unitOf header program

end Sample

namespace Sample

/-- `DW_LNE_set_address 0x2000`; `DW_LNS_copy`; `DW_LNE_set_address 0x1000`; `DW_LNS_copy`;
`DW_LNE_end_sequence`. -/
def programBackwards : List Byte :=
  [0x00, 0x09, 0x02, 0x00, 0x20, 0x00, 0x00, 0x00, 0x00, 0x00, 0x00, 0x01,
   0x00, 0x09, 0x02, 0x00, 0x10, 0x00, 0x00, 0x00, 0x00, 0x00, 0x00, 0x01, 0x00, 0x01, 0x01]

/-- `DW_LNE_set_address 0xffffffffffffffff`; `DW_LNS_copy`; special opcode `0x20` (operation
advance 1, line advance 0); `DW_LNE_end_sequence`. -/
def programCarry : List Byte :=
  [0x00, 0x09, 0x02, 0xff, 0xff, 0xff, 0xff, 0xff, 0xff, 0xff, 0xff, 0x01, 0x20,
   0x00, 0x01, 0x01]

/-- `DW_LNE_set_address 0x1000`; `DW_LNS_copy`; `DW_LNS_advance_pc 4`; special opcode `0x20`
(operation advance 1, line advance 0); `DW_LNE_end_sequence`. -/
def programAdvance : List Byte :=
  [0x00, 0x09, 0x02, 0x00, 0x10, 0x00, 0x00, 0x00, 0x00, 0x00, 0x00, 0x01, 0x02, 0x04, 0x20,
   0x00, 0x01, 0x01]

/-- The machine over `programAdvance` with `n` bytes of the program consumed and the address
register at `addr`. -/
def advanceAt (n addr : Nat) : DWARF5DebugMachine :=
  { machineOf programAdvance with
    insn_ := (machineOf programAdvance).insn_.advance n, addr := addr }

end Sample

namespace Sample

/-- A line section of twelve bytes: the escape `0xffffffff` and the 64-bit unit length
`2 ^ 64 - 12`. -/
def unitLengthCarry : List Byte :=
  [0xff, 0xff, 0xff, 0xff, 0xf4, 0xff, 0xff, 0xff, 0xff, 0xff, 0xff, 0xff]

end Sample


namespace Sample

/-- A line section of 89 bytes holding one 64-bit unit whose `unit_length` field is
`2 ^ 63`: the escape `0xffffffff`, the length, the header `header64` and the program
`programCopy`. -/
def unitHuge : List Byte :=
  [0xff, 0xff, 0xff, 0xff, 0x00, 0x00, 0x00, 0x00, 0x00, 0x00, 0x00, 0x80] ++ header64 ++
    programCopy

end Sample


namespace Sample

/-- A caller's allocator that hands out consecutive blocks from address `0x7000` on, and
has received no call yet. -/
def bumpMemory : Memory :=
  { allocBytes_ := fun calls _ =>
      0x7000 + (calls.map (fun c => match c with
        | .allocBytes size => size
        | .deallocBytes _ _ => 0)).sum
    calls := [] }

end Sample


namespace Sample

/-- An `LC_SEGMENT_64` command whose member `nsects` is `nsects`, followed by the bytes
`tail`; `cmdsize` covers the 72-byte segment header and `tail`. -/
def segmentDeclaring (nsects : Nat) (tail : List Byte) : List Byte :=
  le 4 0x19 ++ le 4 (72 + tail.length) ++ name16 "__TEXT" ++ List.replicate 32 0 ++
    le 4 7 ++ le 4 5 ++ le 4 nsects ++ le 4 0 ++ tail

/-- A Mach-O 64 file made of the header and the one load command `cmd`. -/
def machOWith (cmd : List Byte) : List Byte :=
  le 4 0xfeedfacf ++ le 4 0x0100000c ++ le 4 0 ++ le 4 2 ++ le 4 1 ++ le 4 cmd.length ++
    le 4 0 ++ le 4 0 ++ cmd

/-- A file whose segment command declares one section (`nsects = 1`) and holds two section
records within its `cmdsize` of 232. -/
def oneDeclaredTwoPresent : List Byte :=
  machOWith (segmentDeclaring 1
    (section64 "__text" 0x1000 16 0x200 ++ section64 "__const" 0x2000 8 0x210))

/-- A file whose segment command declares one section and holds one section record and
four bytes of padding within its `cmdsize` of 156. -/
def onePadded : List Byte :=
  machOWith (segmentDeclaring 1 (section64 "__text" 0x1000 16 0x200 ++ [0, 0, 0, 0]))

/-- The cursor over the segment command of `appDebug` (`cmdsize = 72 + 3 * 80`), as
`eachLoadCommand` hands it to the callback. -/
def segmentCommand : Bytes :=
  { Bytes.ofList appDebug with base_ := 0x100000000 + 32, limit_ := 0x100000000 + 32 + 312 }

end Sample


namespace Sample

/-- `DW_LNE_set_address 0x1000`; `DW_LNS_copy`; `DW_LNS_fixed_advance_pc 0x1000`;
`DW_LNS_copy`; `DW_LNS_fixed_advance_pc 0x1000`; `DW_LNS_copy`; `DW_LNE_end_sequence`: rows
at `0x1000`, `0x2000` and `0x3000`. -/
def programThreeRows : List Byte :=
  [0x00, 0x09, 0x02, 0x00, 0x10, 0x00, 0x00, 0x00, 0x00, 0x00, 0x00, 0x01,
   0x09, 0x00, 0x10, 0x01, 0x09, 0x00, 0x10, 0x01, 0x00, 0x01, 0x01]

/-- `DW_LNE_set_address 0x5000`; `DW_LNS_copy`; `DW_LNE_end_sequence`. -/
def programHigh : List Byte :=
  [0x00, 0x09, 0x02, 0x00, 0x50, 0x00, 0x00, 0x00, 0x00, 0x00, 0x00, 0x01, 0x00, 0x01, 0x01]

/-- A line section of two units: the rows of the first are at `0x1000`, `0x2000`, `0x3000`,
the row of the second at `0x5000`. -/
def bracketing : List Byte := unitOf header programThreeRows ++ unitOf header programHigh

end Sample


namespace Sample

/-- A Mach-O 64 file of 40 bytes: the header with `ncmds = 1`, `sizeofcmds = 8`, and the one
load command `LC_UUID` with `cmdsize = 0`. -/
def zeroCmdsize : List Byte :=
  le 4 0xfeedfacf ++ le 4 0x0100000c ++ le 4 0 ++ le 4 2 ++ le 4 1 ++ le 4 8 ++ le 4 0 ++
    le 4 0 ++ le 4 0x1b ++ le 4 0

/-- The cursor over the load commands of `zeroCmdsize`, as `eachLoadCommand` enters its loop
with it. -/
def zeroCmdsizeCommands : Bytes :=
  { Bytes.ofList zeroCmdsize with base_ := 0x100000000 + 32, limit_ := 0x100000000 + 40 }

end Sample


namespace Sample

/-- The path of the companion debug file the constructor of `DWARFDebugInfo` derives from
`/bin/app`. -/
def dsymPath : String := "/bin/app.dSYM/Contents/Resources/DWARF/app"

/-- An operating system with the file `content` at `/bin/app` and the file `dsym` at
`dsymPath`, the standard descriptors open and the next mapping at `0x100000000`. -/
def osWithDsym (content dsym : List Byte) : Os :=
  { files := [("/bin/app", content), (dsymPath, dsym)]
    fds := [(0, "stdin"), (1, "stdout"), (2, "stderr")]
    mapAt := 0x100000000
    calls := [] }

/-- A process with the main program `/bin/app` loaded at `0x5000000` and the images
`/lib/x` and `/lib/y` above it. -/
def processThreeImages : Process :=
  processOf [⟨"/bin/app", 0x5000000, 0x5000000, true⟩, ⟨"/lib/x", 0x7000000, 0, false⟩,
    ⟨"/lib/y", 0x9000000, 0, false⟩]

end Sample

namespace Sample

/-- The file `app` with `_helper` at the address of `_main`: two records, both of a type
`genSymbolTable` selects, with the one `n_value` `0x1000`. -/
def appSameAddress : List Byte :=
  machO [section64 "__text" 0x1000 16 0x200, section64 "__const" 0x2000 8 0x210]
    [nlist 1 0x0f 1 0x1000, nlist 7 0x0e 1 0x1000] []

end Sample

namespace Sample

/-- `DW_LNE_set_address 0x1000`; special opcode `0x22` (operation advance 1, line advance 2:
`0x22 = 13 + (2 - (-5)) + 14 * 1` in the sample header); `DW_LNE_end_sequence`. -/
def programSpecial : List Byte :=
  [0x00, 0x09, 0x02, 0x00, 0x10, 0x00, 0x00, 0x00, 0x00, 0x00, 0x00, 0x22, 0x00, 0x01, 0x01]

/-- The machine over `programSpecial` once `DW_LNE_set_address` has been executed, with the
line register at 10. -/
def specialAt : DWARF5DebugMachine :=
  { machineOf programSpecial with
    insn_ := (machineOf programSpecial).insn_.advance 11, addr := 0x1000, line := 10 }

end Sample

end ObjReader

/-! # Theorems -/

namespace ObjReader

/-! ## Image registry -/

/-- C1 (the code departs from the claim). A registry holding the single image loaded at
`0x1000` answers `atAddr(0x1000)` and `atAddr(0x1fff)` with `nullptr`, and a registry of two
images answers every address at or above the higher load address with `nullptr`: `atAddr`
returns early when `upper_bound` is `end()`, and the registry, unlike `SymbolTable` and
`SectionTable`, installs no high sentinel, so the image with the greatest load address is
never returned. Below the higher load address the lower image is found. Below the lowest
load address `upper_bound` is `begin()` and `--it` is undefined (no low sentinel either). -/
theorem atAddr_highest_image_not_found :
    (Images.build [⟨"a.out", 0x1000, 0, true⟩]).atAddr 0x1000 = .ok none ∧
    (Images.build [⟨"a.out", 0x1000, 0, true⟩]).atAddr 0x1fff = .ok none ∧
    (Images.build [⟨"a.out", 0x1000, 0, true⟩, ⟨"libc++.dylib", 0x8000, 0, false⟩]).atAddr 0x8000
      = .ok none ∧
    (Images.build [⟨"a.out", 0x1000, 0, true⟩, ⟨"libc++.dylib", 0x8000, 0, false⟩]).atAddr 0x7fff
      = .ok (some ⟨"a.out", 0x1000, 0, true⟩) ∧
    (Images.build [⟨"a.out", 0x1000, 0, true⟩, ⟨"libc++.dylib", 0x8000, 0, false⟩]).atAddr 0x0fff
      = .error .undefined := by
  refine ⟨?_, ?_, ?_, ?_, ?_⟩ <;> rfl

/-! ## Ordered maps -/

namespace AddrMap

variable {V : Type}

theorem mem_emplace {m : AddrMap V} {k : Nat} {v : V} {e : Nat × V}
    (h : e ∈ m.emplace k v) : e = (k, v) ∨ e ∈ m := by
  induction m with
  | nil => simp [emplace] at h; exact Or.inl h
  | cons hd tl ih =>
    obtain ⟨k', v'⟩ := hd
    simp only [emplace] at h
    split at h
    · simpa using h
    · split at h
      · exact Or.inr h
      · rcases List.mem_cons.mp h with h | h
        · exact Or.inr (h ▸ List.mem_cons_self _ _)
        · rcases ih h with h | h
          · exact Or.inl h
          · exact Or.inr (List.mem_cons_of_mem _ h)

theorem emplace_sorted {m : AddrMap V} (k : Nat) (v : V) (h : Ascending m) :
    Ascending (m.emplace k v) := by
  induction m with
  | nil => simp [emplace, Ascending]
  | cons hd tl ih =>
    obtain ⟨k', v'⟩ := hd
    have htl : Ascending tl := (List.pairwise_cons.mp h).2
    have hhd := (List.pairwise_cons.mp h).1
    simp only [emplace]
    split
    · rename_i hlt
      refine List.pairwise_cons.mpr ⟨?_, h⟩
      intro e he
      rcases List.mem_cons.mp he with he | he
      · subst he; exact hlt
      · exact Nat.lt_trans hlt (hhd e he)
    · split
      · exact h
      · rename_i h1 h2
        refine List.pairwise_cons.mpr ⟨?_, ih htl⟩
        intro e he
        rcases mem_emplace he with he | he
        · subst he; show k' < k; omega
        · exact hhd e he

/-- A map whose least key is 0 keeps its first entry under `emplace`. -/
theorem emplace_head_zero (v0 : V) (rest : AddrMap V) (k : Nat) (v : V) :
    ∃ rest', emplace ((0, v0) :: rest) k v = (0, v0) :: rest' := by
  simp only [emplace, Nat.not_lt_zero, if_false]
  split
  · exact ⟨rest, rfl⟩
  · exact ⟨_, rfl⟩

theorem emplaceAll_head_zero (ops : List (Nat × V)) :
    ∀ (v0 : V) (rest : AddrMap V), Ascending ((0, v0) :: rest) →
      ∃ rest', emplaceAll ((0, v0) :: rest) ops = (0, v0) :: rest' ∧
        Ascending ((0, v0) :: rest') := by
  induction ops with
  | nil => intro v0 rest h; exact ⟨rest, rfl, h⟩
  | cons op ops ih =>
    intro v0 rest h
    obtain ⟨r1, h1⟩ := emplace_head_zero v0 rest op.1 op.2
    have hs := emplace_sorted op.1 op.2 h
    rw [h1] at hs
    obtain ⟨r2, h2, hs2⟩ := ih v0 r1 hs
    exact ⟨r2, by simp only [emplaceAll, List.foldl_cons] at h2 ⊢; rw [h1]; exact h2, hs2⟩

theorem emplaceAll_append (m : AddrMap V) (a b : List (Nat × V)) :
    m.emplaceAll (a ++ b) = (m.emplaceAll a).emplaceAll b := by
  simp [emplaceAll, List.foldl_append]

theorem upperBound_eq_zero {m : AddrMap V} {x : Nat} (hs : Ascending m)
    (h : m.upperBound x = 0) : ∀ e ∈ m, x < e.1 := by
  cases m with
  | nil => intro e he; cases he
  | cons hd tl =>
    obtain ⟨k', v'⟩ := hd
    simp only [upperBound] at h
    split at h
    · rename_i hlt
      intro e he
      rcases List.mem_cons.mp he with he | he
      · subst he; exact hlt
      · exact Nat.lt_trans hlt ((List.pairwise_cons.mp hs).1 e he)
    · omega

/-- In a sorted map, the entry just before `upper_bound(x)` has the greatest key `≤ x`. -/
theorem upperBound_pred {m : AddrMap V} (hs : Ascending m) :
    ∀ (x i : Nat), m.upperBound x = i + 1 →
      ∃ e, m.get? i = some e ∧ e ∈ m ∧ e.1 ≤ x ∧ ∀ e' ∈ m, e'.1 ≤ x → e'.1 ≤ e.1 := by
  induction m with
  | nil => intro x i h; simp [upperBound] at h
  | cons hd tl ih =>
    intro x i h
    obtain ⟨k', v'⟩ := hd
    have htl : Ascending tl := (List.pairwise_cons.mp hs).2
    have hhd := (List.pairwise_cons.mp hs).1
    simp only [upperBound] at h
    split at h
    · omega
    · rename_i hge
      have hub : upperBound tl x = i := by omega
      cases i with
      | zero =>
        refine ⟨(k', v'), rfl, List.mem_cons_self _ _, by show k' ≤ x; omega, ?_⟩
        intro e' he' hle
        rcases List.mem_cons.mp he' with he' | he'
        · subst he'; exact Nat.le_refl _
        · have := upperBound_eq_zero htl hub e' he'
          omega
      | succ j =>
        obtain ⟨e, hget, hmem, hle, hmax⟩ := ih htl x j hub
        refine ⟨e, by simpa using hget, List.mem_cons_of_mem _ hmem, hle, ?_⟩
        intro e' he' hle'
        rcases List.mem_cons.mp he' with he' | he'
        · subst he'; exact Nat.le_of_lt (hhd e hmem)
        · exact hmax e' he' hle'

theorem mem_emplace_of_mem {m : AddrMap V} (k : Nat) (v : V) {e : Nat × V} (h : e ∈ m) :
    e ∈ m.emplace k v := by
  induction m with
  | nil => cases h
  | cons hd tl ih =>
    obtain ⟨k', v'⟩ := hd
    simp only [emplace]
    split
    · exact List.mem_cons_of_mem _ h
    · split
      · exact h
      · rcases List.mem_cons.mp h with h | h
        · exact h ▸ List.mem_cons_self _ _
        · exact List.mem_cons_of_mem _ (ih h)

theorem mem_emplaceAll_of_mem (ops : List (Nat × V)) :
    ∀ {m : AddrMap V} {e : Nat × V}, e ∈ m → e ∈ m.emplaceAll ops := by
  induction ops with
  | nil => intro m e h; exact h
  | cons op ops ih => intro m e h; exact ih (mem_emplace_of_mem op.1 op.2 h)

theorem mem_emplace_self {m : AddrMap V} (k : Nat) (v : V) (h : ∀ e ∈ m, e.1 ≠ k) :
    (k, v) ∈ m.emplace k v := by
  induction m with
  | nil => simp [emplace]
  | cons hd tl ih =>
    obtain ⟨k', v'⟩ := hd
    simp only [emplace]
    split
    · exact List.mem_cons_self _ _
    · split
      · rename_i heq
        exact absurd heq.symm (h (k', v') (List.mem_cons_self _ _))
      · exact List.mem_cons_of_mem _ (ih (fun e he => h e (List.mem_cons_of_mem _ he)))

theorem Ascending.unique {m : AddrMap V} (hs : Ascending m) {k : Nat} {v v' : V}
    (h : (k, v) ∈ m) (h' : (k, v') ∈ m) : v = v' := by
  induction m with
  | nil => cases h
  | cons hd tl ih =>
    have hhd := (List.pairwise_cons.mp hs).1
    rcases List.mem_cons.mp h with h | h <;> rcases List.mem_cons.mp h' with h' | h'
    · rw [← h] at h'; exact (Prod.mk.inj h').2.symm
    · have := hhd _ h'; rw [← h] at this; simp at this
    · have := hhd _ h; rw [← h'] at this; simp at this
    · exact ih (List.pairwise_cons.mp hs).2 h h'

end AddrMap

/-! ## LEB128 decoding -/

theorem groupsValue_lt (bs : List Byte) : groupsValue bs < 2 ^ (7 * bs.length) := by
  induction bs with
  | nil => simp [groupsValue]
  | cons b bs ih =>
    have h : (2 : Nat) ^ (7 * (b :: bs).length) = 128 * 2 ^ (7 * bs.length) := by
      rw [List.length_cons, Nat.mul_succ, Nat.pow_add]; ring
    rw [h]
    simp only [groupsValue]
    have hb : b.val % 128 < 128 := Nat.mod_lt _ (by decide)
    omega

theorem groupsValue_eq_sum (bs : List Byte) :
    ∑ i in Finset.range bs.length, ((bs.getD i 0).val &&& 0x7F) * 2 ^ (7 * i) =
      groupsValue bs := by
  induction bs with
  | nil => simp [groupsValue]
  | cons b bs ih =>
    rw [List.length_cons, Finset.sum_range_succ', groupsValue, ← ih, Finset.mul_sum]
    have h7 : ∀ x : Nat, x &&& 0x7F = x % 128 := fun x => Nat.and_pow_two_sub_one_eq_mod x 7
    simp only [List.getD_cons_succ, List.getD_cons_zero, h7]
    rw [Nat.add_comm]
    congr 1
    · simp
    · apply Finset.sum_congr rfl
      intro i _
      rw [show 7 * (i + 1) = 7 * i + 7 from by ring, Nat.pow_add]
      ring

theorem Bytes.StartsWith.head {c : Bytes} {b : Byte} {bs : List Byte}
    (h : c.StartsWith (b :: bs)) :
    c.iget 1 = .ok (b.val, c.advance 1) ∧ (c.advance 1).StartsWith bs := by
  obtain ⟨h1, h2, h3, h4⟩ := h
  simp only [List.length_cons] at h2 h4
  have hlt : c.base_ - c.org < c.mem.length := by
    by_contra hc
    rw [List.drop_eq_nil_of_le (by omega)] at h4
    simp at h4
  have hget : c.mem.get? (c.base_ - c.org) = some b := by
    rw [List.drop_eq_getElem_cons hlt, List.take_succ_cons] at h4
    rw [List.get?_eq_getElem?, List.getElem?_eq_getElem hlt]
    exact congrArg some (List.cons.inj h4).1
  have htl : (c.mem.drop (c.base_ + 1 - c.org)).take bs.length = bs := by
    rw [List.drop_eq_getElem_cons hlt, List.take_succ_cons] at h4
    rw [show c.base_ + 1 - c.org = c.base_ - c.org + 1 from by omega]
    exact (List.cons.inj h4).2
  refine ⟨?_, ⟨by simp [Bytes.advance]; omega, by simp [Bytes.advance]; omega, h3, htl⟩⟩
  have hs : ¬ c.base_ > (c.limit_ + 2 ^ 64 - 1 % 2 ^ 64) % 2 ^ 64 := by omega
  have hb : (c.base_ + 1) % 2 ^ 64 = c.base_ + 1 := by omega
  simp only [Bytes.iget, Bytes.slice, if_neg hs, Bytes.loadLE, Bytes.load, if_pos h1, hget, hb,
    Bytes.advance]
  rfl

theorem Bytes.advance_advance (c : Bytes) (a b : Nat) :
    (c.advance a).advance b = c.advance (a + b) := by
  simp [Bytes.advance, Nat.add_assoc]

theorem Bytes.startsWith_nil_advance {c : Bytes} {bs : List Byte} (h : c.StartsWith bs) :
    (c.advance bs.length).StartsWith [] := by
  obtain ⟨h1, h2, h3, -⟩ := h
  exact ⟨by simp [Bytes.advance]; omega, by simpa [Bytes.advance] using h2, h3, by simp⟩

theorem Bytes.startsWith_cons {c : Bytes} {b : Byte} {bs : List Byte} :
    c.StartsWith (b :: bs) ↔
      c.org ≤ c.base_ ∧ c.mem.get? (c.base_ - c.org) = some b ∧ (c.advance 1).StartsWith bs := by
  constructor
  · intro h
    obtain ⟨h1, h2, h3, h4⟩ := h
    simp only [List.length_cons] at h2 h4
    have hlt : c.base_ - c.org < c.mem.length := by
      by_contra hc
      rw [List.drop_eq_nil_of_le (by omega)] at h4
      simp at h4
    rw [List.drop_eq_getElem_cons hlt, List.take_succ_cons] at h4
    refine ⟨h1, ?_, ⟨by simp [Bytes.advance]; omega, by simp [Bytes.advance]; omega, h3, ?_⟩⟩
    · rw [List.get?_eq_getElem?, List.getElem?_eq_getElem hlt]
      exact congrArg some (List.cons.inj h4).1
    · show (c.mem.drop (c.base_ + 1 - c.org)).take bs.length = bs
      rw [show c.base_ + 1 - c.org = c.base_ - c.org + 1 from by omega]
      exact (List.cons.inj h4).2
  · rintro ⟨h1, hget, ⟨t1, t2, t3, t4⟩⟩
    simp only [Bytes.advance] at t1 t2 t3 t4
    have hlt : c.base_ - c.org < c.mem.length := by
      rw [List.get?_eq_getElem?] at hget
      exact (List.getElem?_eq_some_iff.mp hget).1
    have hb : c.mem[c.base_ - c.org] = b := by
      rw [List.get?_eq_getElem?] at hget
      exact (List.getElem?_eq_some_iff.mp hget).2
    refine ⟨h1, by simp only [List.length_cons]; omega, t3, ?_⟩
    rw [List.length_cons, List.drop_eq_getElem_cons hlt, List.take_succ_cons, hb]
    rw [show c.base_ + 1 - c.org = c.base_ - c.org + 1 from by omega] at t4
    rw [t4]

theorem Bytes.StartsWith.append (xs : List Byte) :
    ∀ {c : Bytes} {ys : List Byte}, c.StartsWith (xs ++ ys) →
      c.StartsWith xs ∧ (c.advance xs.length).StartsWith ys := by
  induction xs with
  | nil =>
    intro c ys h
    refine ⟨⟨h.1, by simp only [List.length_nil]; have := h.2.1; omega, h.2.2.1, by simp⟩, ?_⟩
    simpa [Bytes.advance] using h
  | cons x xs ih =>
    intro c ys h
    obtain ⟨h1, hget, htl⟩ := Bytes.startsWith_cons.mp (show c.StartsWith (x :: (xs ++ ys)) from h)
    obtain ⟨hl, hr⟩ := ih htl
    refine ⟨Bytes.startsWith_cons.mpr ⟨h1, hget, hl⟩, ?_⟩
    rw [Bytes.advance_advance] at hr
    rw [List.length_cons, Nat.add_comm]
    exact hr

theorem Bytes.loadLE_advance (c : Bytes) (k : Nat) :
    ∀ (w a : Nat), (c.advance k).loadLE a w = c.loadLE a w := by
  intro w
  induction w with
  | zero => intro a; rfl
  | succ w ih =>
    intro a
    simp only [Bytes.loadLE, ih]
    rfl

theorem Bytes.loadLE_of_startsWith (bs : List Byte) :
    ∀ {c : Bytes}, c.StartsWith bs → c.loadLE c.base_ bs.length = .ok (leValue bs) := by
  induction bs with
  | nil => intro c _; rfl
  | cons b bs ih =>
    intro c h
    obtain ⟨h1, hget, htl⟩ := Bytes.startsWith_cons.mp h
    have hlim : c.base_ + 1 < 2 ^ 64 := by
      have := h.2.1; have := h.2.2.1
      simp only [List.length_cons] at *
      omega
    have hm : (c.base_ + 1) % 2 ^ 64 = c.base_ + 1 := Nat.mod_eq_of_lt hlim
    have hrest := ih htl
    rw [Bytes.loadLE_advance] at hrest
    simp only [Bytes.advance] at hrest
    simp only [List.length_cons, Bytes.loadLE, Bytes.load, if_pos h1, hget, hm, hrest, leValue,
      bind, Except.bind, pure, Except.pure]

theorem Bytes.slice_of_startsWith {c : Bytes} {bs : List Byte} (h : c.StartsWith bs) :
    c.slice bs.length = .ok (c.advance bs.length) := by
  obtain ⟨h1, h2, h3, -⟩ := h
  have hs : ¬ c.base_ > (c.limit_ + 2 ^ 64 - bs.length % 2 ^ 64) % 2 ^ 64 := by omega
  have hb : (c.base_ + bs.length) % 2 ^ 64 = c.base_ + bs.length := by omega
  simp only [Bytes.slice, if_neg hs, hb, Bytes.advance]

/-- Reading a little-endian integer of `bs.length` bytes from a cursor that starts with
`bs`. -/
theorem Bytes.iget_of_startsWith {c : Bytes} {bs : List Byte} (h : c.StartsWith bs) :
    c.iget bs.length = .ok (leValue bs, c.advance bs.length) := by
  simp only [Bytes.iget, Bytes.slice_of_startsWith h, Bytes.loadLE_of_startsWith bs h, bind,
    Except.bind, pure, Except.pure]

/-- One round of the accumulator of `uleb`: with the groups read so far in the top bits,
the next group is or-ed into the low bits and rotated to the top. -/
theorem uleb_roll (V g n e : Nat) (hne : n + e = 57) (hV : V < 2 ^ n) (hg : g < 2 ^ 7) :
    ((V * 2 ^ (e + 7) ||| g) >>> 7) ||| (((V * 2 ^ (e + 7) ||| g) <<< 57) % 2 ^ 64) =
      (V + 2 ^ n * g) * 2 ^ e := by
  have h1 : V * 2 ^ (e + 7) ||| g = 2 ^ 7 * (V * 2 ^ e) + g := by
    rw [Nat.mul_add_lt_is_or hg, Nat.pow_add]
    congr 1
    ring
  have hlow : V * 2 ^ e < 2 ^ 57 := by
    rw [← hne, Nat.pow_add]
    exact Nat.mul_lt_mul_of_pos_right hV (Nat.two_pow_pos e)
  have h2 : (2 ^ 7 * (V * 2 ^ e) + g) >>> 7 = V * 2 ^ e := by
    rw [Nat.shiftRight_eq_div_pow, Nat.mul_add_div (by decide), Nat.div_eq_of_lt hg]
    rfl
  have h3 : ((2 ^ 7 * (V * 2 ^ e) + g) <<< 57) % 2 ^ 64 = 2 ^ 57 * g := by
    rw [Nat.shiftLeft_eq]
    have : (2 ^ 7 * (V * 2 ^ e) + g) * 2 ^ 57 = 2 ^ 57 * g + 2 ^ 64 * (V * 2 ^ e) := by ring
    rw [this, Nat.add_mul_mod_self_left]
    apply Nat.mod_eq_of_lt
    have : g ≤ 127 := by
      have : (2 : Nat) ^ 7 = 128 := by norm_num
      omega
    calc 2 ^ 57 * g ≤ 2 ^ 57 * 127 := Nat.mul_le_mul_left _ this
      _ < 2 ^ 64 := by norm_num
  rw [h1, h2, h3, Nat.lor_comm, ← Nat.mul_add_lt_is_or hlow]
  have : (2 : Nat) ^ n * 2 ^ e = 2 ^ 57 := by rw [← Nat.pow_add, hne]
  calc 2 ^ 57 * g + V * 2 ^ e = V * 2 ^ e + (2 ^ n * 2 ^ e) * g := by rw [this]; ring
    _ = (V + 2 ^ n * g) * 2 ^ e := by ring

/-- One round of the loop of `uleb`, given the byte under the cursor. -/
theorem ulebLoop_succ (fuel : Nat) (c c' : Bytes) (z b : Nat) (r : Int)
    (h : c.iget 1 = .ok (b, c')) (hr : ¬ (r - 7 < -(2 ^ 31))) :
    Bytes.ulebLoop (fuel + 1) c z r =
      if b &&& 0x80 = 0 then
        .ok (((z ||| (b &&& 0x7f)) >>> 7) ||| (((z ||| (b &&& 0x7f)) <<< 57) % 2 ^ 64), r - 7, c')
      else
        Bytes.ulebLoop fuel c'
          (((z ||| (b &&& 0x7f)) >>> 7) ||| (((z ||| (b &&& 0x7f)) <<< 57) % 2 ^ 64)) (r - 7) := by
  rw [Bytes.ulebLoop, h]
  simp only [bind, Except.bind, if_neg hr, pure, Except.pure]

/-- The loop of `uleb` over `hi ++ [lo]`: with `n` value bits already gathered in the top
of the accumulator and `e = 64 - n` bits still free, the loop gathers every group. -/
theorem ulebLoop_run (hi : List Byte) (lo : Byte) (hhi : ∀ b ∈ hi, 128 ≤ b.val)
    (hlo : lo.val < 128) :
    ∀ (c : Bytes) (n e V fuel : Nat), n + e = 64 → 7 * (hi.length + 1) ≤ e → V < 2 ^ n →
      c.StartsWith (hi ++ [lo]) → hi.length < fuel →
      Bytes.ulebLoop fuel c (V * 2 ^ e) (e : Int) =
        .ok ((V + 2 ^ n * groupsValue (hi ++ [lo])) * 2 ^ (e - 7 * (hi.length + 1)),
          (e : Int) - 7 * ((hi.length : Int) + 1), c.advance (hi.length + 1)) := by
  induction hi with
  | nil =>
    intro c n e V fuel hne he hV hc hf
    obtain ⟨fuel, rfl⟩ : ∃ f, fuel = f + 1 := ⟨fuel - 1, by simp at hf; omega⟩
    obtain ⟨hget, -⟩ := hc.head
    simp only [List.length_nil, Nat.zero_add, Nat.mul_one] at he
    obtain ⟨e, rfl⟩ : ∃ e', e = e' + 7 := ⟨e - 7, by omega⟩
    have hand : lo.val &&& 0x7f = lo.val % 128 := Nat.and_pow_two_sub_one_eq_mod _ 7
    have hcont : lo.val &&& 0x80 = 0 := by
      have := lo.isLt
      interval_cases (lo.val) <;> rfl
    have hroll := uleb_roll V (lo.val % 128) n e (by omega) hV (Nat.mod_lt _ (by decide))
    have hr : ¬ (((e + 7 : Nat) : Int) - 7 < -(2 ^ 31)) := by omega
    rw [ulebLoop_succ fuel c _ _ _ _ hget hr, if_pos hcont, hand, hroll]
    simp only [groupsValue, List.nil_append, List.length_nil, Nat.zero_add, Nat.mul_one,
      Nat.mul_zero, Nat.add_zero, Nat.add_sub_cancel]
    norm_num
  | cons b hi ih =>
    intro c n e V fuel hne he hV hc hf
    obtain ⟨fuel, rfl⟩ : ∃ f, fuel = f + 1 := ⟨fuel - 1, by simp at hf; omega⟩
    obtain ⟨hget, htl⟩ := Bytes.StartsWith.head (show c.StartsWith (b :: (hi ++ [lo])) from hc)
    simp only [List.length_cons] at he hf
    obtain ⟨e, rfl⟩ : ∃ e', e = e' + 7 := ⟨e - 7, by omega⟩
    have hand : b.val &&& 0x7f = b.val % 128 := Nat.and_pow_two_sub_one_eq_mod _ 7
    have hb := hhi b (List.mem_cons_self _ _)
    have hcont : ¬ (b.val &&& 0x80 = 0) := by
      have := b.isLt
      interval_cases (b.val) <;> decide
    have hroll := uleb_roll V (b.val % 128) n e (by omega) hV (Nat.mod_lt _ (by decide))
    have hr : ¬ (((e + 7 : Nat) : Int) - 7 < -(2 ^ 31)) := by omega
    have hV2 : V + 2 ^ n * (b.val % 128) < 2 ^ (n + 7) := by
      rw [Nat.pow_add]
      have : b.val % 128 < 128 := Nat.mod_lt _ (by decide)
      have h128 : (2 : Nat) ^ 7 = 128 := by norm_num
      rw [h128]
      nlinarith [Nat.two_pow_pos n]
    have hih := ih (fun x hx => hhi x (List.mem_cons_of_mem _ hx)) (c.advance 1) (n + 7) e
      (V + 2 ^ n * (b.val % 128)) fuel (by omega) (by omega) hV2 htl (by omega)
    have hre : (((e + 7 : Nat) : Int) - 7) = (e : Int) := by omega
    rw [ulebLoop_succ fuel c _ _ _ _ hget hr, if_neg hcont, hand, hroll, hre, hih]
    simp only [List.cons_append, groupsValue, List.length_cons, Bytes.advance]
    have hp : (2 : Nat) ^ (n + 7) = 2 ^ n * 128 := by rw [Nat.pow_add]
    have he2 : e + 7 - 7 * (hi.length + 1 + 1) = e - 7 * (hi.length + 1) := by omega
    have hb2 : c.base_ + 1 + (hi.length + 1) = c.base_ + (hi.length + 1 + 1) := by omega
    rw [hp, he2, hb2]
    congr 3
    · ring_nf; rfl
    · push_cast; ring

theorem Bytes.StartsWith.length_le {c : Bytes} {bs : List Byte} (h : c.StartsWith bs) :
    bs.length ≤ c.mem.length := by
  have h4 := congrArg List.length h.2.2.2
  simp only [List.length_take, List.length_drop] at h4
  omega

/-- One round of the accumulator of `sleb`: the groups read so far move down by seven bits
and the next group enters at bit 57; bit 7 of the byte is shifted out. -/
theorem sleb_roll (V b n e : Nat) (hne : n + e = 57) (hV : V < 2 ^ n) :
    ((V * 2 ^ (e + 7)) >>> 7) ||| ((b <<< 57) % 2 ^ 64) = (V + 2 ^ n * (b % 128)) * 2 ^ e := by
  have hlow : V * 2 ^ e < 2 ^ 57 := by
    rw [← hne, Nat.pow_add]
    exact Nat.mul_lt_mul_of_pos_right hV (Nat.two_pow_pos e)
  have h2 : (V * 2 ^ (e + 7)) >>> 7 = V * 2 ^ e := by
    rw [Nat.shiftRight_eq_div_pow, Nat.pow_add, ← Nat.mul_assoc,
      Nat.mul_div_cancel _ (Nat.two_pow_pos 7)]
  have h3 : (b <<< 57) % 2 ^ 64 = 2 ^ 57 * (b % 128) := by
    rw [Nat.shiftLeft_eq]
    omega
  rw [h2, h3, Nat.lor_comm, ← Nat.mul_add_lt_is_or hlow]
  have : (2 : Nat) ^ n * 2 ^ e = 2 ^ 57 := by rw [← Nat.pow_add, hne]
  calc 2 ^ 57 * (b % 128) + V * 2 ^ e = V * 2 ^ e + (2 ^ n * 2 ^ e) * (b % 128) := by
        rw [this]; ring
    _ = (V + 2 ^ n * (b % 128)) * 2 ^ e := by ring

/-- One round of the loop of `sleb`, given the byte under the cursor. -/
theorem slebLoop_succ (fuel : Nat) (c c' : Bytes) (z b : Nat) (r : Int)
    (h : c.iget 1 = .ok (b, c')) (hr : ¬ (r - 7 < -(2 ^ 31))) :
    Bytes.slebLoop (fuel + 1) c z r =
      if b &&& 0x80 = 0 then .ok ((z >>> 7) ||| ((b <<< 57) % 2 ^ 64), r - 7, c')
      else Bytes.slebLoop fuel c' ((z >>> 7) ||| ((b <<< 57) % 2 ^ 64)) (r - 7) := by
  rw [Bytes.slebLoop, h]
  simp only [bind, Except.bind, if_neg hr, pure, Except.pure]

/-- The loop of `sleb` over `hi ++ [lo]`, in the same terms as `ulebLoop_run`. -/
theorem slebLoop_run (hi : List Byte) (lo : Byte) (hhi : ∀ b ∈ hi, 128 ≤ b.val)
    (hlo : lo.val < 128) :
    ∀ (c : Bytes) (n e V fuel : Nat), n + e = 64 → 7 * (hi.length + 1) ≤ e → V < 2 ^ n →
      c.StartsWith (hi ++ [lo]) → hi.length < fuel →
      Bytes.slebLoop fuel c (V * 2 ^ e) (e : Int) =
        .ok ((V + 2 ^ n * groupsValue (hi ++ [lo])) * 2 ^ (e - 7 * (hi.length + 1)),
          (e : Int) - 7 * ((hi.length : Int) + 1), c.advance (hi.length + 1)) := by
  induction hi with
  | nil =>
    intro c n e V fuel hne he hV hc hf
    obtain ⟨fuel, rfl⟩ : ∃ f, fuel = f + 1 := ⟨fuel - 1, by simp at hf; omega⟩
    obtain ⟨hget, -⟩ := hc.head
    simp only [List.length_nil, Nat.zero_add, Nat.mul_one] at he
    obtain ⟨e, rfl⟩ : ∃ e', e = e' + 7 := ⟨e - 7, by omega⟩
    have hcont : lo.val &&& 0x80 = 0 := by
      have := lo.isLt
      interval_cases (lo.val) <;> rfl
    have hroll := sleb_roll V lo.val n e (by omega) hV
    have hr : ¬ (((e + 7 : Nat) : Int) - 7 < -(2 ^ 31)) := by omega
    rw [slebLoop_succ fuel c _ _ _ _ hget hr, if_pos hcont, hroll]
    simp only [groupsValue, List.nil_append, List.length_nil, Nat.zero_add, Nat.mul_one,
      Nat.mul_zero, Nat.add_zero, Nat.add_sub_cancel]
    norm_num
  | cons b hi ih =>
    intro c n e V fuel hne he hV hc hf
    obtain ⟨fuel, rfl⟩ : ∃ f, fuel = f + 1 := ⟨fuel - 1, by simp at hf; omega⟩
    obtain ⟨hget, htl⟩ := Bytes.StartsWith.head (show c.StartsWith (b :: (hi ++ [lo])) from hc)
    simp only [List.length_cons] at he hf
    obtain ⟨e, rfl⟩ : ∃ e', e = e' + 7 := ⟨e - 7, by omega⟩
    have hb := hhi b (List.mem_cons_self _ _)
    have hcont : ¬ (b.val &&& 0x80 = 0) := by
      have := b.isLt
      interval_cases (b.val) <;> decide
    have hroll := sleb_roll V b.val n e (by omega) hV
    have hr : ¬ (((e + 7 : Nat) : Int) - 7 < -(2 ^ 31)) := by omega
    have hV2 : V + 2 ^ n * (b.val % 128) < 2 ^ (n + 7) := by
      rw [Nat.pow_add]
      have : b.val % 128 < 128 := Nat.mod_lt _ (by decide)
      have h128 : (2 : Nat) ^ 7 = 128 := by norm_num
      rw [h128]
      nlinarith [Nat.two_pow_pos n]
    have hih := ih (fun x hx => hhi x (List.mem_cons_of_mem _ hx)) (c.advance 1) (n + 7) e
      (V + 2 ^ n * (b.val % 128)) fuel (by omega) (by omega) hV2 htl (by omega)
    have hre : (((e + 7 : Nat) : Int) - 7) = (e : Int) := by omega
    rw [slebLoop_succ fuel c _ _ _ _ hget hr, if_neg hcont, hroll, hre, hih]
    simp only [List.cons_append, groupsValue, List.length_cons, Bytes.advance]
    have hp : (2 : Nat) ^ (n + 7) = 2 ^ n * 128 := by rw [Nat.pow_add]
    have he2 : e + 7 - 7 * (hi.length + 1 + 1) = e - 7 * (hi.length + 1) := by omega
    have hb2 : c.base_ + 1 + (hi.length + 1) = c.base_ + (hi.length + 1 + 1) := by omega
    rw [hp, he2, hb2]
    congr 3
    · ring_nf; rfl
    · push_cast; ring

theorem groupsValue_append (hi : List Byte) (lo : Byte) :
    groupsValue (hi ++ [lo]) = groupsValue hi + 2 ^ (7 * hi.length) * (lo.val % 128) := by
  induction hi with
  | nil => simp [groupsValue]
  | cons b hi ih =>
    show groupsValue (b :: (hi ++ [lo])) = _
    rw [groupsValue, ih, groupsValue, List.length_cons,
      show 7 * (hi.length + 1) = 7 * hi.length + 7 from by ring, Nat.pow_add]
    ring

/-- The result of `uleb` on a cursor that starts with at most nine groups. -/
theorem uleb_eq (zbits : Nat) (c : Bytes) (hi : List Byte) (lo : Byte) (hlen : hi.length ≤ 8)
    (hhi : ∀ b ∈ hi, 128 ≤ b.val) (hlo : lo.val < 128) (hc : c.StartsWith (hi ++ [lo])) :
    c.uleb zbits = .ok (groupsValue (hi ++ [lo]) % 2 ^ zbits, c.advance (hi.length + 1)) := by
  have hfuel : hi.length < c.mem.length + 1 := by
    have := hc.length_le
    simp only [List.length_append, List.length_singleton] at this
    omega
  have hrun := ulebLoop_run hi lo hhi hlo c 0 64 0 (c.mem.length + 1) rfl (by omega)
    (by norm_num) hc hfuel
  simp only [Nat.zero_mul, Nat.zero_add, Nat.pow_zero, Nat.one_mul, Nat.cast_ofNat] at hrun
  have hr0 : (0 : Int) ≤ 64 - 7 * ((hi.length : Int) + 1) := by omega
  have hr1 : (64 : Int) - 7 * ((hi.length : Int) + 1) < 64 := by omega
  have hrn : ((64 : Int) - 7 * ((hi.length : Int) + 1)).toNat = 64 - 7 * (hi.length + 1) := by
    omega
  have hval : (groupsValue (hi ++ [lo]) * 2 ^ (64 - 7 * (hi.length + 1))) >>>
      (64 - 7 * (hi.length + 1)) = groupsValue (hi ++ [lo]) := by
    rw [Nat.shiftRight_eq_div_pow, Nat.mul_div_cancel _ (Nat.two_pow_pos _)]
  simp only [Bytes.uleb, hrun, bind, Except.bind, Int.tmod_eq_of_lt hr0 hr1,
    if_neg (not_lt.mpr hr0), hrn, hval, pure, Except.pure]

/-- C9. For every cursor whose first `k` bytes (`1 ≤ k ≤ 9`) are `k - 1` bytes with the
high bit set (`hi`) followed by one byte with the high bit clear (`lo`), `uleb` into a
`uint64_t` stores `Σ_{i<k} (b_i & 0x7F) · 2^(7i)` and returns the cursor advanced by exactly
`k` bytes; the four sample encodings decode to 624485, 127, 128 and 0. -/
theorem uleb_decodes_groups :
    (∀ (c : Bytes) (hi : List Byte) (lo : Byte), hi.length ≤ 8 → (∀ b ∈ hi, 128 ≤ b.val) →
      lo.val < 128 → c.StartsWith (hi ++ [lo]) →
      c.uleb 64 =
        .ok (∑ i in Finset.range (hi.length + 1),
              (((hi ++ [lo]).getD i 0).val &&& 0x7F) * 2 ^ (7 * i),
            c.advance (hi.length + 1))) ∧
    (Bytes.ofList [0xE5, 0x8E, 0x26]).uleb 64 = .ok (624485, (Bytes.ofList [0xE5, 0x8E, 0x26]).advance 3) ∧
    (Bytes.ofList [0x7F]).uleb 64 = .ok (127, (Bytes.ofList [0x7F]).advance 1) ∧
    (Bytes.ofList [0x80, 0x01]).uleb 64 = .ok (128, (Bytes.ofList [0x80, 0x01]).advance 2) ∧
    (Bytes.ofList [0x00]).uleb 64 = .ok (0, (Bytes.ofList [0x00]).advance 1) := by
  refine ⟨?_, by decide, by decide, by decide, by decide⟩
  intro c hi lo hlen hhi hlo hc
  have hsum := groupsValue_eq_sum (hi ++ [lo])
  simp only [List.length_append, List.length_singleton] at hsum
  have hlt := groupsValue_lt (hi ++ [lo])
  simp only [List.length_append, List.length_singleton] at hlt
  have hmod : groupsValue (hi ++ [lo]) % 2 ^ 64 = groupsValue (hi ++ [lo]) := by
    apply Nat.mod_eq_of_lt
    calc groupsValue (hi ++ [lo]) < 2 ^ (7 * (hi.length + 1)) := hlt
      _ ≤ 2 ^ 64 := Nat.pow_le_pow_right (by decide) (by omega)
  rw [uleb_eq 64 c hi lo hlen hhi hlo hc, hmod, hsum]

/-- Witness for C9: the three bytes `E5 8E 26` at the head of a longer buffer. -/
theorem uleb_decodes_groups_witness :
    (Bytes.ofList [0xE5, 0x8E, 0x26, 0xFF]).uleb 64 =
      .ok (∑ i in Finset.range (2 + 1),
            ((List.getD [(0xE5 : Byte), 0x8E, 0x26] i 0).val &&& 0x7F) * 2 ^ (7 * i),
          (Bytes.ofList [0xE5, 0x8E, 0x26, 0xFF]).advance (2 + 1)) :=
  uleb_decodes_groups.1 (Bytes.ofList [0xE5, 0x8E, 0x26, 0xFF]) [0xE5, 0x8E] 0x26
    (by decide) (by intro b hb; simp at hb; rcases hb with rfl | rfl <;> decide) (by decide)
    (by decide)

/-- The arithmetic shift that ends `sleb`: the groups sit in the top `7k` bits of the
accumulator, and shifting the `int64_t` right by `64 - 7k` sign-extends from their top bit. -/
theorem sleb_final (A l L s : Nat) (hA : A < 2 ^ (7 * L)) (hl : l < 128)
    (hs : 7 * (L + 1) + s = 64) :
    Bytes.toInt64 ((A + 2 ^ (7 * L) * l) * 2 ^ s) >>> s =
      if l < 64 then ((A + 2 ^ (7 * L) * l : Nat) : Int)
      else ((A + 2 ^ (7 * L) * l : Nat) : Int) - 2 ^ (7 * (L + 1)) := by
  have hQ : (2 : Nat) ^ (7 * L) * 2 ^ s = 2 ^ 57 := by
    rw [← Nat.pow_add]; congr 1; omega
  have hX : A * 2 ^ s < 2 ^ 57 := by
    rw [← hQ]; exact Nat.mul_lt_mul_of_pos_right hA (Nat.two_pow_pos s)
  have hz : (A + 2 ^ (7 * L) * l) * 2 ^ s = A * 2 ^ s + 2 ^ 57 * l := by
    rw [← hQ]; ring
  have hK : ((2 : Int) ^ (7 * (L + 1))) * 2 ^ s = 2 ^ 64 := by
    rw [← pow_add]; congr 1
  have hS : ((2 : Int) ^ s) ≠ 0 := by positivity
  rw [Int.shiftRight_eq_div_pow]
  unfold Bytes.toInt64
  have hmod : ((A + 2 ^ (7 * L) * l) * 2 ^ s) % 2 ^ 64 = (A + 2 ^ (7 * L) * l) * 2 ^ s := by
    apply Nat.mod_eq_of_lt
    rw [hz]; omega
  rw [hmod]
  by_cases h64 : l < 64
  · have hlt : (A + 2 ^ (7 * L) * l) * 2 ^ s < 2 ^ 63 := by rw [hz]; omega
    rw [if_pos hlt, if_pos h64]
    push_cast
    exact Int.mul_ediv_cancel _ hS
  · have hge : ¬ (A + 2 ^ (7 * L) * l) * 2 ^ s < 2 ^ 63 := by rw [hz]; omega
    rw [if_neg hge, if_neg h64]
    push_cast
    have h18 : (18446744073709551616 : Int) = 2 ^ 64 := by norm_num
    have : ((A : Int) + 2 ^ (7 * L) * (l : Int)) * 2 ^ s - 18446744073709551616 =
        ((A : Int) + 2 ^ (7 * L) * (l : Int) - 2 ^ (7 * (L + 1))) * 2 ^ s := by
      rw [h18, ← hK]; ring
    rw [this]
    exact Int.mul_ediv_cancel _ hS

/-- C10. For every cursor whose first `k` bytes (`1 ≤ k ≤ 9`) are `k - 1` bytes with the
high bit set (`hi`) followed by one byte with the high bit clear (`lo`), `sleb` into an
`int64_t` stores the `7k`-bit two's-complement value of the groups, group `i` contributing
bits `7i .. 7i+6` and the sign taken from bit 6 of the last group, and returns the cursor
advanced by exactly `k` bytes; the four sample encodings decode to -1, 64, -64 and 0. -/
theorem sleb_decodes_groups :
    (∀ (c : Bytes) (hi : List Byte) (lo : Byte), hi.length ≤ 8 → (∀ b ∈ hi, 128 ≤ b.val) →
      lo.val < 128 → c.StartsWith (hi ++ [lo]) →
      c.sleb =
        .ok ((if lo.val &&& 0x40 = 0 then
                ((∑ i in Finset.range (hi.length + 1),
                  (((hi ++ [lo]).getD i 0).val &&& 0x7F) * 2 ^ (7 * i) : Nat) : Int)
              else
                ((∑ i in Finset.range (hi.length + 1),
                  (((hi ++ [lo]).getD i 0).val &&& 0x7F) * 2 ^ (7 * i) : Nat) : Int)
                  - 2 ^ (7 * (hi.length + 1))),
            c.advance (hi.length + 1))) ∧
    (Bytes.ofList [0x7F]).sleb = .ok (-1, (Bytes.ofList [0x7F]).advance 1) ∧
    (Bytes.ofList [0xC0, 0x00]).sleb = .ok (64, (Bytes.ofList [0xC0, 0x00]).advance 2) ∧
    (Bytes.ofList [0xC0, 0x7F]).sleb = .ok (-64, (Bytes.ofList [0xC0, 0x7F]).advance 2) ∧
    (Bytes.ofList [0x00]).sleb = .ok (0, (Bytes.ofList [0x00]).advance 1) := by
  refine ⟨?_, by decide, by decide, by decide, by decide⟩
  intro c hi lo hlen hhi hlo hc
  have hfuel : hi.length < c.mem.length + 1 := by
    have := hc.length_le
    simp only [List.length_append, List.length_singleton] at this
    omega
  have hrun := slebLoop_run hi lo hhi hlo c 0 64 0 (c.mem.length + 1) rfl (by omega)
    (by norm_num) hc hfuel
  have hsum := groupsValue_eq_sum (hi ++ [lo])
  simp only [List.length_append, List.length_singleton] at hsum
  simp only [Nat.zero_mul, Nat.zero_add, Nat.pow_zero, Nat.one_mul, Nat.cast_ofNat] at hrun
  have hr : ¬ ((64 : Int) - 7 * ((hi.length : Int) + 1) < 0 ∨
      (64 : Int) ≤ 64 - 7 * ((hi.length : Int) + 1)) := by omega
  have hrn : ((64 : Int) - 7 * ((hi.length : Int) + 1)).toNat = 64 - 7 * (hi.length + 1) := by
    omega
  have hbit : (lo.val &&& 0x40 = 0) ↔ lo.val % 128 < 64 := by
    have := lo.isLt
    interval_cases (lo.val) <;> decide
  have hfin := sleb_final (groupsValue hi) (lo.val % 128) hi.length (64 - 7 * (hi.length + 1))
    (groupsValue_lt hi) (Nat.mod_lt _ (by decide)) (by omega)
  rw [← groupsValue_append] at hfin
  simp only [Bytes.sleb, hrun, bind, Except.bind, if_neg hr, hrn, hfin, hsum, pure, Except.pure,
    hbit]

/-- Witness for C10: the two bytes `C0 7F` at the head of a longer buffer decode to -64. -/
theorem sleb_decodes_groups_witness :
    (Bytes.ofList [0xC0, 0x7F, 0x01]).sleb =
      .ok ((if (0x7F : Byte).val &&& 0x40 = 0 then
              ((∑ i in Finset.range (1 + 1),
                ((List.getD [(0xC0 : Byte), 0x7F] i 0).val &&& 0x7F) * 2 ^ (7 * i) : Nat) : Int)
            else
              ((∑ i in Finset.range (1 + 1),
                ((List.getD [(0xC0 : Byte), 0x7F] i 0).val &&& 0x7F) * 2 ^ (7 * i) : Nat) : Int)
                - 2 ^ (7 * (1 + 1))),
          (Bytes.ofList [0xC0, 0x7F, 0x01]).advance (1 + 1)) :=
  sleb_decodes_groups.1 (Bytes.ofList [0xC0, 0x7F, 0x01]) [0xC0] 0x7F
    (by decide) (by intro b hb; simp at hb; subst hb; decide) (by decide) (by decide)

/-! ## The location cache of `DWARFDebugTable` -/

namespace DWARFDebugTable

/-- The inner loop of `sourceLocAtAddr` changes the cache by `emplace` calls only. -/
theorem driveMachine_emplaces :
    ∀ (fuel : Nat) (t t' : DWARFDebugTable), driveMachine fuel t = .ok t' →
      ∃ ops, t'.locs_ = t.locs_.emplaceAll ops := by
  intro fuel
  induction fuel with
  | zero => intro t t' h; simp [driveMachine] at h
  | succ fuel ih =>
    intro t t' h
    rw [driveMachine] at h
    split at h
    · cases h; exact ⟨[], rfl⟩
    · rename_i m hm
      cases hn : m.nextLoc with
      | error e => simp [hn, bind, Except.bind] at h
      | ok r =>
        obtain ⟨loc, m'⟩ := r
        simp only [hn, bind, Except.bind] at h
        split at h
        · obtain ⟨ops, hops⟩ := ih _ _ h
          exact ⟨(loc.addr_, loc) :: ops, hops⟩
        · obtain ⟨ops, hops⟩ := ih _ _ h
          exact ⟨(maxAddr, SourceLoc.empty) :: ops, hops⟩

/-- The outer loop of `sourceLocAtAddr` changes the cache by `emplace` calls only. -/
theorem driveUnits_emplaces :
    ∀ (fuel : Nat) (t t' : DWARFDebugTable), driveUnits fuel t = .ok t' →
      ∃ ops, t'.locs_ = t.locs_.emplaceAll ops := by
  intro fuel
  induction fuel with
  | zero => intro t t' h; simp [driveUnits] at h
  | succ fuel ih =>
    intro t t' h
    rw [driveUnits] at h
    split at h
    · cases hm : t.machine_ with
      | some m =>
        simp only [hm, bind, Except.bind, pure, Except.pure] at h
        cases hd : driveMachine (t.lineData_.mem.length + 2) t with
        | error e => simp [hd] at h
        | ok t1 =>
          simp only [hd] at h
          obtain ⟨ops1, h1⟩ := driveMachine_emplaces _ _ _ hd
          obtain ⟨ops2, h2⟩ := ih _ _ h
          exact ⟨ops1 ++ ops2, by rw [h2, h1, AddrMap.emplaceAll_append]⟩
      | none =>
        simp only [hm, bind, Except.bind, pure, Except.pure] at h
        cases hnew : DWARF5DebugMachine.new t.lineData_ t.lineStrs_ with
        | error e => simp [hnew] at h
        | ok m =>
          simp only [hnew] at h
          cases hd : driveMachine (m.nextUnit_.mem.length + 2)
              { t with machine_ := some m, lineData_ := m.nextUnit_ } with
          | error e => simp [hd] at h
          | ok t1 =>
            simp only [hd] at h
            obtain ⟨ops1, h1⟩ := driveMachine_emplaces _ _ _ hd
            obtain ⟨ops2, h2⟩ := ih _ _ h
            exact ⟨ops1 ++ ops2, by rw [h2, h1, AddrMap.emplaceAll_append]⟩
    · cases h; exact ⟨[], rfl⟩

/-- Every cache built from the constructor's by `emplace` calls is in ascending key order
and still starts with the low sentinel `(0, empty)`. -/
theorem cache_low_sentinel (lineData lineStrs : Bytes) (ops : List (Nat × SourceLoc)) :
    ∃ rest, (new lineData lineStrs).locs_.emplaceAll ops = (0, SourceLoc.empty) :: rest ∧
      AddrMap.Ascending ((0, SourceLoc.empty) :: rest) := by
  have h0 : (new lineData lineStrs).locs_ = [(0, SourceLoc.empty)] := rfl
  rw [h0]
  exact AddrMap.emplaceAll_head_zero ops SourceLoc.empty [] (by simp [AddrMap.Ascending])

/-- The lookup that ends `sourceLocAtAddr` is defined on every such cache and yields the
entry under the greatest key `≤ addr`. -/
theorem floorLoc_spec (rest : AddrMap SourceLoc)
    (hs : AddrMap.Ascending ((0, SourceLoc.empty) :: rest)) (addr : Nat) :
    ∃ k v, floorLoc ((0, SourceLoc.empty) :: rest) addr = .ok v ∧
      (k, v) ∈ ((0, SourceLoc.empty) :: rest) ∧ k ≤ addr ∧
      ∀ e ∈ ((0, SourceLoc.empty) :: rest), e.1 ≤ addr → e.1 ≤ k := by
  have hub : AddrMap.upperBound ((0, SourceLoc.empty) :: rest) addr =
      AddrMap.upperBound rest addr + 1 := by
    simp [AddrMap.upperBound]
  obtain ⟨e, hget, hmem, hle, hmax⟩ := AddrMap.upperBound_pred hs addr _ hub
  refine ⟨e.1, e.2, ?_, hmem, hle, hmax⟩
  simp only [floorLoc, hub, hget]

/-- C2. For every cache state of a table (the constructor's cache followed by any
`emplace` calls) and every address, once the interpreter has been driven (`driveUnits`
returns the table `t'`), `sourceLocAtAddr(addr)` returns the `SourceLoc` stored under the
greatest cached key `≤ addr`; the step back from `upper_bound(addr)` is defined, the low
sentinel `(0, empty)` still being the first entry of the cache. -/
theorem sourceLocAtAddr_returns_floor (lineData lineStrs : Bytes)
    (ops : List (Nat × SourceLoc)) (t t' : DWARFDebugTable) (addr : Nat)
    (hcache : t.locs_ = (new lineData lineStrs).locs_.emplaceAll ops)
    (hdriven : driveUnits (t.lineData_.mem.length + 2) t = .ok t') :
    ∃ k v, t.sourceLocAtAddr addr = .ok (v, t') ∧
      (k, v) ∈ t'.locs_ ∧ (∀ v', (k, v') ∈ t'.locs_ → v' = v) ∧ k ≤ addr ∧
      (∀ e ∈ t'.locs_, e.1 ≤ addr → e.1 ≤ k) ∧
      t'.locs_.head? = some (0, SourceLoc.empty) := by
  obtain ⟨ops', hops'⟩ := driveUnits_emplaces _ _ _ hdriven
  rw [hcache, ← AddrMap.emplaceAll_append] at hops'
  obtain ⟨rest, hrest, hs⟩ := cache_low_sentinel lineData lineStrs (ops ++ ops')
  rw [hrest] at hops'
  obtain ⟨k, v, hfl, hmem, hle, hmax⟩ := floorLoc_spec rest hs addr
  refine ⟨k, v, ?_, ?_, ?_, hle, ?_, ?_⟩
  · simp only [sourceLocAtAddr, hdriven, bind, Except.bind, hops', hfl, pure, Except.pure]
  · rw [hops']; exact hmem
  · intro v' hv'
    rw [hops'] at hv'
    exact AddrMap.Ascending.unique hs hv' hmem
  · rw [hops']; exact hmax
  · rw [hops']; rfl

/-- Witness for C2: the table over the sample unit, queried at `0x1002` before the
interpreter has run; the driven table has the cache `0, 0x1001, MAX`. -/
theorem sourceLocAtAddr_returns_floor_witness :
    ∃ t', driveUnits ((Sample.tableOf (Sample.unitOf Sample.header Sample.program)).lineData_.mem.length + 2)
        (Sample.tableOf (Sample.unitOf Sample.header Sample.program)) = .ok t' ∧
      t'.locs_ = [(0, SourceLoc.empty), (0x1001, Sample.row 0x1001 4294967295),
        (maxAddr, SourceLoc.empty)] ∧
      ∃ k v, (Sample.tableOf (Sample.unitOf Sample.header Sample.program)).sourceLocAtAddr 0x1002
          = .ok (v, t') ∧
        (k, v) ∈ t'.locs_ ∧ (∀ v', (k, v') ∈ t'.locs_ → v' = v) ∧ k ≤ 0x1002 ∧
        (∀ e ∈ t'.locs_, e.1 ≤ 0x1002 → e.1 ≤ k) ∧
        t'.locs_.head? = some (0, SourceLoc.empty) :=
  match h : driveUnits ((Sample.tableOf (Sample.unitOf Sample.header Sample.program)).lineData_.mem.length + 2)
      (Sample.tableOf (Sample.unitOf Sample.header Sample.program)) with
  | .ok t' =>
    ⟨t', rfl, by
      have h2 : (driveUnits ((Sample.tableOf (Sample.unitOf Sample.header Sample.program)).lineData_.mem.length + 2)
        (Sample.tableOf (Sample.unitOf Sample.header Sample.program))).map (·.locs_) =
          .ok [(0, SourceLoc.empty), (0x1001, Sample.row 0x1001 4294967295),
            (maxAddr, SourceLoc.empty)] := by decide
      rw [h] at h2
      exact Except.ok.inj h2,
      sourceLocAtAddr_returns_floor (Sample.sections (Sample.unitOf Sample.header Sample.program)).1
        (Sample.sections (Sample.unitOf Sample.header Sample.program)).2 []
        (Sample.tableOf (Sample.unitOf Sample.header Sample.program)) t' 0x1002 rfl h⟩
  | .error e => by
    have h2 : (driveUnits ((Sample.tableOf (Sample.unitOf Sample.header Sample.program)).lineData_.mem.length + 2)
        (Sample.tableOf (Sample.unitOf Sample.header Sample.program))).toBool = true := by decide
    rw [h] at h2
    cases h2

/-- On a cache with the low sentinel, the lookup at a cached key yields its entry. -/
theorem floorLoc_of_mem (rest : AddrMap SourceLoc)
    (hs : AddrMap.Ascending ((0, SourceLoc.empty) :: rest)) {k : Nat} {v : SourceLoc}
    (h : (k, v) ∈ ((0, SourceLoc.empty) :: rest)) :
    floorLoc ((0, SourceLoc.empty) :: rest) k = .ok v := by
  obtain ⟨k0, v0, hfl, hmem, hle, hmax⟩ := floorLoc_spec rest hs k
  have hk : k0 = k := Nat.le_antisymm hle (hmax (k, v) h (Nat.le_refl _))
  subst hk
  rw [hfl, AddrMap.Ascending.unique hs hmem h]

/-- C3 as stated fails. The unit whose program is `set_address 0x1000; copy;
advance_line 1; copy; end_sequence` makes the machine emit the row (0x1000, line 1) and then
the row (0x1000, line 2); after `sourceLocAtAddr` has consumed both, the entry under the
greatest cached key `≤ 0x1000` carries line 1, not line 2. -/
theorem later_row_at_cached_address_is_dropped :
    (Sample.machineOf Sample.programRepeatedAddr).nextLoc.map Prod.fst
      = .ok (Sample.row 0x1000 1) ∧
    (({ Sample.machineOf Sample.programRepeatedAddr with
          addr := 0x1000
          insn_ := (Sample.machineOf Sample.programRepeatedAddr).insn_.advance 12 } :
        DWARF5DebugMachine).nextLoc).map Prod.fst = .ok (Sample.row 0x1000 2) ∧
    ((Sample.tableOf (Sample.unitOf Sample.header Sample.programRepeatedAddr)).sourceLocAtAddr
        0x1000).map (fun r => r.1.line_) = .ok 1 := by
  refine ⟨by decide, by decide, by decide⟩

/-- C3, amended. Let the cache of a table be any cache state (the constructor's cache
followed by `emplace` calls), let its machine emit the non-empty row `loc` next, and let
the inner loop of `sourceLocAtAddr` run to its end from there. If no entry was cached under
`loc.addr_` before, the entry under the greatest cached key `≤ loc.addr_` is `loc` itself,
so it carries the row's line; if an entry was cached under `loc.addr_` before (an earlier
row with that address, or a sentinel), it is that earlier entry: the row is not stored. -/
theorem floor_is_first_entry_at_row_address (lineData lineStrs : Bytes)
    (ops : List (Nat × SourceLoc)) (t : DWARFDebugTable) (m : DWARF5DebugMachine)
    (loc : SourceLoc) (fuel : Nat)
    (hcache : t.locs_ = (new lineData lineStrs).locs_.emplaceAll ops)
    (hm : t.machine_ = some m)
    (hrow : m.nextLoc.map Prod.fst = .ok loc) (hne : loc.toBool = true)
    (hdriven : (driveMachine (fuel + 1) t).toBool = true) :
    ((∀ e ∈ t.locs_, e.1 ≠ loc.addr_) →
      (driveMachine (fuel + 1) t >>= fun t' => floorLoc t'.locs_ loc.addr_) = .ok loc) ∧
    (∀ earlier, (loc.addr_, earlier) ∈ t.locs_ →
      (driveMachine (fuel + 1) t >>= fun t' => floorLoc t'.locs_ loc.addr_) = .ok earlier) := by
  cases hn : m.nextLoc with
  | error e => rw [hn] at hrow; cases hrow
  | ok r =>
    obtain ⟨loc', m'⟩ := r
    rw [hn] at hrow
    have hloc : loc' = loc := Except.ok.inj hrow
    subst hloc
    have hstep : driveMachine (fuel + 1) t = driveMachine fuel
        { t with locs_ := t.locs_.emplace loc'.addr_ loc', machine_ := some m' } := by
      rw [driveMachine]
      simp only [hm, hn, bind, Except.bind, hne, if_true]
    rw [hstep] at hdriven ⊢
    cases hd : driveMachine fuel
        { t with locs_ := t.locs_.emplace loc'.addr_ loc', machine_ := some m' } with
    | error e => rw [hd] at hdriven; cases hdriven
    | ok t' =>
      obtain ⟨later, hlater⟩ := driveMachine_emplaces _ _ _ hd
      simp only at hlater
      have hshape : t'.locs_ = (new lineData lineStrs).locs_.emplaceAll
          (ops ++ [(loc'.addr_, loc')] ++ later) := by
        rw [hlater, hcache, AddrMap.emplaceAll_append, AddrMap.emplaceAll_append]
        rfl
      obtain ⟨rest, hrest, hs⟩ := cache_low_sentinel lineData lineStrs
        (ops ++ [(loc'.addr_, loc')] ++ later)
      rw [hrest] at hshape
      simp only [bind, Except.bind]
      constructor
      · intro hfresh
        have hmem : (loc'.addr_, loc') ∈ t'.locs_ := by
          rw [hlater]
          exact AddrMap.mem_emplaceAll_of_mem later (AddrMap.mem_emplace_self _ _ hfresh)
        rw [hshape] at hmem ⊢
        exact floorLoc_of_mem rest hs hmem
      · intro earlier hearlier
        have hmem : (loc'.addr_, earlier) ∈ t'.locs_ := by
          rw [hlater]
          exact AddrMap.mem_emplaceAll_of_mem later (AddrMap.mem_emplace_of_mem _ _ hearlier)
        rw [hshape] at hmem ⊢
        exact floorLoc_of_mem rest hs hmem

/-- Witness for the amended C3: the table has cached the row (0x1000, line 1) and its
machine emits the row (0x1000, line 2) next. -/
theorem floor_is_first_entry_at_row_address_witness :
    ((∀ e ∈ (AddrMap.emplaceAll (new (Sample.sections (Sample.unitOf Sample.header
          Sample.programRepeatedAddr)).1 (Sample.sections (Sample.unitOf Sample.header
          Sample.programRepeatedAddr)).2).locs_ [(0x1000, Sample.row 0x1000 1)]),
        e.1 ≠ (Sample.row 0x1000 2).addr_) →
      (driveMachine (9 + 1)
        { Sample.tableOf (Sample.unitOf Sample.header Sample.programRepeatedAddr) with
          locs_ := [(0, SourceLoc.empty), (0x1000, Sample.row 0x1000 1)]
          machine_ := some
            { Sample.machineOf Sample.programRepeatedAddr with
              addr := 0x1000
              insn_ := (Sample.machineOf Sample.programRepeatedAddr).insn_.advance 12 } }
        >>= fun t' => floorLoc t'.locs_ (Sample.row 0x1000 2).addr_)
        = .ok (Sample.row 0x1000 2)) ∧
    (∀ earlier, ((Sample.row 0x1000 2).addr_, earlier) ∈
        ([(0, SourceLoc.empty), (0x1000, Sample.row 0x1000 1)] : AddrMap SourceLoc) →
      (driveMachine (9 + 1)
        { Sample.tableOf (Sample.unitOf Sample.header Sample.programRepeatedAddr) with
          locs_ := [(0, SourceLoc.empty), (0x1000, Sample.row 0x1000 1)]
          machine_ := some
            { Sample.machineOf Sample.programRepeatedAddr with
              addr := 0x1000
              insn_ := (Sample.machineOf Sample.programRepeatedAddr).insn_.advance 12 } }
        >>= fun t' => floorLoc t'.locs_ (Sample.row 0x1000 2).addr_) = .ok earlier) :=
  floor_is_first_entry_at_row_address
    (Sample.sections (Sample.unitOf Sample.header Sample.programRepeatedAddr)).1
    (Sample.sections (Sample.unitOf Sample.header Sample.programRepeatedAddr)).2
    [(0x1000, Sample.row 0x1000 1)]
    { Sample.tableOf (Sample.unitOf Sample.header Sample.programRepeatedAddr) with
      locs_ := [(0, SourceLoc.empty), (0x1000, Sample.row 0x1000 1)]
      machine_ := some
        { Sample.machineOf Sample.programRepeatedAddr with
          addr := 0x1000
          insn_ := (Sample.machineOf Sample.programRepeatedAddr).insn_.advance 12 } }
    { Sample.machineOf Sample.programRepeatedAddr with
      addr := 0x1000
      insn_ := (Sample.machineOf Sample.programRepeatedAddr).insn_.advance 12 }
    (Sample.row 0x1000 2) 9 (by decide) rfl (by decide) (by decide) (by decide)

/-- C4 (the code departs from the claim). The unit whose program is `advance_line -1;
copy; set_address 0x2000; advance_line 5; copy; end_sequence` parses, and `DW_LNS_copy`
makes the machine emit the row with `addr = 0` and `line = 0` while 17 bytes of instructions
remain. `SourceLoc::operator bool` is false on that row, so `sourceLocAtAddr` takes it for
the end-of-data signal: the machine is discarded and the high sentinel inserted, and the
row (0x2000, line 5) that the machine would emit next never reaches the cache, which ends
as `0, MAX`. -/
theorem zero_row_taken_for_end_of_data :
    DWARF5DebugMachine.new (Sample.sections (Sample.unitOf Sample.header Sample.programZeroRow)).1
        (Sample.sections (Sample.unitOf Sample.header Sample.programZeroRow)).2
      = .ok (Sample.machineOf Sample.programZeroRow) ∧
    (Sample.machineOf Sample.programZeroRow).nextLoc
      = .ok (Sample.row 0 0,
          { Sample.machineOf Sample.programZeroRow with
            line := 0
            insn_ := (Sample.machineOf Sample.programZeroRow).insn_.advance 3 }) ∧
    (Sample.row 0 0).toBool = false ∧
    ((Sample.machineOf Sample.programZeroRow).insn_.advance 3).size = 17 ∧
    (({ Sample.machineOf Sample.programZeroRow with
          line := 0
          insn_ := (Sample.machineOf Sample.programZeroRow).insn_.advance 3 } :
        DWARF5DebugMachine).nextLoc).map Prod.fst = .ok (Sample.row 0x2000 5) ∧
    ((Sample.tableOf (Sample.unitOf Sample.header Sample.programZeroRow)).sourceLocAtAddr
        0x2000).map (fun r => (r.1, r.2.locs_, r.2.machine_))
      = .ok (SourceLoc.empty, [(0, SourceLoc.empty), (maxAddr, SourceLoc.empty)], none) := by
  refine ⟨by decide, by decide, by decide, by decide, by decide, by decide⟩

end DWARFDebugTable

/-! ## Header parse -/

/-- C5 (the code departs from the claim). A well-formed header whose file-entry format has
two entries, `(path, line_strp)` and `(dirindex, udata)`, and whose `fileCount` is 2 parses
into a `filenames` sequence of four records, not two: `emplace_back` sits inside the loop
over the format entries, so a copy of the record is appended after each value. The records
hold 1, 2, 1 and 2 values; record 1 is the complete record of file 0, not that of file 1.
With the one-entry directory format, `directories` has one record for `dirCount = 1`. -/
theorem record_appended_after_each_value :
    (Sample.headerTwoValues.drop 39).head? = some 2 ∧
    (DWARF5DebugMachine.new
        (Sample.sections (Sample.unitOf Sample.headerTwoValues Sample.programCopy)).1
        (Sample.sections (Sample.unitOf Sample.headerTwoValues Sample.programCopy)).2).map
      (fun m => (m.fileEntryFormats.length, m.filenames.length, m.directories.length))
      = .ok (2, 4, 1) ∧
    (DWARF5DebugMachine.new
        (Sample.sections (Sample.unitOf Sample.headerTwoValues Sample.programCopy)).1
        (Sample.sections (Sample.unitOf Sample.headerTwoValues Sample.programCopy)).2).map
      (fun m => (m.filenames.map (fun d => d.values), m.filenames.map (fun d => d.pathStr)))
      = .ok ([1, 2, 1, 2],
          [[0x61, 0x2e, 0x63], [0x61, 0x2e, 0x63], [0x62, 0x2e, 0x63], [0x62, 0x2e, 0x63]]) := by
  refine ⟨by decide, by decide, by decide⟩

end ObjReader

namespace ObjReader

namespace DWARF5DebugMachine

/-! ## Steps of the line-number machine -/

theorem toBool_of_startsWith {c : Bytes} {b : Byte} {bs : List Byte}
    (h : c.StartsWith (b :: bs)) : c.toBool = true := by
  obtain ⟨h1, h2, h3, -⟩ := h
  simp only [List.length_cons] at h2
  simp only [Bytes.toBool, Bytes.size, bne_iff_ne, ne_eq]
  omega

/-- The dispatch of `nextLoc(SourceLoc &)` on the opcode byte under the cursor. -/
theorem nextLocInto_of_startsWith (m : DWARF5DebugMachine) (ret : SourceLoc) (op : Byte)
    (bs : List Byte) (hinsn : m.insn_.StartsWith (op :: bs)) :
    m.nextLocInto ret =
      if op.val = 0 then
        ({ m with insn_ := m.insn_.advance 1 } : DWARF5DebugMachine).extendedOpcode ret
      else if op.val < m.header_.opcodeBase then
        ({ m with insn_ := m.insn_.advance 1 } : DWARF5DebugMachine).standardOpcode ret op.val
      else ({ m with insn_ := m.insn_.advance 1 } : DWARF5DebugMachine).specialOpcode op.val := by
  have hsz := toBool_of_startsWith hinsn
  have hget := (Bytes.StartsWith.head hinsn).1
  simp only [nextLocInto, hsz, hget, bind, Except.bind, Bool.not_true, Bool.false_eq_true,
    if_false]

/-- The special-opcode branch on a state whose `file` register resolves. -/
theorem specialOpcode_eq (m : DWARF5DebugMachine) (op : Nat) (fe de : dwarf5.EntryData)
    (hlr : 1 ≤ m.header_.lineRange) (hmo : 1 ≤ m.header_.maxOpsPerInsn)
    (hop : m.header_.opcodeBase ≤ op) (hop1 : op < 256) (hoi : m.opIndex < 2 ^ 31)
    (hfile : m.filenames.get? m.file = some fe)
    (hdir : m.directories.get? fe.dirIndex = some de) :
    m.specialOpcode op =
      .ok (true,
        { addr_ := (m.addr + m.header_.minInsnLength *
              ((m.opIndex + (op - m.header_.opcodeBase) / m.header_.lineRange) /
                m.header_.maxOpsPerInsn)) % 2 ^ 64
          dir_ := de.pathStr
          file_ := fe.pathStr
          line_ := (((m.line : Int) + m.header_.lineBase +
              (((op - m.header_.opcodeBase) % m.header_.lineRange : Nat) : Int)) % 2 ^ 32).toNat },
        { m with
          addr := (m.addr + m.header_.minInsnLength *
              ((m.opIndex + (op - m.header_.opcodeBase) / m.header_.lineRange) /
                m.header_.maxOpsPerInsn)) % 2 ^ 64
          opIndex := (m.opIndex + (op - m.header_.opcodeBase) / m.header_.lineRange) %
              m.header_.maxOpsPerInsn
          line := (((m.line : Int) + m.header_.lineBase +
              (((op - m.header_.opcodeBase) % m.header_.lineRange : Nat) : Int)) % 2 ^ 32).toNat
          basicBlock := false
          prologEnd := false
          epilogBegin := false
          discrim := 0 }) := by
  have hlr0 : ¬ (m.header_.lineRange = 0) := by omega
  have hmo0 : ¬ (m.header_.maxOpsPerInsn = 0) := by omega
  have hadj : (op - m.header_.opcodeBase) % 256 = op - m.header_.opcodeBase := by omega
  have hdiv : (op - m.header_.opcodeBase) / m.header_.lineRange % 256 =
      (op - m.header_.opcodeBase) / m.header_.lineRange := by
    apply Nat.mod_eq_of_lt
    have := Nat.div_le_self (op - m.header_.opcodeBase) m.header_.lineRange
    omega
  have hsum : (m.opIndex + (op - m.header_.opcodeBase) / m.header_.lineRange) % 2 ^ 64 =
      m.opIndex + (op - m.header_.opcodeBase) / m.header_.lineRange := by
    apply Nat.mod_eq_of_lt
    have := Nat.div_le_self (op - m.header_.opcodeBase) m.header_.lineRange
    omega
  simp only [specialOpcode, bind, Except.bind, pure, Except.pure, hlr0, hmo0, if_false,
    addrAndOpAdvance, emitLoc, hfile, hdir, hadj, hdiv, hsum, Nat.add_mod_mod, addLine,
    Int.add_assoc]

theorem ok_bind {α β : Type} (a : α) (f : α → Except Fault β) :
    (Except.ok a >>= f) = f a := rfl

/-- The extended-opcode branch on `uleb size, 01` (`DW_LNE_end_sequence`). -/
theorem extendedOpcode_end_sequence (m : DWARF5DebugMachine) (ret : SourceLoc)
    (hi : List Byte) (lo : Byte) (rest : List Byte) (fe de : dwarf5.EntryData)
    (hlen : hi.length ≤ 8) (hhi : ∀ b ∈ hi, 128 ≤ b.val) (hlo : lo.val < 128)
    (hinsn : m.insn_.StartsWith ((hi ++ [lo]) ++ (1 : Byte) :: rest))
    (hfile : m.filenames.get? m.file = some fe)
    (hdir : m.directories.get? fe.dirIndex = some de) :
    m.extendedOpcode ret =
      .ok (true,
        { addr_ := m.addr, dir_ := de.pathStr, file_ := fe.pathStr, line_ := m.line },
        ({ m with insn_ := m.insn_.advance (hi.length + 2), endSeq := true } :
          DWARF5DebugMachine).reset) := by
  obtain ⟨hsize, hop⟩ := Bytes.StartsWith.append (hi ++ [lo]) hinsn
  have huleb := uleb_eq 64 m.insn_ hi lo hlen hhi hlo hsize
  simp only [List.length_append, List.length_singleton] at hop
  have hget := (Bytes.StartsWith.head hop).1
  rw [Bytes.advance_advance] at hget
  have h1 : ((1 : Byte).val) = 1 := rfl
  rw [h1] at hget
  unfold extendedOpcode
  rw [huleb, ok_bind]
  dsimp only
  rw [hget, ok_bind]
  dsimp only
  rw [if_pos rfl]
  simp only [endSequence, emitLoc, hfile, hdir]
  rfl

/-- The extended-opcode branch on `uleb size, 02, address` (`DW_LNE_set_address`) with
8-byte addresses. -/
theorem extendedOpcode_set_address (m : DWARF5DebugMachine) (ret : SourceLoc)
    (hi : List Byte) (lo : Byte) (a8 rest : List Byte)
    (hlen : hi.length ≤ 8) (hhi : ∀ b ∈ hi, 128 ≤ b.val) (hlo : lo.val < 128)
    (ha8 : a8.length = 8) (hsz : m.header_.addrSize = 8)
    (hinsn : m.insn_.StartsWith ((hi ++ [lo]) ++ (2 : Byte) :: (a8 ++ rest))) :
    m.extendedOpcode ret =
      .ok (false, ret,
        { m with insn_ := m.insn_.advance (hi.length + 2 + 8), addr := leValue a8 }) := by
  obtain ⟨hsize, hop⟩ := Bytes.StartsWith.append (hi ++ [lo]) hinsn
  have huleb := uleb_eq 64 m.insn_ hi lo hlen hhi hlo hsize
  simp only [List.length_append, List.length_singleton] at hop
  obtain ⟨hget, haddr⟩ := Bytes.StartsWith.head hop
  rw [Bytes.advance_advance] at hget haddr
  have hget8 := Bytes.iget_of_startsWith (Bytes.StartsWith.append a8 haddr).1
  rw [ha8, Bytes.advance_advance] at hget8
  have h2 : ((2 : Byte).val) = 2 := rfl
  rw [h2] at hget
  unfold extendedOpcode
  rw [huleb, ok_bind]
  dsimp only
  rw [hget, ok_bind]
  dsimp only
  rw [if_neg (by decide), if_pos rfl]
  unfold setAddress
  dsimp only
  rw [if_pos hsz, hget8]
  rfl

/-- On an exhausted instruction stream `nextLoc(SourceLoc &)` reports done and leaves `ret`
and the machine as they are. -/
theorem nextLocInto_exhausted (m : DWARF5DebugMachine) (ret : SourceLoc)
    (h : m.insn_.toBool = false) : m.nextLocInto ret = .ok (true, ret, m) := by
  simp [nextLocInto, h]

/-- A step on a special opcode, in a state whose `file` register resolves. -/
theorem nextLocInto_special (m : DWARF5DebugMachine) (ret : SourceLoc) (op : Byte)
    (rest : List Byte) (fe de : dwarf5.EntryData)
    (hlr : 1 ≤ m.header_.lineRange) (hmo : 1 ≤ m.header_.maxOpsPerInsn)
    (hop : m.header_.opcodeBase ≤ op.val) (hop1 : 1 ≤ op.val) (hoi : m.opIndex < 2 ^ 31)
    (hinsn : m.insn_.StartsWith (op :: rest))
    (hfile : m.filenames.get? m.file = some fe)
    (hdir : m.directories.get? fe.dirIndex = some de) :
    m.nextLocInto ret =
      .ok (true,
        { addr_ := (m.addr + m.header_.minInsnLength *
              ((m.opIndex + (op.val - m.header_.opcodeBase) / m.header_.lineRange) /
                m.header_.maxOpsPerInsn)) % 2 ^ 64
          dir_ := de.pathStr
          file_ := fe.pathStr
          line_ := (((m.line : Int) + m.header_.lineBase +
              (((op.val - m.header_.opcodeBase) % m.header_.lineRange : Nat) : Int))
                % 2 ^ 32).toNat },
        { m with
          insn_ := m.insn_.advance 1
          addr := (m.addr + m.header_.minInsnLength *
              ((m.opIndex + (op.val - m.header_.opcodeBase) / m.header_.lineRange) /
                m.header_.maxOpsPerInsn)) % 2 ^ 64
          opIndex := (m.opIndex + (op.val - m.header_.opcodeBase) / m.header_.lineRange) %
              m.header_.maxOpsPerInsn
          line := (((m.line : Int) + m.header_.lineBase +
              (((op.val - m.header_.opcodeBase) % m.header_.lineRange : Nat) : Int))
                % 2 ^ 32).toNat
          basicBlock := false
          prologEnd := false
          epilogBegin := false
          discrim := 0 }) := by
  rw [nextLocInto_of_startsWith m ret op rest hinsn, if_neg (by omega), if_neg (by omega)]
  exact specialOpcode_eq { m with insn_ := m.insn_.advance 1 } op.val fe de hlr hmo hop
    op.isLt hoi hfile hdir

/-- A step on `00, uleb size, 01` (`DW_LNE_end_sequence`), in a state whose `file` register
resolves. -/
theorem nextLocInto_end_sequence (m : DWARF5DebugMachine) (ret : SourceLoc)
    (hi : List Byte) (lo : Byte) (rest : List Byte) (fe de : dwarf5.EntryData)
    (hlen : hi.length ≤ 8) (hhi : ∀ b ∈ hi, 128 ≤ b.val) (hlo : lo.val < 128)
    (hinsn : m.insn_.StartsWith ((0 : Byte) :: ((hi ++ [lo]) ++ (1 : Byte) :: rest)))
    (hfile : m.filenames.get? m.file = some fe)
    (hdir : m.directories.get? fe.dirIndex = some de) :
    m.nextLocInto ret =
      .ok (true,
        { addr_ := m.addr, dir_ := de.pathStr, file_ := fe.pathStr, line_ := m.line },
        ({ m with insn_ := m.insn_.advance (hi.length + 3), endSeq := true } :
          DWARF5DebugMachine).reset) := by
  rw [nextLocInto_of_startsWith m ret 0 _ hinsn,
    if_pos (show ((0 : Byte).val) = 0 from rfl)]
  have htl := (Bytes.StartsWith.head hinsn).2
  have := extendedOpcode_end_sequence { m with insn_ := m.insn_.advance 1 } ret hi lo rest
    fe de hlen hhi hlo htl hfile hdir
  rw [this]
  simp only [Bytes.advance_advance]
  rw [show 1 + (hi.length + 2) = hi.length + 3 from by omega]

/-- A step on `00, uleb size, 02, address` (`DW_LNE_set_address`) with 8-byte addresses. -/
theorem nextLocInto_set_address (m : DWARF5DebugMachine) (ret : SourceLoc)
    (hi : List Byte) (lo : Byte) (a8 rest : List Byte)
    (hlen : hi.length ≤ 8) (hhi : ∀ b ∈ hi, 128 ≤ b.val) (hlo : lo.val < 128)
    (ha8 : a8.length = 8) (hsz : m.header_.addrSize = 8)
    (hinsn : m.insn_.StartsWith ((0 : Byte) :: ((hi ++ [lo]) ++ (2 : Byte) :: (a8 ++ rest)))) :
    m.nextLocInto ret =
      .ok (false, ret,
        { m with insn_ := m.insn_.advance (hi.length + 11), addr := leValue a8 }) := by
  rw [nextLocInto_of_startsWith m ret 0 _ hinsn,
    if_pos (show ((0 : Byte).val) = 0 from rfl)]
  have htl := (Bytes.StartsWith.head hinsn).2
  have := extendedOpcode_set_address { m with insn_ := m.insn_.advance 1 } ret hi lo a8 rest
    hlen hhi hlo ha8 hsz htl
  rw [this]
  simp only [Bytes.advance_advance]
  rw [show 1 + (hi.length + 2 + 8) = hi.length + 11 from by omega]

/-- C6 as stated fails. The unit with the one file `"a.c"` parses into a state with
`lineRange = 14`, `maxOpsPerInsn = 1`, `opcodeBase = 13` and the initial `file = 1`, and its
program is the special opcode 30; but `filenames` has the single record 0, so the unchecked
subscript `filenames[file]` of `emitLoc` is out of range and no row is emitted. -/
theorem special_opcode_needs_file_record :
    (DWARF5DebugMachine.new
        (Sample.sections (Sample.unitOf Sample.headerOneFile [0x1e])).1
        (Sample.sections (Sample.unitOf Sample.headerOneFile [0x1e])).2).map
      (fun m => (m.header_.lineRange, m.header_.maxOpsPerInsn, m.header_.opcodeBase, m.file,
        m.filenames.length, decide (m.insn_.StartsWith [0x1e])))
      = .ok (14, 1, 13, 1, 1, true) ∧
    (DWARF5DebugMachine.new
        (Sample.sections (Sample.unitOf Sample.headerOneFile [0x1e])).1
        (Sample.sections (Sample.unitOf Sample.headerOneFile [0x1e])).2
      >>= fun m => m.nextLocInto SourceLoc.empty) = .error .undefined := by
  refine ⟨by decide, by decide⟩

/-- C6, amended. For every machine state with `lineRange ≥ 1` and `maxOpsPerInsn ≥ 1` whose
`file` register indexes a parsed file record `fe` whose directory index indexes a parsed
directory record `de`, and every opcode byte `op ≥ opcodeBase`, `op ≥ 1`, under the cursor,
one step executes a special opcode: with `adj = op - opcodeBase` and `opAdv = adj / lineRange`
it sets `addr := addr + minInsnLength * ((opIndex + opAdv) / maxOpsPerInsn)` (modulo `2 ^ 64`),
`opIndex := (opIndex + opAdv) mod maxOpsPerInsn`,
`line := line + lineBase + (adj mod lineRange)` (modulo `2 ^ 32`), returns "row emitted" with
the row carrying the new `addr` and `line`, clears `basicBlock`, `prologEnd`, `epilogBegin`
and `discrim`, and leaves every other register unchanged. -/
theorem special_opcode_step (m : DWARF5DebugMachine) (ret : SourceLoc) (op : Byte)
    (rest : List Byte) (fe de : dwarf5.EntryData)
    (hlr : 1 ≤ m.header_.lineRange) (hmo : 1 ≤ m.header_.maxOpsPerInsn)
    (hop : m.header_.opcodeBase ≤ op.val) (hop1 : 1 ≤ op.val) (hoi : m.opIndex < 2 ^ 31)
    (hinsn : m.insn_.StartsWith (op :: rest))
    (hfile : m.filenames.get? m.file = some fe)
    (hdir : m.directories.get? fe.dirIndex = some de) :
    m.nextLocInto ret =
      .ok (true,
        { addr_ := (m.addr + m.header_.minInsnLength *
              ((m.opIndex + (op.val - m.header_.opcodeBase) / m.header_.lineRange) /
                m.header_.maxOpsPerInsn)) % 2 ^ 64
          dir_ := de.pathStr
          file_ := fe.pathStr
          line_ := (((m.line : Int) + m.header_.lineBase +
              (((op.val - m.header_.opcodeBase) % m.header_.lineRange : Nat) : Int))
                % 2 ^ 32).toNat },
        { m with
          insn_ := m.insn_.advance 1
          addr := (m.addr + m.header_.minInsnLength *
              ((m.opIndex + (op.val - m.header_.opcodeBase) / m.header_.lineRange) /
                m.header_.maxOpsPerInsn)) % 2 ^ 64
          opIndex := (m.opIndex + (op.val - m.header_.opcodeBase) / m.header_.lineRange) %
              m.header_.maxOpsPerInsn
          line := (((m.line : Int) + m.header_.lineBase +
              (((op.val - m.header_.opcodeBase) % m.header_.lineRange : Nat) : Int))
                % 2 ^ 32).toNat
          basicBlock := false
          prologEnd := false
          epilogBegin := false
          discrim := 0 }) :=
  nextLocInto_special m ret op rest fe de hlr hmo hop hop1 hoi hinsn hfile hdir

/-- Witness for the amended C6: the sample machine in its initial state, over a program
that starts with the special opcode 30; the row is (0x1, line 4294967295). -/
theorem special_opcode_step_witness :
    (Sample.machineOf [0x1e, 0x00, 0x01, 0x01]).nextLocInto SourceLoc.empty =
      .ok (true, Sample.row 1 4294967295,
        { Sample.machineOf [0x1e, 0x00, 0x01, 0x01] with
          insn_ := (Sample.machineOf [0x1e, 0x00, 0x01, 0x01]).insn_.advance 1
          addr := 1
          opIndex := 0
          line := 4294967295 }) :=
  special_opcode_step (Sample.machineOf [0x1e, 0x00, 0x01, 0x01]) SourceLoc.empty 0x1e
    [0x00, 0x01, 0x01] (Sample.pathEntry [0x62, 0x2e, 0x63]) (Sample.pathEntry [0x64, 0x69, 0x72])
    (by decide) (by decide) (by decide) (by decide) (by decide) (by decide) rfl rfl

/-- C7 as stated fails. In the state parsed from the unit with the one file `"a.c"`
(initial `file = 1`), executing `DW_LNE_end_sequence` (bytes `00 01 01`) emits no row: the
unchecked subscript `filenames[file]` of `emitLoc` is out of range. -/
theorem end_sequence_needs_file_record :
    (DWARF5DebugMachine.new
        (Sample.sections (Sample.unitOf Sample.headerOneFile [0x00, 0x01, 0x01])).1
        (Sample.sections (Sample.unitOf Sample.headerOneFile [0x00, 0x01, 0x01])).2).map
      (fun m => (m.file, m.filenames.length, decide (m.insn_.StartsWith [0x00, 0x01, 0x01])))
      = .ok (1, 1, true) ∧
    (DWARF5DebugMachine.new
        (Sample.sections (Sample.unitOf Sample.headerOneFile [0x00, 0x01, 0x01])).1
        (Sample.sections (Sample.unitOf Sample.headerOneFile [0x00, 0x01, 0x01])).2
      >>= fun m => m.nextLocInto SourceLoc.empty) = .error .undefined := by
  refine ⟨by decide, by decide⟩

/-- C7, amended. In every machine state whose `file` register indexes a parsed file record
`fe` whose directory index indexes a parsed directory record `de`, executing
`DW_LNE_end_sequence` (bytes `00`, a `uleb` size of at most nine bytes, `01`) returns "row
emitted" with the one row carrying the `addr`, file and `line` held before the instruction,
and afterwards every register equals the DWARF 5 initial state: `addr = 0`, `opIndex = 0`,
`file = 1`, `line = 1`, `column = 0`, `isStmt = defaultIsStmt`, `basicBlock`, `endSeq`,
`prologEnd`, `epilogBegin` all false, `isa = 0`, `discrim = 0`. The same register state
holds after a header parse that ends at `programStart`. -/
theorem end_sequence_step_and_initial_state :
    (∀ (m : DWARF5DebugMachine) (ret : SourceLoc) (hi : List Byte) (lo : Byte)
        (rest : List Byte) (fe de : dwarf5.EntryData),
      hi.length ≤ 8 → (∀ b ∈ hi, 128 ≤ b.val) → lo.val < 128 →
      m.insn_.StartsWith ((0 : Byte) :: ((hi ++ [lo]) ++ (1 : Byte) :: rest)) →
      m.filenames.get? m.file = some fe → m.directories.get? fe.dirIndex = some de →
      ∃ m', m.nextLocInto ret =
          .ok (true,
            { addr_ := m.addr, dir_ := de.pathStr, file_ := fe.pathStr, line_ := m.line }, m') ∧
        m'.insn_ = m.insn_.advance (hi.length + 3) ∧ m'.header_ = m.header_ ∧
        m'.addr = 0 ∧ m'.opIndex = 0 ∧ m'.file = 1 ∧ m'.line = 1 ∧ m'.column = 0 ∧
        m'.isStmt = m.header_.defaultIsStmt ∧ m'.basicBlock = false ∧ m'.endSeq = false ∧
        m'.prologEnd = false ∧ m'.epilogBegin = false ∧ m'.isa = 0 ∧ m'.discrim = 0) ∧
    (∀ (lineData lineStrs : Bytes) (m0 : DWARF5DebugMachine) (cur programStart : Bytes),
      readHeader lineData lineStrs = .ok (m0, cur, programStart) →
      cur.base_ = programStart.base_ →
      ∃ m, DWARF5DebugMachine.new lineData lineStrs = .ok m ∧
        m.insn_ = cur ∧ m.header_ = m0.header_ ∧
        m.addr = 0 ∧ m.opIndex = 0 ∧ m.file = 1 ∧ m.line = 1 ∧ m.column = 0 ∧
        m.isStmt = m0.header_.defaultIsStmt ∧ m.basicBlock = false ∧ m.endSeq = false ∧
        m.prologEnd = false ∧ m.epilogBegin = false ∧ m.isa = 0 ∧ m.discrim = 0) := by
  constructor
  · intro m ret hi lo rest fe de hlen hhi hlo hinsn hfile hdir
    refine ⟨({ m with insn_ := m.insn_.advance (hi.length + 3), endSeq := true } :
      DWARF5DebugMachine).reset, ?_, rfl, rfl, rfl, rfl, rfl, rfl, rfl, rfl, rfl, rfl, rfl, rfl,
      rfl, rfl⟩
    exact nextLocInto_end_sequence m ret hi lo rest fe de hlen hhi hlo hinsn hfile hdir
  · intro lineData lineStrs m0 cur programStart hread hbase
    refine ⟨({ m0 with insn_ := cur } : DWARF5DebugMachine).reset, ?_, rfl, rfl, rfl, rfl, rfl,
      rfl, rfl, rfl, rfl, rfl, rfl, rfl, rfl, rfl⟩
    simp only [DWARF5DebugMachine.new, hread, bind, Except.bind, hbase, ne_eq,
      not_true_eq_false, if_false, pure, Except.pure]

/-- Witness for the amended C7: the sample machine at address 0x1001 over the program
`00 01 01`. -/
theorem end_sequence_step_and_initial_state_witness :
    ∃ m', ({ Sample.machineOf [0x00, 0x01, 0x01] with addr := 0x1001, line := 7 } :
        DWARF5DebugMachine).nextLocInto SourceLoc.empty =
          .ok (true, Sample.row 0x1001 7, m') ∧
        m'.insn_ = (Sample.machineOf [0x00, 0x01, 0x01]).insn_.advance (0 + 3) ∧
        m'.header_ = (Sample.machineOf [0x00, 0x01, 0x01]).header_ ∧
        m'.addr = 0 ∧ m'.opIndex = 0 ∧ m'.file = 1 ∧ m'.line = 1 ∧ m'.column = 0 ∧
        m'.isStmt = true ∧ m'.basicBlock = false ∧ m'.endSeq = false ∧
        m'.prologEnd = false ∧ m'.epilogBegin = false ∧ m'.isa = 0 ∧ m'.discrim = 0 :=
  end_sequence_step_and_initial_state.1
    { Sample.machineOf [0x00, 0x01, 0x01] with addr := 0x1001, line := 7 } SourceLoc.empty
    [] 0x01 [] (Sample.pathEntry [0x62, 0x2e, 0x63]) (Sample.pathEntry [0x64, 0x69, 0x72])
    (by decide) (by intro b hb; cases hb) (by decide) (by decide) rfl rfl

end DWARF5DebugMachine

end ObjReader

namespace ObjReader

namespace DWARF5DebugMachine

/-- A round of `nextLoc()` whose step emits no row goes round again. -/
theorem nextLocLoop_of_false {m m' : DWARF5DebugMachine} {ret ret' : SourceLoc} (fuel : Nat)
    (h : m.nextLocInto ret = .ok (false, ret', m')) :
    nextLocLoop (fuel + 1) m ret = nextLocLoop fuel m' ret' := by
  rw [nextLocLoop, h, ok_bind]
  rfl

/-- A round of `nextLoc()` whose step reports a row ends the loop. -/
theorem nextLocLoop_of_true {m m' : DWARF5DebugMachine} {ret ret' : SourceLoc} (fuel : Nat)
    (h : m.nextLocInto ret = .ok (true, ret', m')) :
    nextLocLoop (fuel + 1) m ret = .ok (ret', m') := by
  rw [nextLocLoop, h, ok_bind]
  rfl

end DWARF5DebugMachine

namespace DWARFDebugTable

theorem driveMachine_of_row {t : DWARFDebugTable} {m m' : DWARF5DebugMachine} {loc : SourceLoc}
    (fuel : Nat) (hm : t.machine_ = some m) (hrow : m.nextLoc = .ok (loc, m'))
    (hne : loc.toBool = true) :
    driveMachine (fuel + 1) t =
      driveMachine fuel { t with locs_ := t.locs_.emplace loc.addr_ loc, machine_ := some m' } := by
  rw [driveMachine]
  simp only [hm, hrow, bind, Except.bind, hne, if_true]

theorem driveMachine_of_end {t : DWARFDebugTable} {m m' : DWARF5DebugMachine} {loc : SourceLoc}
    (fuel : Nat) (hm : t.machine_ = some m) (hrow : m.nextLoc = .ok (loc, m'))
    (hne : loc.toBool = false) :
    driveMachine (fuel + 1) t =
      driveMachine fuel
        { t with locs_ := t.locs_.emplace maxAddr SourceLoc.empty, machine_ := none } := by
  rw [driveMachine]
  simp only [hm, hrow, bind, Except.bind, hne, Bool.false_eq_true, if_false]

theorem driveMachine_of_none {t : DWARFDebugTable} (fuel : Nat) (hm : t.machine_ = none) :
    driveMachine (fuel + 1) t = .ok t := by
  rw [driveMachine]
  simp only [hm]

/-- With no machine and no line data left, the outer loop of `sourceLocAtAddr` does
nothing. -/
theorem driveUnits_of_done {t : DWARFDebugTable} (fuel : Nat) (hm : t.machine_ = none)
    (hd : t.lineData_.toBool = false) : driveUnits (fuel + 1) t = .ok t := by
  rw [driveUnits]
  simp [hm, hd]

/-- With a machine present, the outer loop first runs the inner loop. -/
theorem driveUnits_of_machine {t t1 : DWARFDebugTable} {m : DWARF5DebugMachine} (fuel : Nat)
    (hm : t.machine_ = some m)
    (hd : driveMachine (t.lineData_.mem.length + 2) t = .ok t1) :
    driveUnits (fuel + 1) t = driveUnits fuel t1 := by
  rw [driveUnits]
  simp only [hm, Option.isSome_some, Bool.true_or, if_true, bind, Except.bind, pure, Except.pure,
    hd]

/-- The rows of the minimal trace: from the initial state, the program `set_address 0x1000;
special opcode 30; end_sequence` makes `nextLoc()` return the row (0x1001, 4294967295), then
the same row again from `end_sequence`, and leaves the instruction stream exhausted. -/
theorem minimal_trace_rows (m : DWARF5DebugMachine) (fe de : dwarf5.EntryData)
    (hmin : m.header_.minInsnLength = 1) (hmax : m.header_.maxOpsPerInsn = 1)
    (hlb : m.header_.lineBase = -5) (hlr : m.header_.lineRange = 14)
    (hob : m.header_.opcodeBase = 13) (hsz : m.header_.addrSize = 8)
    (hinit : m.reset = m)
    (hfile : m.filenames.get? 1 = some fe) (hdir : m.directories.get? fe.dirIndex = some de)
    (hinsn : m.insn_.StartsWith Sample.program)
    (hend : m.insn_.limit_ = m.insn_.base_ + 15) :
    ∃ m1 m2 : DWARF5DebugMachine,
      m.nextLoc = .ok
        ({ addr_ := 0x1001, dir_ := de.pathStr, file_ := fe.pathStr, line_ := 4294967295 }, m1) ∧
      m1.nextLoc = .ok
        ({ addr_ := 0x1001, dir_ := de.pathStr, file_ := fe.pathStr, line_ := 4294967295 }, m2) ∧
      m2.insn_.toBool = false ∧
      m2.nextLoc = .ok (SourceLoc.empty, m2) := by
  have haddr : m.addr = 0 := by rw [← hinit]; rfl
  have hopi : m.opIndex = 0 := by rw [← hinit]; rfl
  have hfl : m.file = 1 := by rw [← hinit]; rfl
  have hline : m.line = 1 := by rw [← hinit]; rfl
  have hlen := hinsn.length_le
  have hlen15 : 15 ≤ m.insn_.mem.length := hlen
  obtain ⟨n, hn⟩ : ∃ n, m.insn_.mem.length + 1 = n + 2 := ⟨m.insn_.mem.length - 1, by omega⟩
  -- the three instructions under the cursor
  have hA : m.insn_.StartsWith ((0 : Byte) :: (([] ++ [(9 : Byte)]) ++ (2 : Byte) ::
      ([0x00, 0x10, 0x00, 0x00, 0x00, 0x00, 0x00, 0x00] ++ [0x1e, 0x00, 0x01, 0x01]))) := hinsn
  have hsplit : m.insn_.StartsWith
      ([0x00, 0x09, 0x02, 0x00, 0x10, 0x00, 0x00, 0x00, 0x00, 0x00, 0x00] ++
        ((0x1e : Byte) :: [0x00, 0x01, 0x01])) := hinsn
  have hB : (m.insn_.advance 11).StartsWith ((0x1e : Byte) :: [0x00, 0x01, 0x01]) :=
    (Bytes.StartsWith.append _ hsplit).2
  have hC : (m.insn_.advance 12).StartsWith
      ((0 : Byte) :: (([] ++ [(1 : Byte)]) ++ (1 : Byte) :: [])) := by
    have := (Bytes.StartsWith.head hB).2
    rw [Bytes.advance_advance] at this
    exact this
  -- set_address
  have stepA := DWARF5DebugMachine.nextLocInto_set_address m SourceLoc.empty [] 9
    [0x00, 0x10, 0x00, 0x00, 0x00, 0x00, 0x00, 0x00] [0x1e, 0x00, 0x01, 0x01]
    (by decide) (by intro b hb; cases hb) (by decide) rfl hsz hA
  have hle : leValue [0x00, 0x10, 0x00, 0x00, 0x00, 0x00, 0x00, 0x00] = 0x1000 := by decide
  rw [hle] at stepA
  simp only [List.length_nil, Nat.zero_add] at stepA
  -- special opcode 30
  have stepB := DWARF5DebugMachine.nextLocInto_special
    ({ m with
        insn_ := m.insn_.advance 11
        addr := 0x1000 } : DWARF5DebugMachine)
    SourceLoc.empty 0x1e [0x00, 0x01, 0x01] fe de
    (by show 1 ≤ m.header_.lineRange; omega) (by show 1 ≤ m.header_.maxOpsPerInsn; omega)
    (by show m.header_.opcodeBase ≤ 30; omega) (by decide)
    (by show m.opIndex < 2 ^ 31; omega) hB
    (by show m.filenames.get? m.file = some fe; rw [hfl]; exact hfile) hdir
  have hv30 : ((0x1e : Byte).val) = 30 := rfl
  have hrowaddr : (0x1000 + m.header_.minInsnLength *
      ((m.opIndex + (30 - m.header_.opcodeBase) / m.header_.lineRange) /
        m.header_.maxOpsPerInsn)) % 2 ^ 64 = 0x1001 := by
    rw [hmin, hmax, hlr, hob, hopi]
    norm_num
  have hrowline : (((m.line : Int) + m.header_.lineBase +
      (((30 - m.header_.opcodeBase) % m.header_.lineRange : Nat) : Int)) % 2 ^ 32).toNat
        = 4294967295 := by
    rw [hlb, hlr, hob, hline]
    rfl
  have hopi2 : (m.opIndex + (30 - m.header_.opcodeBase) / m.header_.lineRange) %
      m.header_.maxOpsPerInsn = 0 := by
    rw [hmax]; exact Nat.mod_one _
  dsimp only at stepB
  simp only [hv30, Bytes.advance_advance] at stepB
  rw [hrowaddr, hrowline, hopi2] at stepB
  -- end_sequence
  have stepC := DWARF5DebugMachine.nextLocInto_end_sequence
    ({ m with
        insn_ := m.insn_.advance (11 + 1)
        addr := 0x1001
        opIndex := 0
        line := 4294967295
        basicBlock := false
        prologEnd := false
        epilogBegin := false
        discrim := 0 } : DWARF5DebugMachine)
    SourceLoc.empty [] 1 [] fe de (by decide) (by intro b hb; cases hb) (by decide) hC
    (by show m.filenames.get? m.file = some fe; rw [hfl]; exact hfile) hdir
  dsimp only at stepC
  simp only [List.length_nil, Nat.zero_add, Bytes.advance_advance] at stepC
  -- the stream is exhausted after 15 bytes
  have hdone : (m.insn_.advance (11 + 1 + 3)).toBool = false := by
    have h3 := hinsn.2.2.1
    simp only [Bytes.toBool, Bytes.size, Bytes.advance, hend, bne_eq_false_iff_eq]
    omega
  have h1 := (DWARF5DebugMachine.nextLocLoop_of_false (n + 1) stepA).trans
    (DWARF5DebugMachine.nextLocLoop_of_true n stepB)
  rw [← hn] at h1
  have h2 := DWARF5DebugMachine.nextLocLoop_of_true (n + 1) stepC
  rw [← hn] at h2
  obtain ⟨m2, h2, hins, hmem⟩ : ∃ m2 : DWARF5DebugMachine,
      DWARF5DebugMachine.nextLocLoop (m.insn_.mem.length + 1) _ SourceLoc.empty =
        .ok (_, m2) ∧ m2.insn_ = m.insn_.advance (11 + 1 + 3) ∧
        m2.insn_.mem = m.insn_.mem := ⟨_, h2, rfl, rfl⟩
  have hdone2 : m2.insn_.toBool = false := by rw [hins]; exact hdone
  have h3 := DWARF5DebugMachine.nextLocLoop_of_true (n + 1)
    (DWARF5DebugMachine.nextLocInto_exhausted m2 SourceLoc.empty hdone2)
  rw [← hn, ← hmem] at h3
  exact ⟨_, m2, h1, h2, hdone2, h3⟩

theorem sourceLocAtAddr_eq {t t' : DWARFDebugTable} {loc : SourceLoc} {addr : Nat}
    (hd : driveUnits (t.lineData_.mem.length + 2) t = .ok t')
    (hf : floorLoc t'.locs_ addr = .ok loc) : t.sourceLocAtAddr addr = .ok (loc, t') := by
  simp only [sourceLocAtAddr, hd, hf, bind, Except.bind, pure, Except.pure]

/-- C8 as stated fails on the line of the first row: the register `line` is an `unsigned`,
so `1 + (-5 + 3)` wraps to 4294967295; the row's line is not -1. Evaluated on the sample
unit (`minInsnLength = 1`, `maxOpsPerInsn = 1`, `lineBase = -5`, `lineRange = 14`,
`opcodeBase = 13`, 8-byte addresses, two files) with the program of the scenario. -/
theorem minimal_trace_line_is_unsigned :
    ((Sample.tableOf (Sample.unitOf Sample.header Sample.program)).sourceLocAtAddr 0x1001).map
        (fun r => (r.1.addr_, r.1.line_)) = .ok (0x1001, 4294967295) ∧
    ((Sample.tableOf (Sample.unitOf Sample.header Sample.program)).sourceLocAtAddr 0x1001).map
        (fun r => decide (((r.1.line_ : Nat) : Int) = -1)) = .ok false := by
  refine ⟨by decide, by decide⟩

/-- C8, amended. For a unit with `minInsnLength = 1`, `maxOpsPerInsn = 1`, `lineBase = -5`,
`lineRange = 14`, `opcodeBase = 13`, 8-byte addresses and a file table in which file 1
resolves, running from the initial state the instruction stream `DW_LNE_set_address 0x1000;
special opcode 30; DW_LNE_end_sequence` emits exactly two rows and then reports the end of
the data: the first row has `addr = 0x1001` and `line = 4294967295` (the `unsigned` value of
`1 + (-5 + 3)`), the second, from `end_sequence`, is the same row. The table, whose cache
becomes `0, 0x1001, MAX`, then answers `sourceLocAtAddr(0x1001)` with the first row and
`sourceLocAtAddr(0x1002)` with the row of `end_sequence`. -/
theorem minimal_trace (t : DWARFDebugTable) (m : DWARF5DebugMachine)
    (fe de : dwarf5.EntryData)
    (hmin : m.header_.minInsnLength = 1) (hmax : m.header_.maxOpsPerInsn = 1)
    (hlb : m.header_.lineBase = -5) (hlr : m.header_.lineRange = 14)
    (hob : m.header_.opcodeBase = 13) (hsz : m.header_.addrSize = 8)
    (hinit : m.reset = m)
    (hfile : m.filenames.get? 1 = some fe) (hdir : m.directories.get? fe.dirIndex = some de)
    (hinsn : m.insn_.StartsWith Sample.program)
    (hend : m.insn_.limit_ = m.insn_.base_ + 15)
    (htm : t.machine_ = some m) (htl : t.locs_ = [(0, SourceLoc.empty)])
    (htd : t.lineData_.toBool = false) (htmem : t.lineData_.mem = m.insn_.mem) :
    ∃ (m1 m2 : DWARF5DebugMachine) (t' : DWARFDebugTable),
      m.nextLoc = .ok
        ({ addr_ := 0x1001, dir_ := de.pathStr, file_ := fe.pathStr, line_ := 4294967295 }, m1) ∧
      m1.nextLoc = .ok
        ({ addr_ := 0x1001, dir_ := de.pathStr, file_ := fe.pathStr, line_ := 4294967295 }, m2) ∧
      m2.insn_.toBool = false ∧
      m2.nextLoc = .ok (SourceLoc.empty, m2) ∧
      t.sourceLocAtAddr 0x1001 = .ok
        ({ addr_ := 0x1001, dir_ := de.pathStr, file_ := fe.pathStr, line_ := 4294967295 }, t') ∧
      t'.locs_ = [(0, SourceLoc.empty),
        (0x1001, { addr_ := 0x1001, dir_ := de.pathStr, file_ := fe.pathStr, line_ := 4294967295 }),
        (maxAddr, SourceLoc.empty)] ∧
      t'.sourceLocAtAddr 0x1002 = .ok
        ({ addr_ := 0x1001, dir_ := de.pathStr, file_ := fe.pathStr, line_ := 4294967295 }, t') := by
  obtain ⟨m1, m2, h1, h2, hdone, h3⟩ :=
    minimal_trace_rows m fe de hmin hmax hlb hlr hob hsz hinit hfile hdir hinsn hend
  have hlen : 15 ≤ t.lineData_.mem.length := by rw [htmem]; exact hinsn.length_le
  obtain ⟨k, hk⟩ : ∃ k, t.lineData_.mem.length + 2 = k + 4 :=
    ⟨t.lineData_.mem.length - 2, by omega⟩
  have hrow : (SourceLoc.toBool (SourceLoc.mk 0x1001 de.pathStr fe.pathStr 4294967295)) = true := rfl
  have hempty : SourceLoc.empty.toBool = false := rfl
  have e1 := driveMachine_of_row (k + 3) htm h1 hrow
  have e2 := driveMachine_of_row (t := { t with
      locs_ := t.locs_.emplace 0x1001
        (SourceLoc.mk 0x1001 de.pathStr fe.pathStr 4294967295)
      machine_ := some m1 }) (k + 2) rfl h2 hrow
  have e3 := driveMachine_of_end (t := { t with
      locs_ := (t.locs_.emplace 0x1001
        (SourceLoc.mk 0x1001 de.pathStr fe.pathStr 4294967295)).emplace
          0x1001
          (SourceLoc.mk 0x1001 de.pathStr fe.pathStr 4294967295)
      machine_ := some m2 }) (k + 1) rfl h3 hempty
  have e4 := driveMachine_of_none (t := { t with
      locs_ := ((t.locs_.emplace 0x1001
        (SourceLoc.mk 0x1001 de.pathStr fe.pathStr 4294967295)).emplace
          0x1001
          (SourceLoc.mk 0x1001 de.pathStr fe.pathStr 4294967295)).emplace
            maxAddr SourceLoc.empty
      machine_ := none }) k rfl
  dsimp only at e1 e2 e3 e4
  have hdm := e1.trans (e2.trans (e3.trans e4))
  rw [← hk] at hdm
  rw [htl] at hdm
  have hcache : AddrMap.emplace (AddrMap.emplace (AddrMap.emplace
        ([(0, SourceLoc.empty)] : AddrMap SourceLoc) 0x1001
          (SourceLoc.mk 0x1001 de.pathStr fe.pathStr 4294967295)) 0x1001
          (SourceLoc.mk 0x1001 de.pathStr fe.pathStr 4294967295)) maxAddr SourceLoc.empty =
      [(0, SourceLoc.empty),
        (0x1001, (SourceLoc.mk 0x1001 de.pathStr fe.pathStr 4294967295)),
        (maxAddr, SourceLoc.empty)] := by
    simp [AddrMap.emplace, maxAddr]
  rw [hcache] at hdm
  have hdu := (driveUnits_of_machine (t.lineData_.mem.length + 1) htm hdm).trans
    (driveUnits_of_done (t.lineData_.mem.length) rfl htd)
  refine ⟨m1, m2, _, h1, h2, hdone, h3, sourceLocAtAddr_eq hdu ?_, rfl,
    sourceLocAtAddr_eq (driveUnits_of_done _ rfl htd) ?_⟩
  · simp [floorLoc, AddrMap.upperBound, maxAddr]
  · simp [floorLoc, AddrMap.upperBound, maxAddr]

/-- Witness for the amended C8: the machine that the constructor builds from the sample
unit, in a table whose remaining line data is empty. -/
theorem minimal_trace_witness :
    DWARF5DebugMachine.new (Sample.sections (Sample.unitOf Sample.header Sample.program)).1
        (Sample.sections (Sample.unitOf Sample.header Sample.program)).2
      = .ok (Sample.machineOf Sample.program) ∧
    ∃ (m1 m2 : DWARF5DebugMachine) (t' : DWARFDebugTable),
      (Sample.machineOf Sample.program).nextLoc = .ok (Sample.row 0x1001 4294967295, m1) ∧
      m1.nextLoc = .ok (Sample.row 0x1001 4294967295, m2) ∧
      m2.insn_.toBool = false ∧
      m2.nextLoc = .ok (SourceLoc.empty, m2) ∧
      ({ Sample.tableOf (Sample.unitOf Sample.header Sample.program) with
          machine_ := some (Sample.machineOf Sample.program)
          lineData_ := (Sample.machineOf Sample.program).nextUnit_ } :
        DWARFDebugTable).sourceLocAtAddr 0x1001 = .ok (Sample.row 0x1001 4294967295, t') ∧
      t'.locs_ = [(0, SourceLoc.empty), (0x1001, Sample.row 0x1001 4294967295),
        (maxAddr, SourceLoc.empty)] ∧
      t'.sourceLocAtAddr 0x1002 = .ok (Sample.row 0x1001 4294967295, t') :=
  ⟨by decide,
    minimal_trace
      { Sample.tableOf (Sample.unitOf Sample.header Sample.program) with
        machine_ := some (Sample.machineOf Sample.program)
        lineData_ := (Sample.machineOf Sample.program).nextUnit_ }
      (Sample.machineOf Sample.program)
      (Sample.pathEntry [0x62, 0x2e, 0x63]) (Sample.pathEntry [0x64, 0x69, 0x72])
      rfl rfl rfl rfl rfl rfl rfl rfl rfl (by decide) rfl rfl rfl (by decide) rfl⟩

end DWARFDebugTable

end ObjReader

namespace ObjReader

/-! ## SLEB128 round trip -/

/-- The result of `sleb` on a cursor that starts with at most nine groups. -/
theorem sleb_eq (c : Bytes) (hi : List Byte) (lo : Byte) (hlen : hi.length ≤ 8)
    (hhi : ∀ b ∈ hi, 128 ≤ b.val) (hlo : lo.val < 128) (hc : c.StartsWith (hi ++ [lo])) :
    c.sleb =
      .ok ((if lo.val % 128 < 64 then (groupsValue (hi ++ [lo]) : Int)
            else (groupsValue (hi ++ [lo]) : Int) - 2 ^ (7 * (hi.length + 1))),
          c.advance (hi.length + 1)) := by
  have hfuel : hi.length < c.mem.length + 1 := by
    have := hc.length_le
    simp only [List.length_append, List.length_singleton] at this
    omega
  have hrun := slebLoop_run hi lo hhi hlo c 0 64 0 (c.mem.length + 1) rfl (by omega)
    (by norm_num) hc hfuel
  simp only [Nat.zero_mul, Nat.zero_add, Nat.pow_zero, Nat.one_mul, Nat.cast_ofNat] at hrun
  have hr : ¬ ((64 : Int) - 7 * ((hi.length : Int) + 1) < 0 ∨
      (64 : Int) ≤ 64 - 7 * ((hi.length : Int) + 1)) := by omega
  have hrn : ((64 : Int) - 7 * ((hi.length : Int) + 1)).toNat = 64 - 7 * (hi.length + 1) := by
    omega
  have hfin := sleb_final (groupsValue hi) (lo.val % 128) hi.length (64 - 7 * (hi.length + 1))
    (groupsValue_lt hi) (Nat.mod_lt _ (by decide)) (by omega)
  rw [← groupsValue_append] at hfin
  simp only [Bytes.sleb, hrun, bind, Except.bind, if_neg hr, hrn, hfin, pure, Except.pure]

/-- The standard encoding of a value of `7k` bits is at most `k` groups, all but the last
with the continuation bit, and their two's-complement value is the value encoded. -/
theorem slebEncodeAux_spec :
    ∀ (k fuel : Nat) (v : Int), 1 ≤ k → k ≤ fuel → -(2 ^ (7 * k - 1)) ≤ v → v < 2 ^ (7 * k - 1) →
      ∃ (hi : List Byte) (lo : Byte), slebEncodeAux fuel v = hi ++ [lo] ∧ hi.length + 1 ≤ k ∧
        (∀ b ∈ hi, 128 ≤ b.val) ∧ lo.val < 128 ∧
        (if lo.val % 128 < 64 then (groupsValue (hi ++ [lo]) : Int)
          else (groupsValue (hi ++ [lo]) : Int) - 2 ^ (7 * (hi.length + 1))) = v := by
  intro k
  induction k with
  | zero => intro fuel v hk; omega
  | succ n ih =>
    intro fuel v _ hfuel hlow hhigh
    obtain ⟨f, rfl⟩ : ∃ f, fuel = f + 1 := ⟨fuel - 1, by omega⟩
    have hm0 : 0 ≤ v % 128 := Int.emod_nonneg _ (by decide)
    have hm1 : v % 128 < 128 := Int.emod_lt_of_pos _ (by decide)
    have hdiv : v = 128 * (v / 128) + v % 128 := (Int.ediv_add_emod v 128).symm
    have hbyte : ((v % 128).toNat : Int) = v % 128 := Int.toNat_of_nonneg hm0
    have hblt : (v % 128).toNat < 128 := by omega
    rw [slebEncodeAux]
    split
    · rename_i hstop
      refine ⟨[], Fin.ofNat (v % 128).toNat, rfl, by simp, by simp, ?_, ?_⟩
      · show (v % 128).toNat % 256 < 128
        omega
      · have hval : (Fin.ofNat (v % 128).toNat : Byte).val = (v % 128).toNat := by
          show (v % 128).toNat % 256 = _
          omega
        simp only [List.nil_append, groupsValue, hval, List.length_nil]
        have hmod : (v % 128).toNat % 128 = (v % 128).toNat := Nat.mod_eq_of_lt hblt
        rw [hmod]
        rcases hstop with ⟨h0, hlt⟩ | ⟨h1, hge⟩
        · rw [if_pos hlt]; push_cast; omega
        · rw [if_neg (by omega)]; push_cast; norm_num; omega
    · rename_i hgo
      have hn : 1 ≤ n := by
        by_contra hn0
        have hn' : n = 0 := by omega
        subst hn'
        norm_num at hlow hhigh
        apply hgo
        by_cases hv : 0 ≤ v
        · left; constructor <;> omega
        · right; constructor <;> omega
      have hpow : (2 : Int) ^ (7 * (n + 1) - 1) = 128 * 2 ^ (7 * n - 1) := by
        have : 7 * (n + 1) - 1 = 7 + (7 * n - 1) := by omega
        rw [this, pow_add]; norm_num
      rw [hpow] at hlow hhigh
      have hP : (0 : Int) < 2 ^ (7 * n - 1) := by positivity
      obtain ⟨hi, lo, henc, hlen, hhi, hlo, hval⟩ := ih f (v / 128) hn (by omega)
        (by omega) (by omega)
      refine ⟨Fin.ofNat ((v % 128).toNat + 128) :: hi, lo, by rw [henc]; rfl, by simp; omega,
        ?_, hlo, ?_⟩
      · intro b hb
        rcases List.mem_cons.mp hb with hb | hb
        · subst hb
          show 128 ≤ ((v % 128).toNat + 128) % 256
          omega
        · exact hhi b hb
      · have hb : (Fin.ofNat ((v % 128).toNat + 128) : Byte).val = (v % 128).toNat + 128 := by
          show ((v % 128).toNat + 128) % 256 = _
          omega
        have hg : groupsValue ((Fin.ofNat ((v % 128).toNat + 128) : Byte) :: hi ++ [lo]) =
            (v % 128).toNat + 128 * groupsValue (hi ++ [lo]) := by
          show groupsValue ((Fin.ofNat ((v % 128).toNat + 128) : Byte) :: (hi ++ [lo])) = _
          rw [groupsValue, hb]
          omega
        have hp2 : (2 : Int) ^ (7 * ((Fin.ofNat ((v % 128).toNat + 128) :: hi).length + 1)) =
            128 * 2 ^ (7 * (hi.length + 1)) := by
          have : 7 * ((Fin.ofNat ((v % 128).toNat + 128) :: hi : List Byte).length + 1) =
              7 + 7 * (hi.length + 1) := by simp only [List.length_cons]; omega
          rw [this, pow_add]; norm_num
        rw [hg, hp2]
        split at hval <;> rename_i hs
        · rw [if_pos hs]; push_cast; omega
        · rw [if_neg hs]; push_cast; omega

/-- Round trip of `sleb` through the standard encoding, for the values whose encoding has
at most nine groups: `-2^62 ≤ v < 2^62`. -/
theorem sleb_round_trip_nine_groups (v : Int) (hlow : -(2 ^ 62) ≤ v) (hhigh : v < 2 ^ 62)
    (c : Bytes) (hc : c.StartsWith (slebEncode v)) :
    c.sleb = .ok (v, c.advance (slebEncode v).length) := by
  obtain ⟨hi, lo, henc, hlen, hhi, hlo, hval⟩ :=
    slebEncodeAux_spec 9 10 v (by decide) (by decide) (by norm_num; exact hlow)
      (by norm_num; exact hhigh)
  have henc' : slebEncode v = hi ++ [lo] := henc
  rw [henc'] at hc ⊢
  rw [sleb_eq c hi lo (by omega) hhi hlo hc, hval]
  simp

/-- C11 (the code departs from the claim). The standard encoding of `2^62` has ten groups,
`80 80 80 80 80 80 80 80 C0 00`, and so have those of `2^63 - 1`, `-2^62 - 1` and `-2^63`. On
each of them the counter `r` of `sleb` ends at `64 - 70 = -6` and `int64_t(z) >> r` shifts
by a negative count, which is undefined: the decoder returns no value. Each iteration has
also shifted the accumulator right by seven, so after ten groups bits 0 to 5 of the first
group are gone: the loop ends with the same accumulator and counter on the encodings of
`2^62` and `2^62 + 1`, and no final shift can return both values. The nine-group encoding of
`2^62 - 1` decodes to `2^62 - 1`. -/
theorem sleb_ten_groups_undefined :
    slebEncode (2 ^ 62) = [0x80, 0x80, 0x80, 0x80, 0x80, 0x80, 0x80, 0x80, 0xC0, 0x00] ∧
    (Bytes.ofList (slebEncode (2 ^ 62))).sleb = .error .undefined ∧
    (Bytes.ofList (slebEncode (2 ^ 63 - 1))).sleb = .error .undefined ∧
    (Bytes.ofList (slebEncode (-(2 ^ 62) - 1))).sleb = .error .undefined ∧
    (Bytes.ofList (slebEncode (-(2 ^ 63)))).sleb = .error .undefined ∧
    (Bytes.slebLoop 11 (Bytes.ofList (slebEncode (2 ^ 62))) 0 64).map (fun x => (x.1, x.2.1))
      = .ok (2 ^ 56, -6) ∧
    (Bytes.slebLoop 11 (Bytes.ofList (slebEncode (2 ^ 62 + 1))) 0 64).map (fun x => (x.1, x.2.1))
      = .ok (2 ^ 56, -6) ∧
    (Bytes.ofList (slebEncode (2 ^ 62 - 1))).sleb
      = .ok (2 ^ 62 - 1, (Bytes.ofList (slebEncode (2 ^ 62 - 1))).advance 9) := by
  refine ⟨by decide, by decide, by decide, by decide, by decide, by decide, by decide,
    by decide⟩

/-! ## `ObjectReader::open` -/

namespace NameMap

variable {K V : Type} [DecidableEq K]

theorem find_append_of_find {m : NameMap K V} {k : K} {v : V} (l : NameMap K V)
    (h : m.find k = some v) : find (m ++ l) k = some v := by
  induction m with
  | nil => simp [find] at h
  | cons hd tl ih =>
    obtain ⟨k', v'⟩ := hd
    simp only [find, List.cons_append] at h ⊢
    split
    · rename_i heq; rw [if_pos heq] at h; exact h
    · rename_i hne; rw [if_neg hne] at h; exact ih h

theorem find_append_of_none {m : NameMap K V} {k : K} (l : NameMap K V)
    (h : m.find k = none) : find (m ++ l) k = find l k := by
  induction m with
  | nil => rfl
  | cons hd tl ih =>
    obtain ⟨k', v'⟩ := hd
    simp only [find, List.cons_append] at h ⊢
    split
    · rename_i heq; rw [if_pos heq] at h; cases h
    · rename_i hne; rw [if_neg hne] at h; exact ih h

/-- An entry of the map is still found after `emplace`. -/
theorem find_emplace_of_find {m : NameMap K V} {k : K} {v : V} (q : K) (w : V)
    (h : m.find k = some v) : (m.emplace q w).find k = some v := by
  unfold emplace
  split
  · exact h
  · exact find_append_of_find _ h

/-- After `emplace(k, v)` on a map without the key `k`, the value under `k` is `v`. -/
theorem find_emplace_self {m : NameMap K V} {k : K} (v : V) (h : m.find k = none) :
    (m.emplace k v).find k = some v := by
  unfold emplace
  rw [h]
  simp only []
  rw [find_append_of_none _ h]
  simp [find]

end NameMap

namespace ObjectReader

/-- The search in a map whose keys are all alive compares the characters. -/
theorem findOpenFile_of_live {r : ObjectReader} (p : StringView)
    (h : r.openFiles_.any (fun e => e.1.temporary) = false) :
    r.findOpenFile p =
      .ok ((r.openFiles_.find? (fun e => e.1.text == p.text)).map Prod.snd) := by
  unfold findOpenFile
  rw [h]
  rfl

/-- The search in a map that holds a dead key is undefined. -/
theorem findOpenFile_of_dead {r : ObjectReader} (p : StringView)
    (h : r.openFiles_.any (fun e => e.1.temporary) = true) :
    r.findOpenFile p = .error .undefined := by
  unfold findOpenFile
  rw [if_pos h]

/-- Once the map holds a dead key, every call of `open` is undefined. -/
theorem open_of_dead {r : ObjectReader} (os : Os) (p : StringView)
    (h : r.openFiles_.any (fun e => e.1.temporary) = true) :
    r.open os p = .error .undefined := by
  unfold ObjectReader.open
  rw [findOpenFile_of_dead p h]

/-- A path in the cache is answered from the cache: the reader and the operating system are
left as they are. -/
theorem open_of_cached {r : ObjectReader} {p : StringView} {u : Option Nat} (os : Os)
    (hlive : r.openFiles_.any (fun e => e.1.temporary) = false)
    (h : (r.openFiles_.find? (fun e => e.1.text == p.text)).map Prod.snd = some u) :
    r.open os p = .ok (some u, r, os) := by
  unfold ObjectReader.open
  rw [findOpenFile_of_live p hlive, h]

/-- What a call of `open` that returns does to the cache: nothing, or one new entry, keyed
by the view passed, for a path that had none. The keys it found in the cache were alive. -/
theorem open_cache {r r' : ObjectReader} {os os' : Os} {q : StringView}
    {res : Option (Option Nat)} (h : r.open os q = .ok (res, r', os')) :
    r.openFiles_.any (fun e => e.1.temporary) = false ∧
    ((r' = r ∧ ∀ u, res = some u →
        (r.openFiles_.find? (fun e => e.1.text == q.text)).map Prod.snd = some u) ∨
     ((r.openFiles_.find? (fun e => e.1.text == q.text)).map Prod.snd = none ∧
      res = some (some r.objects.length) ∧
      r'.openFiles_ = r.openFiles_ ++ [(q, some r.objects.length)])) := by
  have hlive : r.openFiles_.any (fun e => e.1.temporary) = false := by
    cases hd : r.openFiles_.any (fun e => e.1.temporary) with
    | false => rfl
    | true => rw [open_of_dead os q hd] at h; cases h
  refine ⟨hlive, ?_⟩
  unfold ObjectReader.open at h
  rw [findOpenFile_of_live q hlive] at h
  cases hfind : (r.openFiles_.find? (fun e => e.1.text == q.text)).map Prod.snd with
  | some u =>
    rw [hfind] at h
    simp only [Except.ok.injEq, Prod.mk.injEq] at h
    obtain ⟨h1, h2, -⟩ := h
    left
    refine ⟨h2.symm, ?_⟩
    intro u' hu'
    rw [← h1] at hu'
    rw [Option.some.inj hu']
  | none =>
    rw [hfind] at h
    simp only at h
    split at h
    · simp only [Except.ok.injEq, Prod.mk.injEq] at h
      obtain ⟨h1, h2, -⟩ := h
      left
      exact ⟨h2.symm, by intro u hu; rw [← h1] at hu; cases hu⟩
    · split at h
      · simp only [Except.ok.injEq, Prod.mk.injEq] at h
        obtain ⟨h1, h2, -⟩ := h
        left
        exact ⟨h2.symm, by intro u hu; rw [← h1] at hu; cases hu⟩
      · split at h
        · simp only [Except.ok.injEq, Prod.mk.injEq] at h
          obtain ⟨h1, h2, -⟩ := h
          left
          exact ⟨h2.symm, by intro u hu; rw [← h1] at hu; cases hu⟩
        · split at h
          · simp only [Except.ok.injEq, Prod.mk.injEq] at h
            obtain ⟨h1, h2, -⟩ := h
            right
            exact ⟨rfl, h1.symm, by rw [← h2]⟩
          · cases h

set_option maxRecDepth 20000 in
/-- C13 (the code departs from the claim). On a file of 32 bytes `open` returns none and
the cache stays empty. On a file of 128 bytes that starts `DE AD BE EF` the branch that
unmaps and closes does not return: control reaches `assert(ref)` with `ref` still null, and
the call aborts instead of returning none. -/
theorem open_unknown_magic_aborts :
    (ObjectReader.new.open (Sample.osWith (List.replicate 32 0))
        (.ofCString "/bin/app")).map
        (fun x => (x.1, x.2.1))
      = .ok (none, ObjectReader.new) ∧
    leValue (Sample.unknownMagic.take 4) ≠ 0xfeedfacf ∧
    Sample.unknownMagic.length = 128 ∧
    ObjectReader.new.open (Sample.osWith Sample.unknownMagic) (.ofCString "/bin/app")
      = .error .abort := by
  refine ⟨by decide, by decide, by decide, by decide⟩

theorem open_keeps_entry {r r' : ObjectReader} {os os' : Os} {q p : StringView}
    {res : Option (Option Nat)} {v : Option Nat}
    (h : r.open os q = .ok (res, r', os'))
    (hfind : (r.openFiles_.find? (fun e => e.1.text == p.text)).map Prod.snd = some v) :
    (r'.openFiles_.find? (fun e => e.1.text == p.text)).map Prod.snd = some v := by
  rcases (open_cache h).2 with ⟨rfl, -⟩ | ⟨-, -, hem⟩
  · exact hfind
  · rw [hem, List.find?_append]
    cases hf : r.openFiles_.find? (fun e => e.1.text == p.text) with
    | none => rw [hf] at hfind; cases hfind
    | some e => rw [hf] at hfind; exact hfind

theorem open_result_cached {r r1 : ObjectReader} {os os1 : Os} {p : StringView}
    {u : Option Nat} (h : r.open os p = .ok (some u, r1, os1)) :
    (r1.openFiles_.find? (fun e => e.1.text == p.text)).map Prod.snd = some u := by
  rcases (open_cache h).2 with ⟨rfl, hu⟩ | ⟨hnone, hres, hem⟩
  · exact hu u rfl
  · rw [hem, List.find?_append, Option.some.inj hres]
    cases hf : r.openFiles_.find? (fun e => e.1.text == p.text) with
    | none => simp
    | some e => rw [hf] at hnone; cases hnone

theorem opens_keeps_entry {p : StringView} {v : Option Nat} :
    ∀ (qs : List StringView) {r r2 : ObjectReader} {os os2 : Os},
      r.opens os qs = .ok (r2, os2) →
      (r.openFiles_.find? (fun e => e.1.text == p.text)).map Prod.snd = some v →
      (r2.openFiles_.find? (fun e => e.1.text == p.text)).map Prod.snd = some v := by
  intro qs
  induction qs with
  | nil =>
    intro r r2 os os2 h hfind
    simp only [ObjectReader.opens, Except.ok.injEq, Prod.mk.injEq] at h
    rw [← h.1]; exact hfind
  | cons q qs ih =>
    intro r r2 os os2 h hfind
    rw [ObjectReader.opens] at h
    cases hq : r.open os q with
    | error e => rw [hq] at h; cases h
    | ok x =>
      obtain ⟨res, r', os'⟩ := x
      rw [hq] at h
      exact ih h (open_keeps_entry hq hfind)

/-- With keys that are alive the cache answers. After `open(p)` has returned the handle `h`,
and after any further calls of `open` on the same reader, a call of `open` with the
characters of `p` on a reader whose keys are all alive returns `h` again and leaves the
reader and the operating system exactly as they were. -/
theorem open_again_of_live_keys (r r1 r2 : ObjectReader) (os os1 os2 os3 : Os)
    (p again : StringView) (h : Nat) (qs : List StringView)
    (hopen : r.open os p = .ok (some (some h), r1, os1))
    (hlater : r1.opens os1 qs = .ok (r2, os2))
    (hlive : r2.openFiles_.any (fun e => e.1.temporary) = false)
    (hagain : again.text = p.text) :
    r2.open os3 again = .ok (some (some h), r2, os3) :=
  open_of_cached os3 hlive
    (by rw [hagain]; exact opens_keeps_entry qs hlater (open_result_cached hopen))

/-- A call of `open` with the view of a temporary that creates an object leaves a dead key
behind: every later call of `open` on the reader is undefined. -/
theorem open_after_temporary (r r1 : ObjectReader) (os os1 os2 : Os) (p again : StringView)
    (res : Option (Option Nat)) (hopen : r.open os p = .ok (res, r1, os1))
    (hnew : r1 ≠ r) (hp : p.temporary = true) :
    r1.open os2 again = .error .undefined := by
  rcases (open_cache hopen).2 with ⟨rfl, -⟩ | ⟨-, -, hem⟩
  · exact absurd rfl hnew
  · apply open_of_dead
    rw [hem, List.any_append]
    simp [hp]

set_option maxRecDepth 50000 in
/-- C14 (the code departs from the claim). `openFiles_` is a map keyed by
`std::string_view`, and `open` stores the view it was called with as the key
(`openFiles_.emplace(path, std::move(ref))`), not a copy of the characters. The constructor
of `DWARFDebugInfo` calls `reader.open(file.string())`: the view is one of a temporary
`std::string`, destroyed at the end of that statement. For the companion file
`/bin/app.dSYM/Contents/Resources/DWARF/app` that call succeeds with a handle and leaves
the dead view as a key of the cache, so the next `open` of the same path compares its
argument with characters that are gone: the behaviour is undefined, not "the same handle".
In the program: a stack trace with one frame in `/bin/app` resolves (symbol `_main`, file
`b.c`, line 1, read from the companion file), and the same trace with a second frame, in
the image `/lib/x`, is undefined at the `open` for that frame. With a view that outlives
the reader (`image->name`) the second `open` is answered from the cache, with the same
handle and no call to the operating system. -/
theorem open_again_reads_dead_key :
    (ObjectReader.new.open (Sample.osWithDsym Sample.app Sample.appDebug)
        (.ofTemporary Sample.dsymPath)).map (fun x => (x.1, x.2.1.openFiles_))
      = .ok (some (some 0), [(.ofTemporary Sample.dsymPath, some 0)]) ∧
    (ObjectReader.new.open (Sample.osWithDsym Sample.app Sample.appDebug)
        (.ofTemporary Sample.dsymPath) >>= fun x =>
      x.2.1.open x.2.2 (.ofTemporary Sample.dsymPath)) = .error .undefined ∧
    (__populate_entries Sample.processThreeImages
        (Sample.osWithDsym Sample.app Sample.appDebug) [Sample.entry 0x5001004]).map Prod.fst
      = .ok [⟨0x5001004, Sample.chars "_main", Sample.chars "b.c", 1⟩] ∧
    __populate_entries Sample.processThreeImages
        (Sample.osWithDsym Sample.app Sample.appDebug)
        [Sample.entry 0x5001004, Sample.entry 0x7000010]
      = .error .undefined ∧
    (ObjectReader.new.open (Sample.osWith Sample.app) (.ofCString "/bin/app")
      = .ok (some (some 0), Sample.readerOpened, Sample.osOpened) ∧
     ∀ os3 : Os, Sample.readerOpened.open os3 (.ofCString "/bin/app")
      = .ok (some (some 0), Sample.readerOpened, os3)) := by
  refine ⟨by decide, by decide, by decide, by decide, by decide, fun os3 => ?_⟩
  exact open_of_cached os3 (by decide) (by decide)

end ObjectReader

/-! ## Symbol records of `LC_SYMTAB` -/

theorem leBytes_length (w : Nat) : ∀ (n : Nat), (leBytes w n).length = w := by
  induction w with
  | zero => intro n; rfl
  | succ w ih => intro n; simp [leBytes, ih]

theorem leValue_leBytes (w : Nat) : ∀ (n : Nat), leValue (leBytes w n) = n % 256 ^ w := by
  induction w with
  | zero => intro n; simp [leBytes, leValue, Nat.mod_one]
  | succ w ih =>
    intro n
    have hb : (Fin.ofNat (n % 256) : Byte).val = n % 256 := by
      show n % 256 % 256 = n % 256
      omega
    rw [leBytes, leValue, ih, hb, Nat.pow_succ, Nat.mul_comm (256 ^ w) 256, Nat.mod_mul]

/-- A load through a cursor depends on the mapping only. -/
theorem Bytes.loadLE_congr {c d : Bytes} (horg : d.org = c.org) (hmem : d.mem = c.mem) :
    ∀ (w a : Nat), d.loadLE a w = c.loadLE a w := by
  intro w
  induction w with
  | zero => intro a; rfl
  | succ w ih =>
    intro a
    simp only [Bytes.loadLE, Bytes.load, horg, hmem, ih]

/-- The member at offset `xs.length` of a record whose bytes are `xs ++ ys ++ zs`. -/
theorem Bytes.field_of_startsWith {c d : Bytes} (xs ys zs : List Byte)
    (h : c.StartsWith (xs ++ (ys ++ zs))) (horg : d.org = c.org) (hmem : d.mem = c.mem) :
    d.field c.base_ xs.length ys.length = .ok (leValue ys) := by
  obtain ⟨-, h2⟩ := Bytes.StartsWith.append xs h
  obtain ⟨h3, -⟩ := Bytes.StartsWith.append ys h2
  have hlt : c.base_ + xs.length < 2 ^ 64 := by
    have := h.2.1; have := h.2.2.1
    simp only [List.length_append] at *
    omega
  have hload := Bytes.loadLE_of_startsWith ys h3
  rw [Bytes.loadLE_advance] at hload
  simp only [Bytes.advance] at hload
  unfold Bytes.field
  rw [Nat.mod_eq_of_lt hlt, Bytes.loadLE_congr horg hmem, hload]

namespace macho

/-- The four members `genSymbolTable` reads from a symbol record. -/
theorem nlist_fields {file syms : Bytes} {r : nlist_64} {rest : List Byte}
    (hc : syms.StartsWith (r.bytes ++ rest)) (horg : file.org = syms.org)
    (hmem : file.mem = syms.mem) :
    file.field syms.base_ 0 4 = .ok r.n_strx.val ∧
    file.field syms.base_ 4 1 = .ok r.n_type.val ∧
    file.field syms.base_ 5 1 = .ok r.n_sect.val ∧
    file.field syms.base_ 8 8 = .ok r.n_value.val := by
  have h1 := Bytes.field_of_startsWith (c := syms) (d := file) []
    (leBytes 4 r.n_strx.val)
    (leBytes 1 r.n_type.val ++ (leBytes 1 r.n_sect.val ++
      (leBytes 2 r.n_desc.val ++ leBytes 8 r.n_value.val)) ++ rest)
    (by simpa [nlist_64.bytes, List.append_assoc] using hc) horg hmem
  have h2 := Bytes.field_of_startsWith (c := syms) (d := file)
    (leBytes 4 r.n_strx.val) (leBytes 1 r.n_type.val)
    (leBytes 1 r.n_sect.val ++ (leBytes 2 r.n_desc.val ++ leBytes 8 r.n_value.val) ++ rest)
    (by simpa [nlist_64.bytes, List.append_assoc] using hc) horg hmem
  have h3 := Bytes.field_of_startsWith (c := syms) (d := file)
    (leBytes 4 r.n_strx.val ++ leBytes 1 r.n_type.val) (leBytes 1 r.n_sect.val)
    (leBytes 2 r.n_desc.val ++ leBytes 8 r.n_value.val ++ rest)
    (by simpa [nlist_64.bytes, List.append_assoc] using hc) horg hmem
  have h4 := Bytes.field_of_startsWith (c := syms) (d := file)
    (leBytes 4 r.n_strx.val ++ (leBytes 1 r.n_type.val ++ (leBytes 1 r.n_sect.val ++
      leBytes 2 r.n_desc.val))) (leBytes 8 r.n_value.val) rest
    (by simpa [nlist_64.bytes, List.append_assoc] using hc) horg hmem
  simp only [List.length_append, leBytes_length, List.length_nil, leValue_leBytes] at h1 h2 h3 h4
  have e1 : r.n_strx.val % 256 ^ 4 = r.n_strx.val :=
    Nat.mod_eq_of_lt (by have := r.n_strx.isLt; norm_num at this ⊢; exact this)
  have e2 : r.n_type.val % 256 ^ 1 = r.n_type.val :=
    Nat.mod_eq_of_lt (by have := r.n_type.isLt; norm_num at this ⊢; exact this)
  have e3 : r.n_sect.val % 256 ^ 1 = r.n_sect.val :=
    Nat.mod_eq_of_lt (by have := r.n_sect.isLt; norm_num at this ⊢; exact this)
  have e4 : r.n_value.val % 256 ^ 8 = r.n_value.val :=
    Nat.mod_eq_of_lt (by have := r.n_value.isLt; norm_num at this ⊢; exact this)
  rw [e1] at h1; rw [e2] at h2; rw [e3] at h3; rw [e4] at h4
  exact ⟨h1, h2, h3, h4⟩

/-- The body of the loop of `genSymbolTable` on one record naming a section of the table. -/
theorem symbolStep_eq (file strs syms : Bytes) (secTable : SectionTable) (ret : SymbolTable)
    (r : nlist_64) (rest name : List Byte)
    (hc : syms.StartsWith (r.bytes ++ rest)) (horg : file.org = syms.org)
    (hmem : file.mem = syms.mem) (hname : strs.str r.n_strx.val = .ok name)
    (hsect : 1 ≤ r.n_sect.val ∧ r.n_sect.val < secTable.byIndex_.length) :
    symbolStep file strs secTable syms.base_ ret =
      .ok (if specAdded name r = true then ret.add (specSymbol secTable name r) else ret) := by
  obtain ⟨h1, h2, h3, h4⟩ := nlist_fields hc horg hmem
  have hidx : secTable.atIndex r.n_sect.val =
      .ok (secTable.byIndex_.getD r.n_sect.val none) := by
    unfold SectionTable.atIndex
    rw [List.get?_eq_getElem?, List.getElem?_eq_getElem hsect.2]
    simp [List.getD, List.getElem?_eq_getElem hsect.2]
  have hne : r.n_sect.val ≠ 0 := by omega
  unfold symbolStep
  simp only [h1, h2, h3, h4, hname, hidx, if_pos hne, bind, Except.bind, pure, Except.pure]
  unfold specAdded specSymbol nlistType
  by_cases ha : r.n_value.val ≠ 0 ∧ name ≠ []
  · by_cases ht : (r.n_type.val &&& 0xee = 0x24 ∨ r.n_type.val &&& 0xee = 0x0a ∨
        r.n_type.val &&& 0xee = 0x0e)
    · rw [if_pos ha, if_pos ht, if_pos (by simpa using ⟨ha.2, ha.1, ht⟩)]
    · rw [if_pos ha, if_neg ht, if_neg (by simp only [decide_eq_true_eq]; tauto)]
  · rw [if_neg ha, if_neg (by simp only [decide_eq_true_eq]; tauto)]

theorem nlist_bytes_length (r : nlist_64) : r.bytes.length = 16 := by
  simp [nlist_64.bytes, leBytes_length]

/-- The loop `while (syms)` over a cursor that holds exactly the records `rs`. -/
theorem symbolLoop_run (file strs : Bytes) (secTable : SectionTable)
    (names : nlist_64 → List Byte) :
    ∀ (rs : List nlist_64) (syms : Bytes) (ret : SymbolTable) (fuel : Nat),
      syms.StartsWith (rs.map nlist_64.bytes).flatten →
      syms.limit_ = syms.base_ + 16 * rs.length →
      file.org = syms.org → file.mem = syms.mem → rs.length < fuel →
      (∀ r ∈ rs, strs.str r.n_strx.val = .ok (names r)) →
      (∀ r ∈ rs, 1 ≤ r.n_sect.val ∧ r.n_sect.val < secTable.byIndex_.length) →
      symbolLoop file strs secTable fuel syms ret =
        .ok ((rs.filter (fun r => specAdded (names r) r)).foldl
          (fun t r => t.add (specSymbol secTable (names r) r)) ret) := by
  intro rs
  induction rs with
  | nil =>
    intro syms ret fuel hc hlim _ _ hfuel _ _
    obtain ⟨fuel, rfl⟩ : ∃ f, fuel = f + 1 := ⟨fuel - 1, by simp at hfuel; omega⟩
    have hsize : syms.toBool = false := by
      simp only [Bytes.toBool, Bytes.size, hlim]
      simp
    rw [symbolLoop, hsize]
    rfl
  | cons r rs ih =>
    intro syms ret fuel hc hlim horg hmem hfuel hnames hsect
    obtain ⟨fuel, rfl⟩ : ∃ f, fuel = f + 1 := ⟨fuel - 1, by simp at hfuel; omega⟩
    have hc' : syms.StartsWith (r.bytes ++ (rs.map nlist_64.bytes).flatten) := by
      simpa using hc
    have hltlim : syms.limit_ < 2 ^ 64 := hc.2.2.1
    simp only [List.length_cons] at hlim hfuel
    have hsz : syms.size = 16 * (rs.length + 1) := by
      simp only [Bytes.size, hlim]
      omega
    have htrue : syms.toBool = true := by
      simp only [Bytes.toBool, hsz]
      simp
    have hget : syms.get 16 = .ok (syms.base_, syms.advance 16) := by
      unfold Bytes.get
      rw [if_neg (by rw [hsz]; omega)]
      have : (syms.base_ + 16) % 2 ^ 64 = syms.base_ + 16 := by omega
      rw [this]
      rfl
    have hstep := symbolStep_eq file strs syms secTable ret r _ (names r) hc' horg hmem
      (hnames r (List.mem_cons_self _ _)) (hsect r (List.mem_cons_self _ _))
    obtain ⟨-, htl⟩ := Bytes.StartsWith.append r.bytes hc'
    rw [nlist_bytes_length] at htl
    have hih := ih (syms.advance 16)
      (if specAdded (names r) r = true then ret.add (specSymbol secTable (names r) r) else ret)
      fuel htl (by simp only [Bytes.advance]; omega) horg hmem (by omega)
      (fun x hx => hnames x (List.mem_cons_of_mem _ hx))
      (fun x hx => hsect x (List.mem_cons_of_mem _ hx))
    rw [symbolLoop, htrue]
    simp only [if_true, hget, hstep, hih, bind, Except.bind]
    by_cases hq : specAdded (names r) r = true
    · simp [List.filter, hq]
    · simp [List.filter, hq]

theorem flatten_bytes_length (rs : List nlist_64) :
    ((rs.map nlist_64.bytes).flatten).length = 16 * rs.length := by
  induction rs with
  | nil => rfl
  | cons r rs ih =>
    simp only [List.map_cons, List.flatten_cons, List.length_append, nlist_bytes_length,
      List.length_cons, ih]
    omega

/-- The callback of `genSymbolTable` on an `LC_SYMTAB` command whose records are `rs`: the
run of `SymbolTable::add` calls it makes, one for each record whose name is non-empty,
whose `n_value` is nonzero and whose `n_type & 0xEE` is `0x24`, `0x0A` or `0x0E`, in the
order of the records. -/
theorem symtabCommand_eq_foldl (file strs : Bytes) (secTable : SectionTable)
    (ret : SymbolTable) (cmd symoff stroff strsize : Nat) (rs : List nlist_64)
    (names : nlist_64 → List Byte)
    (hbase : file.base_ = file.org) (hlimit : file.limit_ = file.org + file.mem.length)
    (hlt : file.limit_ < 2 ^ 64)
    (hcmd : file.field cmd 0 4 = .ok LC_SYMTAB)
    (hsymoff : file.field cmd 8 4 = .ok symoff)
    (hnsyms : file.field cmd 12 4 = .ok rs.length)
    (hstroff : file.field cmd 16 4 = .ok stroff)
    (hstrsize : file.field cmd 20 4 = .ok strsize)
    (hfit : symoff + 16 * rs.length ≤ file.mem.length)
    (hrecs : (file.mem.drop symoff).take (16 * rs.length) = (rs.map nlist_64.bytes).flatten)
    (hstrs : file.slice2 stroff strsize = .ok strs)
    (hnames : ∀ r ∈ rs, strs.str r.n_strx.val = .ok (names r))
    (hsect : ∀ r ∈ rs, 1 ≤ r.n_sect.val ∧ r.n_sect.val < secTable.byIndex_.length) :
    symtabCommand file secTable ret cmd =
      .ok ((rs.filter (fun r => specAdded (names r) r)).foldl
        (fun t r => t.add (specSymbol secTable (names r) r)) ret) := by
  have hsyms : file.slice2 symoff (rs.length * 16) =
      .ok { file with base_ := file.org + symoff, limit_ := file.org + symoff + 16 * rs.length } := by
    have hs : ¬ file.base_ > (file.limit_ + 2 ^ 64 - symoff % 2 ^ 64) % 2 ^ 64 := by omega
    have hb : (file.base_ + symoff) % 2 ^ 64 = file.org + symoff := by omega
    have hm : (file.org + symoff + rs.length * 16) % 2 ^ 64 = file.org + symoff + 16 * rs.length := by
      omega
    have hmin : min (file.org + symoff + 16 * rs.length) file.limit_ =
        file.org + symoff + 16 * rs.length := by omega
    simp only [Bytes.slice2, Bytes.slice, if_neg hs, hb, bind, Except.bind, pure, Except.pure,
      Bytes.truncate, hm, hmin]
  have hrun := symbolLoop_run file strs secTable names rs
    { file with base_ := file.org + symoff, limit_ := file.org + symoff + 16 * rs.length } ret
    (Bytes.size { file with base_ := file.org + symoff,
                            limit_ := file.org + symoff + 16 * rs.length } + 1)
    ⟨by show file.org ≤ file.org + symoff; omega,
     by show file.org + symoff + _ ≤ file.org + symoff + 16 * rs.length
        rw [flatten_bytes_length],
     by show file.org + symoff + 16 * rs.length < 2 ^ 64; omega,
     by show (file.mem.drop (file.org + symoff - file.org)).take _ = _
        rw [flatten_bytes_length, Nat.add_sub_cancel_left]; exact hrecs⟩
    rfl rfl rfl
    (by simp only [Bytes.size]; omega) hnames hsect
  unfold symtabCommand
  simp only [hcmd, hsymoff, hnsyms, hstroff, hstrsize, hsyms, hstrs, if_true, bind, Except.bind,
    hrun]

set_option maxRecDepth 20000 in
/-- C16 (the code departs from the claim). The record of `_helper` in `appIndirect` has a
non-empty name, a nonzero `n_value`, `n_type & 0xEE = 0x0A` and `n_sect = 0`. The local
`Section *sec` is assigned only `if (sym->n_sect)`, so on this record it is passed to
`ret->add({addr, name, sec})` without ever having been given a value: the symbol's section is
indeterminate, not the null pointer `atIndex(0)` holds. With `n_sect = 1` in the same
record (`app`) the symbol is added with the section at index 1. -/
theorem symbol_without_section_is_indeterminate :
    genSymbolTable (Bytes.ofList Sample.appIndirect) (SectionTable.build [Sample.text, Sample.const])
      = .error .undefined ∧
    (Sample.objectFileOf Sample.appIndirect).symbolTable = .error .undefined ∧
    (SectionTable.build [Sample.text, Sample.const]).atIndex 0 = .ok none ∧
    genSymbolTable (Bytes.ofList Sample.app) (SectionTable.build [Sample.text, Sample.const])
      = .ok (SymbolTable.build
          [⟨0x1000, Sample.chars "_main", some Sample.text⟩,
           ⟨0x1008, Sample.chars "_helper", some Sample.text⟩]) := by
  refine ⟨by decide, by decide, by decide, by decide⟩

set_option maxRecDepth 20000 in
/-- C17 (the code departs from the claim). In the file `object` the section records are
`r_1 = __text` at address 0 and `r_2 = __const` at `0x10`. `SectionTable::add` returns
before `byIndex_.push_back` on a section whose address or size is 0 (or whose address is
taken), so the index vector gets no entry for `r_1`: `atIndex(1)` is the section of `r_2` and
`atIndex(2)` throws `std::out_of_range`. In `appEmptySection` the empty second section is
skipped likewise, `atIndex(2)` is the section of `r_3` and `atIndex(3)` throws. The symbol
tables of both files cannot be built: a record with `n_sect = N` makes `atIndex` throw. -/
theorem atIndex_skips_rejected_sections :
    (genSectionTable (Bytes.ofList Sample.object)).map
        (fun t => (t.atIndex 0, t.atIndex 1, t.atIndex 2))
      = .ok (.ok none, .ok (some ⟨Sample.chars "__const", 0x10, 8, 0x210, 8⟩),
          .error .outOfRange) ∧
    sectionOf (Bytes.ofList Sample.object) (0x100000000 + 104)
      = .ok ⟨Sample.chars "__text", 0, 16, 0x200, 16⟩ ∧
    (genSectionTable (Bytes.ofList Sample.appEmptySection)).map
        (fun t => (t.atIndex 1, t.atIndex 2, t.atIndex 3))
      = .ok (.ok (some Sample.text), .ok (some Sample.const), .error .outOfRange) ∧
    sectionOf (Bytes.ofList Sample.appEmptySection) (0x100000000 + 184)
      = .ok ⟨Sample.chars "__empty", 0x1800, 0, 0x210, 0⟩ ∧
    (Sample.objectFileOf Sample.object).symbolTable = .error .outOfRange ∧
    (Sample.objectFileOf Sample.appEmptySection).symbolTable = .error .outOfRange := by
  refine ⟨by decide, by decide, by decide, by decide, by decide, by decide⟩

end macho

/-! ## Ordered maps: `find` and `operator[]` -/

namespace AddrMap

variable {V : Type}

theorem find_isSome_iff {m : AddrMap V} {k : Nat} :
    (m.find k).isSome = true ↔ ∃ e ∈ m, e.1 = k := by
  induction m with
  | nil => simp [find]
  | cons hd tl ih =>
    obtain ⟨k', v'⟩ := hd
    simp only [find]
    split
    · rename_i h
      simp only [Option.isSome_some, true_iff]
      exact ⟨(k', v'), List.mem_cons_self _ _, h⟩
    · rename_i h
      rw [ih]
      constructor
      · rintro ⟨e, he, hk⟩
        exact ⟨e, List.mem_cons_of_mem _ he, hk⟩
      · rintro ⟨e, he, hk⟩
        rcases List.mem_cons.mp he with he | he
        · subst he; exact absurd hk h
        · exact ⟨e, he, hk⟩

theorem mem_assign {m : AddrMap V} {k : Nat} {v : V} {e : Nat × V}
    (h : e ∈ m.assign k v) : e = (k, v) ∨ e ∈ m := by
  induction m with
  | nil => simp [assign] at h; exact Or.inl h
  | cons hd tl ih =>
    obtain ⟨k', v'⟩ := hd
    simp only [assign] at h
    split at h
    · simpa using h
    · split at h
      · rcases List.mem_cons.mp h with h | h
        · exact Or.inl h
        · exact Or.inr (List.mem_cons_of_mem _ h)
      · rcases List.mem_cons.mp h with h | h
        · exact Or.inr (h ▸ List.mem_cons_self _ _)
        · rcases ih h with h | h
          · exact Or.inl h
          · exact Or.inr (List.mem_cons_of_mem _ h)

theorem mem_assign_self (m : AddrMap V) (k : Nat) (v : V) : (k, v) ∈ m.assign k v := by
  induction m with
  | nil => simp [assign]
  | cons hd tl ih =>
    obtain ⟨k', v'⟩ := hd
    simp only [assign]
    split
    · exact List.mem_cons_self _ _
    · split
      · exact List.mem_cons_self _ _
      · exact List.mem_cons_of_mem _ ih

theorem mem_assign_of_ne {m : AddrMap V} (k : Nat) (v : V) {e : Nat × V} (h : e ∈ m)
    (hne : e.1 ≠ k) : e ∈ m.assign k v := by
  induction m with
  | nil => cases h
  | cons hd tl ih =>
    obtain ⟨k', v'⟩ := hd
    simp only [assign]
    split
    · exact List.mem_cons_of_mem _ h
    · split
      · rename_i heq
        rcases List.mem_cons.mp h with h | h
        · subst h; exact absurd heq.symm hne
        · exact List.mem_cons_of_mem _ h
      · rcases List.mem_cons.mp h with h | h
        · exact h ▸ List.mem_cons_self _ _
        · exact List.mem_cons_of_mem _ (ih h)

theorem assign_sorted {m : AddrMap V} (k : Nat) (v : V) (h : Ascending m) :
    Ascending (m.assign k v) := by
  induction m with
  | nil => simp [assign, Ascending]
  | cons hd tl ih =>
    obtain ⟨k', v'⟩ := hd
    have htl : Ascending tl := (List.pairwise_cons.mp h).2
    have hhd := (List.pairwise_cons.mp h).1
    simp only [assign]
    split
    · rename_i hlt
      refine List.pairwise_cons.mpr ⟨?_, h⟩
      intro e he
      rcases List.mem_cons.mp he with he | he
      · subst he; exact hlt
      · exact Nat.lt_trans hlt (hhd e he)
    · split
      · rename_i h1 h2
        refine List.pairwise_cons.mpr ⟨?_, htl⟩
        intro e he
        have := hhd e he
        show k < e.1
        omega
      · rename_i h1 h2
        refine List.pairwise_cons.mpr ⟨?_, ih htl⟩
        intro e he
        rcases mem_assign he with he | he
        · subst he; show k' < k; omega
        · exact hhd e he

/-- In a sorted map, the lookup `upper_bound(k)`, `--it` at a key `k` of the map stops on
the entry under `k`. -/
theorem floor_of_mem {m : AddrMap V} (hs : Ascending m) {k : Nat} {v : V}
    (h : (k, v) ∈ m) : ∃ i, m.upperBound k = i + 1 ∧ m.get? i = some (k, v) := by
  cases hub : m.upperBound k with
  | zero =>
    have := upperBound_eq_zero hs hub (k, v) h
    simp at this
  | succ i =>
    obtain ⟨e, hget, hmem, hle, hmax⟩ := upperBound_pred hs k i hub
    have hk : e.1 = k := Nat.le_antisymm hle (hmax (k, v) h (Nat.le_refl _))
    obtain ⟨k', v'⟩ := e
    simp only at hk
    subst hk
    have hv : v' = v := hs.unique hmem h
    subst hv
    exact ⟨i, rfl, hget⟩

/-- When some key of the map is above `x`, `upper_bound(x)` is not `end()`. -/
theorem upperBound_lt_length {m : AddrMap V} {x : Nat} (h : ∃ e ∈ m, x < e.1) :
    m.upperBound x < m.length := by
  induction m with
  | nil => obtain ⟨e, he, -⟩ := h; cases he
  | cons hd tl ih =>
    obtain ⟨k', v'⟩ := hd
    simp only [upperBound, List.length_cons]
    split
    · omega
    · rename_i hge
      obtain ⟨e, he, hlt⟩ := h
      rcases List.mem_cons.mp he with he | he
      · subst he; exact absurd hlt hge
      · have := ih ⟨e, he, hlt⟩
        omega

theorem mem_emplaceAll {ops : List (Nat × V)} :
    ∀ {m : AddrMap V} {e : Nat × V}, e ∈ m.emplaceAll ops → e ∈ m ∨ e ∈ ops := by
  induction ops with
  | nil => intro m e h; exact Or.inl h
  | cons op ops ih =>
    intro m e h
    rcases ih (m := m.emplace op.1 op.2) h with h | h
    · rcases mem_emplace h with h | h
      · exact Or.inr (h ▸ List.mem_cons_self _ _)
      · exact Or.inl h
    · exact Or.inr (List.mem_cons_of_mem _ h)

end AddrMap

/-! ## `SectionTable` -/

namespace SectionTable

theorem new_indexed : SectionTable.new.Indexed := by
  refine ⟨?_, ?_, ?_⟩
  · show AddrMap.Ascending ((AddrMap.emplace [] 0 none).emplace (2 ^ 64 - 1) none)
    exact AddrMap.emplace_sorted _ _ (AddrMap.emplace_sorted _ _ List.Pairwise.nil)
  · intro s hs; cases hs
  · intro e he
    have he' : e ∈ (AddrMap.emplace (AddrMap.emplace [] 0 none) (2 ^ 64 - 1) none :
        AddrMap (Option Section)) := he
    rcases AddrMap.mem_emplace he' with h | h
    · exact Or.inr (Or.inl h)
    · rcases AddrMap.mem_emplace h with h | h
      · exact Or.inl h
      · cases h

/-- A section is rejected when it is empty, at address 0, or at a key of the address map. -/
theorem add_of_rejected {t : SectionTable} {s : Section}
    (h : s.virt_size = 0 ∨ s.virt_addr = 0 ∨ (t.byAddr_.find s.virt_addr).isSome = true) :
    t.add s = t := by
  unfold add
  rw [if_pos h]

theorem add_of_accepted {t : SectionTable} {s : Section}
    (h : ¬ (s.virt_size = 0 ∨ s.virt_addr = 0 ∨ (t.byAddr_.find s.virt_addr).isSome = true)) :
    t.add s =
      { sections_ := t.sections_ ++ [s]
        byIndex_ := t.byIndex_ ++ [some s]
        byAddr_ := t.byAddr_.assign s.virt_addr (some s)
        byName_ := t.byName_.assign s.name (some s) } := by
  unfold add
  rw [if_neg h]

theorem add_indexed {t : SectionTable} (ht : t.Indexed) (s : Section) : (t.add s).Indexed := by
  by_cases h : s.virt_size = 0 ∨ s.virt_addr = 0 ∨ (t.byAddr_.find s.virt_addr).isSome = true
  · rw [add_of_rejected h]; exact ht
  · rw [add_of_accepted h]
    obtain ⟨hasc, hsec, hall⟩ := ht
    have hfresh : ∀ e ∈ t.byAddr_, e.1 ≠ s.virt_addr := by
      intro e he heq
      exact h (Or.inr (Or.inr (AddrMap.find_isSome_iff.mpr ⟨e, he, heq⟩)))
    refine ⟨AddrMap.assign_sorted _ _ hasc, ?_, ?_⟩
    · intro s' hs'
      rcases List.mem_append.mp hs' with hs' | hs'
      · exact AddrMap.mem_assign_of_ne _ _ (hsec s' hs') (hfresh _ (hsec s' hs'))
      · have : s' = s := by simpa using hs'
        subst this
        exact AddrMap.mem_assign_self _ _ _
    · intro e he
      rcases AddrMap.mem_assign he with he | he
      · exact Or.inr (Or.inr ⟨s, by simp, he⟩)
      · rcases hall e he with h0 | h1 | ⟨s', hs', heq⟩
        · exact Or.inl h0
        · exact Or.inr (Or.inl h1)
        · exact Or.inr (Or.inr ⟨s', List.mem_append_left _ hs', heq⟩)

theorem foldl_indexed (ss : List Section) :
    ∀ {t : SectionTable}, t.Indexed → (ss.foldl add t).Indexed := by
  induction ss with
  | nil => intro t h; exact h
  | cons s ss ih => intro t h; exact ih (add_indexed h s)

theorem build_indexed (ss : List Section) : (build ss).Indexed :=
  foldl_indexed ss new_indexed

/-- Once accepted, a section stays in the list of sections. -/
theorem mem_sections_foldl (ss : List Section) :
    ∀ {t : SectionTable} {s : Section}, s ∈ t.sections_ → s ∈ (ss.foldl add t).sections_ := by
  induction ss with
  | nil => intro t s h; exact h
  | cons s' ss ih =>
    intro t s h
    apply ih
    by_cases hr : s'.virt_size = 0 ∨ s'.virt_addr = 0 ∨
        (t.byAddr_.find s'.virt_addr).isSome = true
    · rw [add_of_rejected hr]; exact h
    · rw [add_of_accepted hr]; exact List.mem_append_left _ h

/-- The lookup `atAddress` at the virtual address of an accepted section. -/
theorem atAddress_of_mem {t : SectionTable} (ht : t.Indexed) {s : Section}
    (hs : s ∈ t.sections_) : t.atAddress s.virt_addr = .ok (some s) := by
  obtain ⟨i, hub, hget⟩ := AddrMap.floor_of_mem ht.1 (ht.2.1 s hs)
  unfold atAddress
  rw [hub]
  simp only [hget]

/-- C18 (what fails). A section of virtual size 0 at an address no section has yet, a section
at virtual address 0 and a section at virtual address `2^64 - 1`, the key of the high
sentinel, are each dropped by `add`: afterwards `atAddress` of their address is not them,
and the table is the empty table. -/
theorem add_drops_empty_or_sentinel_address :
    (SectionTable.new.add ⟨[0x61], 0x1000, 0, 0, 0⟩).atAddress 0x1000 = .ok none ∧
    (SectionTable.new.add ⟨[0x61], 0, 16, 0x200, 16⟩).atAddress 0 = .ok none ∧
    (SectionTable.new.add ⟨[0x61], 2 ^ 64 - 1, 16, 0x200, 16⟩).atAddress (2 ^ 64 - 1) = .ok none ∧
    SectionTable.new.add ⟨[0x61], 0x1000, 0, 0, 0⟩ = SectionTable.new ∧
    SectionTable.new.add ⟨[0x61], 0, 16, 0x200, 16⟩ = SectionTable.new ∧
    SectionTable.new.add ⟨[0x61], 2 ^ 64 - 1, 16, 0x200, 16⟩ = SectionTable.new := by
  refine ⟨by decide, by decide, by decide, by decide, by decide, by decide⟩

/-- C18 (amended). A section `s` of nonzero virtual size whose virtual address is neither 0
nor `2^64 - 1` nor the virtual address of a section accepted before is accepted by `add`, and
from then on, whatever sections are passed to `add` later, `atAddress(s.virt_addr)` is `s`. -/
theorem atAddress_of_added (ss later : List Section) (s : Section)
    (hsize : s.virt_size ≠ 0) (hzero : s.virt_addr ≠ 0) (hmax : s.virt_addr ≠ 2 ^ 64 - 1)
    (hnew : ∀ s' ∈ (build ss).sections_, s'.virt_addr ≠ s.virt_addr) :
    (later.foldl add ((build ss).add s)).atAddress s.virt_addr = .ok (some s) := by
  have hinv := build_indexed ss
  have hacc : ¬ (s.virt_size = 0 ∨ s.virt_addr = 0 ∨
      ((build ss).byAddr_.find s.virt_addr).isSome = true) := by
    rintro (h | h | h)
    · exact hsize h
    · exact hzero h
    · obtain ⟨e, he, hk⟩ := AddrMap.find_isSome_iff.mp h
      rcases hinv.2.2 e he with h0 | h1 | ⟨s', hs', heq⟩
      · subst h0; exact hzero hk.symm
      · subst h1; exact hmax hk.symm
      · subst heq; exact hnew s' hs' hk
  have hmem : s ∈ ((build ss).add s).sections_ := by
    rw [add_of_accepted hacc]; simp
  exact atAddress_of_mem (foldl_indexed later (add_indexed hinv s)) (mem_sections_foldl later hmem)

/-- Witness for C18: `__const` at `0x2000` added after `__text` at `0x1000` and before a
second section at `0x2000`. -/
theorem atAddress_of_added_witness :
    (List.foldl add ((build [Sample.text]).add Sample.const)
        [⟨[0x62], 0x2000, 4, 0x300, 4⟩]).atAddress Sample.const.virt_addr
      = .ok (some Sample.const) :=
  atAddress_of_added [Sample.text] [⟨[0x62], 0x2000, 4, 0x300, 4⟩] Sample.const
    (by decide) (by decide) (by decide) (by decide)

/-- C19. When `s.virt_addr` is the virtual address of a section `s'` the table has accepted,
`add(s)` leaves the table as it is, that is the list of sections and the three indexes by
index, by address and by name; `atAddress` of that address is `s'` before and after. -/
theorem add_rejects_duplicate_address (ss : List Section) (s s' : Section)
    (hmem : s' ∈ (build ss).sections_) (haddr : s.virt_addr = s'.virt_addr) :
    (build ss).add s = build ss ∧
    ((build ss).add s).sections_ = (build ss).sections_ ∧
    ((build ss).add s).byIndex_ = (build ss).byIndex_ ∧
    ((build ss).add s).byAddr_ = (build ss).byAddr_ ∧
    ((build ss).add s).byName_ = (build ss).byName_ ∧
    (build ss).atAddress s.virt_addr = .ok (some s') ∧
    ((build ss).add s).atAddress s.virt_addr = .ok (some s') := by
  have hinv := build_indexed ss
  have hrej : (build ss).add s = build ss := by
    apply add_of_rejected
    right; right
    exact AddrMap.find_isSome_iff.mpr ⟨_, hinv.2.1 s' hmem, haddr.symm⟩
  have hat : (build ss).atAddress s.virt_addr = .ok (some s') := by
    rw [haddr]; exact atAddress_of_mem hinv hmem
  rw [hrej]
  exact ⟨rfl, rfl, rfl, rfl, rfl, hat, hat⟩

/-- Witness for C19: a second section at `0x1000` after `__text` and `__const`. -/
theorem add_rejects_duplicate_address_witness :
    (build [Sample.text, Sample.const]).add ⟨[0x62], 0x1000, 4, 0x300, 4⟩
      = build [Sample.text, Sample.const] :=
  (add_rejects_duplicate_address [Sample.text, Sample.const] ⟨[0x62], 0x1000, 4, 0x300, 4⟩
    Sample.text (by decide) (by decide)).1

end SectionTable

/-! ## `SymbolTable` -/

namespace AddrMap

variable {V : Type}

/-- After `emplace(k, v)` the key `k` is in the map. -/
theorem key_mem_emplace (m : AddrMap V) (k : Nat) (v : V) : ∃ v', (k, v') ∈ m.emplace k v := by
  induction m with
  | nil => exact ⟨v, by simp [emplace]⟩
  | cons hd tl ih =>
    obtain ⟨k', v'⟩ := hd
    simp only [emplace]
    split
    · exact ⟨v, List.mem_cons_self _ _⟩
    · split
      · rename_i heq
        exact ⟨v', by rw [heq]; exact List.mem_cons_self _ _⟩
      · obtain ⟨w, hw⟩ := ih
        exact ⟨w, List.mem_cons_of_mem _ hw⟩

theorem key_mem_emplaceAll (ops : List (Nat × V)) :
    ∀ (m : AddrMap V), ∀ op ∈ ops, ∃ v', (op.1, v') ∈ m.emplaceAll ops := by
  induction ops with
  | nil => intro m op h; cases h
  | cons o ops ih =>
    intro m op h
    rcases List.mem_cons.mp h with h | h
    · subst h
      obtain ⟨w, hw⟩ := key_mem_emplace m op.1 op.2
      exact ⟨w, mem_emplaceAll_of_mem ops hw⟩
    · exact ih (m.emplace o.1 o.2) op h

end AddrMap

namespace SymbolTable

/-- The address map of a table is the constructor's two sentinels followed by one `emplace`
per call of `add`. -/
theorem byAddr_foldl (syms : List Symbol) :
    ∀ (t : SymbolTable), (syms.foldl add t).byAddr_ =
      t.byAddr_.emplaceAll (syms.map (fun s => (s.addr, s))) := by
  induction syms with
  | nil => intro t; rfl
  | cons s syms ih => intro t; rw [List.foldl_cons, ih]; rfl

theorem byAddr_build (syms : List Symbol) :
    (build syms).byAddr_ =
      AddrMap.emplaceAll [(0, Symbol.empty), (2 ^ 64 - 1, Symbol.empty)]
        (syms.map (fun s => (s.addr, s))) := by
  unfold build
  rw [byAddr_foldl]
  rfl

/-- C20 (what fails). At the address `2^64 - 1` the greatest key not above the address is
the key `~0` of the high sentinel, under which the empty symbol is stored; `upper_bound` is
`end()` there and `atAddress` returns `nullptr`, not that symbol. At `2^64 - 2` the symbol
added at `0x1000` is returned. -/
theorem atAddress_null_at_max_address :
    (build [⟨0x1000, [0x66], none⟩]).byAddr_
      = [(0, Symbol.empty), (0x1000, ⟨0x1000, [0x66], none⟩), (2 ^ 64 - 1, Symbol.empty)] ∧
    (build [⟨0x1000, [0x66], none⟩]).atAddress (2 ^ 64 - 1) = .ok none ∧
    (build [⟨0x1000, [0x66], none⟩]).atAddress (2 ^ 64 - 2)
      = .ok (some ⟨0x1000, [0x66], none⟩) := by
  refine ⟨by decide, by decide, by decide⟩

/-- C20 (amended). For every table built by calls of `add` and every address `x` below
`2^64 - 1`, `atAddress(x)` returns the symbol stored under the greatest key `k ≤ x` of the
address map. The keys are `0` and `2^64 - 1`, under which the empty sentinel symbols are
stored, and the addresses of the symbols added, each of which is stored under its address;
when no added symbol has an address `≤ x`, the symbol returned is the empty symbol. -/
theorem atAddress_returns_floor (syms : List Symbol) (x : Nat) (hx : x < 2 ^ 64 - 1) :
    ∃ (k : Nat) (s : Symbol),
      (build syms).atAddress x = .ok (some s) ∧
      (k, s) ∈ (build syms).byAddr_ ∧ k ≤ x ∧
      (∀ e ∈ (build syms).byAddr_, e.1 ≤ x → e.1 ≤ k) ∧
      (∀ e ∈ (build syms).byAddr_, e = (0, Symbol.empty) ∨ e = (2 ^ 64 - 1, Symbol.empty) ∨
        ∃ sym ∈ syms, e = (sym.addr, sym)) ∧
      (∀ sym ∈ syms, ∃ s', (sym.addr, s') ∈ (build syms).byAddr_) ∧
      ((∀ sym ∈ syms, x < sym.addr) → s = Symbol.empty) := by
  have hbuild := byAddr_build syms
  have hinit : AddrMap.Ascending [(0, Symbol.empty), ((2 : Nat) ^ 64 - 1, Symbol.empty)] := by
    simp [AddrMap.Ascending]
  obtain ⟨rest, hrest, hasc⟩ := AddrMap.emplaceAll_head_zero
    (syms.map (fun s => (s.addr, s))) Symbol.empty [((2 : Nat) ^ 64 - 1, Symbol.empty)] hinit
  have hmem0 : (0, Symbol.empty) ∈ (build syms).byAddr_ := by
    rw [hbuild, hrest]; exact List.mem_cons_self _ _
  have hmemMax : ((2 : Nat) ^ 64 - 1, Symbol.empty) ∈ (build syms).byAddr_ := by
    rw [hbuild]
    exact AddrMap.mem_emplaceAll_of_mem _ (by simp)
  have hasc' : AddrMap.Ascending (build syms).byAddr_ := by
    rw [hbuild, hrest]; exact hasc
  have hall : ∀ e ∈ (build syms).byAddr_, e = (0, Symbol.empty) ∨
      e = (2 ^ 64 - 1, Symbol.empty) ∨ ∃ sym ∈ syms, e = (sym.addr, sym) := by
    intro e he
    rw [hbuild] at he
    rcases AddrMap.mem_emplaceAll he with h | h
    · simp only [List.mem_cons, List.mem_singleton, List.not_mem_nil, or_false] at h
      rcases h with h | h
      · exact Or.inl h
      · exact Or.inr (Or.inl h)
    · obtain ⟨sym, hsym, heq⟩ := List.mem_map.mp h
      exact Or.inr (Or.inr ⟨sym, hsym, heq.symm⟩)
  have hlt : (build syms).byAddr_.upperBound x < (build syms).byAddr_.length :=
    AddrMap.upperBound_lt_length ⟨_, hmemMax, hx⟩
  cases hub : (build syms).byAddr_.upperBound x with
  | zero =>
    have := AddrMap.upperBound_eq_zero hasc' hub _ hmem0
    simp at this
  | succ i =>
    obtain ⟨e, hget, hmem, hle, hmaxk⟩ := AddrMap.upperBound_pred hasc' x i hub
    refine ⟨e.1, e.2, ?_, hmem, hle, hmaxk, hall, ?_, ?_⟩
    · unfold atAddress
      simp only [hub, hget]
      rw [if_neg (by rw [hub] at hlt; omega)]
    · intro sym hsym
      rw [hbuild]
      exact AddrMap.key_mem_emplaceAll _ _ (sym.addr, sym) (List.mem_map.mpr ⟨sym, hsym, rfl⟩)
    · intro hnone
      rcases hall e hmem with h | h | ⟨sym, hsym, heq⟩
      · rw [h]
      · rw [h]
      · have := hnone sym hsym
        rw [heq] at hle
        simp only at hle
        omega

/-- Witness for C20: between two added symbols, and below both. -/
theorem atAddress_returns_floor_witness :
    (∃ (k : Nat) (s : Symbol),
      (build [⟨0x1000, [0x66], none⟩, ⟨0x2000, [0x67], none⟩]).atAddress 0x1fff = .ok (some s) ∧
      (k, s) ∈ (build [⟨0x1000, [0x66], none⟩, ⟨0x2000, [0x67], none⟩]).byAddr_ ∧ k ≤ 0x1fff) ∧
    (build [⟨0x1000, [0x66], none⟩, ⟨0x2000, [0x67], none⟩]).atAddress 0x1fff
      = .ok (some ⟨0x1000, [0x66], none⟩) ∧
    (build [⟨0x1000, [0x66], none⟩, ⟨0x2000, [0x67], none⟩]).atAddress 0xfff
      = .ok (some Symbol.empty) := by
  obtain ⟨k, s, h1, h2, h3, -⟩ :=
    atAddress_returns_floor [⟨0x1000, [0x66], none⟩, ⟨0x2000, [0x67], none⟩] 0x1fff (by decide)
  exact ⟨⟨k, s, h1, h2, h3⟩, by decide, by decide⟩

end SymbolTable

/-! ## `__populate_entries` -/

set_option maxRecDepth 50000 in
/-- C12 (the code departs from the claim). The process has loaded `/bin/app` at
`0x5000000` with slide `0x5000000`; the entry holds the address `0x5001004`, four bytes into
`_main`. The image covers the address, its file opens and its symbol table has `_main` at
`0x1000 ≤ 0x1004`, yet the entry comes back unchanged: `Images::atAddr` returns `nullptr`
for every address at or above the highest load address. With a second image loaded above
the first, the same entry gets the symbol `_main`, the file `b.c` and the line 1. When the
file of the image starts with an unknown magic number the call aborts (`assert(ref)` in
`ObjectReader::open`) instead of leaving the entry unchanged. -/
theorem populate_entries_skips_highest_image :
    (__populate_entries (Sample.processOf [⟨"/bin/app", 0x5000000, 0x5000000, true⟩])
        (Sample.osWith Sample.appDebug) [Sample.entry 0x5001004]).map Prod.fst
      = .ok [Sample.entry 0x5001004] ∧
    (Sample.objectFileOf Sample.appDebug).symbolTable.map
        (fun x => x.1.atAddress 0x1004)
      = .ok (.ok (some ⟨0x1000, Sample.chars "_main", some Sample.text⟩)) ∧
    (__populate_entries
        (Sample.processOf
          [⟨"/bin/app", 0x5000000, 0x5000000, true⟩, ⟨"/lib/x", 0x7000000, 0, false⟩])
        (Sample.osWith Sample.appDebug) [Sample.entry 0x5001004]).map Prod.fst
      = .ok [⟨0x5001004, Sample.chars "_main", Sample.chars "b.c", 1⟩] ∧
    __populate_entries
        (Sample.processOf
          [⟨"/bin/app", 0x5000000, 0x5000000, true⟩, ⟨"/lib/x", 0x7000000, 0, false⟩])
        (Sample.osWith Sample.unknownMagic) [Sample.entry 0x5001004]
      = .error .abort := by
  refine ⟨by decide, by decide, by decide, by decide⟩

end ObjReader

namespace ObjReader

/-! ## Section records of `LC_SEGMENT_64` -/

namespace macho

/-- The `std::string_view` over the first bytes of a cursor. -/
theorem view_of_startsWith (file : Bytes) (xs : List Byte) :
    ∀ {c : Bytes} {rest : List Byte}, c.StartsWith (xs ++ rest) → file.org = c.org →
      file.mem = c.mem → file.view c.base_ xs.length = .ok xs := by
  induction xs with
  | nil => intro c rest _ _ _; rfl
  | cons b xs ih =>
    intro c rest h horg hmem
    obtain ⟨h1, hget, htl⟩ := Bytes.startsWith_cons.mp (show c.StartsWith (b :: (xs ++ rest)) from h)
    have hlim : c.base_ + 1 < 2 ^ 64 := by
      have := h.2.1; have := h.2.2.1
      simp only [List.length_cons, List.length_append] at *
      omega
    have hm : (c.base_ + 1) % 2 ^ 64 = c.base_ + 1 := Nat.mod_eq_of_lt hlim
    have hrest := ih htl horg hmem
    simp only [Bytes.advance] at hrest
    have hb : (Fin.ofNat b.val : Byte) = b := by
      apply Fin.ext
      show b.val % 256 = b.val
      exact Nat.mod_eq_of_lt b.isLt
    simp only [List.length_cons, Bytes.view, Bytes.load, horg, hmem, if_pos h1, hget, hm, hrest,
      bind, Except.bind, pure, Except.pure, hb]

/-- The loop that trims the trailing NUL bytes of `sectname`, started at the length of
`name`: it stops at the length of `name` right-trimmed of NUL. -/
theorem trimmedSize_eq (file : Bytes) (name : List Byte) :
    ∀ {c : Bytes} {rest : List Byte}, c.StartsWith (name ++ rest) → file.org = c.org →
      file.mem = c.mem → trimmedSize file c.base_ name.length = .ok (rtrimNul name).length := by
  induction name using List.reverseRecOn with
  | nil => intro c rest _ _ _; rfl
  | append_singleton xs b ih =>
    intro c rest h horg hmem
    have h' : c.StartsWith (xs ++ (b :: rest)) := by simpa using h
    obtain ⟨-, h2⟩ := Bytes.StartsWith.append xs h'
    obtain ⟨h3, hget, -⟩ := Bytes.startsWith_cons.mp h2
    simp only [Bytes.advance] at h3 hget
    have hlim : c.base_ + xs.length < 2 ^ 64 := by
      have := h'.2.1; have := h'.2.2.1
      simp only [List.length_cons, List.length_append] at *
      omega
    have hm : (c.base_ + xs.length) % 2 ^ 64 = c.base_ + xs.length := Nat.mod_eq_of_lt hlim
    rw [List.length_append, List.length_singleton, trimmedSize]
    simp only [Bytes.load, horg, hmem, hm, if_pos h3, hget, bind, Except.bind]
    by_cases hb : b = 0
    · have hv : b.val = 0 := by rw [hb]; rfl
      rw [if_pos hv, ih h' horg hmem]
      unfold rtrimNul
      rw [List.rdropWhile_concat_pos _ _ _ (by simpa using hb)]
    · have hv : ¬ b.val = 0 := fun hv => hb (Fin.ext hv)
      rw [if_neg hv]
      unfold rtrimNul
      rw [List.rdropWhile_concat_neg _ _ _ (by simpa using hb)]
      simp

theorem rtrimNul_eq_take (name : List Byte) :
    rtrimNul name = name.take (rtrimNul name).length := by
  obtain ⟨t, ht⟩ := List.rdropWhile_prefix (fun b => decide (b = 0)) name
  unfold rtrimNul
  generalize List.rdropWhile (fun b => decide (b = 0)) name = p at ht
  subst ht
  simp

/-- A name without a NUL byte is kept whole; a name of NUL bytes only is trimmed to the
empty name. -/
theorem rtrimNul_edges (name : List Byte) :
    ((∀ b ∈ name, b ≠ 0) → rtrimNul name = name) ∧ ((∀ b ∈ name, b = 0) → rtrimNul name = []) := by
  constructor
  · intro h
    induction name using List.reverseRecOn with
    | nil => rfl
    | append_singleton xs b _ =>
      unfold rtrimNul
      rw [List.rdropWhile_concat_neg _ _ _ (by simpa using h b (by simp))]
  · intro h
    unfold rtrimNul
    rw [List.rdropWhile_eq_nil_iff]
    intro b hb
    simpa using h b hb

/-- The `Section` built from the record at the front of a cursor. -/
theorem sectionOf_eq (file : Bytes) {c : Bytes} {r : section_64} {rest : List Byte}
    (hwf : r.WellFormed) (hc : c.StartsWith (r.bytes ++ rest)) (horg : file.org = c.org)
    (hmem : file.mem = c.mem) : sectionOf file c.base_ = .ok (specSection r) := by
  obtain ⟨w1, w2, w3⟩ := hwf
  have hname : c.StartsWith (r.sectname ++ (r.segname ++ (leBytes 8 r.addr.val ++
      (leBytes 8 r.size.val ++ (leBytes 4 r.offset.val ++ r.tail))) ++ rest)) := by
    simpa [section_64.bytes, List.append_assoc] using hc
  have ht := trimmedSize_eq file r.sectname hname horg hmem
  rw [w1] at ht
  have hsplit : c.StartsWith (rtrimNul r.sectname ++
      (r.sectname.drop (rtrimNul r.sectname).length ++ ((r.segname ++ (leBytes 8 r.addr.val ++
      (leBytes 8 r.size.val ++ (leBytes 4 r.offset.val ++ r.tail))) ++ rest)))) := by
    rw [← List.append_assoc]
    conv => arg 2; arg 1; arg 1; rw [rtrimNul_eq_take]
    rw [List.take_append_drop]
    exact hname
  have hview := view_of_startsWith file (rtrimNul r.sectname) hsplit horg hmem
  have h1 := Bytes.field_of_startsWith (c := c) (d := file)
    (r.sectname ++ r.segname) (leBytes 8 r.addr.val)
    (leBytes 8 r.size.val ++ (leBytes 4 r.offset.val ++ r.tail) ++ rest)
    (by simpa [section_64.bytes, List.append_assoc] using hc) horg hmem
  have h2 := Bytes.field_of_startsWith (c := c) (d := file)
    (r.sectname ++ (r.segname ++ leBytes 8 r.addr.val)) (leBytes 8 r.size.val)
    (leBytes 4 r.offset.val ++ r.tail ++ rest)
    (by simpa [section_64.bytes, List.append_assoc] using hc) horg hmem
  have h3 := Bytes.field_of_startsWith (c := c) (d := file)
    (r.sectname ++ (r.segname ++ (leBytes 8 r.addr.val ++ leBytes 8 r.size.val)))
    (leBytes 4 r.offset.val) (r.tail ++ rest)
    (by simpa [section_64.bytes, List.append_assoc] using hc) horg hmem
  simp only [List.length_append, leBytes_length, w1, w2, leValue_leBytes] at h1 h2 h3
  have e1 : r.addr.val % 256 ^ 8 = r.addr.val :=
    Nat.mod_eq_of_lt (by have := r.addr.isLt; norm_num at this ⊢; exact this)
  have e2 : r.size.val % 256 ^ 8 = r.size.val :=
    Nat.mod_eq_of_lt (by have := r.size.isLt; norm_num at this ⊢; exact this)
  have e3 : r.offset.val % 256 ^ 4 = r.offset.val :=
    Nat.mod_eq_of_lt (by have := r.offset.isLt; norm_num at this ⊢; exact this)
  rw [e1] at h1; rw [e2] at h2; rw [e3] at h3
  unfold sectionOf
  simp only [ht, hview, h1, h2, h3, bind, Except.bind, pure, Except.pure, specSection]

theorem section_bytes_length {r : section_64} (hwf : r.WellFormed) : r.bytes.length = 80 := by
  obtain ⟨w1, w2, w3⟩ := hwf
  simp [section_64.bytes, leBytes_length, w1, w2, w3]

/-- C21. For a cursor that holds exactly the section records `rs` of a segment command
(each 80 bytes: `sectname[16]`, `segname[16]`, `addr`, `size`, `offset` and 28 further bytes),
the loop of `eachSection` with the callback of `genSectionTable` calls `SectionTable::add`
once per record, in order, with the section whose name is `sectname` with all trailing NUL
bytes removed, `virt_addr = addr`, `virt_size = size`, `binary_offset = offset` and
`binary_size = size`; a `sectname` of 16 non-NUL bytes gives those 16 characters as the
name, a `sectname` of NUL bytes only the empty name. -/
theorem genSectionTable_builds_sections (file : Bytes) :
    ∀ (rs : List section_64) (cur : Bytes) (ret : SectionTable) (fuel : Nat),
      (∀ r ∈ rs, r.WellFormed) →
      cur.StartsWith (rs.map section_64.bytes).flatten →
      cur.limit_ = cur.base_ + 80 * rs.length →
      file.org = cur.org → file.mem = cur.mem → rs.length < fuel →
      eachSectionLoop (addSection file) fuel cur ret =
          .ok (rs.foldl (fun t r => t.add (specSection r)) ret) ∧
        ∀ r ∈ rs,
          (specSection r).name = rtrimNul r.sectname ∧
          (specSection r).virt_addr = r.addr.val ∧ (specSection r).virt_size = r.size.val ∧
          (specSection r).binary_offset = r.offset.val ∧
          (specSection r).binary_size = r.size.val ∧
          ((∀ b ∈ r.sectname, b ≠ 0) → (specSection r).name = r.sectname ∧
            (specSection r).name.length = 16) ∧
          ((∀ b ∈ r.sectname, b = 0) → (specSection r).name = []) := by
  intro rs
  induction rs with
  | nil =>
    intro cur ret fuel _ hc hlim _ _ hfuel
    obtain ⟨fuel, rfl⟩ : ∃ f, fuel = f + 1 := ⟨fuel - 1, by simp at hfuel; omega⟩
    have hsize : cur.toBool = false := by
      simp only [Bytes.toBool, Bytes.size, hlim]
      simp
    refine ⟨?_, fun r hr => by cases hr⟩
    rw [eachSectionLoop, hsize]
    rfl
  | cons r rs ih =>
    intro cur ret fuel hwf hc hlim horg hmem hfuel
    obtain ⟨fuel, rfl⟩ : ∃ f, fuel = f + 1 := ⟨fuel - 1, by simp at hfuel; omega⟩
    have hr := hwf r (List.mem_cons_self _ _)
    have hc' : cur.StartsWith (r.bytes ++ (rs.map section_64.bytes).flatten) := by
      simpa using hc
    have hltlim : cur.limit_ < 2 ^ 64 := hc.2.2.1
    simp only [List.length_cons] at hlim hfuel
    have hsz : cur.size = 80 * (rs.length + 1) := by
      simp only [Bytes.size, hlim]
      omega
    have htrue : cur.toBool = true := by
      simp only [Bytes.toBool, hsz]
      simp
    have hget : cur.get 80 = .ok (cur.base_, cur.advance 80) := by
      unfold Bytes.get
      rw [if_neg (by rw [hsz]; omega)]
      have : (cur.base_ + 80) % 2 ^ 64 = cur.base_ + 80 := by omega
      rw [this]
      rfl
    have hstep : addSection file ret cur.base_ = .ok (ret.add (specSection r)) := by
      unfold addSection
      rw [sectionOf_eq file hr hc' horg hmem]
      rfl
    obtain ⟨-, htl⟩ := Bytes.StartsWith.append r.bytes hc'
    rw [section_bytes_length hr] at htl
    obtain ⟨hih, hall⟩ := ih (cur.advance 80) (ret.add (specSection r)) fuel
      (fun x hx => hwf x (List.mem_cons_of_mem _ hx)) htl
      (by simp only [Bytes.advance]; omega) horg hmem (by omega)
    constructor
    · rw [eachSectionLoop, htrue]
      simp only [if_true, hget, hstep, hih, bind, Except.bind, List.foldl_cons]
    · intro x hx
      rcases List.mem_cons.mp hx with rfl | hx
      · refine ⟨rfl, rfl, rfl, rfl, rfl, fun h => ?_, fun h => (rtrimNul_edges _).2 h⟩
        have := (rtrimNul_edges x.sectname).1 h
        exact ⟨this, by show (rtrimNul x.sectname).length = 16; rw [this]; exact hr.1⟩
      · exact hall x hx

end macho

end ObjReader

namespace ObjReader

namespace macho

set_option maxRecDepth 20000 in
/-- Witness for C21: the three section records of the sample file with debug sections; the
name of the third, `__debug_line_str`, fills all 16 bytes of `sectname`. -/
theorem genSectionTable_builds_sections_witness :
    eachSectionLoop (addSection (Bytes.ofList Sample.appDebug)) 4 Sample.sectionRecords
          SectionTable.new =
        .ok (Sample.sections64.foldl (fun t r => t.add (specSection r)) SectionTable.new) ∧
      ∀ r ∈ Sample.sections64,
        (specSection r).name = rtrimNul r.sectname ∧
        (specSection r).virt_addr = r.addr.val ∧ (specSection r).virt_size = r.size.val ∧
        (specSection r).binary_offset = r.offset.val ∧
        (specSection r).binary_size = r.size.val ∧
        ((∀ b ∈ r.sectname, b ≠ 0) → (specSection r).name = r.sectname ∧
          (specSection r).name.length = 16) ∧
        ((∀ b ∈ r.sectname, b = 0) → (specSection r).name = []) :=
  genSectionTable_builds_sections (Bytes.ofList Sample.appDebug) Sample.sections64
    Sample.sectionRecords SectionTable.new 4 (by decide) (by decide) (by decide) rfl rfl
    (by decide)

end macho

end ObjReader

namespace ObjReader

/-! ## Cursor arithmetic -/

namespace Bytes

theorem size_of_valid {c : Bytes} (hv : c.Valid) : c.size = c.limit_ - c.base_ := by
  obtain ⟨h1, h2⟩ := hv
  unfold size
  omega

/-- `slice(off)` on a cursor with `base ≤ limit`, for an offset that does not exceed the
address of the limit: it succeeds exactly when `off ≤ size()`. -/
theorem slice_of_valid {c : Bytes} (hv : c.Valid) {off : Nat} (hoff : off ≤ c.limit_) :
    c.slice off =
      if off ≤ c.size then .ok { c with base_ := c.base_ + off } else .error .rangeError := by
  obtain ⟨h1, h2⟩ := hv
  have hsz := size_of_valid ⟨h1, h2⟩
  unfold slice
  by_cases h : off ≤ c.size
  · rw [if_pos h, if_neg (by omega)]
    have : (c.base_ + off) % 2 ^ 64 = c.base_ + off := by omega
    rw [this]
  · rw [if_neg h, if_pos (by omega)]

/-- C23. For every cursor `c` with `base ≤ limit` and offsets `a`, `b` with
`a + b ≤ c.size()`, `c.slice(a).slice(b)` and `c.slice(a + b)` both succeed and return the
same cursor, with base `c.base + a + b` and the limit of `c`. -/
theorem slice_slice (c : Bytes) (a b : Nat) (hv : c.Valid) (hab : a + b ≤ c.size) :
    ∃ r, c.slice (a + b) = .ok r ∧ (c.slice a >>= fun s => s.slice b) = .ok r ∧
      r.base_ = c.base_ + (a + b) ∧ r.limit_ = c.limit_ := by
  obtain ⟨h1, h2⟩ := hv
  have hsz := size_of_valid ⟨h1, h2⟩
  have hs1 := @slice_of_valid c ⟨h1, h2⟩ (a + b) (by omega)
  rw [if_pos hab] at hs1
  have hs2 := @slice_of_valid c ⟨h1, h2⟩ a (by omega)
  rw [if_pos (by omega)] at hs2
  have hv3 : ({ c with base_ := c.base_ + a } : Bytes).Valid := ⟨by show c.base_ + a ≤ c.limit_; omega, h2⟩
  have hs3 := @slice_of_valid _ hv3 b (by show b ≤ c.limit_; omega)
  rw [if_pos (by rw [size_of_valid hv3]; show b ≤ c.limit_ - (c.base_ + a); omega)] at hs3
  refine ⟨{ c with base_ := c.base_ + (a + b) }, hs1, ?_, rfl, rfl⟩
  rw [hs2]
  show Bytes.slice { c with base_ := c.base_ + a } b = _
  rw [hs3]
  simp [Nat.add_assoc]

/-- Witness for C23: a cursor of eight bytes sliced by 3 and then by 4. -/
theorem slice_slice_witness :
    ∃ r, Sample.tail8.slice (3 + 4) = .ok r ∧
      (Sample.tail8.slice 3 >>= fun s => s.slice 4) = .ok r ∧
      r.base_ = Sample.tail8.base_ + (3 + 4) ∧ r.limit_ = Sample.tail8.limit_ :=
  slice_slice Sample.tail8 3 4 (by decide) (by decide)

end Bytes

end ObjReader

namespace ObjReader

/-! ## Loads at an offset -/

namespace Bytes

theorem or_shiftLeft (k lo hi : Nat) (hlo : lo < 2 ^ k) (hhi : hi < 2 ^ k) :
    lo ||| (hi <<< k) % 2 ^ (2 * k) = lo + 2 ^ k * hi := by
  have h1 : hi <<< k = hi * 2 ^ k := Nat.shiftLeft_eq hi k
  have h2 : hi * 2 ^ k < 2 ^ (2 * k) := by
    rw [two_mul, Nat.pow_add]
    exact Nat.mul_lt_mul_of_pos_right hhi (Nat.two_pow_pos k)
  rw [Nat.mod_eq_of_lt (by rw [h1]; exact h2), Nat.lor_comm, h1, Nat.mul_comm hi,
    ← Nat.mul_add_lt_is_or hlo hi]
  ring

/-- `u8(i)` inside the cursor: the byte at offset `i`. -/
theorem u8_of_startsWith {c : Bytes} (xs : List Byte) (b : Byte) (zs : List Byte)
    (h : c.StartsWith (xs ++ b :: zs)) : c.u8 xs.length = .ok b.val := by
  obtain ⟨-, h2⟩ := Bytes.StartsWith.append xs h
  obtain ⟨h3, hget, -⟩ := Bytes.startsWith_cons.mp h2
  obtain ⟨g1, g2, g3, -⟩ := h
  simp only [List.length_append, List.length_cons] at g2
  simp only [Bytes.advance] at h3 hget
  have hc : ¬ c.base_ ≥ (c.limit_ + 2 ^ 64 - xs.length % 2 ^ 64) % 2 ^ 64 := by omega
  have hb : (c.base_ + xs.length) % 2 ^ 64 = c.base_ + xs.length := by omega
  simp only [u8, if_neg hc, hb, load, if_pos h3, hget]

/-- `u8(i)` at or past the end of the cursor, for an offset that does not exceed the address
of the limit: a range error. -/
theorem u8_range_error {c : Bytes} (hv : c.Valid) {i : Nat} (hn : c.size ≤ i)
    (hi : i ≤ c.limit_) : c.u8 i = .error .rangeError := by
  have hsz := size_of_valid hv
  obtain ⟨h1, h2⟩ := hv
  have hc : c.base_ ≥ (c.limit_ + 2 ^ 64 - i % 2 ^ 64) % 2 ^ 64 := by omega
  simp only [u8, if_pos hc]

theorem cons_assoc (xs : List Byte) (b : Byte) (zs : List Byte) :
    xs ++ b :: zs = (xs ++ [b]) ++ zs := by simp

theorem u16_of_startsWith {c : Bytes} (xs : List Byte) (b0 b1 : Byte) (zs : List Byte)
    (h : c.StartsWith (xs ++ b0 :: b1 :: zs)) : c.u16 xs.length = .ok (leValue [b0, b1]) := by
  have h0 := u8_of_startsWith xs b0 (b1 :: zs) h
  have h1 := u8_of_startsWith (xs ++ [b0]) b1 zs (by rw [← cons_assoc]; exact h)
  have hlt : xs.length + 1 < 2 ^ 64 := by
    have := h.2.1; have := h.2.2.1
    simp only [List.length_append, List.length_cons] at *
    omega
  rw [List.length_append, List.length_singleton] at h1
  have hor := or_shiftLeft 8 b0.val b1.val b0.isLt b1.isLt
  simp only [u16, h0, Nat.mod_eq_of_lt hlt, h1, bind, Except.bind, pure, Except.pure, leValue]
  rw [show (2 : Nat) ^ 16 = 2 ^ (2 * 8) from rfl, hor]
  norm_num

theorem leValue_two_lt (b0 b1 : Byte) : leValue [b0, b1] < 2 ^ 16 := by
  have := b0.isLt; have := b1.isLt
  simp only [leValue]
  omega

theorem u32_of_startsWith {c : Bytes} (xs : List Byte) (b0 b1 b2 b3 : Byte) (zs : List Byte)
    (h : c.StartsWith (xs ++ b0 :: b1 :: b2 :: b3 :: zs)) :
    c.u32 xs.length = .ok (leValue [b0, b1, b2, b3]) := by
  have h0 := u16_of_startsWith xs b0 b1 (b2 :: b3 :: zs) h
  have h1 := u16_of_startsWith (xs ++ [b0, b1]) b2 b3 zs (by simpa using h)
  have hlt : xs.length + 2 < 2 ^ 64 := by
    have := h.2.1; have := h.2.2.1
    simp only [List.length_append, List.length_cons] at *
    omega
  rw [show (xs ++ [b0, b1]).length = xs.length + 2 from by simp] at h1
  have hor := or_shiftLeft 16 _ _ (leValue_two_lt b0 b1) (leValue_two_lt b2 b3)
  simp only [u32, h0, Nat.mod_eq_of_lt hlt, h1, bind, Except.bind, pure, Except.pure,
    List.length_cons, List.length_nil]
  rw [show (2 : Nat) ^ 32 = 2 ^ (2 * 16) from rfl, hor]
  simp only [leValue]
  congr 1
  ring

theorem leValue_four_lt (b0 b1 b2 b3 : Byte) : leValue [b0, b1, b2, b3] < 2 ^ 32 := by
  have := b0.isLt; have := b1.isLt; have := b2.isLt; have := b3.isLt
  simp only [leValue]
  omega

theorem u64_of_startsWith {c : Bytes} (xs : List Byte) (b0 b1 b2 b3 b4 b5 b6 b7 : Byte)
    (zs : List Byte) (h : c.StartsWith (xs ++ b0 :: b1 :: b2 :: b3 :: b4 :: b5 :: b6 :: b7 :: zs)) :
    c.u64 xs.length = .ok (leValue [b0, b1, b2, b3, b4, b5, b6, b7]) := by
  have h0 := u32_of_startsWith xs b0 b1 b2 b3 (b4 :: b5 :: b6 :: b7 :: zs) h
  have h1 := u32_of_startsWith (xs ++ [b0, b1, b2, b3]) b4 b5 b6 b7 zs (by simpa using h)
  have hlt : xs.length + 4 < 2 ^ 64 := by
    have := h.2.1; have := h.2.2.1
    simp only [List.length_append, List.length_cons] at *
    omega
  rw [show (xs ++ [b0, b1, b2, b3]).length = xs.length + 4 from by simp] at h1
  have hor := or_shiftLeft 32 _ _ (leValue_four_lt b0 b1 b2 b3) (leValue_four_lt b4 b5 b6 b7)
  simp only [u64, h0, Nat.mod_eq_of_lt hlt, h1, bind, Except.bind, pure, Except.pure,
    List.length_cons, List.length_nil]
  rw [show (2 : Nat) ^ 64 = 2 ^ (2 * 32) from rfl, hor]
  simp only [leValue]
  congr 1
  ring

/-- `u8(i)` on a cursor whose content is `bs`, for an offset that does not exceed the address
of the limit: a value when `i < n`, a range error when `n ≤ i`. -/
theorem u8_cases {c : Bytes} {bs : List Byte} (h : c.StartsWith bs)
    (hl : c.limit_ = c.base_ + bs.length) {i : Nat} (hi : i ≤ c.limit_) :
    (i < bs.length → ∃ v, c.u8 i = .ok v) ∧ (bs.length ≤ i → c.u8 i = .error .rangeError) := by
  constructor
  · intro hlt
    have hsplit : bs = bs.take i ++ bs[i] :: bs.drop (i + 1) := by
      rw [← List.drop_eq_getElem_cons hlt, List.take_append_drop]
    have h2 : c.StartsWith (bs.take i ++ bs[i] :: bs.drop (i + 1)) := by rw [← hsplit]; exact h
    have := u8_of_startsWith (bs.take i) bs[i] (bs.drop (i + 1)) h2
    rw [List.length_take, Nat.min_eq_left (Nat.le_of_lt hlt)] at this
    exact ⟨_, this⟩
  · intro hge
    have hv : c.Valid := ⟨by omega, h.2.2.1⟩
    exact u8_range_error hv (by rw [size_of_valid hv]; omega) hi

theorem u16_cases {c : Bytes} {bs : List Byte} (h : c.StartsWith bs)
    (hl : c.limit_ = c.base_ + bs.length) {i : Nat} (hi : i + 1 ≤ c.limit_) :
    (i + 2 ≤ bs.length → ∃ v, c.u16 i = .ok v) ∧
      (bs.length < i + 2 → c.u16 i = .error .rangeError) := by
  have hlim := h.2.2.1
  have hm : (i + 1) % 2 ^ 64 = i + 1 := by omega
  obtain ⟨a1, a2⟩ := u8_cases h hl (i := i) (by omega)
  obtain ⟨b1, b2⟩ := u8_cases h hl (i := i + 1) hi
  constructor
  · intro hle
    obtain ⟨v, hv⟩ := a1 (by omega)
    obtain ⟨w, hw⟩ := b1 (by omega)
    refine ⟨v ||| (w <<< 8) % 2 ^ 16, ?_⟩
    simp only [u16, hv, hm, hw, bind, Except.bind, pure, Except.pure]
  · intro hgt
    by_cases hlt : i < bs.length
    · obtain ⟨v, hv⟩ := a1 hlt
      simp only [u16, hv, hm, b2 (by omega), bind, Except.bind]
    · simp only [u16, a2 (by omega), bind, Except.bind]

theorem u32_cases {c : Bytes} {bs : List Byte} (h : c.StartsWith bs)
    (hl : c.limit_ = c.base_ + bs.length) {i : Nat} (hi : i + 3 ≤ c.limit_) :
    (i + 4 ≤ bs.length → ∃ v, c.u32 i = .ok v) ∧
      (bs.length < i + 4 → c.u32 i = .error .rangeError) := by
  have hlim := h.2.2.1
  have hm : (i + 2) % 2 ^ 64 = i + 2 := by omega
  obtain ⟨a1, a2⟩ := u16_cases h hl (i := i) (by omega)
  obtain ⟨b1, b2⟩ := u16_cases h hl (i := i + 2) (by omega)
  constructor
  · intro hle
    obtain ⟨v, hv⟩ := a1 (by omega)
    obtain ⟨w, hw⟩ := b1 (by omega)
    refine ⟨v ||| (w <<< 16) % 2 ^ 32, ?_⟩
    simp only [u32, hv, hm, hw, bind, Except.bind, pure, Except.pure]
  · intro hgt
    by_cases hlt : i + 2 ≤ bs.length
    · obtain ⟨v, hv⟩ := a1 hlt
      simp only [u32, hv, hm, b2 (by omega), bind, Except.bind]
    · simp only [u32, a2 (by omega), bind, Except.bind]

theorem u64_cases {c : Bytes} {bs : List Byte} (h : c.StartsWith bs)
    (hl : c.limit_ = c.base_ + bs.length) {i : Nat} (hi : i + 7 ≤ c.limit_) :
    (i + 8 ≤ bs.length → ∃ v, c.u64 i = .ok v) ∧
      (bs.length < i + 8 → c.u64 i = .error .rangeError) := by
  have hlim := h.2.2.1
  have hm : (i + 4) % 2 ^ 64 = i + 4 := by omega
  obtain ⟨a1, a2⟩ := u32_cases h hl (i := i) (by omega)
  obtain ⟨b1, b2⟩ := u32_cases h hl (i := i + 4) (by omega)
  constructor
  · intro hle
    obtain ⟨v, hv⟩ := a1 (by omega)
    obtain ⟨w, hw⟩ := b1 (by omega)
    refine ⟨v ||| (w <<< 32) % 2 ^ 64, ?_⟩
    simp only [u64, hv, hm, hw, bind, Except.bind, pure, Except.pure]
  · intro hgt
    by_cases hlt : i + 4 ≤ bs.length
    · obtain ⟨v, hv⟩ := a1 hlt
      simp only [u64, hv, hm, b2 (by omega), bind, Except.bind]
    · simp only [u64, a2 (by omega), bind, Except.bind]

/-- The loads at an offset on a cursor whose content is `bs`, for offsets that stay at or
below the address of the limit: a load of `w` bytes that does not fit is a range error. The
values of the loads that fit are given by `u8_of_startsWith` .. `u64_of_startsWith`. -/
theorem load_past_size_is_range_error {c : Bytes} {bs : List Byte} (h : c.StartsWith bs)
    (hl : c.limit_ = c.base_ + bs.length) {i : Nat} (hi : i + 7 ≤ c.limit_) :
    (bs.length < i + 1 → c.u8 i = .error .rangeError ∧ c.i8 i = .error .rangeError) ∧
    (bs.length < i + 2 → c.u16 i = .error .rangeError ∧ c.i16 i = .error .rangeError) ∧
    (bs.length < i + 4 → c.u32 i = .error .rangeError ∧ c.i32 i = .error .rangeError) ∧
    (bs.length < i + 8 → c.u64 i = .error .rangeError ∧ c.i64 i = .error .rangeError) := by
  refine ⟨fun hn => ?_, fun hn => ?_, fun hn => ?_, fun hn => ?_⟩
  · have := (u8_cases h hl (i := i) (by omega)).2 (by omega)
    exact ⟨this, by simp only [i8, this, bind, Except.bind]⟩
  · have := (u16_cases h hl (i := i) (by omega)).2 hn
    exact ⟨this, by simp only [i16, this, bind, Except.bind]⟩
  · have := (u32_cases h hl (i := i) (by omega)).2 hn
    exact ⟨this, by simp only [i32, this, bind, Except.bind]⟩
  · have := (u64_cases h hl (i := i) (by omega)).2 hn
    exact ⟨this, by simp only [i64, this, bind, Except.bind]⟩

/-- C22 fails on the code. The check of `u8` compares `base_` with `limit_ - i`, a pointer
difference that wraps for an offset above the address of the limit, instead of comparing `i`
with `size()`. On the default-constructed cursor (size 0) `u8(1)` and `u64(1)` raise no
range error but load through the null pointer, which is undefined; on a cursor over the
last eight of sixteen mapped bytes (size 8) `u8(2 ^ 64 - 8)`, `u16(2 ^ 64 - 1)` and
`i8(2 ^ 64 - 8)` raise no range error and return bytes in front of the cursor. The check
does reject the offset 8 on that cursor. -/
theorem load_past_limit_address_is_not_range_error :
    Sample.nullCursor.size = 0 ∧
    Sample.nullCursor.u8 1 = .error .undefined ∧
    Sample.nullCursor.u64 1 = .error .undefined ∧
    Sample.tail8.size = 8 ∧
    Sample.tail8.u8 (2 ^ 64 - 8) = .ok 0x01 ∧
    Sample.tail8.u16 (2 ^ 64 - 1) = .ok 0x0908 ∧
    Sample.tail8.i8 (2 ^ 64 - 8) = .ok 1 ∧
    Sample.tail8.u8 8 = .error .rangeError ∧
    Sample.tail8.u64 0 = .ok 0x100f0e0d0c0b0a09 := by
  decide

end Bytes

end ObjReader

namespace ObjReader

/-! ## Cursor bounds -/

namespace Bytes

theorem Within.refl {c : Bytes} (hv : c.Valid) : c.Within c :=
  ⟨rfl, rfl, rfl, Nat.le_refl _, hv.1⟩

theorem Within.trans {a b c : Bytes} (h1 : a.Within b) (h2 : b.Within c) : a.Within c :=
  ⟨h1.1.trans h2.1, h1.2.1.trans h2.2.1, h1.2.2.1.trans h2.2.2.1,
    Nat.le_trans h2.2.2.2.1 h1.2.2.2.1, h1.2.2.2.2⟩

theorem Within.valid {r c : Bytes} (h : r.Within c) (hv : c.Valid) : r.Valid :=
  ⟨h.2.2.2.2, by rw [h.2.2.1]; exact hv.2⟩

/-- `slice(off)` on a cursor with `base ≤ limit`, for an offset that does not exceed the
address of the limit: a result lies inside the cursor, `off` bytes further. -/
theorem slice_within {c r : Bytes} (hv : c.Valid) {off : Nat} (hoff : off ≤ c.limit_)
    (h : c.slice off = .ok r) : r.Within c ∧ r.base_ = c.base_ + off := by
  rw [slice_of_valid hv hoff] at h
  have hsz := size_of_valid hv
  split at h
  · rename_i hle
    cases h
    exact ⟨⟨rfl, rfl, rfl, Nat.le_add_right _ _, by show c.base_ + off ≤ c.limit_; have := hv.1; omega⟩,
      rfl⟩
  · cases h

theorem iget_within {c r : Bytes} (hv : c.Valid) {w v : Nat} (hw : w ≤ c.limit_)
    (h : c.iget w = .ok (v, r)) : r.Within c ∧ r.base_ = c.base_ + w := by
  unfold iget at h
  cases hs : c.slice w with
  | error e => rw [hs] at h; cases h
  | ok s =>
    rw [hs] at h
    cases hl : c.loadLE c.base_ w with
    | error e => simp only [hl, bind, Except.bind] at h; cases h
    | ok x =>
      simp only [hl, bind, Except.bind, pure, Except.pure] at h
      cases h
      exact slice_within hv hw hs

theorem ulebLoop_within : ∀ (fuel : Nat) {c r : Bytes} {z z' : Nat} {k k' : Int},
    c.Valid → 1 ≤ c.limit_ → ulebLoop fuel c z k = .ok (z', k', r) →
      r.Within c ∧ c.base_ < r.base_ := by
  intro fuel
  induction fuel with
  | zero => intro c r z z' k k' _ _ h; cases h
  | succ fuel ih =>
    intro c r z z' k k' hv h1 h
    rw [ulebLoop] at h
    cases hi : c.iget 1 with
    | error e => rw [hi] at h; cases h
    | ok p =>
      obtain ⟨byte, ret⟩ := p
      obtain ⟨hw, hb⟩ := iget_within hv h1 hi
      simp only [hi, bind, Except.bind, pure, Except.pure, throw, throwThe,
        MonadExceptOf.throw] at h
      split at h
      · cases h
      · split at h
        · cases h
          exact ⟨hw, by omega⟩
        · have := ih (hw.valid hv) (by rw [hw.2.2.1]; exact h1) h
          exact ⟨this.1.trans hw, by omega⟩

theorem uleb_within {c r : Bytes} {zbits v : Nat} (hv : c.Valid) (h1 : 1 ≤ c.limit_)
    (h : c.uleb zbits = .ok (v, r)) : r.Within c ∧ c.base_ < r.base_ := by
  unfold uleb at h
  cases hl : ulebLoop (c.mem.length + 1) c 0 64 with
  | error e => rw [hl] at h; cases h
  | ok p =>
    obtain ⟨z, k, ret⟩ := p
    simp only [hl, bind, Except.bind, pure, Except.pure, throw, throwThe,
      MonadExceptOf.throw] at h
    split at h
    · cases h
    · cases h
      exact ulebLoop_within _ hv h1 hl

theorem slebLoop_within : ∀ (fuel : Nat) {c r : Bytes} {z z' : Nat} {k k' : Int},
    c.Valid → 1 ≤ c.limit_ → slebLoop fuel c z k = .ok (z', k', r) →
      r.Within c ∧ c.base_ < r.base_ := by
  intro fuel
  induction fuel with
  | zero => intro c r z z' k k' _ _ h; cases h
  | succ fuel ih =>
    intro c r z z' k k' hv h1 h
    rw [slebLoop] at h
    cases hi : c.iget 1 with
    | error e => rw [hi] at h; cases h
    | ok p =>
      obtain ⟨byte, ret⟩ := p
      obtain ⟨hw, hb⟩ := iget_within hv h1 hi
      simp only [hi, bind, Except.bind, pure, Except.pure, throw, throwThe,
        MonadExceptOf.throw] at h
      split at h
      · cases h
      · split at h
        · cases h
          exact ⟨hw, by omega⟩
        · have := ih (hw.valid hv) (by rw [hw.2.2.1]; exact h1) h
          exact ⟨this.1.trans hw, by omega⟩

theorem sleb_within {c r : Bytes} {v : Int} (hv : c.Valid) (h1 : 1 ≤ c.limit_)
    (h : c.sleb = .ok (v, r)) : r.Within c ∧ c.base_ < r.base_ := by
  unfold sleb at h
  cases hl : slebLoop (c.mem.length + 1) c 0 64 with
  | error e => rw [hl] at h; cases h
  | ok p =>
    obtain ⟨z, k, ret⟩ := p
    simp only [hl, bind, Except.bind, pure, Except.pure, throw, throwThe,
      MonadExceptOf.throw] at h
    split at h
    · cases h
    · cases h
      exact slebLoop_within _ hv h1 hl

theorem get_within {c r : Bytes} {tsize p : Nat} (hv : c.Valid)
    (h : c.get tsize = .ok (p, r)) : r.Within c ∧ r.base_ = c.base_ + tsize := by
  have hsz := size_of_valid hv
  obtain ⟨h1, h2⟩ := hv
  unfold get at h
  split at h
  · cases h
  · cases h
    have hm : (c.base_ + tsize) % 2 ^ 64 = c.base_ + tsize := by omega
    exact ⟨⟨rfl, rfl, rfl, by show c.base_ ≤ (c.base_ + tsize) % 2 ^ 64; omega,
      by show (c.base_ + tsize) % 2 ^ 64 ≤ c.limit_; omega⟩, hm⟩

theorem copy_within {c r : Bytes} {tsize v : Nat} (hv : c.Valid)
    (h : c.copy tsize = .ok (v, r)) : r.Within c ∧ r.base_ = c.base_ + tsize := by
  have hsz := size_of_valid hv
  obtain ⟨h1, h2⟩ := hv
  unfold copy at h
  split at h
  · cases h
  · cases hl : c.loadLE c.base_ tsize with
    | error e => simp only [hl, bind, Except.bind] at h; cases h
    | ok x =>
      simp only [hl, bind, Except.bind, pure, Except.pure] at h
      cases h
      have hm : (c.base_ + tsize) % 2 ^ 64 = c.base_ + tsize := by omega
      exact ⟨⟨rfl, rfl, rfl, by show c.base_ ≤ (c.base_ + tsize) % 2 ^ 64; omega,
        by show (c.base_ + tsize) % 2 ^ 64 ≤ c.limit_; omega⟩, hm⟩

/-- `truncate(n)` on a cursor with `base ≤ limit`, when `base + n` is an address: the base
stays, the limit does not grow, and the size is `min(n, size())`. -/
theorem truncate_of_valid {c : Bytes} (hv : c.Valid) {n : Nat} (hn : c.base_ + n < 2 ^ 64) :
    (c.truncate n).base_ = c.base_ ∧ c.base_ ≤ (c.truncate n).limit_ ∧
      (c.truncate n).limit_ ≤ c.limit_ ∧ (c.truncate n).limit_ = min (c.base_ + n) c.limit_ ∧
      (c.truncate n).size = min n c.size := by
  have hsz := size_of_valid hv
  obtain ⟨h1, h2⟩ := hv
  have hm : (c.base_ + n) % 2 ^ 64 = c.base_ + n := Nat.mod_eq_of_lt hn
  have hl : (c.truncate n).limit_ = min (c.base_ + n) c.limit_ := by
    show min ((c.base_ + n) % 2 ^ 64) c.limit_ = _
    rw [hm]
  have hb : (c.truncate n).base_ = c.base_ := rfl
  refine ⟨rfl, by rw [hl]; omega, by rw [hl]; omega, hl, ?_⟩
  unfold size at hsz ⊢
  rw [hl, hb]
  omega

/-- C24 fails on the code. `slice(off)` compares `base_` with `limit_ - off`, a pointer
difference that wraps for an offset above the address of the limit. On the
default-constructed cursor (`base = limit = nullptr`) `slice(1)` succeeds and returns a
cursor with `base = 1 > limit = 0`; on a cursor over the last eight of sixteen mapped bytes
`slice(2 ^ 64 - 8)` succeeds and returns a cursor whose base lies eight bytes in front of
the base it was made from. `truncate(2 ^ 64 - 8)` on that cursor, where `base_ + newSize`
wraps, returns a cursor with `limit < base` whose `size()` is `2 ^ 64 - 8` and not
`min(2 ^ 64 - 8, 8)`. A file brings such an offset to `slice`: on a line section of twelve
bytes holding the 64-bit unit length `2 ^ 64 - 12`, the constructor's
`cur.slice(header_.length)` succeeds and the next-unit cursor is the whole section again. -/
theorem slice_and_truncate_leave_the_cursor :
    Sample.nullCursor.base_ ≤ Sample.nullCursor.limit_ ∧
    (Sample.nullCursor.slice 1).map (fun r => (r.base_, r.limit_)) = .ok (1, 0) ∧
    Sample.tail8.base_ ≤ Sample.tail8.limit_ ∧
    (Sample.tail8.slice (2 ^ 64 - 8)).map (fun r => (r.base_, r.limit_)) =
      .ok (Sample.tail8.base_ - 8, Sample.tail8.limit_) ∧
    (Sample.tail8.truncate (2 ^ 64 - 8)).limit_ = Sample.tail8.base_ - 8 ∧
    (Sample.tail8.truncate (2 ^ 64 - 8)).size = 2 ^ 64 - 8 ∧
    min (2 ^ 64 - 8) Sample.tail8.size = 8 ∧
    (DWARF5DebugMachine.readUnitLength (Bytes.ofList Sample.unitLengthCarry) >>= fun r =>
      (r.2.2.slice r.1).map (fun next => (r.1, r.2.2.base_, next.base_, next.limit_))) =
        .ok (2 ^ 64 - 12, 0x100000000 + 12, 0x100000000, 0x100000000 + 12) := by
  decide

end Bytes

end ObjReader


namespace ObjReader

/-! ## The header of a line-number unit -/

theorem bind_ok {α β : Type} {x : Except Fault α} {f : α → Except Fault β} {b : β}
    (h : x >>= f = .ok b) : ∃ a, x = .ok a ∧ f a = .ok b := by
  cases x with
  | error e => cases h
  | ok a => exact ⟨a, rfl, h⟩

namespace DWARF5DebugMachine

open dwarf5

/-- The reads the constructor has made, in order, when the header parse completes. -/
theorem readHeader_inv {lineData lineStrs cur ps : Bytes} {m : DWARF5DebugMachine}
    (h : readHeader lineData lineStrs = .ok (m, cur, ps)) :
    ∃ (c0 c1 c2 c3 c4 c5 c6 c7 c8 c9 c10 c11 c12 c13 c14 c15 c16 c17 c18 : Bytes)
      (headerLength defaultIsStmt lineBase dirFormatCount dirCount fileFormatCount
        fileCount : Nat),
      readUnitLength lineData = .ok (m.header_.length, m.header_.is64bit, c0) ∧
      c0.slice m.header_.length = .ok m.nextUnit_ ∧
      (c0.truncate m.header_.length).iget 2 = .ok (m.header_.version, c1) ∧
      c1.iget 1 = .ok (m.header_.addrSize, c2) ∧
      c2.iget 1 = .ok (m.header_.segSelectorSize, c3) ∧
      readHeaderLength m.header_.is64bit c3 = .ok (headerLength, c4) ∧
      c4.slice headerLength = .ok ps ∧
      c4.iget 1 = .ok (m.header_.minInsnLength, c5) ∧
      c5.iget 1 = .ok (m.header_.maxOpsPerInsn, c6) ∧
      c6.iget 1 = .ok (defaultIsStmt, c7) ∧
      c7.iget 1 = .ok (lineBase, c8) ∧
      c8.iget 1 = .ok (m.header_.lineRange, c9) ∧
      c9.iget 1 = .ok (m.header_.opcodeBase, c10) ∧
      m.header_.opcodeBase < 32 ∧
      readOpcodeLens (m.header_.opcodeBase - 1) c10 [] = .ok (c11, m.header_.stdOpcodeLens) ∧
      c11.iget 1 = .ok (dirFormatCount, c12) ∧
      readFormats dirFormatCount c12 [] = .ok (c13, m.dirEntryFormats) ∧
      c13.uleb 64 = .ok (dirCount, c14) ∧
      readRecords m.header_.is64bit lineStrs m.dirEntryFormats dirCount c14 [] =
        .ok (c15, m.directories) ∧
      c15.iget 1 = .ok (fileFormatCount, c16) ∧
      readFormats fileFormatCount c16 [] = .ok (c17, m.fileEntryFormats) ∧
      c17.uleb 64 = .ok (fileCount, c18) ∧
      readRecords m.header_.is64bit lineStrs m.fileEntryFormats fileCount c18 [] =
        .ok (cur, m.filenames) ∧
      m.insn_ = { lineData with base_ := 0, limit_ := 0 } ∧
      m.lineData_ = lineData ∧ m.lineStrs_ = lineStrs := by
  unfold readHeader at h
  obtain ⟨⟨length, is64bit, c0⟩, h0, h⟩ := bind_ok h
  obtain ⟨nextUnit, h1, h⟩ := bind_ok h
  obtain ⟨⟨version, c1⟩, h2, h⟩ := bind_ok h
  obtain ⟨⟨addrSize, c2⟩, h3, h⟩ := bind_ok h
  obtain ⟨⟨segSelectorSize, c3⟩, h4, h⟩ := bind_ok h
  obtain ⟨⟨headerLength, c4⟩, h5, h⟩ := bind_ok h
  obtain ⟨programStart, h6, h⟩ := bind_ok h
  obtain ⟨⟨minInsnLength, c5⟩, h7, h⟩ := bind_ok h
  obtain ⟨⟨maxOpsPerInsn, c6⟩, h8, h⟩ := bind_ok h
  obtain ⟨⟨defaultIsStmt, c7⟩, h9, h⟩ := bind_ok h
  obtain ⟨⟨lineBase, c8⟩, h10, h⟩ := bind_ok h
  obtain ⟨⟨lineRange, c9⟩, h11, h⟩ := bind_ok h
  obtain ⟨⟨opcodeBase, c10⟩, h12, h⟩ := bind_ok h
  dsimp only at h
  have hob : opcodeBase < 32 := by
    by_contra hc
    rw [if_pos hc] at h
    cases h
  rw [if_neg (not_not.mpr hob)] at h
  obtain ⟨u, -, h⟩ := bind_ok h
  obtain ⟨⟨c11, lens⟩, h14, h⟩ := bind_ok h
  obtain ⟨⟨dirFormatCount, c12⟩, h15, h⟩ := bind_ok h
  obtain ⟨⟨c13, dirEntryFormats⟩, h16, h⟩ := bind_ok h
  obtain ⟨⟨dirCount, c14⟩, h17, h⟩ := bind_ok h
  obtain ⟨⟨c15, directories⟩, h18, h⟩ := bind_ok h
  obtain ⟨⟨fileFormatCount, c16⟩, h19, h⟩ := bind_ok h
  obtain ⟨⟨c17, fileEntryFormats⟩, h20, h⟩ := bind_ok h
  obtain ⟨⟨fileCount, c18⟩, h21, h⟩ := bind_ok h
  obtain ⟨⟨c19, filenames⟩, h22, h⟩ := bind_ok h
  cases h
  exact ⟨c0, c1, c2, c3, c4, c5, c6, c7, c8, c9, c10, c11, c12, c13, c14, c15, c16, c17, c18,
    headerLength, defaultIsStmt, lineBase, dirFormatCount, dirCount, fileFormatCount, fileCount,
    h0, h1, h2, h3, h4, h5, h6, h7, h8, h9, h10, h11, h12, hob, h14, h15, h16, h17, h18, h19,
    h20, h21, h22, rfl, rfl, rfl⟩

end DWARF5DebugMachine

end ObjReader

namespace ObjReader

namespace DWARF5DebugMachine

open dwarf5

/-- The two outcomes of the read of `unit_length`. -/
theorem readUnitLength_inv {lineData c0 : Bytes} {length : Nat} {is64bit : Bool}
    (h : readUnitLength lineData = .ok (length, is64bit, c0)) :
    ∃ (first : Nat) (c : Bytes), lineData.iget 4 = .ok (first, c) ∧
      (first = 0xffffffff → c.iget 8 = .ok (length, c0) ∧ is64bit = true) ∧
      (first ≠ 0xffffffff → length = first ∧ c0 = c ∧ is64bit = false) := by
  unfold readUnitLength at h
  obtain ⟨⟨first, c⟩, h0, h⟩ := bind_ok h
  refine ⟨first, c, h0, ?_, ?_⟩
  · intro hf
    dsimp only at h
    rw [if_neg (not_not.mpr hf)] at h
    obtain ⟨⟨len64, c1⟩, h1, h⟩ := bind_ok h
    cases h
    exact ⟨h1, rfl⟩
  · intro hf
    dsimp only at h
    rw [if_pos hf] at h
    cases h
    exact ⟨rfl, rfl, rfl⟩

/-- The width of a `DW_FORM_line_strp` offset. -/
theorem readForm_line_strp (pos lineStrs : Bytes) (is64Bit : Bool) (u64 : Nat)
    (str : List Byte) :
    EntryData.readForm pos 0x1f is64Bit u64 str lineStrs =
      (pos.iget (if is64Bit then 8 else 4) >>= fun p =>
        lineStrs.str p.1 >>= fun s => pure (p.2, u64, s)) := by
  cases is64Bit <;> rfl

/-- C25. When the constructor completes: the first four bytes of the unit are read as a
32-bit word; if that word is `0xffffffff` the unit length is the 64-bit value of the next
eight bytes and `is64bit` is set, otherwise the unit length is that word and `is64bit` is
not set; `headerLength` is then read as a little-endian value of 8 bytes when `is64bit` and
of 4 bytes otherwise, the directory and file records are read in that same mode, and in that
mode every `DW_FORM_line_strp` value is an offset of 8 bytes when `is64bit` and of 4 bytes
otherwise. -/
theorem unit_length_selects_offset_width (lineData lineStrs cur ps : Bytes)
    (m : DWARF5DebugMachine) (h : readHeader lineData lineStrs = .ok (m, cur, ps)) :
    ∃ (first : Nat) (c c0 c3 c4 cd cd' cf : Bytes) (headerLength dirCount fileCount : Nat),
      lineData.iget 4 = .ok (first, c) ∧
      (first = 0xffffffff → c.iget 8 = .ok (m.header_.length, c0) ∧ m.header_.is64bit = true) ∧
      (first ≠ 0xffffffff → m.header_.length = first ∧ c0 = c ∧ m.header_.is64bit = false) ∧
      c3.iget (if m.header_.is64bit then 8 else 4) = .ok (headerLength, c4) ∧
      c4.slice headerLength = .ok ps ∧
      readRecords m.header_.is64bit lineStrs m.dirEntryFormats dirCount cd [] =
        .ok (cd', m.directories) ∧
      readRecords m.header_.is64bit lineStrs m.fileEntryFormats fileCount cf [] =
        .ok (cur, m.filenames) ∧
      ∀ (pos : Bytes) (u64 : Nat) (str : List Byte),
        EntryData.readForm pos 0x1f m.header_.is64bit u64 str lineStrs =
          (pos.iget (if m.header_.is64bit then 8 else 4) >>= fun p =>
            lineStrs.str p.1 >>= fun s => pure (p.2, u64, s)) := by
  obtain ⟨c0, c1, c2, c3, c4, c5, c6, c7, c8, c9, c10, c11, c12, c13, c14, c15, c16, c17, c18,
    headerLength, defaultIsStmt, lineBase, dirFormatCount, dirCount, fileFormatCount, fileCount,
    h0, h1, h2, h3, h4, h5, h6, h7, h8, h9, h10, h11, h12, hob, h14, h15, h16, h17, h18, h19,
    h20, h21, h22, -, -, -⟩ := readHeader_inv h
  obtain ⟨first, c, hf, h64, h32⟩ := readUnitLength_inv h0
  refine ⟨first, c, c0, c3, c4, c14, c15, c18, headerLength, dirCount, fileCount, hf, h64, h32,
    ?_, h6, h18, h22, fun pos u64 str => readForm_line_strp pos lineStrs _ u64 str⟩
  unfold readHeaderLength at h5
  cases hb : m.header_.is64bit
  · rw [hb] at h5; exact h5
  · rw [hb] at h5; exact h5

/-- Witness for C25: a unit that starts `ff ff ff ff` followed by the 64-bit length 77. -/
theorem unit_length_selects_offset_width_witness :
    readHeader Sample.dwarf64.1 Sample.dwarf64.2 =
        .ok (Sample.parsed64, Sample.afterHeader64, Sample.afterHeader64) ∧
    ∃ (first : Nat) (c c0 c3 c4 cd cd' cf : Bytes) (headerLength dirCount fileCount : Nat),
      Sample.dwarf64.1.iget 4 = .ok (first, c) ∧
      (first = 0xffffffff → c.iget 8 = .ok (Sample.parsed64.header_.length, c0) ∧
        Sample.parsed64.header_.is64bit = true) ∧
      (first ≠ 0xffffffff → Sample.parsed64.header_.length = first ∧ c0 = c ∧
        Sample.parsed64.header_.is64bit = false) ∧
      c3.iget (if Sample.parsed64.header_.is64bit then 8 else 4) = .ok (headerLength, c4) ∧
      c4.slice headerLength = .ok Sample.afterHeader64 ∧
      readRecords Sample.parsed64.header_.is64bit Sample.dwarf64.2
        Sample.parsed64.dirEntryFormats dirCount cd [] = .ok (cd', Sample.parsed64.directories) ∧
      readRecords Sample.parsed64.header_.is64bit Sample.dwarf64.2
        Sample.parsed64.fileEntryFormats fileCount cf [] =
        .ok (Sample.afterHeader64, Sample.parsed64.filenames) ∧
      ∀ (pos : Bytes) (u64 : Nat) (str : List Byte),
        EntryData.readForm pos 0x1f Sample.parsed64.header_.is64bit u64 str Sample.dwarf64.2 =
          (pos.iget (if Sample.parsed64.header_.is64bit then 8 else 4) >>= fun p =>
            Sample.dwarf64.2.str p.1 >>= fun s => pure (p.2, u64, s)) :=
  ⟨by decide,
   unit_length_selects_offset_width Sample.dwarf64.1 Sample.dwarf64.2
     Sample.afterHeader64 Sample.afterHeader64 Sample.parsed64 (by decide)⟩

end DWARF5DebugMachine

end ObjReader

namespace ObjReader

namespace DWARF5DebugMachine

open dwarf5

/-- The constructor completes exactly when the header parse does. -/
theorem new_of_readHeader {lineData lineStrs cur ps : Bytes} {m0 : DWARF5DebugMachine}
    (h : readHeader lineData lineStrs = .ok (m0, cur, ps)) :
    new lineData lineStrs =
      .ok (if cur.base_ ≠ ps.base_ then m0 else ({ m0 with insn_ := cur }).reset) := by
  unfold new
  rw [h, ok_bind]
  dsimp only
  by_cases hc : cur.base_ ≠ ps.base_
  · rw [if_pos hc, if_pos hc]; rfl
  · rw [if_neg hc, if_neg hc]; rfl

theorem new_inv {lineData lineStrs : Bytes} {m : DWARF5DebugMachine}
    (h : new lineData lineStrs = .ok m) :
    ∃ (m0 : DWARF5DebugMachine) (cur ps : Bytes),
      readHeader lineData lineStrs = .ok (m0, cur, ps) ∧
      m = if cur.base_ ≠ ps.base_ then m0 else ({ m0 with insn_ := cur }).reset := by
  cases hr : readHeader lineData lineStrs with
  | error e =>
    unfold new at h
    rw [hr] at h
    cases h
  | ok r =>
    obtain ⟨m0, cur, ps⟩ := r
    rw [new_of_readHeader hr] at h
    cases h
    exact ⟨m0, cur, ps, rfl, rfl⟩

/-- A machine whose instruction stream is empty returns the default location and stays as
it is. -/
theorem nextLoc_of_exhausted (m : DWARF5DebugMachine) (h : m.insn_.toBool = false) :
    m.nextLoc = .ok (SourceLoc.empty, m) := by
  unfold nextLoc
  rw [nextLocLoop, nextLocInto_exhausted m _ h, ok_bind]
  rfl

/-- C27. When the constructor completes: `programStart` is the cursor right after the
`headerLength` field advanced by `headerLength` bytes (pointer arithmetic); a non-empty
instruction stream `insn_` starts exactly there, being the cursor after the last file
record; and if the cursor after the last file record is not at `programStart`, `insn_`
stays the empty default cursor and `nextLoc()` returns the default location, which is not a
row, leaving the machine as it is. -/
theorem insn_starts_at_programStart (lineData lineStrs cur ps : Bytes)
    (m0 : DWARF5DebugMachine) (h : readHeader lineData lineStrs = .ok (m0, cur, ps)) :
    ∃ (m : DWARF5DebugMachine) (c3 c4 : Bytes) (headerLength : Nat),
      new lineData lineStrs = .ok m ∧
      readHeaderLength m0.header_.is64bit c3 = .ok (headerLength, c4) ∧
      ps.base_ = (c4.base_ + headerLength) % 2 ^ 64 ∧
      (m.insn_.toBool = true → m.insn_.base_ = ps.base_ ∧ m.insn_ = cur) ∧
      (cur.base_ ≠ ps.base_ →
        m.insn_.toBool = false ∧ m.nextLoc = .ok (SourceLoc.empty, m) ∧
          SourceLoc.empty.toBool = false) := by
  obtain ⟨c0, c1, c2, c3, c4, c5, c6, c7, c8, c9, c10, c11, c12, c13, c14, c15, c16, c17, c18,
    headerLength, defaultIsStmt, lineBase, dirFormatCount, dirCount, fileFormatCount, fileCount,
    h0, h1, h2, h3, h4, h5, h6, h7, h8, h9, h10, h11, h12, hob, h14, h15, h16, h17, h18, h19,
    h20, h21, h22, hinsn, -, -⟩ := readHeader_inv h
  have hps : ps.base_ = (c4.base_ + headerLength) % 2 ^ 64 := by
    unfold Bytes.slice at h6
    split at h6
    · cases h6
    · cases h6; rfl
  have hnull : m0.insn_.toBool = false := by
    rw [hinsn]
    simp [Bytes.toBool, Bytes.size]
  refine ⟨_, c3, c4, headerLength, new_of_readHeader h, h5, hps, ?_, ?_⟩
  · intro hne
    by_cases hc : cur.base_ ≠ ps.base_
    · rw [if_pos hc, hnull] at hne
      cases hne
    · rw [if_neg hc]
      exact ⟨not_not.mp hc, rfl⟩
  · intro hc
    rw [if_pos hc]
    exact ⟨hnull, nextLoc_of_exhausted m0 hnull, rfl⟩

/-- Witness for C27: a unit whose `headerLength` is 39 while 38 bytes follow the field up
to the last file record. -/
theorem insn_starts_at_programStart_witness :
    readHeader Sample.longLength.1 Sample.longLength.2 =
        .ok (Sample.parsedLongLength, { Sample.longLength.1 with base_ := 0x100000000 + 50 },
          { Sample.longLength.1 with base_ := 0x100000000 + 51 }) ∧
    ∃ (m : DWARF5DebugMachine) (c3 c4 : Bytes) (headerLength : Nat),
      new Sample.longLength.1 Sample.longLength.2 = .ok m ∧
      readHeaderLength Sample.parsedLongLength.header_.is64bit c3 = .ok (headerLength, c4) ∧
      0x100000000 + 51 = (c4.base_ + headerLength) % 2 ^ 64 ∧
      (m.insn_.toBool = true → m.insn_.base_ = 0x100000000 + 51 ∧
        m.insn_ = { Sample.longLength.1 with base_ := 0x100000000 + 50 }) ∧
      (0x100000000 + 50 ≠ 0x100000000 + 51 →
        m.insn_.toBool = false ∧ m.nextLoc = .ok (SourceLoc.empty, m) ∧
          SourceLoc.empty.toBool = false) :=
  ⟨by decide,
   insn_starts_at_programStart Sample.longLength.1 Sample.longLength.2
     { Sample.longLength.1 with base_ := 0x100000000 + 50 }
     { Sample.longLength.1 with base_ := 0x100000000 + 51 } Sample.parsedLongLength (by decide)⟩

end DWARF5DebugMachine

end ObjReader

namespace ObjReader

namespace DWARF5DebugMachine

open dwarf5

/-- A form other than `DW_FORM_line_strp` and `DW_FORM_udata` takes the `default:` branch of
the static `read`, which is `__builtin_unreachable()`. -/
theorem readForm_unsupported (pos lineStrs : Bytes) (ftype : Nat) (is64Bit : Bool) (u64 : Nat)
    (str : List Byte) (h1 : ftype ≠ 0x1f) (h2 : ftype ≠ 0x0f) :
    EntryData.readForm pos ftype is64Bit u64 str lineStrs = .error .undefined := by
  unfold EntryData.readForm
  rw [if_neg h1, if_neg h2]

theorem read_forms {d d' : EntryData} {pos pos' lineStrs : Bytes} {ctype : ContentType}
    {ftype : Nat} {is64Bit : Bool}
    (h : d.read pos ctype ftype is64Bit lineStrs = .ok (pos', d')) :
    ftype = 0x0f ∨ ftype = 0x1f := by
  by_contra hc
  have h1 : ftype ≠ 0x1f := fun e => hc (Or.inr e)
  have h2 : ftype ≠ 0x0f := fun e => hc (Or.inl e)
  unfold EntryData.read at h
  split at h
  · cases h
  · rw [readForm_unsupported _ _ _ _ _ _ h1 h2] at h
    cases h

/-- A record is read completely only under formats whose forms are all supported. -/
theorem readRecord_forms (is64bit : Bool) (lineStrs : Bytes) :
    ∀ (formats : List EntryFormat) (cur : Bytes) (d : EntryData) (out : List EntryData)
      (r : Bytes × EntryData × List EntryData),
      readRecord is64bit lineStrs formats cur d out = .ok r →
      ∀ f ∈ formats, f.formType = 0x0f ∨ f.formType = 0x1f := by
  intro formats
  induction formats with
  | nil => intro _ _ _ _ _ f hf; cases hf
  | cons fmt rest ih =>
    intro cur d out r h f hf
    rw [readRecord] at h
    obtain ⟨⟨cur1, d1⟩, h1, h⟩ := bind_ok h
    rcases List.mem_cons.mp hf with rfl | hf
    · exact read_forms h1
    · exact ih _ _ _ _ h f hf

/-- The records read are none, or the forms of the format are all supported. -/
theorem readRecords_forms (is64bit : Bool) (lineStrs : Bytes) (formats : List EntryFormat) :
    ∀ (n : Nat) (cur : Bytes) (out : List EntryData) (r : Bytes × List EntryData),
      readRecords is64bit lineStrs formats n cur out = .ok r →
      r.2 = out ∨ ∀ f ∈ formats, f.formType = 0x0f ∨ f.formType = 0x1f := by
  intro n
  cases n with
  | zero =>
    intro cur out r h
    rw [readRecords] at h
    cases h
    exact Or.inl rfl
  | succ n =>
    intro cur out r h
    rw [readRecords] at h
    obtain ⟨⟨cur1, d1, out1⟩, h1, -⟩ := bind_ok h
    exact Or.inr (readRecord_forms is64bit lineStrs formats _ _ _ _ h1)

end DWARF5DebugMachine

namespace DWARFDebugTable

/-- An error of the constructor of a unit's machine leaves the outer loop of
`sourceLocAtAddr`. -/
theorem driveUnits_of_new_error {t : DWARFDebugTable} {e : Fault} (fuel : Nat)
    (hm : t.machine_ = none) (hd : t.lineData_.toBool = true)
    (hn : DWARF5DebugMachine.new t.lineData_ t.lineStrs_ = .error e) :
    driveUnits (fuel + 1) t = .error e := by
  rw [driveUnits]
  simp only [hm, hd, Option.isSome_none, Bool.false_or, if_true, hn, bind, Except.bind]

set_option maxRecDepth 20000 in
/-- C28 (the code departs from the claim). In the section `stringFormThenGood` the first
unit's file-entry format names `DW_FORM_string` (0x08) and the unit holds one file record;
the second unit is well formed and, alone in a section, gives the row at `0x1000`. On the
two-unit section the read of the first unit's file record takes the `default:` branch of
the static `read`, `// TODO graceful handling` followed by `__builtin_unreachable()`: no
parse error is raised for the unit, the behaviour of the constructor of its machine and of
`sourceLocAtAddr` is undefined, and nothing skips to the second unit. -/
theorem unsupported_form_is_undefined_behaviour :
    (DWARF5DebugMachine.new (Sample.sections Sample.stringFormThenGood).1
        (Sample.sections Sample.stringFormThenGood).2).map (fun _ => ()) = .error .undefined ∧
    (Sample.tableOf Sample.stringFormThenGood).sourceLocAtAddr 0x1000 = .error .undefined ∧
    ((Sample.tableOf (Sample.unitOf Sample.header Sample.programCopy)).sourceLocAtAddr
      0x1000).map (fun r => r.1) = .ok (Sample.row 0x1000 1) := by
  refine ⟨by decide, ?_, by decide⟩
  have hn : DWARF5DebugMachine.new (Sample.tableOf Sample.stringFormThenGood).lineData_
      (Sample.tableOf Sample.stringFormThenGood).lineStrs_ = .error .undefined := by decide
  unfold sourceLocAtAddr
  rw [driveUnits_of_new_error _ rfl (by decide) hn]
  rfl

end DWARFDebugTable

end ObjReader


namespace ObjReader

namespace DWARF5DebugMachine

open dwarf5

/-- Every call of `nextLoc(SourceLoc &)` that returns is one of the cases of `Executed`. -/
theorem nextLocInto_executed {m m' : DWARF5DebugMachine} {ret ret' : SourceLoc} {b : Bool}
    (h : m.nextLocInto ret = .ok (b, ret', m')) : Executed m ret b ret' m' := by
  unfold nextLocInto at h
  split at h
  · rename_i hex
    cases h
    exact Executed.exhausted (by simpa using hex)
  · rename_i hex
    have h0 : m.insn_.toBool = true := by simpa using hex
    obtain ⟨⟨op, insn⟩, h1, h⟩ := bind_ok h
    dsimp only at h
    split at h
    · rename_i hop
      subst hop
      unfold extendedOpcode at h
      obtain ⟨⟨len, c2⟩, h2, h⟩ := bind_ok h
      obtain ⟨⟨ext, c3⟩, h3, h⟩ := bind_ok h
      dsimp only at h
      split at h
      · rename_i he
        subst he
        unfold endSequence at h
        obtain ⟨loc, hloc, h⟩ := bind_ok h
        cases h
        exact Executed.endSequence insn c2 _ len _ h0 h1 h2 h3 hloc
      · split at h
        · rename_i he
          subst he
          unfold setAddress at h
          dsimp only at h
          by_cases ha : m.header_.addrSize = 8
          · rw [if_pos ha] at h
            obtain ⟨⟨a, c4⟩, h4, h⟩ := bind_ok h
            cases h
            exact Executed.setAddress insn c2 c3 _ len _ h0 h1 h2 h3 (by rw [if_pos ha]; exact h4)
          · rw [if_neg ha] at h
            obtain ⟨⟨a, c4⟩, h4, h⟩ := bind_ok h
            cases h
            exact Executed.setAddress insn c2 c3 _ len _ h0 h1 h2 h3 (by rw [if_neg ha]; exact h4)
        · split at h
          · rename_i he
            subst he
            unfold setDiscriminator at h
            obtain ⟨⟨v, c4⟩, h4, h⟩ := bind_ok h
            cases h
            exact Executed.setDiscriminator insn c2 c3 _ len _ h0 h1 h2 h3 h4
          · cases h
    · split at h
      · rename_i hop hb
        unfold standardOpcode at h
        by_cases he : op = 1
        · subst he
          rw [if_pos rfl] at h
          unfold copy at h
          obtain ⟨loc, hloc, h⟩ := bind_ok h
          cases h
          exact Executed.copy _ _ h0 h1 hb hloc
        · rw [if_neg he] at h
          clear he
          by_cases he : op = 2
          · subst he
            rw [if_pos rfl] at h
            unfold advancePc at h
            obtain ⟨⟨utmp, c2⟩, h2, h⟩ := bind_ok h
            obtain ⟨m1, h3, h⟩ := bind_ok h
            cases h
            exact Executed.advancePc insn _ _ _ h0 h1 hb h2 h3
          · rw [if_neg he] at h
            clear he
            by_cases he : op = 3
            · subst he
              rw [if_pos rfl] at h
              unfold advanceLine at h
              obtain ⟨⟨stmp, c2⟩, h2, h⟩ := bind_ok h
              cases h
              exact Executed.advanceLine insn _ _ h0 h1 hb h2
            · rw [if_neg he] at h
              clear he
              by_cases he : op = 4
              · subst he
                rw [if_pos rfl] at h
                unfold setFile at h
                obtain ⟨⟨utmp, c2⟩, h2, h⟩ := bind_ok h
                cases h
                exact Executed.setFile insn _ _ h0 h1 hb h2
              · rw [if_neg he] at h
                clear he
                by_cases he : op = 5
                · subst he
                  rw [if_pos rfl] at h
                  unfold setColumn at h
                  obtain ⟨⟨utmp, c2⟩, h2, h⟩ := bind_ok h
                  cases h
                  exact Executed.setColumn insn _ _ h0 h1 hb h2
                · rw [if_neg he] at h
                  clear he
                  by_cases he : op = 6
                  · subst he
                    rw [if_pos rfl] at h
                    cases h
                    exact Executed.negateStmt _ h0 h1 hb
                  · rw [if_neg he] at h
                    clear he
                    by_cases he : op = 7
                    · subst he
                      rw [if_pos rfl] at h
                      cases h
                      exact Executed.setBasicBlock _ h0 h1 hb
                    · rw [if_neg he] at h
                      clear he
                      by_cases he : op = 8
                      · subst he
                        rw [if_pos rfl] at h
                        unfold constAddPc at h
                        dsimp only at h
                        by_cases hlr : m.header_.lineRange = 0
                        · rw [if_pos hlr] at h
                          cases h
                        · rw [if_neg hlr] at h
                          obtain ⟨u, -, h⟩ := bind_ok h
                          obtain ⟨m1, h3, h⟩ := bind_ok h
                          cases h
                          exact Executed.constAddPc insn _ h0 h1 hb hlr h3
                      · rw [if_neg he] at h
                        clear he
                        by_cases he : op = 9
                        · subst he
                          rw [if_pos rfl] at h
                          unfold fixedAdvancePc at h
                          obtain ⟨⟨utmp, c2⟩, h2, h⟩ := bind_ok h
                          cases h
                          exact Executed.fixedAdvancePc insn _ _ h0 h1 hb h2
                        · rw [if_neg he] at h
                          clear he
                          by_cases he : op = 10
                          · subst he
                            rw [if_pos rfl] at h
                            cases h
                            exact Executed.setPrologueEnd _ h0 h1 hb
                          · rw [if_neg he] at h
                            clear he
                            by_cases he : op = 11
                            · subst he
                              rw [if_pos rfl] at h
                              cases h
                              exact Executed.setEpilogueBegin _ h0 h1 hb
                            · rw [if_neg he] at h
                              clear he
                              by_cases he : op = 12
                              · subst he
                                rw [if_pos rfl] at h
                                unfold setIsa at h
                                obtain ⟨⟨utmp, c2⟩, h2, h⟩ := bind_ok h
                                cases h
                                exact Executed.setIsa insn _ _ h0 h1 hb h2
                              · rw [if_neg he] at h
                                clear he
                                cases h
      · rename_i hop hb
        unfold specialOpcode at h
        dsimp only at h
        by_cases hlr : m.header_.lineRange = 0
        · rw [if_pos hlr] at h
          cases h
        · rw [if_neg hlr] at h
          obtain ⟨u, -, h⟩ := bind_ok h
          obtain ⟨m1, h3, h⟩ := bind_ok h
          obtain ⟨loc, hloc, h⟩ := bind_ok h
          cases h
          exact Executed.special op insn _ _ h0 h1 hop hb hlr h3 hloc

end DWARF5DebugMachine

end ObjReader

namespace ObjReader

/-! ## Cursors of a unit -/

namespace Bytes

/-- A read of at most eight bytes through a cursor inside `u` gives a cursor inside `u`. -/
theorem iget_inside {u c r : Bytes} (hu : u.Valid) (h8 : 8 ≤ u.limit_) (hc : c.Within u)
    {w v : Nat} (hw : w ≤ 8) (h : c.iget w = .ok (v, r)) :
    r.Within u ∧ r.base_ = c.base_ + w := by
  have := iget_within (hc.valid hu) (by rw [hc.2.2.1]; omega) h
  exact ⟨this.1.trans hc, this.2⟩

theorem uleb_inside {u c r : Bytes} (hu : u.Valid) (h8 : 8 ≤ u.limit_) (hc : c.Within u)
    {zbits v : Nat} (h : c.uleb zbits = .ok (v, r)) : r.Within u ∧ c.base_ < r.base_ := by
  have := uleb_within (hc.valid hu) (by rw [hc.2.2.1]; omega) h
  exact ⟨this.1.trans hc, this.2⟩

theorem sleb_inside {u c r : Bytes} (hu : u.Valid) (h8 : 8 ≤ u.limit_) (hc : c.Within u)
    {v : Int} (h : c.sleb = .ok (v, r)) : r.Within u ∧ c.base_ < r.base_ := by
  have := sleb_within (hc.valid hu) (by rw [hc.2.2.1]; omega) h
  exact ⟨this.1.trans hc, this.2⟩

end Bytes

namespace DWARF5DebugMachine

open dwarf5

theorem readOpcodeLens_inside {u : Bytes} (hu : u.Valid) (h8 : 8 ≤ u.limit_) :
    ∀ (n : Nat) {c r : Bytes} {acc lens : List Nat}, c.Within u →
      readOpcodeLens n c acc = .ok (r, lens) → r.Within u := by
  intro n
  induction n with
  | zero =>
    intro c r acc lens hc h
    rw [readOpcodeLens] at h
    cases h
    exact hc
  | succ n ih =>
    intro c r acc lens hc h
    rw [readOpcodeLens] at h
    obtain ⟨⟨v, c1⟩, h1, h⟩ := bind_ok h
    exact ih (Bytes.iget_inside hu h8 hc (by omega) h1).1 h

theorem readFormats_inside {u : Bytes} (hu : u.Valid) (h8 : 8 ≤ u.limit_) :
    ∀ (n : Nat) {c r : Bytes} {acc fmts : List EntryFormat}, c.Within u →
      readFormats n c acc = .ok (r, fmts) → r.Within u := by
  intro n
  induction n with
  | zero =>
    intro c r acc fmts hc h
    rw [readFormats] at h
    cases h
    exact hc
  | succ n ih =>
    intro c r acc fmts hc h
    rw [readFormats] at h
    obtain ⟨⟨ct, c1⟩, h1, h⟩ := bind_ok h
    obtain ⟨⟨ft, c2⟩, h2, h⟩ := bind_ok h
    obtain ⟨ctype, h3, h⟩ := bind_ok h
    obtain ⟨ftype, h4, h⟩ := bind_ok h
    have w1 := (Bytes.uleb_inside hu h8 hc h1).1
    exact ih (Bytes.uleb_inside hu h8 w1 h2).1 h

theorem readForm_inside {u pos pos' lineStrs : Bytes} (hu : u.Valid) (h8 : 8 ≤ u.limit_)
    (hc : pos.Within u) {ftype u64 u64' : Nat} {is64Bit : Bool} {str str' : List Byte}
    (h : EntryData.readForm pos ftype is64Bit u64 str lineStrs = .ok (pos', u64', str')) :
    pos'.Within u := by
  unfold EntryData.readForm at h
  split at h
  · dsimp only at h
    cases is64Bit
    · rw [if_neg (by decide)] at h
      obtain ⟨⟨off, p⟩, h1, h⟩ := bind_ok h
      obtain ⟨s, h2, h⟩ := bind_ok h
      cases h
      exact (Bytes.iget_inside hu h8 hc (by omega) h1).1
    · rw [if_pos rfl] at h
      obtain ⟨⟨off, p⟩, h1, h⟩ := bind_ok h
      obtain ⟨s, h2, h⟩ := bind_ok h
      cases h
      exact (Bytes.iget_inside hu h8 hc (by omega) h1).1
  · split at h
    · obtain ⟨⟨v, p⟩, h1, h⟩ := bind_ok h
      cases h
      exact (Bytes.uleb_inside hu h8 hc h1).1
    · cases h

theorem read_inside {u pos pos' lineStrs : Bytes} (hu : u.Valid) (h8 : 8 ≤ u.limit_)
    (hc : pos.Within u) {d d' : EntryData} {ctype : ContentType} {ftype : Nat} {is64Bit : Bool}
    (h : d.read pos ctype ftype is64Bit lineStrs = .ok (pos', d')) : pos'.Within u := by
  unfold EntryData.read at h
  split at h
  · cases h
  · obtain ⟨⟨p, v, s⟩, h1, h⟩ := bind_ok h
    cases h
    exact readForm_inside hu h8 hc h1

theorem readRecord_inside {u lineStrs : Bytes} (hu : u.Valid) (h8 : 8 ≤ u.limit_)
    (is64bit : Bool) :
    ∀ (formats : List EntryFormat) {c r : Bytes} {d d' : EntryData} {out out' : List EntryData},
      c.Within u → readRecord is64bit lineStrs formats c d out = .ok (r, d', out') →
      r.Within u := by
  intro formats
  induction formats with
  | nil =>
    intro c r d d' out out' hc h
    rw [readRecord] at h
    cases h
    exact hc
  | cons fmt rest ih =>
    intro c r d d' out out' hc h
    rw [readRecord] at h
    obtain ⟨⟨c1, d1⟩, h1, h⟩ := bind_ok h
    exact ih (read_inside hu h8 hc h1) h

theorem readRecords_inside {u lineStrs : Bytes} (hu : u.Valid) (h8 : 8 ≤ u.limit_)
    (is64bit : Bool) (formats : List EntryFormat) :
    ∀ (n : Nat) {c r : Bytes} {out out' : List EntryData},
      c.Within u → readRecords is64bit lineStrs formats n c out = .ok (r, out') →
      r.Within u := by
  intro n
  induction n with
  | zero =>
    intro c r out out' hc h
    rw [readRecords] at h
    cases h
    exact hc
  | succ n ih =>
    intro c r out out' hc h
    rw [readRecords] at h
    obtain ⟨⟨c1, d1, out1⟩, h1, h⟩ := bind_ok h
    exact ih (readRecord_inside hu h8 is64bit formats hc h1) h

theorem addrAndOpAdvance_inv {m m1 : DWARF5DebugMachine} {k : Nat}
    (h : m.addrAndOpAdvance k = .ok m1) :
    m.header_.maxOpsPerInsn ≠ 0 ∧
      m1 = { m with
        addr := (m.addr + m.addrAdvance k) % 2 ^ 64
        opIndex := ((m.opIndex + k) % 2 ^ 64) % m.header_.maxOpsPerInsn } := by
  unfold addrAndOpAdvance at h
  split at h
  · cases h
  · rename_i hne
    cases h
    exact ⟨hne, rfl⟩

/-- An instruction leaves the header, the tables and the section cursors alone. -/
theorem Executed.frame {m m' : DWARF5DebugMachine} {ret ret' : SourceLoc} {b : Bool}
    (h : Executed m ret b ret' m') :
    m'.header_ = m.header_ ∧ m'.lineData_ = m.lineData_ ∧ m'.lineStrs_ = m.lineStrs_ ∧
      m'.nextUnit_ = m.nextUnit_ ∧ m'.dirEntryFormats = m.dirEntryFormats ∧
      m'.directories = m.directories ∧ m'.fileEntryFormats = m.fileEntryFormats ∧
      m'.filenames = m.filenames := by
  cases h with
  | advancePc c1 insn utmp m1 h0 h1 hb h2 h3 =>
    obtain ⟨-, rfl⟩ := addrAndOpAdvance_inv h3
    exact ⟨rfl, rfl, rfl, rfl, rfl, rfl, rfl, rfl⟩
  | constAddPc insn m1 h0 h1 hb hlr h3 =>
    obtain ⟨-, rfl⟩ := addrAndOpAdvance_inv h3
    exact ⟨rfl, rfl, rfl, rfl, rfl, rfl, rfl, rfl⟩
  | special op insn m1 loc h0 h1 hop hb hlr h3 hloc =>
    obtain ⟨-, rfl⟩ := addrAndOpAdvance_inv h3
    exact ⟨rfl, rfl, rfl, rfl, rfl, rfl, rfl, rfl⟩
  | _ => exact ⟨rfl, rfl, rfl, rfl, rfl, rfl, rfl, rfl⟩

/-- An instruction read through a stream inside `u` leaves the stream inside `u`, and past
the byte of its opcode. -/
theorem Executed.insn_inside {u : Bytes} (hu : u.Valid) (h8 : 8 ≤ u.limit_)
    {m m' : DWARF5DebugMachine} {ret ret' : SourceLoc} {b : Bool}
    (h : Executed m ret b ret' m') (hc : m.insn_.Within u) :
    m'.insn_.Within u ∧ (m.insn_.toBool = true → m.insn_.base_ < m'.insn_.base_) := by
  cases h with
  | exhausted h0 => exact ⟨hc, fun h => by rw [h0] at h; cases h⟩
  | endSequence c1 c2 insn len loc h0 h1 h2 h3 hloc =>
    have w1 := Bytes.iget_inside hu h8 hc (by omega) h1
    have w2 := Bytes.uleb_inside hu h8 w1.1 h2
    have w3 := Bytes.iget_inside hu h8 w2.1 (by omega) h3
    exact ⟨w3.1, fun _ => by show m.insn_.base_ < insn.base_; omega⟩
  | setAddress c1 c2 c3 insn len a h0 h1 h2 h3 h4 =>
    have w1 := Bytes.iget_inside hu h8 hc (by omega) h1
    have w2 := Bytes.uleb_inside hu h8 w1.1 h2
    have w3 := Bytes.iget_inside hu h8 w2.1 (by omega) h3
    have w4 : insn.Within u ∧ c3.base_ ≤ insn.base_ := by
      split at h4
      · have := Bytes.iget_inside hu h8 w3.1 (by omega) h4
        exact ⟨this.1, by omega⟩
      · have := Bytes.iget_inside hu h8 w3.1 (by omega) h4
        exact ⟨this.1, by omega⟩
    exact ⟨w4.1, fun _ => by show m.insn_.base_ < insn.base_; omega⟩
  | setDiscriminator c1 c2 c3 insn len v h0 h1 h2 h3 h4 =>
    have w1 := Bytes.iget_inside hu h8 hc (by omega) h1
    have w2 := Bytes.uleb_inside hu h8 w1.1 h2
    have w3 := Bytes.iget_inside hu h8 w2.1 (by omega) h3
    have w4 := Bytes.uleb_inside hu h8 w3.1 h4
    exact ⟨w4.1, fun _ => by show m.insn_.base_ < insn.base_; omega⟩
  | copy insn loc h0 h1 hb hloc =>
    have w1 := Bytes.iget_inside hu h8 hc (by omega) h1
    exact ⟨w1.1, fun _ => by show m.insn_.base_ < insn.base_; omega⟩
  | advancePc c1 insn utmp m1 h0 h1 hb h2 h3 =>
    obtain ⟨-, rfl⟩ := addrAndOpAdvance_inv h3
    have w1 := Bytes.iget_inside hu h8 hc (by omega) h1
    have w2 := Bytes.uleb_inside hu h8 w1.1 h2
    exact ⟨w2.1, fun _ => by show m.insn_.base_ < insn.base_; omega⟩
  | advanceLine c1 insn stmp h0 h1 hb h2 =>
    have w1 := Bytes.iget_inside hu h8 hc (by omega) h1
    have w2 := Bytes.sleb_inside hu h8 w1.1 h2
    exact ⟨w2.1, fun _ => by show m.insn_.base_ < insn.base_; omega⟩
  | setFile c1 insn utmp h0 h1 hb h2 =>
    have w1 := Bytes.iget_inside hu h8 hc (by omega) h1
    have w2 := Bytes.uleb_inside hu h8 w1.1 h2
    exact ⟨w2.1, fun _ => by show m.insn_.base_ < insn.base_; omega⟩
  | setColumn c1 insn utmp h0 h1 hb h2 =>
    have w1 := Bytes.iget_inside hu h8 hc (by omega) h1
    have w2 := Bytes.uleb_inside hu h8 w1.1 h2
    exact ⟨w2.1, fun _ => by show m.insn_.base_ < insn.base_; omega⟩
  | negateStmt insn h0 h1 hb =>
    have w1 := Bytes.iget_inside hu h8 hc (by omega) h1
    exact ⟨w1.1, fun _ => by show m.insn_.base_ < insn.base_; omega⟩
  | setBasicBlock insn h0 h1 hb =>
    have w1 := Bytes.iget_inside hu h8 hc (by omega) h1
    exact ⟨w1.1, fun _ => by show m.insn_.base_ < insn.base_; omega⟩
  | constAddPc insn m1 h0 h1 hb hlr h3 =>
    obtain ⟨-, rfl⟩ := addrAndOpAdvance_inv h3
    have w1 := Bytes.iget_inside hu h8 hc (by omega) h1
    exact ⟨w1.1, fun _ => by show m.insn_.base_ < insn.base_; omega⟩
  | fixedAdvancePc c1 insn utmp h0 h1 hb h2 =>
    have w1 := Bytes.iget_inside hu h8 hc (by omega) h1
    have w2 := Bytes.iget_inside hu h8 w1.1 (by omega) h2
    exact ⟨w2.1, fun _ => by show m.insn_.base_ < insn.base_; omega⟩
  | setPrologueEnd insn h0 h1 hb =>
    have w1 := Bytes.iget_inside hu h8 hc (by omega) h1
    exact ⟨w1.1, fun _ => by show m.insn_.base_ < insn.base_; omega⟩
  | setEpilogueBegin insn h0 h1 hb =>
    have w1 := Bytes.iget_inside hu h8 hc (by omega) h1
    exact ⟨w1.1, fun _ => by show m.insn_.base_ < insn.base_; omega⟩
  | setIsa c1 insn utmp h0 h1 hb h2 =>
    have w1 := Bytes.iget_inside hu h8 hc (by omega) h1
    have w2 := Bytes.uleb_inside hu h8 w1.1 h2
    exact ⟨w2.1, fun _ => by show m.insn_.base_ < insn.base_; omega⟩
  | special op insn m1 loc h0 h1 hop hb hlr h3 hloc =>
    obtain ⟨-, rfl⟩ := addrAndOpAdvance_inv h3
    have w1 := Bytes.iget_inside hu h8 hc (by omega) h1
    exact ⟨w1.1, fun _ => by show m.insn_.base_ < insn.base_; omega⟩

end DWARF5DebugMachine

end ObjReader

namespace ObjReader

namespace Bytes

theorem Within.eq {r c : Bytes} (h : r.Within c) : r = { c with base_ := r.base_ } := by
  obtain ⟨h1, h2, h3, -, -⟩ := h
  cases r
  cases c
  simp only at h1 h2 h3
  subst h1 h2 h3
  rfl

end Bytes

namespace DWARF5DebugMachine

open dwarf5

/-- The cursor past the `unit_length` field. -/
theorem readUnitLength_cursor {lineData c0 : Bytes} {L : Nat} {is64 : Bool}
    (hv : lineData.Valid) (h8 : 8 ≤ lineData.base_)
    (h : readUnitLength lineData = .ok (L, is64, c0)) :
    c0.Within lineData ∧ c0.base_ = lineData.base_ + (if is64 then 12 else 4) := by
  have hl : 8 ≤ lineData.limit_ := Nat.le_trans h8 hv.1
  obtain ⟨first, c, hf, h64, h32⟩ := readUnitLength_inv h
  have w1 := Bytes.iget_inside hv hl (Bytes.Within.refl hv) (by omega) hf
  by_cases hq : first = 0xffffffff
  · obtain ⟨h2, rfl⟩ := h64 hq
    have w2 := Bytes.iget_inside hv hl w1.1 (by omega) h2
    exact ⟨w2.1, by rw [if_pos rfl]; omega⟩
  · obtain ⟨-, rfl, rfl⟩ := h32 hq
    exact ⟨w1.1, by rw [if_neg (by decide)]; omega⟩

/-- The header is parsed inside the unit: the cursor after the last file record lies inside
the cursor the unit was truncated to. -/
theorem readHeader_inside {lineData lineStrs cur ps c0 : Bytes} {m0 : DWARF5DebugMachine}
    {L : Nat} {is64 : Bool} (hv : lineData.Valid) (h8 : 8 ≤ lineData.base_)
    (hlen : readUnitLength lineData = .ok (L, is64, c0))
    (hfit : c0.base_ + L ≤ lineData.limit_)
    (h : readHeader lineData lineStrs = .ok (m0, cur, ps)) :
    m0.header_.length = L ∧ c0.slice L = .ok m0.nextUnit_ ∧ cur.Within (c0.truncate L) := by
  obtain ⟨c0', c1, c2, c3, c4, c5, c6, c7, c8, c9, c10, c11, c12, c13, c14, c15, c16, c17,
    c18, headerLength, defaultIsStmt, lineBase, dirFormatCount, dirCount, fileFormatCount,
    fileCount, h0, h1, h2, h3, h4, h5, h6, h7, h8', h9, h10, h11, h12, hob, h14, h15, h16,
    h17, h18, h19, h20, h21, h22, -, -, -⟩ := readHeader_inv h
  rw [hlen] at h0
  have e1 : L = m0.header_.length := congrArg (fun r => r.1) (Except.ok.inj h0)
  have e3 : c0 = c0' := congrArg (fun r => r.2.2) (Except.ok.inj h0)
  subst e3
  rw [← e1] at h1 h2
  obtain ⟨hw, hb⟩ := readUnitLength_cursor hv h8 hlen
  have hc0 : c0.Valid := hw.valid hv
  have hlim : c0.limit_ = lineData.limit_ := hw.2.2.1
  have ht := Bytes.truncate_of_valid hc0 (n := L) (by have := hv.2; omega)
  have hu : (c0.truncate L).Valid := ⟨by rw [ht.1]; exact ht.2.1, by
    have := ht.2.2.1; have := hc0.2; omega⟩
  have hu8 : 8 ≤ (c0.truncate L).limit_ := by
    have := ht.2.1
    split at hb <;> omega
  have w1 := (Bytes.iget_inside hu hu8 (Bytes.Within.refl hu) (by omega) h2).1
  have w2 := (Bytes.iget_inside hu hu8 w1 (by omega) h3).1
  have w3 := (Bytes.iget_inside hu hu8 w2 (by omega) h4).1
  have w4 : c4.Within (c0.truncate L) := by
    unfold readHeaderLength at h5
    split at h5
    · exact (Bytes.iget_inside hu hu8 w3 (by omega) h5).1
    · exact (Bytes.iget_inside hu hu8 w3 (by omega) h5).1
  have w5 := (Bytes.iget_inside hu hu8 w4 (by omega) h7).1
  have w6 := (Bytes.iget_inside hu hu8 w5 (by omega) h8').1
  have w7 := (Bytes.iget_inside hu hu8 w6 (by omega) h9).1
  have w8 := (Bytes.iget_inside hu hu8 w7 (by omega) h10).1
  have w9 := (Bytes.iget_inside hu hu8 w8 (by omega) h11).1
  have w10 := (Bytes.iget_inside hu hu8 w9 (by omega) h12).1
  have w11 := readOpcodeLens_inside hu hu8 _ w10 h14
  have w12 := (Bytes.iget_inside hu hu8 w11 (by omega) h15).1
  have w13 := readFormats_inside hu hu8 _ w12 h16
  have w14 := (Bytes.uleb_inside hu hu8 w13 h17).1
  have w15 := readRecords_inside hu hu8 _ _ _ w14 h18
  have w16 := (Bytes.iget_inside hu hu8 w15 (by omega) h19).1
  have w17 := readFormats_inside hu hu8 _ w16 h20
  have w18 := (Bytes.uleb_inside hu hu8 w17 h21).1
  have w19 := readRecords_inside hu hu8 _ _ _ w18 h22
  exact ⟨e1.symm, h1, w19⟩

/-- C26. For a section cursor `lineData` (with `base ≤ limit`, not in the first eight bytes
of the address space) whose unit declares the length `L`, the unit fitting in the section:
the cursor past the initial-length field is 4 bytes into the unit in 32-bit mode and 12 in
64-bit mode; the next-unit cursor starts `L` bytes after it and has the limit of the
section; the cursor the unit is parsed through has exactly those `L` bytes; and when the
constructor completes, the machine's `nextUnit_` is that next-unit cursor, the cursor after
the last header field lies inside those `L` bytes, and so does the instruction stream of
every state the machine goes through, whenever it is not empty. -/
theorem unit_cursors (lineData lineStrs c0 : Bytes) (L : Nat) (is64 : Bool)
    (hv : lineData.Valid) (h8 : 8 ≤ lineData.base_)
    (hlen : readUnitLength lineData = .ok (L, is64, c0))
    (hfit : c0.base_ + L ≤ lineData.limit_) :
    c0.base_ = lineData.base_ + (if is64 then 12 else 4) ∧
    c0.slice L =
      .ok { lineData with base_ := lineData.base_ + (if is64 then 12 else 4) + L } ∧
    c0.truncate L =
      { lineData with
        base_ := lineData.base_ + (if is64 then 12 else 4)
        limit_ := lineData.base_ + (if is64 then 12 else 4) + L } ∧
    (c0.truncate L).size = L ∧
    (∀ (m0 : DWARF5DebugMachine) (cur ps : Bytes),
      readHeader lineData lineStrs = .ok (m0, cur, ps) → cur.Within (c0.truncate L)) ∧
    ∀ m, new lineData lineStrs = .ok m →
      m.header_.length = L ∧
      ∀ m', Reachable m m' →
        m'.nextUnit_ =
          { lineData with base_ := lineData.base_ + (if is64 then 12 else 4) + L } ∧
        (m'.insn_.toBool = true → m'.insn_.Within (c0.truncate L)) := by
  obtain ⟨hw, hb⟩ := readUnitLength_cursor hv h8 hlen
  have hc0 : c0.Valid := hw.valid hv
  have hlim : c0.limit_ = lineData.limit_ := hw.2.2.1
  have hsz := Bytes.size_of_valid hc0
  have hslice : c0.slice L =
      .ok { lineData with base_ := lineData.base_ + (if is64 then 12 else 4) + L } := by
    rw [Bytes.slice_of_valid hc0 (by omega), if_pos (by omega)]
    conv_lhs => rw [hw.eq]
    rw [hb]
  have ht := Bytes.truncate_of_valid hc0 (n := L) (by have := hv.2; omega)
  have htr : c0.truncate L =
      { lineData with
        base_ := lineData.base_ + (if is64 then 12 else 4)
        limit_ := lineData.base_ + (if is64 then 12 else 4) + L } := by
    have hl : (c0.truncate L).limit_ = c0.base_ + L := by rw [ht.2.2.2.1]; omega
    have e : c0.truncate L = { c0 with limit_ := (c0.truncate L).limit_ } := rfl
    rw [e, hl]
    conv_lhs => rw [hw.eq]
    rw [hb]
  have hu : (c0.truncate L).Valid := ⟨by rw [ht.1]; exact ht.2.1, by
    have := ht.2.2.1; have := hc0.2; omega⟩
  have hu8 : 8 ≤ (c0.truncate L).limit_ := by
    have := ht.2.1
    split at hb <;> omega
  refine ⟨hb, hslice, htr, by rw [ht.2.2.2.2]; omega, ?_, ?_⟩
  · intro m0 cur ps hr
    exact (readHeader_inside hv h8 hlen hfit hr).2.2
  · intro m hnew
    obtain ⟨m0, cur, ps, hr, hmeq⟩ := new_inv hnew
    obtain ⟨hL, hnext, hcur⟩ := readHeader_inside hv h8 hlen hfit hr
    obtain ⟨-, -, -, -, -, -, -, -, -, -, -, -, -, -, -, -, -, -, -, -, -, -, -, -, -, -, -, -,
      -, -, -, -, -, -, -, -, -, -, -, -, -, -, -, -, -, -, -, -, -, hinsn, -, -⟩ :=
      readHeader_inv hr
    have hnull : m0.insn_.toBool = false := by
      rw [hinsn]
      simp [Bytes.toBool, Bytes.size]
    rw [hslice] at hnext
    have hnu : m0.nextUnit_ =
        { lineData with base_ := lineData.base_ + (if is64 then 12 else 4) + L } :=
      (Except.ok.inj hnext).symm
    have hm : m.header_.length = L ∧ m.nextUnit_ = m0.nextUnit_ ∧
        (m.insn_.toBool = true → m.insn_.Within (c0.truncate L)) := by
      rw [hmeq]
      split
      · exact ⟨hL, rfl, fun h => by rw [hnull] at h; cases h⟩
      · exact ⟨hL, rfl, fun _ => hcur⟩
    refine ⟨hm.1, ?_⟩
    intro m' hreach
    induction hreach with
    | init => exact ⟨hm.2.1.trans hnu, hm.2.2⟩
    | step hr' hs ih =>
      have hex := nextLocInto_executed hs
      refine ⟨hex.frame.2.2.2.1.trans ih.1, ?_⟩
      intro hne
      rename_i ma mb reta retb bb
      by_cases hq : ma.insn_.toBool = true
      · exact (hex.insn_inside hu hu8 (ih.2 hq)).1
      · cases hex with
        | exhausted h0 => exact absurd hne hq
        | _ => contradiction

set_option maxRecDepth 20000 in
/-- Witness for C26: the first of two units in a section, of declared length 61. -/
theorem unit_cursors_witness :
    (new (Sample.sections Sample.twoUnits).1 (Sample.sections Sample.twoUnits).2).map
        (fun m => (m.nextUnit_.base_, m.insn_.base_, m.insn_.limit_)) =
      .ok (0x100000000 + 65, 0x100000000 + 50, 0x100000000 + 65) ∧
    { (Sample.sections Sample.twoUnits).1 with base_ := 0x100000000 + 4 }.base_ =
        (Sample.sections Sample.twoUnits).1.base_ + (if false then 12 else 4) ∧
    Bytes.slice { (Sample.sections Sample.twoUnits).1 with base_ := 0x100000000 + 4 } 61 =
      .ok { (Sample.sections Sample.twoUnits).1 with
            base_ := (Sample.sections Sample.twoUnits).1.base_ + (if false then 12 else 4) + 61 } ∧
    Bytes.truncate { (Sample.sections Sample.twoUnits).1 with base_ := 0x100000000 + 4 } 61 =
      { (Sample.sections Sample.twoUnits).1 with
        base_ := (Sample.sections Sample.twoUnits).1.base_ + (if false then 12 else 4)
        limit_ := (Sample.sections Sample.twoUnits).1.base_ + (if false then 12 else 4) + 61 } ∧
    (Bytes.truncate { (Sample.sections Sample.twoUnits).1 with base_ := 0x100000000 + 4 }
      61).size = 61 ∧
    (∀ (m0 : DWARF5DebugMachine) (cur ps : Bytes),
      readHeader (Sample.sections Sample.twoUnits).1 (Sample.sections Sample.twoUnits).2 =
        .ok (m0, cur, ps) →
      cur.Within
        (Bytes.truncate { (Sample.sections Sample.twoUnits).1 with base_ := 0x100000000 + 4 }
          61)) ∧
    ∀ m, new (Sample.sections Sample.twoUnits).1 (Sample.sections Sample.twoUnits).2 = .ok m →
      m.header_.length = 61 ∧
      ∀ m', Reachable m m' →
        m'.nextUnit_ =
          { (Sample.sections Sample.twoUnits).1 with
            base_ := (Sample.sections Sample.twoUnits).1.base_ + (if false then 12 else 4) + 61 } ∧
        (m'.insn_.toBool = true →
          m'.insn_.Within
            (Bytes.truncate
              { (Sample.sections Sample.twoUnits).1 with base_ := 0x100000000 + 4 } 61)) :=
  ⟨by decide,
   unit_cursors (Sample.sections Sample.twoUnits).1 (Sample.sections Sample.twoUnits).2
     { (Sample.sections Sample.twoUnits).1 with base_ := 0x100000000 + 4 } 61 false
     (by decide) (by decide) (by decide) (by decide)⟩

end DWARF5DebugMachine

end ObjReader

namespace ObjReader

/-! ## Row addresses -/

namespace Bytes

theorem loadLE_lt (c : Bytes) : ∀ (w a v : Nat), c.loadLE a w = .ok v → v < 256 ^ w := by
  intro w
  induction w with
  | zero =>
    intro a v h
    rw [loadLE] at h
    cases h
    norm_num
  | succ w ih =>
    intro a v h
    rw [loadLE] at h
    obtain ⟨b, hb, h⟩ := bind_ok h
    obtain ⟨rest, hr, h⟩ := bind_ok h
    cases h
    have hrest := ih _ _ hr
    have hblt : b < 256 := by
      unfold load at hb
      split at hb
      · split at hb
        · rename_i bb hget
          cases hb
          exact bb.isLt
        · cases hb
      · cases hb
    rw [Nat.pow_succ]
    omega

theorem iget_lt {c r : Bytes} {w v : Nat} (h : c.iget w = .ok (v, r)) : v < 256 ^ w := by
  unfold iget at h
  obtain ⟨s, hs, h⟩ := bind_ok h
  obtain ⟨x, hx, h⟩ := bind_ok h
  cases h
  exact loadLE_lt c _ _ _ hx

end Bytes

namespace DWARF5DebugMachine

open dwarf5

theorem emitLoc_addr {m : DWARF5DebugMachine} {loc : SourceLoc} (h : m.emitLoc = .ok loc) :
    loc.addr_ = m.addr := by
  unfold emitLoc at h
  split at h
  · cases h
  · split at h
    · cases h
    · cases h
      rfl

/-- What an instruction does to the address register, against `addrEffect`. -/
theorem Executed.addr_effect {m m' : DWARF5DebugMachine} {ret ret' : SourceLoc} {b : Bool}
    (h : Executed m ret b ret' m') (hlt : m.addr < 2 ^ 64) :
    m'.addr < 2 ^ 64 ∧
    (∀ d, m.addrEffect = some (.advance d) →
      m'.addr = (m.addr + d) % 2 ^ 64 ∧ (b = true → ret'.addr_ = m'.addr)) ∧
    (m.addrEffect = some .endSequence → b = true ∧ ret'.addr_ = m.addr) := by
  cases h with
  | exhausted h0 =>
    refine ⟨hlt, fun d hd => ?_, fun hd => ?_⟩
    · simp [addrEffect, h0] at hd
    · simp [addrEffect, h0] at hd
  | endSequence c1 c2 insn len loc h0 h1 h2 h3 hloc =>
    refine ⟨by show 0 < 2 ^ 64; norm_num, fun d hd => ?_, fun _ => ⟨rfl, emitLoc_addr hloc⟩⟩
    simp [addrEffect, h0, h1, h2, h3] at hd
  | setAddress c1 c2 c3 insn len a h0 h1 h2 h3 h4 =>
    refine ⟨?_, fun d hd => ?_, fun hd => ?_⟩
    · show a < 2 ^ 64
      split at h4
      · have := Bytes.iget_lt h4
        norm_num at this ⊢
        exact this
      · have := Bytes.iget_lt h4
        norm_num at this ⊢
        omega
    · simp [addrEffect, h0, h1, h2, h3] at hd
    · simp [addrEffect, h0, h1, h2, h3] at hd
  | setDiscriminator c1 c2 c3 insn len v h0 h1 h2 h3 h4 =>
    refine ⟨hlt, fun d hd => ?_, fun hd => ?_⟩
    · simp [addrEffect, h0, h1, h2, h3] at hd
      subst hd
      exact ⟨by show m.addr = (m.addr + 0) % 2 ^ 64; omega, fun hb => by cases hb⟩
    · simp [addrEffect, h0, h1, h2, h3] at hd
  | copy insn loc h0 h1 hb hloc =>
    refine ⟨hlt, fun d hd => ?_, fun hd => ?_⟩
    · simp [addrEffect, h0, h1, hb] at hd
      subst hd
      exact ⟨by show m.addr = (m.addr + 0) % 2 ^ 64; omega, fun _ => emitLoc_addr hloc⟩
    · simp [addrEffect, h0, h1, hb] at hd
  | advancePc c1 insn utmp m1 h0 h1 hb h2 h3 =>
    obtain ⟨-, rfl⟩ := addrAndOpAdvance_inv h3
    refine ⟨Nat.mod_lt _ (by norm_num), fun d hd => ?_, fun hd => ?_⟩
    · simp [addrEffect, h0, h1, hb, h2] at hd
      subst hd
      exact ⟨rfl, fun hb => by cases hb⟩
    · simp [addrEffect, h0, h1, hb, h2] at hd
  | advanceLine c1 insn stmp h0 h1 hb h2 =>
    refine ⟨hlt, fun d hd => ?_, fun hd => ?_⟩
    · simp [addrEffect, h0, h1, hb] at hd
      subst hd
      exact ⟨by show m.addr = (m.addr + 0) % 2 ^ 64; omega, fun hb => by cases hb⟩
    · simp [addrEffect, h0, h1, hb] at hd
  | setFile c1 insn utmp h0 h1 hb h2 =>
    refine ⟨hlt, fun d hd => ?_, fun hd => ?_⟩
    · simp [addrEffect, h0, h1, hb] at hd
      subst hd
      exact ⟨by show m.addr = (m.addr + 0) % 2 ^ 64; omega, fun hb => by cases hb⟩
    · simp [addrEffect, h0, h1, hb] at hd
  | setColumn c1 insn utmp h0 h1 hb h2 =>
    refine ⟨hlt, fun d hd => ?_, fun hd => ?_⟩
    · simp [addrEffect, h0, h1, hb] at hd
      subst hd
      exact ⟨by show m.addr = (m.addr + 0) % 2 ^ 64; omega, fun hb => by cases hb⟩
    · simp [addrEffect, h0, h1, hb] at hd
  | negateStmt insn h0 h1 hb =>
    refine ⟨hlt, fun d hd => ?_, fun hd => ?_⟩
    · simp [addrEffect, h0, h1, hb] at hd
      subst hd
      exact ⟨by show m.addr = (m.addr + 0) % 2 ^ 64; omega, fun hb => by cases hb⟩
    · simp [addrEffect, h0, h1, hb] at hd
  | setBasicBlock insn h0 h1 hb =>
    refine ⟨hlt, fun d hd => ?_, fun hd => ?_⟩
    · simp [addrEffect, h0, h1, hb] at hd
      subst hd
      exact ⟨by show m.addr = (m.addr + 0) % 2 ^ 64; omega, fun hb => by cases hb⟩
    · simp [addrEffect, h0, h1, hb] at hd
  | constAddPc insn m1 h0 h1 hb hlr h3 =>
    obtain ⟨-, rfl⟩ := addrAndOpAdvance_inv h3
    refine ⟨Nat.mod_lt _ (by norm_num), fun d hd => ?_, fun hd => ?_⟩
    · simp [addrEffect, h0, h1, hb] at hd
      subst hd
      exact ⟨rfl, fun hb => by cases hb⟩
    · simp [addrEffect, h0, h1, hb] at hd
  | fixedAdvancePc c1 insn utmp h0 h1 hb h2 =>
    refine ⟨Nat.mod_lt _ (by norm_num), fun d hd => ?_, fun hd => ?_⟩
    · simp [addrEffect, h0, h1, hb, h2] at hd
      subst hd
      exact ⟨rfl, fun hb => by cases hb⟩
    · simp [addrEffect, h0, h1, hb, h2] at hd
  | setPrologueEnd insn h0 h1 hb =>
    refine ⟨hlt, fun d hd => ?_, fun hd => ?_⟩
    · simp [addrEffect, h0, h1, hb] at hd
      subst hd
      exact ⟨by show m.addr = (m.addr + 0) % 2 ^ 64; omega, fun hb => by cases hb⟩
    · simp [addrEffect, h0, h1, hb] at hd
  | setEpilogueBegin insn h0 h1 hb =>
    refine ⟨hlt, fun d hd => ?_, fun hd => ?_⟩
    · simp [addrEffect, h0, h1, hb] at hd
      subst hd
      exact ⟨by show m.addr = (m.addr + 0) % 2 ^ 64; omega, fun hb => by cases hb⟩
    · simp [addrEffect, h0, h1, hb] at hd
  | setIsa c1 insn utmp h0 h1 hb h2 =>
    refine ⟨hlt, fun d hd => ?_, fun hd => ?_⟩
    · simp [addrEffect, h0, h1, hb] at hd
      subst hd
      exact ⟨by show m.addr = (m.addr + 0) % 2 ^ 64; omega, fun hb => by cases hb⟩
    · simp [addrEffect, h0, h1, hb] at hd
  | special op insn m1 loc h0 h1 hop hb hlr h3 hloc =>
    obtain ⟨-, rfl⟩ := addrAndOpAdvance_inv h3
    refine ⟨Nat.mod_lt _ (by norm_num), fun d hd => ?_, fun hd => ?_⟩
    · simp [addrEffect, h0, h1, hop, hb] at hd
      subst hd
      exact ⟨rfl, fun _ => emitLoc_addr hloc⟩
    · simp [addrEffect, h0, h1, hop, hb] at hd

/-- The address of the row a call of `nextLoc()` returns, when no instruction it executes
is `DW_LNE_set_address`. -/
theorem rowAdvance_sound :
    ∀ (fuel : Nat) (m m' : DWARF5DebugMachine) (ret loc : SourceLoc) (total : Nat),
      m.addr < 2 ^ 64 → rowAdvance fuel m ret = some total →
      nextLocLoop fuel m ret = .ok (loc, m') → loc.addr_ = (m.addr + total) % 2 ^ 64 := by
  intro fuel
  induction fuel with
  | zero =>
    intro m m' ret loc total _ hadv _
    rw [rowAdvance] at hadv
    cases hadv
  | succ fuel ih =>
    intro m m' ret loc total hlt hadv hrun
    rw [nextLocLoop] at hrun
    obtain ⟨⟨b, r1, m1⟩, hs, hrun⟩ := bind_ok hrun
    have hex := (nextLocInto_executed hs).addr_effect hlt
    rw [rowAdvance, hs] at hadv
    cases he : m.addrEffect with
    | none =>
      rw [he] at hadv
      cases hadv
    | some eff =>
      rw [he] at hadv
      cases eff with
      | advance d =>
        obtain ⟨ha, hrow⟩ := hex.2.1 d he
        cases b with
        | true =>
          dsimp only at hadv hrun
          rw [if_pos rfl] at hrun
          cases hrun
          cases hadv
          rw [hrow rfl, ha]
        | false =>
          dsimp only at hadv hrun
          rw [if_neg (by decide)] at hrun
          cases ht : rowAdvance fuel m1 r1 with
          | none =>
            rw [ht] at hadv
            cases hadv
          | some t =>
            rw [ht] at hadv
            cases hadv
            rw [ih m1 m' r1 loc t hex.1 ht hrun, ha]
            show ((m.addr + d) % 2 ^ 64 + t) % 2 ^ 64 = (m.addr + (d + t)) % 2 ^ 64
            omega
      | assign =>
        cases b <;> cases hadv
      | endSequence =>
        obtain ⟨hb, hrow⟩ := hex.2.2 he
        subst hb
        dsimp only at hadv hrun
        rw [if_pos rfl] at hrun
        cases hrun
        cases hadv
        rw [hrow]
        omega

/-- C29 as stated fails. In one sequence, `set_address 0x2000; copy; set_address 0x1000;
copy` emits the row at `0x2000` and then the row at `0x1000`: `DW_LNE_set_address` assigns
the register whatever it held. And `set_address 0xffffffffffffffff; copy;` special opcode
`0x20` emits the row at `2 ^ 64 - 1` and then the row at 0: the advance by one byte carries
out of the 64-bit register. -/
theorem later_row_below_earlier_row :
    ((Sample.machineOf Sample.programBackwards).nextLoc >>= fun p =>
      p.2.nextLoc.map (fun q => (p.1.addr_, q.1.addr_, q.2.insn_.size))) =
        .ok (0x2000, 0x1000, 3) ∧
    ((Sample.machineOf Sample.programCarry).nextLoc >>= fun p =>
      p.2.nextLoc.map (fun q => (p.1.addr_, q.1.addr_, q.2.insn_.size))) =
        .ok (2 ^ 64 - 1, 0, 3) := by
  refine ⟨by decide, by decide⟩

/-- C29, amended. For two rows emitted one after the other, the earlier by `DW_LNS_copy` or
a special opcode (in a state whose address register holds a 64-bit value), when none of the
instructions executed from the earlier row up to the later one is `DW_LNE_set_address`: the
address of the later row is the address of the earlier row plus the sum of the amounts those
instructions add to the address register, modulo `2 ^ 64`; hence it is greater than or equal
to the address of the earlier row whenever that sum does not carry out of 64 bits. The later
row may be the one `DW_LNE_end_sequence` emits. -/
theorem later_row_address (m0 m m' : DWARF5DebugMachine) (ret0 ret r1 r2 : SourceLoc)
    (d0 fuel total : Nat) (hreg : m0.addr < 2 ^ 64)
    (hkind : m0.addrEffect = some (.advance d0))
    (hprev : m0.nextLocInto ret0 = .ok (true, r1, m))
    (hadv : rowAdvance fuel m ret = some total)
    (hrun : nextLocLoop fuel m ret = .ok (r2, m')) :
    r2.addr_ = (r1.addr_ + total) % 2 ^ 64 ∧
      (r1.addr_ + total < 2 ^ 64 → r1.addr_ ≤ r2.addr_) := by
  have hex := (nextLocInto_executed hprev).addr_effect hreg
  obtain ⟨ha, hrow⟩ := hex.2.1 d0 hkind
  have h1 : r1.addr_ = m.addr := hrow rfl
  have h2 := rowAdvance_sound fuel m m' ret r2 total hex.1 hadv hrun
  rw [← h1] at h2
  refine ⟨h2, fun hlt => ?_⟩
  rw [h2, Nat.mod_eq_of_lt hlt]
  omega

/-- Witness for the amended C29: after `copy` at `0x1000`, `advance_pc 4` and a special
opcode with operation advance 1 give the next row at `0x1005`. -/
theorem later_row_address_witness :
    (Sample.row 0x1005 1).addr_ = ((Sample.row 0x1000 1).addr_ + 5) % 2 ^ 64 ∧
      ((Sample.row 0x1000 1).addr_ + 5 < 2 ^ 64 →
        (Sample.row 0x1000 1).addr_ ≤ (Sample.row 0x1005 1).addr_) :=
  later_row_address (Sample.advanceAt 11 0x1000) (Sample.advanceAt 12 0x1000)
    (Sample.advanceAt 15 0x1005) SourceLoc.empty SourceLoc.empty (Sample.row 0x1000 1)
    (Sample.row 0x1005 1) 0 3 5 (by decide) (by decide) (by decide) (by decide) (by decide)

end DWARF5DebugMachine

end ObjReader

namespace ObjReader

/-! ## One operation per instruction -/

namespace DWARF5DebugMachine

open dwarf5

/-- With one operation per instruction, an instruction leaves `opIndex` at 0. -/
theorem Executed.opIndex_zero {m m' : DWARF5DebugMachine} {ret ret' : SourceLoc} {b : Bool}
    (h : Executed m ret b ret' m') (hmax : m.header_.maxOpsPerInsn = 1) (h0 : m.opIndex = 0) :
    m'.opIndex = 0 := by
  cases h with
  | advancePc c1 insn utmp m1 _ h1 hb h2 h3 =>
    obtain ⟨-, rfl⟩ := addrAndOpAdvance_inv h3
    show ((m.opIndex + utmp) % 2 ^ 64) % m.header_.maxOpsPerInsn = 0
    rw [hmax, Nat.mod_one]
  | constAddPc insn m1 _ h1 hb hlr h3 =>
    obtain ⟨-, rfl⟩ := addrAndOpAdvance_inv h3
    show ((m.opIndex + _) % 2 ^ 64) % m.header_.maxOpsPerInsn = 0
    rw [hmax, Nat.mod_one]
  | special op insn m1 loc _ h1 hop hb hlr h3 hloc =>
    obtain ⟨-, rfl⟩ := addrAndOpAdvance_inv h3
    show ((m.opIndex + _) % 2 ^ 64) % m.header_.maxOpsPerInsn = 0
    rw [hmax, Nat.mod_one]
  | endSequence c1 c2 insn len loc _ h1 h2 h3 hloc => rfl
  | _ => exact h0

/-- C30. With `maxOpsPerInsn = 1`, in every state the machine goes through from a state set
by `reset()` (the initial state), one call of `nextLoc(SourceLoc &)` after the other:
`opIndex` is 0, and `addrAndOpAdvance(opAdv)`, which special opcodes, `DW_LNS_advance_pc`
and `DW_LNS_const_add_pc` apply, returns, sets `addr` to `addr + minInsnLength * opAdv` in
64-bit arithmetic (to exactly that sum when it does not carry out of 64 bits), leaves
`opIndex` at 0 and changes nothing else. -/
theorem one_operation_per_instruction (m00 m : DWARF5DebugMachine)
    (hmax : m00.header_.maxOpsPerInsn = 1) (hr : Reachable m00.reset m) :
    m.opIndex = 0 ∧ m.header_ = m00.header_ ∧
    ∀ opAdv, opAdv < 2 ^ 64 →
      m.addrAndOpAdvance opAdv =
        .ok { m with addr := (m.addr + m.header_.minInsnLength * opAdv) % 2 ^ 64, opIndex := 0 } ∧
      (m.addr + m.header_.minInsnLength * opAdv < 2 ^ 64 →
        m.addrAndOpAdvance opAdv =
          .ok { m with addr := m.addr + m.header_.minInsnLength * opAdv, opIndex := 0 }) := by
  have hinv : m.opIndex = 0 ∧ m.header_ = m00.header_ := by
    induction hr with
    | init => exact ⟨rfl, rfl⟩
    | step hr' hs ih =>
      have hex := nextLocInto_executed hs
      exact ⟨hex.opIndex_zero (by rw [ih.2]; exact hmax) ih.1, hex.frame.1.trans ih.2⟩
  obtain ⟨h0, hh⟩ := hinv
  have hm : m.header_.maxOpsPerInsn = 1 := by rw [hh]; exact hmax
  refine ⟨h0, hh, fun opAdv hlt => ?_⟩
  have hne : ¬ m.header_.maxOpsPerInsn = 0 := by omega
  have hop : (m.opIndex + opAdv) % 2 ^ 64 = opAdv := by
    rw [h0, Nat.zero_add, Nat.mod_eq_of_lt hlt]
  have key : m.addrAndOpAdvance opAdv =
      .ok { m with addr := (m.addr + m.header_.minInsnLength * opAdv) % 2 ^ 64, opIndex := 0 } := by
    unfold addrAndOpAdvance
    rw [if_neg hne, hop, hm, Nat.div_one, Nat.mod_one, Nat.add_mod_mod]
  refine ⟨key, fun hsum => ?_⟩
  rw [key, Nat.mod_eq_of_lt hsum]

/-- Witness for C30: the sample machine (`maxOpsPerInsn = 1`) after `DW_LNE_set_address
0x1000`. -/
theorem one_operation_per_instruction_witness :
    (Sample.advanceAt 11 0x1000).opIndex = 0 ∧
    (Sample.advanceAt 11 0x1000).header_ = (Sample.machineOf Sample.programAdvance).header_ ∧
    ∀ opAdv, opAdv < 2 ^ 64 →
      (Sample.advanceAt 11 0x1000).addrAndOpAdvance opAdv =
        .ok { Sample.advanceAt 11 0x1000 with
              addr := ((Sample.advanceAt 11 0x1000).addr +
                (Sample.advanceAt 11 0x1000).header_.minInsnLength * opAdv) % 2 ^ 64
              opIndex := 0 } ∧
      ((Sample.advanceAt 11 0x1000).addr +
          (Sample.advanceAt 11 0x1000).header_.minInsnLength * opAdv < 2 ^ 64 →
        (Sample.advanceAt 11 0x1000).addrAndOpAdvance opAdv =
          .ok { Sample.advanceAt 11 0x1000 with
                addr := (Sample.advanceAt 11 0x1000).addr +
                  (Sample.advanceAt 11 0x1000).header_.minInsnLength * opAdv
                opIndex := 0 }) :=
  one_operation_per_instruction (Sample.machineOf Sample.programAdvance)
    (Sample.advanceAt 11 0x1000) (by decide)
    (@Reachable.step _ _ _ SourceLoc.empty SourceLoc.empty false Reachable.init (by decide))

end DWARF5DebugMachine

end ObjReader


namespace ObjReader

/-! ## Storage outside the caller's allocator -/

theorem joinPath_length (a b : String) : a.length + b.length ≤ (joinPath a b).length := by
  unfold joinPath
  split
  · rename_i h
    subst h
    simp
  · split
    · rw [String.length_append]
    · rw [String.length_append, String.length_append]
      omega

namespace DWARFDebugInfo

/-- The path of the companion file has at least 27 characters. -/
theorem dsymDwarfPath_length (dir filename : String) :
    27 ≤ (joinPath (joinPath (joinPath (joinPath (joinPath dir (filename ++ ".dSYM"))
      "Contents") "Resources") "DWARF") filename).length := by
  have h1 := joinPath_length dir (filename ++ ".dSYM")
  have h2 := joinPath_length (joinPath dir (filename ++ ".dSYM")) "Contents"
  have h3 := joinPath_length (joinPath (joinPath dir (filename ++ ".dSYM")) "Contents")
    "Resources"
  have h4 := joinPath_length (joinPath (joinPath (joinPath dir (filename ++ ".dSYM"))
    "Contents") "Resources") "DWARF"
  have h5 := joinPath_length (joinPath (joinPath (joinPath (joinPath dir
    (filename ++ ".dSYM")) "Contents") "Resources") "DWARF") filename
  rw [String.length_append] at h1
  have e1 : ".dSYM".length = 5 := rfl
  have e2 : "Contents".length = 8 := rfl
  have e3 : "Resources".length = 9 := rfl
  have e4 : "DWARF".length = 5 := rfl
  omega

/-- For every Mach-O object file the constructor builds the path `dsymDwarfPath`, whose
text does not fit into a string object with room for at most 26 characters: it is held in a
block from `std::allocator`, whatever the path of the file and whether or not the companion
file exists. -/
theorem storage_has_process_default (inlineCapacity : Nat) (os : Os) (objFile : ObjectFile)
    (hcap : inlineCapacity ≤ 26) (hfile : objFile.bytes.toBool = true) :
    ∃ s ∈ storage inlineCapacity os objFile,
      s.allocator = .processDefault ∧ s.object = "dsymDwarfPath" := by
  have hlen := dsymDwarfPath_length (parentPath objFile.path_.text)
    (fileName objFile.path_.text)
  refine ⟨{ allocator := .processDefault, object := "dsymDwarfPath",
            count := (joinPath (joinPath (joinPath (joinPath (joinPath
              (parentPath objFile.path_.text) (fileName objFile.path_.text ++ ".dSYM"))
              "Contents") "Resources") "DWARF") (fileName objFile.path_.text)).length },
    ?_, rfl, rfl⟩
  unfold storage
  dsimp only
  rw [if_pos hfile]
  simp only [List.mem_append]
  left; right; left; right
  unfold stringStorage
  rw [if_neg (by omega)]
  exact List.mem_singleton.mpr rfl

set_option maxRecDepth 20000 in
/-- C31 fails on the code. The constructor `DWARFDebugInfo(reader, objFile)`, which a
resolve runs for every object file in which it finds a symbol, keeps its paths in
`std::filesystem::path` objects and `std::string`s, whose storage comes from
`std::allocator`; only the nodes of the list `files` come from the caller's allocator. For
the object file `/bin/app` (no companion file) and the inline capacity 22 of this library's
strings, the text of `dsymDwarfPath`, `/bin/app.dSYM/Contents/Resources/DWARF/app` (42
characters), and of the two intermediate paths before it is held in blocks from
`operator new`, next to the one list node from the caller's allocator. -/
theorem constructor_allocates_outside_the_caller_allocator :
    storage 22 (Sample.osWith Sample.appDebug) (Sample.objectFileOf Sample.appDebug) =
      [{ allocator := .caller, object := "files[0]", count := 1 },
       { allocator := .processDefault, object := "... / Resources", count := 32 },
       { allocator := .processDefault, object := "... / DWARF", count := 38 },
       { allocator := .processDefault, object := "dsymDwarfPath", count := 42 }] ∧
    (storage 22 (Sample.osWith Sample.appDebug) (Sample.objectFileOf Sample.appDebug)).any
      (fun s => s.allocator == .processDefault) = true ∧
    searchPaths (Sample.osWith Sample.appDebug) (Sample.objectFileOf Sample.appDebug) =
      ["/bin/app"] := by
  refine ⟨by decide, by decide, by decide⟩

end DWARFDebugInfo

end ObjReader

namespace ObjReader

/-! ## How far `sourceLocAtAddr` drives the interpreter -/

namespace DWARFDebugTable

/-- The inner loop of `sourceLocAtAddr` returns only once the machine is gone, and leaves
the line data alone. -/
theorem driveMachine_drains : ∀ (fuel : Nat) (t t' : DWARFDebugTable),
    driveMachine fuel t = .ok t' → t'.machine_ = none ∧ t'.lineData_ = t.lineData_ := by
  intro fuel
  induction fuel with
  | zero => intro t t' h; cases h
  | succ n ih =>
    intro t t' h
    rw [driveMachine] at h
    cases hm : t.machine_ with
    | none =>
      rw [hm] at h
      cases h
      exact ⟨hm, rfl⟩
    | some m =>
      rw [hm] at h
      dsimp only at h
      obtain ⟨⟨loc, m1⟩, -, h⟩ := bind_ok h
      dsimp only at h
      by_cases hl : loc.toBool = true
      · rw [if_pos hl] at h
        exact ⟨(ih _ _ h).1, (ih _ _ h).2⟩
      · rw [if_neg hl] at h
        exact ⟨(ih _ _ h).1, (ih _ _ h).2⟩

/-- A round of the outer loop of `sourceLocAtAddr` that finds a machine. -/
theorem driveUnits_some (fuel : Nat) {t : DWARFDebugTable} {m : DWARF5DebugMachine}
    (hm : t.machine_ = some m) :
    driveUnits (fuel + 1) t =
      (driveMachine (t.lineData_.mem.length + 2) t >>= fun t2 => driveUnits fuel t2) := by
  rw [driveUnits]
  simp only [hm, Option.isSome_some, Bool.true_or, if_true]
  rfl

/-- A round of the outer loop of `sourceLocAtAddr` that finds no machine but line data: a
machine is built over the data, which become the next-unit cursor of that machine. -/
theorem driveUnits_none (fuel : Nat) {t : DWARFDebugTable} (hm : t.machine_ = none)
    (hd : t.lineData_.toBool = true) :
    driveUnits (fuel + 1) t =
      (DWARF5DebugMachine.new t.lineData_ t.lineStrs_ >>= fun m =>
        driveMachine (m.nextUnit_.mem.length + 2)
          { t with machine_ := some m, lineData_ := m.nextUnit_ } >>= fun t2 =>
        driveUnits fuel t2) := by
  rw [driveUnits]
  simp only [hm, hd, Option.isSome_none, Bool.false_or, if_true]
  cases DWARF5DebugMachine.new t.lineData_ t.lineStrs_ <;> rfl

/-- The outer loop of `sourceLocAtAddr` returns only once no machine and no line data are
left: whatever the address asked for, every unit has been run to its end. -/
theorem driveUnits_drains : ∀ (fuel : Nat) (t t' : DWARFDebugTable),
    driveUnits fuel t = .ok t' → t'.machine_ = none ∧ t'.lineData_.toBool = false := by
  intro fuel
  induction fuel with
  | zero => intro t t' h; cases h
  | succ n ih =>
    intro t t' h
    cases hm : t.machine_ with
    | some m =>
      rw [driveUnits_some n hm] at h
      obtain ⟨t2, -, h⟩ := bind_ok h
      exact ih _ _ h
    | none =>
      by_cases hd : t.lineData_.toBool = true
      · rw [driveUnits_none n hm hd] at h
        obtain ⟨m, -, h⟩ := bind_ok h
        obtain ⟨t2, -, h⟩ := bind_ok h
        exact ih _ _ h
      · have hd0 : t.lineData_.toBool = false := by simpa using hd
        rw [driveUnits_of_done n hm hd0] at h
        cases h
        exact ⟨hm, hd0⟩

/-- A call of `sourceLocAtAddr` that returns leaves no machine and no line data behind, and
the table it leaves does not depend on the address asked for. -/
theorem sourceLocAtAddr_drains {t t' : DWARFDebugTable} {addr : Nat} {loc : SourceLoc}
    (h : t.sourceLocAtAddr addr = .ok (loc, t')) :
    t'.machine_ = none ∧ t'.lineData_.toBool = false ∧
      driveUnits (t.lineData_.mem.length + 2) t = .ok t' := by
  unfold sourceLocAtAddr at h
  obtain ⟨t1, hd, h⟩ := bind_ok h
  obtain ⟨l, -, h⟩ := bind_ok h
  cases h
  exact ⟨(driveUnits_drains _ _ _ hd).1, (driveUnits_drains _ _ _ hd).2, hd⟩

set_option maxRecDepth 50000 in
/-- C32 fails on the code. The two loops of `sourceLocAtAddr` test `machine_` and
`lineData_` only, never `addr`: the first call runs every unit of the section to its end.
On a section of two units with rows at `0x1000`, `0x2000`, `0x3000` and, in the second
unit, `0x5000`, the query for `0x1000` returns the row at `0x1000` and leaves the cache
with the keys `0, 0x1000, 0x2000, 0x3000, 0x5000, MAX`, no machine and no line data: the
rows after `0x2000`, the first key above the address, are consumed and cached, those of
the next unit included. The query for `0x5000` leaves the same table. -/
theorem sourceLocAtAddr_runs_every_unit_to_its_end :
    ((Sample.tableOf Sample.bracketing).sourceLocAtAddr 0x1000).map
        (fun r => (r.1.addr_, r.2.locs_.map (fun e => e.1), r.2.machine_.isSome,
          r.2.lineData_.size)) =
      .ok (0x1000, [0, 0x1000, 0x2000, 0x3000, 0x5000, maxAddr], false, 0) ∧
    ((Sample.tableOf Sample.bracketing).sourceLocAtAddr 0x1000).map (fun r => r.2) =
      ((Sample.tableOf Sample.bracketing).sourceLocAtAddr 0x5000).map (fun r => r.2) := by
  refine ⟨by decide, by decide⟩

end DWARFDebugTable

end ObjReader

namespace ObjReader

/-! ## The loop over the load commands -/

namespace Bytes

theorem slice_zero {c : Bytes} (hv : c.Valid) : c.slice 0 = .ok c := by
  obtain ⟨h1, h2⟩ := hv
  unfold slice
  have hl : (c.limit_ + 2 ^ 64 - 0 % 2 ^ 64) % 2 ^ 64 = c.limit_ := by
    rw [Nat.zero_mod, Nat.sub_zero, Nat.add_mod_right, Nat.mod_eq_of_lt h2]
  rw [hl, if_neg (by omega), Nat.add_zero, Nat.mod_eq_of_lt (by omega)]

theorem load_error {c : Bytes} {a : Nat} {e : Fault} (h : c.load a = .error e) :
    e = .undefined := by
  unfold load at h
  split at h
  · split at h
    · cases h
    · cases h; rfl
  · cases h; rfl

theorem loadLE_error (c : Bytes) : ∀ (w a : Nat) {e : Fault}, c.loadLE a w = .error e →
    e = .undefined := by
  intro w
  induction w with
  | zero => intro a e h; rw [loadLE] at h; cases h
  | succ w ih =>
    intro a e h
    rw [loadLE] at h
    cases hb : c.load a with
    | error e1 =>
      rw [hb] at h
      cases h
      exact load_error hb
    | ok b =>
      rw [hb, DWARF5DebugMachine.ok_bind] at h
      cases hr : c.loadLE ((a + 1) % 2 ^ 64) w with
      | error e1 =>
        rw [hr] at h
        cases h
        exact ih _ hr
      | ok r =>
        rw [hr] at h
        cases h

end Bytes

namespace macho

/-- One round of the loop of `eachLoadCommand` on a command whose `cmdsize` is 0: the
callback is called and the loop goes on with the same cursor. -/
theorem eachLoadCommandLoop_of_zero_cmdsize {σ : Type}
    (cb : σ → Bytes → Nat → Except Fault σ) (fuel : Nat) {cur c : Bytes} {cmd : Nat}
    {st st1 : σ} (hv : cur.Valid) (ht : cur.toBool = true) (hget : cur.get 8 = .ok (cmd, c))
    (hsize : cur.field cmd 4 4 = .ok 0) (hcb : cb st (cur.truncate 0) cmd = .ok st1) :
    eachLoadCommandLoop cb (fuel + 1) cur st = eachLoadCommandLoop cb fuel cur st1 := by
  rw [eachLoadCommandLoop, if_pos ht, hget, DWARF5DebugMachine.ok_bind]
  dsimp only
  rw [hsize, DWARF5DebugMachine.ok_bind, hcb, DWARF5DebugMachine.ok_bind, Bytes.slice_zero hv, DWARF5DebugMachine.ok_bind]

/-- With a command of `cmdsize = 0` under the cursor and a callback that returns, no number
of rounds ends the loop. -/
theorem eachLoadCommandLoop_never_ends {σ : Type} (cb : σ → Bytes → Nat → Except Fault σ)
    {cur c : Bytes} {cmd : Nat} (hv : cur.Valid) (ht : cur.toBool = true)
    (hget : cur.get 8 = .ok (cmd, c)) (hsize : cur.field cmd 4 4 = .ok 0)
    (hcb : ∀ st, ∃ st1, cb st (cur.truncate 0) cmd = .ok st1) :
    ∀ (fuel : Nat) (st : σ), eachLoadCommandLoop cb fuel cur st = .error .fuel := by
  intro fuel
  induction fuel with
  | zero => intro st; rfl
  | succ n ih =>
    intro st
    obtain ⟨st1, h1⟩ := hcb st
    rw [eachLoadCommandLoop_of_zero_cmdsize cb n hv ht hget hsize h1]
    exact ih st1

/-- When no command under a cursor inside `cur` has `cmdsize = 0`, the loop of
`eachLoadCommand` over a cursor mapped at or above `2 ^ 32` ends within `cur.size + 1`
rounds: it returns, or fails in the callback, in `get`, in a load or with a range error. -/
theorem eachLoadCommandLoop_ends {σ : Type} (cb : σ → Bytes → Nat → Except Fault σ)
    (hcb : ∀ st c cmd, cb st c cmd ≠ .error .fuel) (u : Bytes) (hu : u.Valid)
    (h32 : 2 ^ 32 ≤ u.limit_)
    (hpos : ∀ c : Bytes, c.Within u → ∀ cmd c1, c.get 8 = .ok (cmd, c1) →
      c.field cmd 4 4 ≠ .ok 0) :
    ∀ (fuel : Nat) (cur : Bytes) (st : σ), cur.Within u → cur.size < fuel →
      eachLoadCommandLoop cb fuel cur st ≠ .error .fuel := by
  intro fuel
  induction fuel with
  | zero => intro cur st _ h; omega
  | succ n ih =>
    intro cur st hw hsz
    rw [eachLoadCommandLoop]
    by_cases ht : cur.toBool = true
    · rw [if_pos ht]
      cases hget : cur.get 8 with
      | error e =>
        unfold Bytes.get at hget
        split at hget
        · cases hget; intro h; cases h
        · cases hget
      | ok p =>
        obtain ⟨cmd, c1⟩ := p
        rw [DWARF5DebugMachine.ok_bind]
        dsimp only
        cases hf : cur.field cmd 4 4 with
        | error e =>
          have := Bytes.loadLE_error cur 4 _ hf
          subst this
          intro h; cases h
        | ok cmdsize =>
          rw [DWARF5DebugMachine.ok_bind]
          cases hc : cb st (cur.truncate cmdsize) cmd with
          | error e =>
            intro h
            have : e = .fuel := by cases h; rfl
            exact hcb _ _ _ (this ▸ hc)
          | ok st1 =>
            rw [DWARF5DebugMachine.ok_bind]
            cases hs : cur.slice cmdsize with
            | error e =>
              unfold Bytes.slice at hs
              split at hs
              · cases hs; intro h; cases h
              · cases hs
            | ok cur1 =>
              rw [DWARF5DebugMachine.ok_bind]
              have hcv := hw.valid hu
              have hlt : cmdsize < 256 ^ 4 := Bytes.loadLE_lt cur 4 _ _ hf
              have hne : cmdsize ≠ 0 := fun h0 => hpos cur hw cmd c1 hget (h0 ▸ hf)
              have hlim : cur.limit_ = u.limit_ := hw.2.2.1
              obtain ⟨hw1, hb1⟩ := Bytes.slice_within hcv (by rw [hlim]; omega) hs
              apply ih cur1 st1 (hw1.trans hw)
              have hs0 := Bytes.size_of_valid hcv
              have hs1 := Bytes.size_of_valid (hw1.valid hcv)
              have : cur1.limit_ = cur.limit_ := hw1.2.2.1
              have := hw1.2.2.2.2
              omega
    · rw [if_neg ht]
      intro h; cases h

/-- C33 fails on the code. A load command with `cmdsize = 0` leaves the cursor where it is:
`cur.slice(0)` is `cur`, so `while (cur)` finds the same command again. On the 40-byte
file `Sample.zeroCmdsize` every round of the loop calls the callback and goes on with the
same cursor, so the loop has not ended after any number of rounds (`fuel` marks a bound of
the model used up), and neither have `eachLoadCommand` and `genSectionTable` on that file
within theirs; the source never returns. When no command has `cmdsize = 0` the loop ends
(`eachLoadCommandLoop_ends`). -/
theorem eachLoadCommand_spins_on_zero_cmdsize :
    Sample.zeroCmdsizeCommands.slice 0 = .ok Sample.zeroCmdsizeCommands ∧
    (∀ (fuel n : Nat),
      eachLoadCommandLoop (fun (k : Nat) _ _ => .ok (k + 1)) (fuel + 1)
          Sample.zeroCmdsizeCommands n =
        eachLoadCommandLoop (fun (k : Nat) _ _ => .ok (k + 1)) fuel
          Sample.zeroCmdsizeCommands (n + 1)) ∧
    (∀ (fuel n : Nat),
      eachLoadCommandLoop (fun (k : Nat) _ _ => .ok (k + 1)) fuel
        Sample.zeroCmdsizeCommands n = .error .fuel) ∧
    eachLoadCommand (Bytes.ofList Sample.zeroCmdsize) (fun (k : Nat) _ _ => .ok (k + 1)) 0 =
      .error .fuel ∧
    genSectionTable (Bytes.ofList Sample.zeroCmdsize) = .error .fuel := by
  have hv : Sample.zeroCmdsizeCommands.Valid := by decide
  have ht : Sample.zeroCmdsizeCommands.toBool = true := by decide
  have hget : Sample.zeroCmdsizeCommands.get 8 =
      .ok (0x100000000 + 32, Sample.zeroCmdsizeCommands.advance 8) := by decide
  have hsize : Sample.zeroCmdsizeCommands.field (0x100000000 + 32) 4 4 = .ok 0 := by decide
  refine ⟨by decide, fun fuel n => ?_, fun fuel n => ?_, by decide, by decide⟩
  · exact eachLoadCommandLoop_of_zero_cmdsize _ fuel hv ht hget hsize rfl
  · exact eachLoadCommandLoop_never_ends _ hv ht hget hsize (fun st => ⟨st + 1, rfl⟩) fuel n

end macho

end ObjReader

namespace ObjReader

/-! ## Progress of `sourceLocAtAddr` -/

namespace DWARF5DebugMachine

/-- A unit that fits into the line data leaves a next-unit cursor strictly shorter than the
data the machine was built from. -/
theorem nextUnit_shorter_of_fit {lineData lineStrs c0 : Bytes} {L : Nat} {is64 : Bool}
    {m : DWARF5DebugMachine} (hv : lineData.Valid) (h8 : 8 ≤ lineData.base_)
    (hlen : readUnitLength lineData = .ok (L, is64, c0))
    (hfit : c0.base_ + L ≤ lineData.limit_) (h : new lineData lineStrs = .ok m) :
    m.nextUnit_.size < lineData.size ∧ m.nextUnit_.Within lineData := by
  obtain ⟨m0, cur, ps, hr, hm⟩ := new_inv h
  obtain ⟨-, hs, -⟩ := readHeader_inside hv h8 hlen hfit hr
  obtain ⟨hw, hb⟩ := readUnitLength_cursor hv h8 hlen
  have hc0 : c0.Valid := hw.valid hv
  have hlim : c0.limit_ = lineData.limit_ := hw.2.2.1
  obtain ⟨hw1, hb1⟩ := Bytes.slice_within hc0 (by omega) hs
  have hnu : m.nextUnit_ = m0.nextUnit_ := by
    rw [hm]
    split <;> rfl
  rw [hnu]
  have hwl := hw1.trans hw
  refine ⟨?_, hwl⟩
  rw [Bytes.size_of_valid (hwl.valid hv), Bytes.size_of_valid hv, hwl.2.2.1]
  have := hv.1
  have := hwl.2.2.2.2
  split at hb <;> omega

end DWARF5DebugMachine

end ObjReader

namespace ObjReader

namespace DWARF5DebugMachine

/-! ## The registers each opcode changes -/

/-- A successful `iget` of `w` bytes returns the cursor moved forward by `w`. -/
theorem iget_cursor {c r : Bytes} {w v : Nat} (h : c.iget w = .ok (v, r)) :
    r = { c with base_ := (c.base_ + w) % 2 ^ 64 } := by
  unfold Bytes.iget at h
  obtain ⟨s, hs, h⟩ := bind_ok h
  obtain ⟨x, -, h⟩ := bind_ok h
  cases h
  unfold Bytes.slice at hs
  split at hs
  · cases hs
  · cases hs; rfl

/-- The dispatch of `nextLoc(SourceLoc &)` on the opcode byte it read. -/
theorem nextLocInto_of_iget (m : DWARF5DebugMachine) (ret : SourceLoc) {op : Nat} {c1 : Bytes}
    (h0 : m.insn_.toBool = true) (h1 : m.insn_.iget 1 = .ok (op, c1)) :
    m.nextLocInto ret =
      if op = 0 then ({ m with insn_ := c1 } : DWARF5DebugMachine).extendedOpcode ret
      else if op < m.header_.opcodeBase then
        ({ m with insn_ := c1 } : DWARF5DebugMachine).standardOpcode ret op
      else ({ m with insn_ := c1 } : DWARF5DebugMachine).specialOpcode op := by
  simp only [nextLocInto, h0, h1, bind, Except.bind, Bool.not_true, Bool.false_eq_true,
    if_false]

/-- The extended-opcode branch once `[size] [extOp]` are read. -/
theorem extendedOpcode_of_reads (m : DWARF5DebugMachine) (ret : SourceLoc) {len op : Nat}
    {c2 c3 : Bytes} (h2 : m.insn_.uleb 64 = .ok (len, c2)) (h3 : c2.iget 1 = .ok (op, c3)) :
    m.extendedOpcode ret =
      if op = 1 then ({ m with insn_ := c3 } : DWARF5DebugMachine).endSequence
      else if op = 2 then ({ m with insn_ := c3 } : DWARF5DebugMachine).setAddress ret
      else if op = 3 then ({ m with insn_ := c3 } : DWARF5DebugMachine).setDiscriminator ret
      else .error .undefined := by
  unfold extendedOpcode
  rw [h2, ok_bind]
  dsimp only
  rw [h3, ok_bind]
  rfl

/-- C35. Let one call of `nextLoc(SourceLoc &)` read the opcode byte `op` and leave the
cursor `c1` behind it. For each standard opcode 1 to 12 (below `opcodeBase`) and for the
extended opcodes 2 and 3, once the operand is read (the cursor `insn` is where that read
ends; `c1` itself when there is no operand) the call returns, and the machine afterwards is
the machine before with `insn_` at that cursor and only the named registers changed:
`DW_LNS_copy` emits the row and clears `discrim`, `basicBlock`, `prologEnd`, `epilogBegin`;
every other one reports no row and leaves `ret` alone; `DW_LNS_advance_pc` and
`DW_LNS_const_add_pc` set `addr` and `opIndex` as `addrAndOpAdvance` does;
`DW_LNS_advance_line` adds its signed operand to `line` (an `unsigned`); `DW_LNS_set_file`,
`DW_LNS_set_column`, `DW_LNS_set_isa` store their operand (as an `unsigned`) in `file`,
`column`, `isa`; `DW_LNS_negate_stmt` toggles `isStmt`; `DW_LNS_set_basic_block`,
`DW_LNS_set_prologue_end`, `DW_LNS_set_epilogue_begin` set their flag;
`DW_LNS_fixed_advance_pc` adds its 16-bit operand to `addr`; `DW_LNE_set_address` stores
its operand in `addr`; `DW_LNE_set_discriminator` stores its operand in `discrim`. -/
theorem opcode_changes_only_its_registers (m : DWARF5DebugMachine) (ret : SourceLoc)
    (op : Nat) (c1 : Bytes) (h0 : m.insn_.toBool = true)
    (h1 : m.insn_.iget 1 = .ok (op, c1)) :
    c1 = { m.insn_ with base_ := (m.insn_.base_ + 1) % 2 ^ 64 } ∧
    (op = 1 → 1 < m.header_.opcodeBase →
      ∀ loc, ({ m with insn_ := c1 } : DWARF5DebugMachine).emitLoc = .ok loc →
        m.nextLocInto ret = .ok (true, loc,
          { m with insn_ := c1, discrim := 0, basicBlock := false, prologEnd := false,
                   epilogBegin := false })) ∧
    (op = 2 → 2 < m.header_.opcodeBase → m.header_.maxOpsPerInsn ≠ 0 →
      ∀ v insn, c1.uleb 64 = .ok (v, insn) →
        m.nextLocInto ret = .ok (false, ret,
          { m with
            insn_ := insn
            addr := (m.addr + (m.header_.minInsnLength *
              (((m.opIndex + v) % 2 ^ 64) / m.header_.maxOpsPerInsn)) % 2 ^ 64) % 2 ^ 64
            opIndex := ((m.opIndex + v) % 2 ^ 64) % m.header_.maxOpsPerInsn })) ∧
    (op = 3 → 3 < m.header_.opcodeBase →
      ∀ v insn, c1.sleb = .ok (v, insn) →
        m.nextLocInto ret = .ok (false, ret,
          { m with insn_ := insn, line := (((m.line : Int) + v) % 2 ^ 32).toNat })) ∧
    (op = 4 → 4 < m.header_.opcodeBase →
      ∀ v insn, c1.uleb 64 = .ok (v, insn) →
        m.nextLocInto ret = .ok (false, ret, { m with insn_ := insn, file := v % 2 ^ 32 })) ∧
    (op = 5 → 5 < m.header_.opcodeBase →
      ∀ v insn, c1.uleb 64 = .ok (v, insn) →
        m.nextLocInto ret = .ok (false, ret, { m with insn_ := insn, column := v % 2 ^ 32 })) ∧
    (op = 6 → 6 < m.header_.opcodeBase →
      m.nextLocInto ret = .ok (false, ret, { m with insn_ := c1, isStmt := !m.isStmt })) ∧
    (op = 7 → 7 < m.header_.opcodeBase →
      m.nextLocInto ret = .ok (false, ret, { m with insn_ := c1, basicBlock := true })) ∧
    (op = 8 → 8 < m.header_.opcodeBase → m.header_.lineRange ≠ 0 →
      m.header_.maxOpsPerInsn ≠ 0 →
        m.nextLocInto ret = .ok (false, ret,
          { m with
            insn_ := c1
            addr := (m.addr + (m.header_.minInsnLength *
              (((m.opIndex + (255 - m.header_.opcodeBase) / m.header_.lineRange) % 2 ^ 64) /
                m.header_.maxOpsPerInsn)) % 2 ^ 64) % 2 ^ 64
            opIndex := ((m.opIndex + (255 - m.header_.opcodeBase) / m.header_.lineRange)
              % 2 ^ 64) % m.header_.maxOpsPerInsn })) ∧
    (op = 9 → 9 < m.header_.opcodeBase →
      ∀ v insn, c1.iget 2 = .ok (v, insn) →
        insn = { c1 with base_ := (c1.base_ + 2) % 2 ^ 64 } ∧
        m.nextLocInto ret = .ok (false, ret,
          { m with insn_ := insn, addr := (m.addr + v) % 2 ^ 64 })) ∧
    (op = 10 → 10 < m.header_.opcodeBase →
      m.nextLocInto ret = .ok (false, ret, { m with insn_ := c1, prologEnd := true })) ∧
    (op = 11 → 11 < m.header_.opcodeBase →
      m.nextLocInto ret = .ok (false, ret, { m with insn_ := c1, epilogBegin := true })) ∧
    (op = 12 → 12 < m.header_.opcodeBase →
      ∀ v insn, c1.uleb 64 = .ok (v, insn) →
        m.nextLocInto ret = .ok (false, ret, { m with insn_ := insn, isa := v % 2 ^ 32 })) ∧
    (op = 0 → ∀ len c2 c3, c1.uleb 64 = .ok (len, c2) → c2.iget 1 = .ok (2, c3) →
      ∀ a insn, c3.iget (if m.header_.addrSize = 8 then 8 else 4) = .ok (a, insn) →
        insn = { c3 with
          base_ := (c3.base_ + (if m.header_.addrSize = 8 then 8 else 4)) % 2 ^ 64 } ∧
        m.nextLocInto ret = .ok (false, ret, { m with insn_ := insn, addr := a })) ∧
    (op = 0 → ∀ len c2 c3, c1.uleb 64 = .ok (len, c2) → c2.iget 1 = .ok (3, c3) →
      ∀ v insn, c3.uleb 32 = .ok (v, insn) →
        m.nextLocInto ret = .ok (false, ret, { m with insn_ := insn, discrim := v })) := by
  have key := nextLocInto_of_iget m ret h0 h1
  refine ⟨iget_cursor h1, ?_, ?_, ?_, ?_, ?_, ?_, ?_, ?_, ?_, ?_, ?_, ?_, ?_, ?_⟩
  · intro hk hb loc hl
    subst hk
    rw [key, if_neg (by decide), if_pos hb]
    show ({ m with insn_ := c1 } : DWARF5DebugMachine).copy = _
    unfold copy
    rw [hl]
    rfl
  · intro hk hb hmo v insn h2
    subst hk
    rw [key, if_neg (by decide), if_pos hb]
    show ({ m with insn_ := c1 } : DWARF5DebugMachine).advancePc ret = _
    unfold advancePc
    dsimp only
    rw [h2, ok_bind]
    dsimp only
    unfold addrAndOpAdvance
    dsimp only
    rw [if_neg hmo]
    rfl
  · intro hk hb v insn h2
    subst hk
    rw [key, if_neg (by decide), if_pos hb]
    show ({ m with insn_ := c1 } : DWARF5DebugMachine).advanceLine ret = _
    unfold advanceLine
    dsimp only
    rw [h2]
    rfl
  · intro hk hb v insn h2
    subst hk
    rw [key, if_neg (by decide), if_pos hb]
    show ({ m with insn_ := c1 } : DWARF5DebugMachine).setFile ret = _
    unfold setFile
    dsimp only
    rw [h2]
    rfl
  · intro hk hb v insn h2
    subst hk
    rw [key, if_neg (by decide), if_pos hb]
    show ({ m with insn_ := c1 } : DWARF5DebugMachine).setColumn ret = _
    unfold setColumn
    dsimp only
    rw [h2]
    rfl
  · intro hk hb
    subst hk
    rw [key, if_neg (by decide), if_pos hb]
    rfl
  · intro hk hb
    subst hk
    rw [key, if_neg (by decide), if_pos hb]
    rfl
  · intro hk hb hlr hmo
    subst hk
    rw [key, if_neg (by decide), if_pos hb]
    show ({ m with insn_ := c1 } : DWARF5DebugMachine).constAddPc ret = _
    unfold constAddPc
    dsimp only
    rw [if_neg hlr]
    unfold addrAndOpAdvance
    dsimp only
    rw [if_neg hmo]
    rfl
  · intro hk hb v insn h2
    refine ⟨iget_cursor h2, ?_⟩
    subst hk
    rw [key, if_neg (by decide), if_pos hb]
    show ({ m with insn_ := c1 } : DWARF5DebugMachine).fixedAdvancePc ret = _
    unfold fixedAdvancePc
    dsimp only
    rw [h2]
    rfl
  · intro hk hb
    subst hk
    rw [key, if_neg (by decide), if_pos hb]
    rfl
  · intro hk hb
    subst hk
    rw [key, if_neg (by decide), if_pos hb]
    rfl
  · intro hk hb v insn h2
    subst hk
    rw [key, if_neg (by decide), if_pos hb]
    show ({ m with insn_ := c1 } : DWARF5DebugMachine).setIsa ret = _
    unfold setIsa
    dsimp only
    rw [h2]
    rfl
  · intro hk len c2 c3 h2 h3 a insn h4
    refine ⟨iget_cursor h4, ?_⟩
    subst hk
    rw [key, if_pos rfl,
      extendedOpcode_of_reads ({ m with insn_ := c1 } : DWARF5DebugMachine) ret h2 h3,
      if_neg (by decide), if_pos rfl]
    unfold setAddress
    dsimp only
    by_cases ha : m.header_.addrSize = 8
    · rw [if_pos ha] at h4
      rw [if_pos ha, h4]
      rfl
    · rw [if_neg ha] at h4
      rw [if_neg ha, h4]
      rfl
  · intro hk len c2 c3 h2 h3 v insn h4
    subst hk
    rw [key, if_pos rfl,
      extendedOpcode_of_reads ({ m with insn_ := c1 } : DWARF5DebugMachine) ret h2 h3,
      if_neg (by decide), if_neg (by decide), if_pos rfl]
    unfold setDiscriminator
    dsimp only
    rw [h4]
    rfl

end DWARF5DebugMachine

end ObjReader

namespace ObjReader

namespace DWARF5DebugMachine

/-- Witness for C35: the sample machine at address `0x1000` with `DW_LNS_advance_pc 4`
(bytes `02 04`) under the cursor. The call returns no row; afterwards the cursor is two
bytes on, `addr` is `0x1004`, `opIndex` is 0 and everything else is as before. -/
theorem opcode_changes_only_its_registers_witness :
    (Sample.advanceAt 12 0x1000).nextLocInto SourceLoc.empty =
      .ok (false, SourceLoc.empty,
        { Sample.advanceAt 12 0x1000 with
          insn_ := (Sample.advanceAt 12 0x1000).insn_.advance 2
          addr := 0x1004
          opIndex := 0 }) :=
  (opcode_changes_only_its_registers (Sample.advanceAt 12 0x1000) SourceLoc.empty 2
    ((Sample.advanceAt 12 0x1000).insn_.advance 1) (by decide) (by decide)).2.2.1 rfl
    (by decide) (by decide) 4 ((Sample.advanceAt 12 0x1000).insn_.advance 2) (by decide)

end DWARF5DebugMachine

end ObjReader

namespace ObjReader

/-! ## `__build_entries` -/

/-- The backtrace from a state of the callback: `skip` frames are passed over, then up to
`max_depth` frames are appended, each as an entry that holds its address only. -/
theorem unwindBacktrace_appended : ∀ (frames : List Nat) (tf : trace_fn),
    (unwindBacktrace frames tf).appended =
      tf.appended ++ ((frames.drop tf.skip).take tf.max_depth).map
        (fun ip => { __addr_ := ip, __symbol_ := [], __file_ := [], __line_ := 0 }) := by
  intro frames
  induction frames with
  | nil => intro tf; simp [unwindBacktrace]
  | cons ip rest ih =>
    intro tf
    obtain ⟨skip, depth, app⟩ := tf
    rw [unwindBacktrace]
    unfold trace_fn.call
    dsimp only
    by_cases hs : skip = 0
    · subst hs
      rw [if_neg (by simp)]
      by_cases hd : depth = 0
      · subst hd
        simp
      · rw [if_neg hd]
        dsimp only
        rw [ih]
        obtain ⟨d, rfl⟩ : ∃ d, depth = d + 1 := ⟨depth - 1, by omega⟩
        simp
    · rw [if_pos hs]
      dsimp only
      rw [ih]
      obtain ⟨s, rfl⟩ : ∃ s, skip = s + 1 := ⟨skip - 1, by omega⟩
      simp

/-- For a `skip` below `SIZE_MAX` the entries `__build_entries` appends are the frames
`f_{s+1}, ..., f_{min(n, s+1+d)-1}`, each as an entry that holds its address only. -/
theorem build_entries_eq (frames : List Nat) (s d : Nat) (hs : s + 1 < 2 ^ 64) :
    __build_entries frames s d =
      ((frames.drop (s + 1)).take d).map
        (fun ip => { __addr_ := ip, __symbol_ := [], __file_ := [], __line_ := 0 }) := by
  unfold __build_entries
  by_cases hd : d = 0
  · subst hd
    simp
  · rw [if_neg hd, unwindBacktrace_appended]
    dsimp only
    rw [show (1 + s) % 2 ^ 64 = s + 1 from by rw [Nat.add_comm, Nat.mod_eq_of_lt hs]]
    simp

/-- What the claim C36 lists, for a `skip` below `SIZE_MAX`: at most `d` entries, exactly
`min(n, s+1+d) - min(n, s+1)` of them, the `i`-th being the frame `f_{s+1+i}`; none when
`d = 0` or `s + 1 ≥ n`; and with unlimited depth (`d ≥ n`) the result for `s + 1` is the
result for `s` without its first entry. -/
theorem build_entries_window (frames : List Nat) (s d : Nat) (hs : s + 2 < 2 ^ 64) :
    (__build_entries frames s d).length = min frames.length (s + 1 + d) -
        min frames.length (s + 1) ∧
      (__build_entries frames s d).length ≤ d ∧
      (∀ i, i < (__build_entries frames s d).length →
        ((__build_entries frames s d).get? i).map (fun e => e.__addr_) =
          frames.get? (s + 1 + i)) ∧
      (∀ e ∈ __build_entries frames s d, e.__symbol_ = [] ∧ e.__file_ = [] ∧ e.__line_ = 0) ∧
      (d = 0 ∨ frames.length ≤ s + 1 → __build_entries frames s d = []) ∧
      (frames.length ≤ d →
        __build_entries frames (s + 1) d = (__build_entries frames s d).tail) := by
  have h0 := build_entries_eq frames s d (by omega)
  have h1 := build_entries_eq frames (s + 1) d (by omega)
  have hlen : (__build_entries frames s d).length =
      min d (frames.length - (s + 1)) := by
    rw [h0]; simp
  refine ⟨by rw [hlen]; omega, by rw [hlen]; omega, ?_, ?_, ?_, ?_⟩
  · intro i hi
    rw [hlen] at hi
    rw [h0, List.get?_eq_getElem?, List.getElem?_map, List.getElem?_take_of_lt (by omega),
      List.getElem?_drop, List.get?_eq_getElem?]
    cases frames[s + 1 + i]? <;> rfl
  · intro e he
    rw [h0] at he
    obtain ⟨ip, -, rfl⟩ := List.mem_map.mp he
    exact ⟨rfl, rfl, rfl⟩
  · intro h
    rw [h0]
    rcases h with h | h
    · subst h; simp
    · rw [List.drop_eq_nil_of_le h]; simp
  · intro h
    rw [h0, h1, List.take_of_length_le (by simp; omega),
      List.take_of_length_le (by simp; omega), ← List.map_tail, List.tail_drop]

/-- C36 fails on the code at `skip = SIZE_MAX`. `__build_entries` starts its skip counter
at `1 + __skip`, computed in `size_t`, which is 0 for `__skip = 2 ^ 64 - 1`: of the three
frames with the addresses `0x10`, `0x20`, `0x30` it appends the first two for
`max_depth = 2` and all three for `max_depth = SIZE_MAX`, the frame of `__build_entries`
itself included, where the claim says none (`s + 1 ≥ n`). For `skip = 1`, `max_depth = 1`
it appends the frame `f_2` alone, as claimed. -/
theorem build_entries_skip_wraps :
    __build_entries [0x10, 0x20, 0x30] (2 ^ 64 - 1) 2 =
      [{ __addr_ := 0x10, __symbol_ := [], __file_ := [], __line_ := 0 },
       { __addr_ := 0x20, __symbol_ := [], __file_ := [], __line_ := 0 }] ∧
    (__build_entries [0x10, 0x20, 0x30] (2 ^ 64 - 1) (2 ^ 64 - 1)).map (fun e => e.__addr_) =
      [0x10, 0x20, 0x30] ∧
    __build_entries [0x10, 0x20, 0x30] 1 1 =
      [{ __addr_ := 0x30, __symbol_ := [], __file_ := [], __line_ := 0 }] ∧
    __build_entries [0x10, 0x20, 0x30] (2 ^ 64 - 2) 2 = [] := by
  decide

end ObjReader

namespace ObjReader

/-! ## The section records `eachSection` visits -/

namespace macho

/-- The loop of `eachSection` over a cursor of `80 * n` bytes calls the callback on the `n`
addresses `base_ + 80 * i`, in order, until the callback fails. -/
theorem eachSectionLoop_eq_foldlM {σ : Type} (cb : σ → Nat → Except Fault σ) :
    ∀ (n : Nat) (cur : Bytes) (st : σ) (fuel : Nat), cur.Valid → cur.size = 80 * n →
      n < fuel →
      eachSectionLoop cb fuel cur st =
        ((List.range n).map (fun i => cur.base_ + 80 * i)).foldlM cb st := by
  intro n
  induction n with
  | zero =>
    intro cur st fuel _ hsz hfuel
    obtain ⟨fuel, rfl⟩ : ∃ f, fuel = f + 1 := ⟨fuel - 1, by omega⟩
    have ht : cur.toBool = false := by simp [Bytes.toBool, hsz]
    rw [eachSectionLoop, ht]
    rfl
  | succ n ih =>
    intro cur st fuel hv hsz hfuel
    obtain ⟨fuel, rfl⟩ : ∃ f, fuel = f + 1 := ⟨fuel - 1, by omega⟩
    have hs := Bytes.size_of_valid hv
    obtain ⟨hv1, hv2⟩ := hv
    have ht : cur.toBool = true := by
      simp only [Bytes.toBool, hsz, bne_iff_ne, ne_eq]
      omega
    have hget : cur.get 80 = .ok (cur.base_, { cur with base_ := cur.base_ + 80 }) := by
      unfold Bytes.get
      rw [if_neg (by rw [hsz]; omega), Nat.mod_eq_of_lt (by omega)]
    have hv' : ({ cur with base_ := cur.base_ + 80 } : Bytes).Valid :=
      ⟨by show cur.base_ + 80 ≤ cur.limit_; omega, hv2⟩
    have hsz' : ({ cur with base_ := cur.base_ + 80 } : Bytes).size = 80 * n := by
      rw [Bytes.size_of_valid hv']
      show cur.limit_ - (cur.base_ + 80) = 80 * n
      omega
    have hrange : (List.range (n + 1)).map (fun i => cur.base_ + 80 * i) =
        cur.base_ :: (List.range n).map (fun i => cur.base_ + 80 + 80 * i) := by
      rw [List.range_succ_eq_map, List.map_cons, List.map_map]
      congr 1
      apply List.map_congr_left
      intro i _
      show cur.base_ + 80 * (i + 1) = cur.base_ + 80 + 80 * i
      omega
    rw [eachSectionLoop, if_pos ht, hget, DWARF5DebugMachine.ok_bind, hrange,
      List.foldlM_cons]
    dsimp only
    cases hcb : cb st cur.base_ with
    | error e => rfl
    | ok st1 =>
      rw [DWARF5DebugMachine.ok_bind]
      exact ih _ st1 fuel hv' hsz' (by omega)

set_option maxRecDepth 20000 in
/-- C37 as stated fails. `eachSection` never reads `nsects`: it takes section records from
the end of the 72-byte segment header for as long as bytes of the command are left, and
`get` asserts that a whole record is left. A command with `nsects = 1` and
`cmdsize = 72 + 160` has the callback called on two records, at the offsets 104 and 184 of
the file, and `genSectionTable` stores two sections; a command with `nsects = 1` and
`cmdsize = 72 + 84` has it called on the one record and then fails the assertion. -/
theorem eachSection_follows_cmdsize_not_nsects :
    (Bytes.ofList Sample.oneDeclaredTwoPresent).field (0x100000000 + 32) 64 4 = .ok 1 ∧
    (Bytes.ofList Sample.oneDeclaredTwoPresent).field (0x100000000 + 32) 4 4 = .ok 232 ∧
    eachSection (Bytes.ofList Sample.oneDeclaredTwoPresent)
      (fun (acc : List Nat) sec => .ok (acc ++ [sec])) [] =
        .ok [0x100000000 + 104, 0x100000000 + 184] ∧
    (genSectionTable (Bytes.ofList Sample.oneDeclaredTwoPresent)).map
      (fun t => t.sections_.map (fun s => s.virt_addr)) = .ok [0x1000, 0x2000] ∧
    (Bytes.ofList Sample.onePadded).field (0x100000000 + 32) 64 4 = .ok 1 ∧
    eachSection (Bytes.ofList Sample.onePadded)
      (fun (acc : List Nat) sec => .ok (acc ++ [sec])) [] = .error .abort := by
  decide

/-- C37, amended. Let `cmd` be the cursor over an `LC_SEGMENT_64` command, as
`eachLoadCommand` hands it to the callback, whose size is `72 + 80 * nsects` for the value
`nsects` of the member at offset 64. Then `eachSection` calls the callback on exactly the
`nsects` records at `72 + 80 * i` bytes from the start of the command, `i < nsects`, in
order and once each (up to the first call that fails), and on nothing else. -/
theorem eachSection_reads_nsects_records {σ : Type} (cb : σ → Nat → Except Fault σ) (st : σ)
    (cmd : Bytes) (nsects : Nat) (hv : cmd.Valid) (hsize : cmd.size = 72 + 80 * nsects)
    (_hn : cmd.field cmd.base_ 64 4 = .ok nsects) :
    sectionsOfSegment cb st cmd =
      ((List.range nsects).map (fun i => cmd.base_ + 72 + 80 * i)).foldlM cb st := by
  have hs := Bytes.size_of_valid hv
  have hlim : 72 ≤ cmd.limit_ := by omega
  unfold sectionsOfSegment
  cases hsl : cmd.slice 72 with
  | error e =>
    rw [Bytes.slice_of_valid hv hlim, if_pos (by omega)] at hsl
    cases hsl
  | ok cur =>
    obtain ⟨hw, hb⟩ := Bytes.slice_within hv hlim hsl
    have hcv := hw.valid hv
    have hcs : cur.size = 80 * nsects := by
      rw [Bytes.size_of_valid hcv, hw.2.2.1, hb]
      omega
    rw [DWARF5DebugMachine.ok_bind,
      eachSectionLoop_eq_foldlM cb nsects cur st _ hcv hcs (by omega), hb]

/-- Witness for C37: the segment command of the sample file with debug sections, which
declares three sections in 312 bytes; the callback is called on the records at the offsets
104, 184 and 264 of the file. -/
theorem eachSection_reads_nsects_records_witness :
    sectionsOfSegment (fun (acc : List Nat) sec => .ok (acc ++ [sec])) []
        Sample.segmentCommand =
      .ok [0x100000000 + 104, 0x100000000 + 184, 0x100000000 + 264] :=
  eachSection_reads_nsects_records _ [] Sample.segmentCommand 3 (by decide) (by decide)
    (by decide)

end macho

end ObjReader

namespace ObjReader

/-! ## Lookup tables of the header parse -/

namespace dwarf5

/-- The value of `contentType(x)` for every `x`: the code `x` up to 5, an out-of-bounds read
of the six-element table from 6 to 24, `INVALID` above. -/
theorem contentType_eq (x : Nat) :
    contentType x =
      if x ≤ 5 then .ok ([ContentType.INVALID, .path, .dirindex, .timestamp, .size, .md5].getD x
        .INVALID)
      else if x ≤ 24 then .error .undefined
      else .ok .INVALID := by
  by_cases h : x ≤ 24
  · interval_cases x <;> rfl
  · rw [if_neg (by omega), if_neg h, contentType, if_neg h]

/-- The value of `formType(x)` for every `x`: `INVALID` for 0 and 2, the code `x` for the
other indexes up to `0x2c`, an out-of-bounds read of the 45-element table at 45, `INVALID`
above. -/
theorem formType_eq (x : Nat) :
    formType x =
      if x = 0 ∨ x = 2 then .ok 0
      else if x ≤ 0x2c then .ok x
      else if x = 45 then .error .undefined
      else .ok 0 := by
  by_cases h : x ≤ 45
  · interval_cases x <;> rfl
  · rw [if_neg (by omega), if_neg (by omega), if_neg (by omega), formType, if_neg h]

/-- C38 fails on the code. The guard of both functions is `x <= sizeof(types)`, which
admits indexes past the last element: `contentType(x)` reads beyond its six-element table
(24 bytes) for every `x` from 6 to 24, and `formType(45)` reads the byte after its
45-element table, where the claim says `INVALID` without a read out of bounds. For every
other `x` the results are the claimed ones: the code `x` for 1..5 and `INVALID` for 0 and
above 24; the code `x` for `0x01..0x2c` except 2, `INVALID` for 0, 2 and above 45. -/
theorem lookup_guard_admits_indexes_past_the_table :
    contentType 6 = .error .undefined ∧
    contentType 24 = .error .undefined ∧
    formType 45 = .error .undefined ∧
    (∀ x, contentType x =
      if x ≤ 5 then .ok ([ContentType.INVALID, .path, .dirindex, .timestamp, .size, .md5].getD x
        .INVALID)
      else if x ≤ 24 then .error .undefined
      else .ok .INVALID) ∧
    (∀ x, formType x =
      if x = 0 ∨ x = 2 then .ok 0
      else if x ≤ 0x2c then .ok x
      else if x = 45 then .error .undefined
      else .ok 0) :=
  ⟨rfl, rfl, rfl, contentType_eq, formType_eq⟩

end dwarf5

end ObjReader

namespace ObjReader

namespace DWARF5DebugMachine

/-! ## Special opcodes and their encoding -/

/-- The adjusted opcode of `op = opcodeBase + (lineDelta - lineBase) + lineRange * opAdv`
splits into `opAdv` and `lineDelta - lineBase`. -/
theorem special_decode {opcodeBase lineRange op opAdv : Nat} {lineBase lineDelta : Int}
    (hlr : 1 ≤ lineRange) (hlo : lineBase ≤ lineDelta)
    (hhi : lineDelta < lineBase + lineRange) (hop1 : op < 256)
    (hop : (op : Int) = opcodeBase + (lineDelta - lineBase) + lineRange * opAdv) :
    opcodeBase ≤ op ∧ (op - opcodeBase) % 256 / lineRange % 256 = opAdv ∧
      lineBase + (((op - opcodeBase) % 256 % lineRange : Nat) : Int) = lineDelta := by
  obtain ⟨a, ha⟩ := Int.eq_ofNat_of_zero_le (show 0 ≤ lineDelta - lineBase by omega)
  have halt : a < lineRange := by omega
  have hopn : op = opcodeBase + a + lineRange * opAdv := by
    have : (op : Int) = ((opcodeBase + a + lineRange * opAdv : Nat) : Int) := by
      rw [hop, ha]; push_cast; ring
    exact_mod_cast this
  have hsub : op - opcodeBase = a + lineRange * opAdv := by omega
  have hmod : (op - opcodeBase) % 256 = a + lineRange * opAdv := by
    rw [hsub]; apply Nat.mod_eq_of_lt; omega
  have hdiv : (a + lineRange * opAdv) / lineRange = opAdv := by
    rw [Nat.add_mul_div_left _ _ (by omega : 0 < lineRange), Nat.div_eq_of_lt halt,
      Nat.zero_add]
  have hrem : (a + lineRange * opAdv) % lineRange = a := by
    rw [Nat.add_mul_mod_self_left, Nat.mod_eq_of_lt halt]
  have hadv : opAdv < 256 := by
    have : opAdv ≤ lineRange * opAdv := Nat.le_mul_of_pos_left _ (by omega)
    omega
  refine ⟨by omega, ?_, ?_⟩
  · rw [hmod, hdiv, Nat.mod_eq_of_lt hadv]
  · rw [hmod, hrem]; omega

/-- C39. In a header with `lineRange ≥ 1`, let `op` be the opcode byte that encodes the
operation advance `opAdv` and the line increment `lineDelta`, `lineBase ≤ lineDelta <
lineBase + lineRange`: `op = opcodeBase + (lineDelta - lineBase) + lineRange * opAdv`, at
most 255 and not the byte 0 that introduces an extended opcode. In a state with
`maxOpsPerInsn ≥ 1` whose `file` register resolves, one call of `nextLoc(SourceLoc &)` with
`op` under the cursor consumes the byte and returns "row emitted" with these registers:
`addr = addr + minInsnLength * ((opIndex + opAdv) / maxOpsPerInsn)` and
`opIndex = (opIndex + opAdv) mod maxOpsPerInsn`, the sums being those of 64-bit unsigned
integers, and `line = line + lineDelta` in the 32-bit unsigned register; the row carries the
new `addr` and `line`; `basicBlock`, `prologEnd`, `epilogBegin` and `discrim` are cleared and
every other register is left as it was. -/
theorem special_opcode_inverts_the_encoding (m : DWARF5DebugMachine) (ret : SourceLoc)
    (op : Byte) (rest : List Byte) (opAdv : Nat) (lineDelta : Int) (fe de : dwarf5.EntryData)
    (hlr : 1 ≤ m.header_.lineRange) (hlo : m.header_.lineBase ≤ lineDelta)
    (hhi : lineDelta < m.header_.lineBase + m.header_.lineRange)
    (hop : (op.val : Int) =
      m.header_.opcodeBase + (lineDelta - m.header_.lineBase) + m.header_.lineRange * opAdv)
    (hop1 : 1 ≤ op.val) (hmo : 1 ≤ m.header_.maxOpsPerInsn)
    (hinsn : m.insn_.StartsWith (op :: rest))
    (hfile : m.filenames.get? m.file = some fe)
    (hdir : m.directories.get? fe.dirIndex = some de) :
    m.nextLocInto ret =
      .ok (true,
        { addr_ := (m.addr + (m.header_.minInsnLength *
              (((m.opIndex + opAdv) % 2 ^ 64) / m.header_.maxOpsPerInsn)) % 2 ^ 64) % 2 ^ 64
          dir_ := de.pathStr
          file_ := fe.pathStr
          line_ := (((m.line : Int) + lineDelta) % 2 ^ 32).toNat },
        { m with
          insn_ := m.insn_.advance 1
          addr := (m.addr + (m.header_.minInsnLength *
              (((m.opIndex + opAdv) % 2 ^ 64) / m.header_.maxOpsPerInsn)) % 2 ^ 64) % 2 ^ 64
          opIndex := ((m.opIndex + opAdv) % 2 ^ 64) % m.header_.maxOpsPerInsn
          line := (((m.line : Int) + lineDelta) % 2 ^ 32).toNat
          basicBlock := false
          prologEnd := false
          epilogBegin := false
          discrim := 0 }) := by
  obtain ⟨hbase, hadv, hline⟩ := special_decode hlr hlo hhi op.isLt hop
  have hlr0 : ¬ (m.header_.lineRange = 0) := by omega
  have hmo0 : ¬ (m.header_.maxOpsPerInsn = 0) := by omega
  rw [nextLocInto_of_startsWith m ret op rest hinsn, if_neg (by omega), if_neg (by omega)]
  simp only [specialOpcode, bind, Except.bind, pure, Except.pure, hlr0, hmo0, if_false,
    addrAndOpAdvance, emitLoc, hfile, hdir, hadv, addLine, hline]

end DWARF5DebugMachine

end ObjReader

namespace ObjReader

namespace DWARF5DebugMachine

/-- Witness for C39: in the sample header (`opcodeBase = 13`, `lineBase = -5`,
`lineRange = 14`, `minInsnLength = 1`, `maxOpsPerInsn = 1`) the byte `0x22` encodes the
operation advance 1 and the line increment 2; executing it at address `0x1000`, line 10
emits the row `(0x1001, 12)` and leaves `addr = 0x1001`, `opIndex = 0`, `line = 12`. -/
theorem special_opcode_inverts_the_encoding_witness :
    Sample.specialAt.nextLocInto SourceLoc.empty =
      .ok (true, Sample.row 0x1001 12,
        { Sample.specialAt with
          insn_ := Sample.specialAt.insn_.advance 1
          addr := 0x1001
          opIndex := 0
          line := 12 }) :=
  special_opcode_inverts_the_encoding Sample.specialAt SourceLoc.empty 0x22
    [0x00, 0x01, 0x01] 1 2 (Sample.pathEntry [0x62, 0x2e, 0x63])
    (Sample.pathEntry [0x64, 0x69, 0x72])
    (by decide) (by decide) (by decide) (by decide) (by decide) (by decide) (by decide) rfl rfl

end DWARF5DebugMachine

end ObjReader

namespace ObjReader

/-! ## The allocator wrapper `Memory::Alloc` -/

namespace Memory

/-- The call `allocate(n)` makes of the caller's function. -/
theorem allocate_calls (mem : Memory) (sizeofT alignofT n : Nat) :
    (Alloc.allocate mem sizeofT alignofT n).2.calls =
      mem.calls ++ [.allocBytes ((n * sizeofT + alignofT + 2 ^ 64 - 1) % 2 ^ 64)] := rfl

/-- The call `deallocate(ptr, n)` makes of the caller's function. -/
theorem deallocate_calls (mem : Memory) (ptr n : Nat) :
    (Alloc.deallocate mem ptr n).calls = mem.calls ++ [.deallocBytes ptr n] := rfl

/-- C40 fails on the code. `allocate(n)` asks the caller's function for
`n * sizeof(T) + alignof(T) - 1` bytes, and `deallocate(ptr, n)` hands the element count
`n` itself to the caller's `deallocBytes_`, not that byte count. For an object of 8 bytes
aligned to 8 that `makeUnique` builds and `clear()` destroys, the caller's functions see a
request for 15 bytes and the return of 1 byte at the same address; for 3 elements of 16
bytes aligned to 8 they see 55 and 3. The counts agree for `char` (size 1, alignment 1). -/
theorem deallocate_passes_the_element_count :
    (∀ (mem : Memory) (sizeofT alignofT n ptr : Nat),
      (Alloc.allocate mem sizeofT alignofT n).2.calls =
        mem.calls ++ [.allocBytes ((n * sizeofT + alignofT + 2 ^ 64 - 1) % 2 ^ 64)] ∧
      (Alloc.deallocate mem ptr n).calls = mem.calls ++ [.deallocBytes ptr n]) ∧
    (let (u, mem) := makeUnique Sample.bumpMemory 8 8
     (u.clear mem).2.calls) = [.allocBytes 15, .deallocBytes 0x7000 1] ∧
    (let (p, mem) := Alloc.allocate Sample.bumpMemory 16 8 3
     (Alloc.deallocate mem p 3).calls) = [.allocBytes 55, .deallocBytes 0x7000 3] ∧
    (let (p, mem) := Alloc.allocate Sample.bumpMemory 1 1 40
     (Alloc.deallocate mem p 40).calls) = [.allocBytes 40, .deallocBytes 0x7000 40] :=
  ⟨fun mem s a n p => ⟨allocate_calls mem s a n, deallocate_calls mem p n⟩,
    by decide, by decide, by decide⟩

end Memory

end ObjReader


namespace ObjReader

/-! ## Termination: reads -/

theorem Terminates.bind {α β : Type} {x : Except Fault α} {f : α → Except Fault β}
    (hx : Terminates x) (hf : ∀ a, x = .ok a → Terminates (f a)) : Terminates (x >>= f) := by
  cases x with
  | error e =>
    intro h
    apply hx
    cases h
    rfl
  | ok a => exact hf a rfl

theorem Terminates.ok {α : Type} (a : α) : Terminates (Except.ok a : Except Fault α) := by
  intro h; cases h

theorem Terminates.pure {α : Type} (a : α) : Terminates (pure a : Except Fault α) := by
  intro h; cases h

theorem Terminates.error {α : Type} {e : Fault} (he : e ≠ .fuel) :
    Terminates (Except.error e : Except Fault α) := by
  intro h; cases h; exact he rfl

namespace Bytes

theorem SameMap.same (c : Bytes) : c.SameMap c := ⟨rfl, rfl⟩

theorem SameMap.chain {a b c : Bytes} (h1 : a.SameMap b) (h2 : b.SameMap c) : a.SameMap c :=
  ⟨h1.1.trans h2.1, h1.2.trans h2.2⟩

theorem SameMap.mapped {r c : Bytes} (h : r.SameMap c) (hm : c.Mapped) : r.Mapped := by
  unfold Mapped
  rw [h.1, h.2]
  exact hm

theorem Forward.sameMap {c r : Bytes} (h : c.Forward r) : r.SameMap c := ⟨h.1, h.2.1⟩

theorem Forward.further {a b c : Bytes} (h1 : a.Forward b) (h2 : b.Forward c) : a.Forward c := by
  obtain ⟨o1, m1, l1, b1, u1⟩ := h1
  obtain ⟨o2, m2, l2, b2, u2⟩ := h2
  refine ⟨o2.trans o1, m2.trans m1, l1, by omega, ?_⟩
  rw [o1, m1] at u2
  exact u2

theorem Forward.ahead_lt {c r : Bytes} (h : c.Forward r) : r.ahead < c.ahead := by
  obtain ⟨o, m, l, b, u⟩ := h
  unfold ahead
  rw [o, m, if_pos l, if_pos (by omega)]
  omega

theorem ahead_le (c : Bytes) : c.ahead ≤ c.mem.length := by
  unfold ahead
  split <;> omega

theorem load_ok_range {c : Bytes} {a v : Nat} (h : c.load a = .ok v) :
    c.org ≤ a ∧ a < c.org + c.mem.length := by
  unfold load at h
  split at h
  · rename_i ha
    split at h
    · rename_i b hb
      have := List.get?_eq_some.mp hb
      obtain ⟨hlt, -⟩ := this
      exact ⟨ha, by omega⟩
    · cases h
  · cases h

theorem loadLE_ok_range {c : Bytes} (hm : c.Mapped) : ∀ (w a v : Nat),
    c.loadLE a (w + 1) = .ok v → c.org ≤ a ∧ a + (w + 1) ≤ c.org + c.mem.length := by
  intro w
  induction w with
  | zero =>
    intro a v h
    rw [loadLE] at h
    obtain ⟨b, hb, -⟩ := bind_ok h
    have := load_ok_range hb
    omega
  | succ w ih =>
    intro a v h
    rw [loadLE] at h
    obtain ⟨b, hb, h⟩ := bind_ok h
    obtain ⟨rest, hr, -⟩ := bind_ok h
    have h1 := load_ok_range hb
    have hlt : a + 1 < 2 ^ 64 := by have := hm.2; omega
    rw [Nat.mod_eq_of_lt hlt] at hr
    have h2 := ih _ _ hr
    omega

theorem slice_terminates (c : Bytes) (off : Nat) : Terminates (c.slice off) := by
  unfold slice
  split
  · exact Terminates.error (by decide)
  · exact Terminates.ok _

theorem loadLE_terminates (c : Bytes) (a w : Nat) : Terminates (c.loadLE a w) := by
  intro h
  have := loadLE_error c w a h
  cases this

theorem iget_terminates (c : Bytes) (w : Nat) : Terminates (c.iget w) := by
  unfold iget
  refine Terminates.bind (slice_terminates _ _) (fun s _ => ?_)
  refine Terminates.bind (loadLE_terminates _ _ _) (fun v _ => ?_)
  exact Terminates.pure _

/-- A successful read of `w ≥ 1` bytes found them in the mapped file and returns the cursor
`w` bytes further on. -/
theorem iget_forward {c r : Bytes} {w v : Nat} (hm : c.Mapped) (hw : 1 ≤ w)
    (h : c.iget w = .ok (v, r)) :
    c.Forward r ∧ r.base_ = c.base_ + w ∧ r.limit_ = c.limit_ := by
  have hr := DWARF5DebugMachine.iget_cursor h
  unfold iget at h
  obtain ⟨s, -, h⟩ := bind_ok h
  obtain ⟨x, hx, -⟩ := bind_ok h
  obtain ⟨w', rfl⟩ : ∃ w', w = w' + 1 := ⟨w - 1, by omega⟩
  have hrange := loadLE_ok_range hm _ _ _ hx
  have hlt : c.base_ + (w' + 1) < 2 ^ 64 := by have := hm.2; omega
  rw [Nat.mod_eq_of_lt hlt] at hr
  subst hr
  exact ⟨⟨rfl, rfl, hrange.1, by show c.base_ < c.base_ + (w' + 1); omega, hrange.2⟩, rfl, rfl⟩

theorem ulebLoop_terminates : ∀ (fuel : Nat) (c : Bytes) (z : Nat) (r : Int), c.Mapped →
    c.ahead < fuel → Terminates (ulebLoop fuel c z r) := by
  intro fuel
  induction fuel with
  | zero => intro c z r _ h; omega
  | succ n ih =>
    intro c z r hm hfuel
    rw [ulebLoop]
    refine Terminates.bind (iget_terminates _ _) (fun p hp => ?_)
    obtain ⟨byte, c1⟩ := p
    dsimp only
    obtain ⟨hf, -, -⟩ := iget_forward hm (Nat.le_refl 1) hp
    split
    · exact Terminates.error (by decide)
    · split
      · exact Terminates.pure _
      · exact ih _ _ _ (hf.sameMap.mapped hm) (by have := hf.ahead_lt; omega)

theorem ulebLoop_forward : ∀ (fuel : Nat) {c r : Bytes} {z z' : Nat} {k k' : Int},
    c.Mapped → ulebLoop fuel c z k = .ok (z', k', r) → c.Forward r ∧ r.limit_ = c.limit_ := by
  intro fuel
  induction fuel with
  | zero => intro c r z z' k k' _ h; cases h
  | succ n ih =>
    intro c r z z' k k' hm h
    rw [ulebLoop] at h
    obtain ⟨⟨byte, c1⟩, hp, h⟩ := bind_ok h
    dsimp only at h
    obtain ⟨hf, -, hl⟩ := iget_forward hm (Nat.le_refl 1) hp
    split at h
    · cases h
    · split at h
      · cases h
        exact ⟨hf, hl⟩
      · have := ih (hf.sameMap.mapped hm) h
        exact ⟨hf.further this.1, this.2.trans hl⟩

theorem uleb_terminates (c : Bytes) (zbits : Nat) (hm : c.Mapped) :
    Terminates (c.uleb zbits) := by
  unfold uleb
  refine Terminates.bind (ulebLoop_terminates _ _ _ _ hm (by have := ahead_le c; omega))
    (fun p _ => ?_)
  obtain ⟨z, r, ret⟩ := p
  dsimp only
  split
  · exact Terminates.error (by decide)
  · exact Terminates.pure _

theorem uleb_forward {c r : Bytes} {zbits v : Nat} (hm : c.Mapped)
    (h : c.uleb zbits = .ok (v, r)) : c.Forward r ∧ r.limit_ = c.limit_ := by
  unfold uleb at h
  obtain ⟨⟨z, k, ret⟩, hl, h⟩ := bind_ok h
  dsimp only at h
  split at h
  · cases h
  · cases h
    exact ulebLoop_forward _ hm hl

theorem slebLoop_terminates : ∀ (fuel : Nat) (c : Bytes) (z : Nat) (r : Int), c.Mapped →
    c.ahead < fuel → Terminates (slebLoop fuel c z r) := by
  intro fuel
  induction fuel with
  | zero => intro c z r _ h; omega
  | succ n ih =>
    intro c z r hm hfuel
    rw [slebLoop]
    refine Terminates.bind (iget_terminates _ _) (fun p hp => ?_)
    obtain ⟨byte, c1⟩ := p
    dsimp only
    obtain ⟨hf, -, -⟩ := iget_forward hm (Nat.le_refl 1) hp
    split
    · exact Terminates.error (by decide)
    · split
      · exact Terminates.pure _
      · exact ih _ _ _ (hf.sameMap.mapped hm) (by have := hf.ahead_lt; omega)

theorem slebLoop_forward : ∀ (fuel : Nat) {c r : Bytes} {z z' : Nat} {k k' : Int},
    c.Mapped → slebLoop fuel c z k = .ok (z', k', r) → c.Forward r ∧ r.limit_ = c.limit_ := by
  intro fuel
  induction fuel with
  | zero => intro c r z z' k k' _ h; cases h
  | succ n ih =>
    intro c r z z' k k' hm h
    rw [slebLoop] at h
    obtain ⟨⟨byte, c1⟩, hp, h⟩ := bind_ok h
    dsimp only at h
    obtain ⟨hf, -, hl⟩ := iget_forward hm (Nat.le_refl 1) hp
    split at h
    · cases h
    · split at h
      · cases h
        exact ⟨hf, hl⟩
      · have := ih (hf.sameMap.mapped hm) h
        exact ⟨hf.further this.1, this.2.trans hl⟩

theorem sleb_terminates (c : Bytes) (hm : c.Mapped) : Terminates c.sleb := by
  unfold sleb
  refine Terminates.bind (slebLoop_terminates _ _ _ _ hm (by have := ahead_le c; omega))
    (fun p _ => ?_)
  obtain ⟨z, r, ret⟩ := p
  dsimp only
  split
  · exact Terminates.error (by decide)
  · exact Terminates.pure _

theorem sleb_forward {c r : Bytes} {v : Int} (hm : c.Mapped)
    (h : c.sleb = .ok (v, r)) : c.Forward r ∧ r.limit_ = c.limit_ := by
  unfold sleb at h
  obtain ⟨⟨z, k, ret⟩, hl, h⟩ := bind_ok h
  dsimp only at h
  split at h
  · cases h
  · cases h
    exact slebLoop_forward _ hm hl

end Bytes

end ObjReader

namespace ObjReader

namespace DWARF5DebugMachine

/-! ## Termination: one instruction -/

theorem emitLoc_terminates (m : DWARF5DebugMachine) : Terminates m.emitLoc := by
  unfold emitLoc
  split
  · exact Terminates.error (by decide)
  · split
    · exact Terminates.error (by decide)
    · exact Terminates.ok _

theorem addrAndOpAdvance_terminates (m : DWARF5DebugMachine) (n : Nat) :
    Terminates (m.addrAndOpAdvance n) := by
  unfold addrAndOpAdvance
  split
  · exact Terminates.error (by decide)
  · exact Terminates.ok _

theorem copy_terminates (m : DWARF5DebugMachine) : Terminates m.copy := by
  unfold copy
  exact Terminates.bind (emitLoc_terminates _) (fun _ _ => Terminates.pure _)

theorem endSequence_terminates (m : DWARF5DebugMachine) : Terminates m.endSequence := by
  unfold endSequence
  exact Terminates.bind (emitLoc_terminates _) (fun _ _ => Terminates.pure _)

theorem setAddress_terminates (m : DWARF5DebugMachine) (ret : SourceLoc) :
    Terminates (m.setAddress ret) := by
  unfold setAddress
  dsimp only
  split
  · exact Terminates.bind (Bytes.iget_terminates _ _) (fun _ _ => Terminates.pure _)
  · exact Terminates.bind (Bytes.iget_terminates _ _) (fun _ _ => Terminates.pure _)

theorem setDiscriminator_terminates (m : DWARF5DebugMachine) (ret : SourceLoc)
    (hm : m.insn_.Mapped) : Terminates (m.setDiscriminator ret) := by
  unfold setDiscriminator
  exact Terminates.bind (Bytes.uleb_terminates _ _ hm) (fun _ _ => Terminates.pure _)

theorem extendedOpcode_terminates (m : DWARF5DebugMachine) (ret : SourceLoc)
    (hm : m.insn_.Mapped) : Terminates (m.extendedOpcode ret) := by
  unfold extendedOpcode
  refine Terminates.bind (Bytes.uleb_terminates _ _ hm) (fun p hp => ?_)
  obtain ⟨len, c2⟩ := p
  dsimp only
  have hm2 := (Bytes.uleb_forward hm hp).1.sameMap.mapped hm
  refine Terminates.bind (Bytes.iget_terminates _ _) (fun q hq => ?_)
  obtain ⟨op, c3⟩ := q
  dsimp only
  have hm3 := (Bytes.iget_forward hm2 (Nat.le_refl 1) hq).1.sameMap.mapped hm2
  split
  · exact endSequence_terminates _
  · split
    · exact setAddress_terminates _ _
    · split
      · exact setDiscriminator_terminates _ _ hm3
      · exact Terminates.error (by decide)

theorem advancePc_terminates (m : DWARF5DebugMachine) (ret : SourceLoc)
    (hm : m.insn_.Mapped) : Terminates (m.advancePc ret) := by
  unfold advancePc
  refine Terminates.bind (Bytes.uleb_terminates _ _ hm) (fun p _ => ?_)
  exact Terminates.bind (addrAndOpAdvance_terminates _ _) (fun _ _ => Terminates.pure _)

theorem advanceLine_terminates (m : DWARF5DebugMachine) (ret : SourceLoc)
    (hm : m.insn_.Mapped) : Terminates (m.advanceLine ret) := by
  unfold advanceLine
  exact Terminates.bind (Bytes.sleb_terminates _ hm) (fun _ _ => Terminates.pure _)

theorem setFile_terminates (m : DWARF5DebugMachine) (ret : SourceLoc)
    (hm : m.insn_.Mapped) : Terminates (m.setFile ret) := by
  unfold setFile
  exact Terminates.bind (Bytes.uleb_terminates _ _ hm) (fun _ _ => Terminates.pure _)

theorem setColumn_terminates (m : DWARF5DebugMachine) (ret : SourceLoc)
    (hm : m.insn_.Mapped) : Terminates (m.setColumn ret) := by
  unfold setColumn
  exact Terminates.bind (Bytes.uleb_terminates _ _ hm) (fun _ _ => Terminates.pure _)

theorem setIsa_terminates (m : DWARF5DebugMachine) (ret : SourceLoc)
    (hm : m.insn_.Mapped) : Terminates (m.setIsa ret) := by
  unfold setIsa
  exact Terminates.bind (Bytes.uleb_terminates _ _ hm) (fun _ _ => Terminates.pure _)

theorem constAddPc_terminates (m : DWARF5DebugMachine) (ret : SourceLoc) :
    Terminates (m.constAddPc ret) := by
  unfold constAddPc
  split
  · exact Terminates.error (by decide)
  · refine Terminates.bind (Terminates.pure _) (fun _ _ => ?_)
    exact Terminates.bind (addrAndOpAdvance_terminates _ _) (fun _ _ => Terminates.pure _)

theorem fixedAdvancePc_terminates (m : DWARF5DebugMachine) (ret : SourceLoc) :
    Terminates (m.fixedAdvancePc ret) := by
  unfold fixedAdvancePc
  exact Terminates.bind (Bytes.iget_terminates _ _) (fun _ _ => Terminates.pure _)

theorem standardOpcode_terminates (m : DWARF5DebugMachine) (ret : SourceLoc) (op : Nat)
    (hm : m.insn_.Mapped) : Terminates (m.standardOpcode ret op) := by
  unfold standardOpcode
  by_cases h1 : op = 1
  · rw [if_pos h1]
    exact copy_terminates _
  rw [if_neg h1]
  by_cases h2 : op = 2
  · rw [if_pos h2]
    exact advancePc_terminates _ _ hm
  rw [if_neg h2]
  by_cases h3 : op = 3
  · rw [if_pos h3]
    exact advanceLine_terminates _ _ hm
  rw [if_neg h3]
  by_cases h4 : op = 4
  · rw [if_pos h4]
    exact setFile_terminates _ _ hm
  rw [if_neg h4]
  by_cases h5 : op = 5
  · rw [if_pos h5]
    exact setColumn_terminates _ _ hm
  rw [if_neg h5]
  by_cases h6 : op = 6
  · rw [if_pos h6]
    exact Terminates.ok _
  rw [if_neg h6]
  by_cases h7 : op = 7
  · rw [if_pos h7]
    exact Terminates.ok _
  rw [if_neg h7]
  by_cases h8 : op = 8
  · rw [if_pos h8]
    exact constAddPc_terminates _ _
  rw [if_neg h8]
  by_cases h9 : op = 9
  · rw [if_pos h9]
    exact fixedAdvancePc_terminates _ _
  rw [if_neg h9]
  by_cases h10 : op = 10
  · rw [if_pos h10]
    exact Terminates.ok _
  rw [if_neg h10]
  by_cases h11 : op = 11
  · rw [if_pos h11]
    exact Terminates.ok _
  rw [if_neg h11]
  by_cases h12 : op = 12
  · rw [if_pos h12]
    exact setIsa_terminates _ _ hm
  rw [if_neg h12]
  exact Terminates.error (by decide)

theorem specialOpcode_terminates (m : DWARF5DebugMachine) (op : Nat) :
    Terminates (m.specialOpcode op) := by
  unfold specialOpcode
  dsimp only
  split
  · exact Terminates.error (by decide)
  · refine Terminates.bind (Terminates.pure _) (fun _ _ => ?_)
    refine Terminates.bind (addrAndOpAdvance_terminates _ _) (fun m1 _ => ?_)
    exact Terminates.bind (emitLoc_terminates _) (fun _ _ => Terminates.pure _)

/-- One call of `nextLoc(SourceLoc &)` on a stream in a mapped file ends. -/
theorem nextLocInto_terminates (m : DWARF5DebugMachine) (ret : SourceLoc)
    (hm : m.insn_.Mapped) : Terminates (m.nextLocInto ret) := by
  unfold nextLocInto
  split
  · exact Terminates.ok _
  · refine Terminates.bind (Bytes.iget_terminates _ _) (fun p hp => ?_)
    obtain ⟨op, c1⟩ := p
    dsimp only
    have hm1 : c1.Mapped := (Bytes.iget_forward hm (Nat.le_refl 1) hp).1.sameMap.mapped hm
    split
    · exact extendedOpcode_terminates _ _ hm1
    · split
      · exact standardOpcode_terminates _ _ _ hm1
      · exact specialOpcode_terminates _ _

/-- A call of `nextLoc(SourceLoc &)` that returns either found the stream exhausted and
changed nothing, or left the stream further on in the mapped file. -/
theorem Executed.forward {m m' : DWARF5DebugMachine} {ret ret' : SourceLoc} {b : Bool}
    (h : Executed m ret b ret' m') (hm : m.insn_.Mapped) :
    (m.insn_.toBool = false ∧ b = true ∧ ret' = ret ∧ m' = m) ∨
      m.insn_.Forward m'.insn_ := by
  cases h with
  | exhausted h0 => exact Or.inl ⟨h0, rfl, rfl, rfl⟩
  | endSequence c1 c2 insn len loc h0 h1 h2 h3 hloc =>
    have w1 := (Bytes.iget_forward hm (Nat.le_refl 1) h1).1
    have w2 := (Bytes.uleb_forward (w1.sameMap.mapped hm) h2).1
    have w3 := (Bytes.iget_forward (w2.sameMap.mapped (w1.sameMap.mapped hm))
      (Nat.le_refl 1) h3).1
    exact Or.inr ((w1.further w2).further w3)
  | setAddress c1 c2 c3 insn len a h0 h1 h2 h3 h4 =>
    have w1 := (Bytes.iget_forward hm (Nat.le_refl 1) h1).1
    have w2 := (Bytes.uleb_forward (w1.sameMap.mapped hm) h2).1
    have hm2 := w2.sameMap.mapped (w1.sameMap.mapped hm)
    have w3 := (Bytes.iget_forward hm2 (Nat.le_refl 1) h3).1
    have hm3 := w3.sameMap.mapped hm2
    have w4 : c3.Forward insn := by
      split at h4
      · exact (Bytes.iget_forward hm3 (by omega) h4).1
      · exact (Bytes.iget_forward hm3 (by omega) h4).1
    exact Or.inr (((w1.further w2).further w3).further w4)
  | setDiscriminator c1 c2 c3 insn len v h0 h1 h2 h3 h4 =>
    have w1 := (Bytes.iget_forward hm (Nat.le_refl 1) h1).1
    have w2 := (Bytes.uleb_forward (w1.sameMap.mapped hm) h2).1
    have hm2 := w2.sameMap.mapped (w1.sameMap.mapped hm)
    have w3 := (Bytes.iget_forward hm2 (Nat.le_refl 1) h3).1
    have w4 := (Bytes.uleb_forward (w3.sameMap.mapped hm2) h4).1
    exact Or.inr (((w1.further w2).further w3).further w4)
  | copy insn loc h0 h1 hb hloc =>
    exact Or.inr (Bytes.iget_forward hm (Nat.le_refl 1) h1).1
  | advancePc c1 insn utmp m1 h0 h1 hb h2 h3 =>
    obtain ⟨-, rfl⟩ := addrAndOpAdvance_inv h3
    have w1 := (Bytes.iget_forward hm (Nat.le_refl 1) h1).1
    have w2 := (Bytes.uleb_forward (w1.sameMap.mapped hm) h2).1
    exact Or.inr (w1.further w2)
  | advanceLine c1 insn stmp h0 h1 hb h2 =>
    have w1 := (Bytes.iget_forward hm (Nat.le_refl 1) h1).1
    have w2 := (Bytes.sleb_forward (w1.sameMap.mapped hm) h2).1
    exact Or.inr (w1.further w2)
  | setFile c1 insn utmp h0 h1 hb h2 =>
    have w1 := (Bytes.iget_forward hm (Nat.le_refl 1) h1).1
    have w2 := (Bytes.uleb_forward (w1.sameMap.mapped hm) h2).1
    exact Or.inr (w1.further w2)
  | setColumn c1 insn utmp h0 h1 hb h2 =>
    have w1 := (Bytes.iget_forward hm (Nat.le_refl 1) h1).1
    have w2 := (Bytes.uleb_forward (w1.sameMap.mapped hm) h2).1
    exact Or.inr (w1.further w2)
  | negateStmt insn h0 h1 hb =>
    exact Or.inr (Bytes.iget_forward hm (Nat.le_refl 1) h1).1
  | setBasicBlock insn h0 h1 hb =>
    exact Or.inr (Bytes.iget_forward hm (Nat.le_refl 1) h1).1
  | constAddPc insn m1 h0 h1 hb hlr h3 =>
    obtain ⟨-, rfl⟩ := addrAndOpAdvance_inv h3
    exact Or.inr (Bytes.iget_forward hm (Nat.le_refl 1) h1).1
  | fixedAdvancePc c1 insn utmp h0 h1 hb h2 =>
    have w1 := (Bytes.iget_forward hm (Nat.le_refl 1) h1).1
    have w2 := (Bytes.iget_forward (w1.sameMap.mapped hm) (by omega) h2).1
    exact Or.inr (w1.further w2)
  | setPrologueEnd insn h0 h1 hb =>
    exact Or.inr (Bytes.iget_forward hm (Nat.le_refl 1) h1).1
  | setEpilogueBegin insn h0 h1 hb =>
    exact Or.inr (Bytes.iget_forward hm (Nat.le_refl 1) h1).1
  | setIsa c1 insn utmp h0 h1 hb h2 =>
    have w1 := (Bytes.iget_forward hm (Nat.le_refl 1) h1).1
    have w2 := (Bytes.uleb_forward (w1.sameMap.mapped hm) h2).1
    exact Or.inr (w1.further w2)
  | special op insn m1 loc h0 h1 hop hb hlr h3 hloc =>
    obtain ⟨-, rfl⟩ := addrAndOpAdvance_inv h3
    exact Or.inr (Bytes.iget_forward hm (Nat.le_refl 1) h1).1

end DWARF5DebugMachine

end ObjReader

namespace ObjReader

namespace DWARF5DebugMachine

/-! ## Termination: `nextLoc()` -/

theorem nextLocLoop_terminates : ∀ (fuel : Nat) (m : DWARF5DebugMachine) (ret : SourceLoc),
    m.insn_.Mapped → m.insn_.ahead < fuel → Terminates (nextLocLoop fuel m ret) := by
  intro fuel
  induction fuel with
  | zero => intro m ret _ h; omega
  | succ n ih =>
    intro m ret hm hfuel
    rw [nextLocLoop]
    refine Terminates.bind (nextLocInto_terminates m ret hm) (fun p hp => ?_)
    obtain ⟨gotNext, ret1, m1⟩ := p
    dsimp only
    split
    · exact Terminates.pure _
    · rename_i hg
      rcases (nextLocInto_executed hp).forward hm with ⟨-, hb, -, -⟩ | hf
      · exact absurd hb hg
      · exact ih _ _ (hf.sameMap.mapped hm) (by have := hf.ahead_lt; omega)

theorem nextLocLoop_forward : ∀ (fuel : Nat) (m m' : DWARF5DebugMachine) (ret loc : SourceLoc),
    m.insn_.Mapped → nextLocLoop fuel m ret = .ok (loc, m') →
    (loc = ret ∧ m' = m) ∨ m.insn_.Forward m'.insn_ := by
  intro fuel
  induction fuel with
  | zero => intro m m' ret loc _ h; cases h
  | succ n ih =>
    intro m m' ret loc hm h
    rw [nextLocLoop] at h
    obtain ⟨⟨gotNext, ret1, m1⟩, hp, h⟩ := bind_ok h
    dsimp only at h
    have hfw := (nextLocInto_executed hp).forward hm
    by_cases hg : gotNext = true
    · rw [if_pos hg] at h
      cases h
      rcases hfw with ⟨-, -, hr, hmm⟩ | hf
      · exact Or.inl ⟨hr, hmm⟩
      · exact Or.inr hf
    · rw [if_neg hg] at h
      rcases hfw with ⟨-, hb, -, -⟩ | hf
      · exact absurd hb hg
      · rcases ih _ _ _ _ (hf.sameMap.mapped hm) h with ⟨-, hmm⟩ | hf2
        · rw [hmm]; exact Or.inr hf
        · exact Or.inr (hf.further hf2)

/-- A call of `nextLoc()` on a stream in a mapped file ends. -/
theorem nextLoc_terminates (m : DWARF5DebugMachine) (hm : m.insn_.Mapped) :
    Terminates m.nextLoc := by
  unfold nextLoc
  exact nextLocLoop_terminates _ _ _ hm (by have := Bytes.ahead_le m.insn_; omega)

/-- A call of `nextLoc()` that returns a row has moved the stream forward. -/
theorem nextLoc_forward {m m' : DWARF5DebugMachine} {loc : SourceLoc} (hm : m.insn_.Mapped)
    (h : m.nextLoc = .ok (loc, m')) (hrow : loc.toBool = true) :
    m.insn_.Forward m'.insn_ := by
  unfold nextLoc at h
  rcases nextLocLoop_forward _ _ _ _ _ hm h with ⟨hl, -⟩ | hf
  · rw [hl] at hrow
    cases hrow
  · exact hf

end DWARF5DebugMachine

namespace DWARFDebugTable

/-- The inner loop of `sourceLocAtAddr` ends within `ahead + 2` rounds, `ahead` being the
number of mapped bytes from the start of the instruction stream on. -/
theorem driveMachine_terminates : ∀ (fuel : Nat) (t : DWARFDebugTable), 1 ≤ fuel →
    (∀ m, t.machine_ = some m → m.insn_.Mapped ∧ m.insn_.ahead + 2 ≤ fuel) →
    Terminates (driveMachine fuel t) := by
  intro fuel
  induction fuel with
  | zero => intro t h _; omega
  | succ n ih =>
    intro t _ hmach
    rw [driveMachine]
    cases hm : t.machine_ with
    | none => exact Terminates.ok _
    | some m =>
      dsimp only
      obtain ⟨hmap, hfuel⟩ := hmach m hm
      refine Terminates.bind (DWARF5DebugMachine.nextLoc_terminates m hmap) (fun p hp => ?_)
      obtain ⟨loc, m1⟩ := p
      dsimp only
      split
      · rename_i hrow
        have hf := DWARF5DebugMachine.nextLoc_forward hmap hp hrow
        have hlt := hf.ahead_lt
        refine ih _ (by omega) (fun m2 h2 => ?_)
        cases h2
        exact ⟨hf.sameMap.mapped hmap, by omega⟩
      · refine ih _ (by omega) (fun m2 h2 => ?_)
        cases h2

end DWARFDebugTable

end ObjReader

namespace ObjReader

/-! ## Termination: the header parse -/

namespace Bytes

theorem str_scan_terminates : ∀ (bs : List Byte), Terminates (Bytes.str.scan bs) := by
  intro bs
  induction bs with
  | nil => exact Terminates.error (by decide)
  | cons b bs ih =>
    rw [Bytes.str.scan]
    split
    · exact Terminates.ok _
    · exact Terminates.bind ih (fun _ _ => Terminates.pure _)

theorem str_terminates (c : Bytes) (off : Nat) : Terminates (c.str off) := by
  unfold str
  dsimp only
  split
  · exact str_scan_terminates _
  · exact Terminates.error (by decide)

theorem slice_sameMap {c r : Bytes} {off : Nat} (h : c.slice off = .ok r) :
    r.SameMap c ∧ r.limit_ = c.limit_ ∧ r.base_ = (c.base_ + off) % 2 ^ 64 ∧
      ¬ c.base_ > (c.limit_ + 2 ^ 64 - off % 2 ^ 64) % 2 ^ 64 := by
  unfold slice at h
  split at h
  · cases h
  · rename_i hc
    cases h
    exact ⟨⟨rfl, rfl⟩, rfl, rfl, hc⟩

/-- The range test a successful read has passed. -/
theorem iget_check {c r : Bytes} {w v : Nat} (h : c.iget w = .ok (v, r)) :
    ¬ c.base_ > (c.limit_ + 2 ^ 64 - w % 2 ^ 64) % 2 ^ 64 := by
  unfold iget at h
  obtain ⟨s, hs, -⟩ := bind_ok h
  exact (slice_sameMap hs).2.2.2

end Bytes

namespace dwarf5

theorem contentType_terminates (x : Nat) : Terminates (contentType x) := by
  unfold contentType
  split
  · split
    · exact Terminates.ok _
    · exact Terminates.error (by decide)
  · exact Terminates.ok _

theorem formType_terminates (x : Nat) : Terminates (formType x) := by
  unfold formType
  split
  · split
    · exact Terminates.ok _
    · exact Terminates.error (by decide)
  · exact Terminates.ok _

theorem EntryData.readForm_terminates (pos : Bytes) (ftype : Nat) (is64Bit : Bool) (u64 : Nat)
    (str : List Byte) (lineStrs : Bytes) (hm : pos.Mapped) :
    Terminates (EntryData.readForm pos ftype is64Bit u64 str lineStrs) := by
  unfold EntryData.readForm
  split
  · dsimp only
    split
    · refine Terminates.bind (Bytes.iget_terminates _ _) (fun p _ => ?_)
      exact Terminates.bind (Bytes.str_terminates _ _) (fun _ _ => Terminates.pure _)
    · refine Terminates.bind (Bytes.iget_terminates _ _) (fun p _ => ?_)
      exact Terminates.bind (Bytes.str_terminates _ _) (fun _ _ => Terminates.pure _)
  · split
    · exact Terminates.bind (Bytes.uleb_terminates _ _ hm) (fun _ _ => Terminates.pure _)
    · exact Terminates.error (by decide)

theorem EntryData.readForm_sameMap {pos r : Bytes} {ftype : Nat} {is64Bit : Bool}
    {u64 v : Nat} {str s : List Byte} {lineStrs : Bytes} (hm : pos.Mapped)
    (h : EntryData.readForm pos ftype is64Bit u64 str lineStrs = .ok (r, v, s)) :
    r.SameMap pos := by
  unfold EntryData.readForm at h
  split at h
  · dsimp only at h
    split at h
    · obtain ⟨⟨x, p⟩, hp, h⟩ := bind_ok h
      obtain ⟨y, -, h⟩ := bind_ok h
      cases h
      exact (Bytes.iget_forward hm (by omega) hp).1.sameMap
    · obtain ⟨⟨x, p⟩, hp, h⟩ := bind_ok h
      obtain ⟨y, -, h⟩ := bind_ok h
      cases h
      exact (Bytes.iget_forward hm (by omega) hp).1.sameMap
  · split at h
    · obtain ⟨⟨x, p⟩, hp, h⟩ := bind_ok h
      cases h
      exact (Bytes.uleb_forward hm hp).1.sameMap
    · cases h

theorem EntryData.read_terminates (d : EntryData) (pos : Bytes) (ctype : ContentType)
    (ftype : Nat) (is64Bit : Bool) (lineStrs : Bytes) (hm : pos.Mapped) :
    Terminates (d.read pos ctype ftype is64Bit lineStrs) := by
  unfold EntryData.read
  split
  · exact Terminates.error (by decide)
  · exact Terminates.bind (EntryData.readForm_terminates _ _ _ _ _ _ hm)
      (fun _ _ => Terminates.pure _)

theorem EntryData.read_sameMap {d d' : EntryData} {pos r : Bytes} {ctype : ContentType}
    {ftype : Nat} {is64Bit : Bool} {lineStrs : Bytes} (hm : pos.Mapped)
    (h : d.read pos ctype ftype is64Bit lineStrs = .ok (r, d')) : r.SameMap pos := by
  unfold EntryData.read at h
  split at h
  · cases h
  · obtain ⟨⟨p, v, s⟩, hp, h⟩ := bind_ok h
    cases h
    exact EntryData.readForm_sameMap hm hp

end dwarf5

namespace DWARF5DebugMachine

open dwarf5

theorem readOpcodeLens_terminates : ∀ (n : Nat) (cur : Bytes) (acc : List Nat),
    Terminates (readOpcodeLens n cur acc) := by
  intro n
  induction n with
  | zero => intro cur acc; exact Terminates.ok _
  | succ n ih =>
    intro cur acc
    rw [readOpcodeLens]
    exact Terminates.bind (Bytes.iget_terminates _ _) (fun p _ => ih _ _)

theorem readOpcodeLens_sameMap : ∀ (n : Nat) {cur r : Bytes} {acc out : List Nat},
    cur.Mapped → readOpcodeLens n cur acc = .ok (r, out) → r.SameMap cur := by
  intro n
  induction n with
  | zero =>
    intro cur r acc out _ h
    rw [readOpcodeLens] at h
    cases h
    exact Bytes.SameMap.same _
  | succ n ih =>
    intro cur r acc out hm h
    rw [readOpcodeLens] at h
    obtain ⟨⟨v, c1⟩, hp, h⟩ := bind_ok h
    have hs := (Bytes.iget_forward hm (Nat.le_refl 1) hp).1.sameMap
    exact (ih (hs.mapped hm) h).chain hs

theorem readFormats_terminates : ∀ (n : Nat) (cur : Bytes) (acc : List EntryFormat),
    cur.Mapped → Terminates (readFormats n cur acc) := by
  intro n
  induction n with
  | zero => intro cur acc _; exact Terminates.ok _
  | succ n ih =>
    intro cur acc hm
    rw [readFormats]
    refine Terminates.bind (Bytes.uleb_terminates _ _ hm) (fun p hp => ?_)
    obtain ⟨ct, c1⟩ := p
    have hm1 := (Bytes.uleb_forward hm hp).1.sameMap.mapped hm
    dsimp only
    refine Terminates.bind (Bytes.uleb_terminates _ _ hm1) (fun q hq => ?_)
    obtain ⟨ft, c2⟩ := q
    have hm2 := (Bytes.uleb_forward hm1 hq).1.sameMap.mapped hm1
    dsimp only
    refine Terminates.bind (contentType_terminates _) (fun c _ => ?_)
    refine Terminates.bind (formType_terminates _) (fun f _ => ?_)
    exact ih _ _ hm2

theorem readFormats_sameMap : ∀ (n : Nat) {cur r : Bytes} {acc out : List EntryFormat},
    cur.Mapped → readFormats n cur acc = .ok (r, out) → r.SameMap cur := by
  intro n
  induction n with
  | zero =>
    intro cur r acc out _ h
    rw [readFormats] at h
    cases h
    exact Bytes.SameMap.same _
  | succ n ih =>
    intro cur r acc out hm h
    rw [readFormats] at h
    obtain ⟨⟨ct, c1⟩, hp, h⟩ := bind_ok h
    have hs1 := (Bytes.uleb_forward hm hp).1.sameMap
    obtain ⟨⟨ft, c2⟩, hq, h⟩ := bind_ok h
    have hs2 := (Bytes.uleb_forward (hs1.mapped hm) hq).1.sameMap
    obtain ⟨c, -, h⟩ := bind_ok h
    obtain ⟨f, -, h⟩ := bind_ok h
    exact (ih ((hs2.chain hs1).mapped hm) h).chain (hs2.chain hs1)

theorem readRecord_terminates (is64bit : Bool) (lineStrs : Bytes) :
    ∀ (fmts : List EntryFormat) (cur : Bytes) (d : EntryData) (out : List EntryData),
      cur.Mapped → Terminates (readRecord is64bit lineStrs fmts cur d out) := by
  intro fmts
  induction fmts with
  | nil => intro cur d out _; exact Terminates.ok _
  | cons fmt rest ih =>
    intro cur d out hm
    rw [readRecord]
    refine Terminates.bind (EntryData.read_terminates _ _ _ _ _ _ hm) (fun p hp => ?_)
    obtain ⟨c1, d1⟩ := p
    exact ih _ _ _ ((EntryData.read_sameMap hm hp).mapped hm)

theorem readRecord_sameMap (is64bit : Bool) (lineStrs : Bytes) :
    ∀ (fmts : List EntryFormat) {cur r : Bytes} {d d' : EntryData} {out out' : List EntryData},
      cur.Mapped → readRecord is64bit lineStrs fmts cur d out = .ok (r, d', out') →
      r.SameMap cur := by
  intro fmts
  induction fmts with
  | nil =>
    intro cur r d d' out out' _ h
    rw [readRecord] at h
    cases h
    exact Bytes.SameMap.same _
  | cons fmt rest ih =>
    intro cur r d d' out out' hm h
    rw [readRecord] at h
    obtain ⟨⟨c1, d1⟩, hp, h⟩ := bind_ok h
    have hs := EntryData.read_sameMap hm hp
    exact (ih (hs.mapped hm) h).chain hs

theorem readRecords_terminates (is64bit : Bool) (lineStrs : Bytes) (fmts : List EntryFormat) :
    ∀ (n : Nat) (cur : Bytes) (out : List EntryData),
      cur.Mapped → Terminates (readRecords is64bit lineStrs fmts n cur out) := by
  intro n
  induction n with
  | zero => intro cur out _; exact Terminates.ok _
  | succ n ih =>
    intro cur out hm
    rw [readRecords]
    refine Terminates.bind (readRecord_terminates _ _ _ _ _ _ hm) (fun p hp => ?_)
    obtain ⟨c1, d1, out1⟩ := p
    exact ih _ _ ((readRecord_sameMap _ _ _ hm hp).mapped hm)

theorem readRecords_sameMap (is64bit : Bool) (lineStrs : Bytes) (fmts : List EntryFormat) :
    ∀ (n : Nat) {cur r : Bytes} {out out' : List EntryData},
      cur.Mapped → readRecords is64bit lineStrs fmts n cur out = .ok (r, out') →
      r.SameMap cur := by
  intro n
  induction n with
  | zero =>
    intro cur r out out' _ h
    rw [readRecords] at h
    cases h
    exact Bytes.SameMap.same _
  | succ n ih =>
    intro cur r out out' hm h
    rw [readRecords] at h
    obtain ⟨⟨c1, d1, out1⟩, hp, h⟩ := bind_ok h
    have hs := readRecord_sameMap _ _ _ hm hp
    exact (ih (hs.mapped hm) h).chain hs

theorem readUnitLength_terminates (lineData : Bytes) : Terminates (readUnitLength lineData) := by
  unfold readUnitLength
  refine Terminates.bind (Bytes.iget_terminates _ _) (fun p _ => ?_)
  obtain ⟨len32, cur⟩ := p
  dsimp only
  split
  · exact Terminates.pure _
  · exact Terminates.bind (Bytes.iget_terminates _ _) (fun _ _ => Terminates.pure _)

/-- The cursor past `unit_length` lies further on in the mapped file, and the length read
is a 64-bit value. -/
theorem readUnitLength_forward {lineData c0 : Bytes} {L : Nat} {is64 : Bool}
    (hm : lineData.Mapped) (h : readUnitLength lineData = .ok (L, is64, c0)) :
    lineData.Forward c0 ∧ c0.limit_ = lineData.limit_ ∧ L < 2 ^ 64 ∧
      ¬ lineData.base_ > (lineData.limit_ + 2 ^ 64 - 4) % 2 ^ 64 := by
  obtain ⟨first, c, hf, h64, h32⟩ := readUnitLength_inv h
  have w1 := Bytes.iget_forward hm (by omega) hf
  have hchk := Bytes.iget_check hf
  have hflt := Bytes.iget_lt hf
  by_cases hq : first = 0xffffffff
  · obtain ⟨h2, -⟩ := h64 hq
    have w2 := Bytes.iget_forward (w1.1.sameMap.mapped hm) (by omega) h2
    have hlt := Bytes.iget_lt h2
    exact ⟨w1.1.further w2.1, w2.2.2.trans w1.2.2, by norm_num at hlt ⊢; exact hlt, hchk⟩
  · obtain ⟨rfl, rfl, -⟩ := h32 hq
    exact ⟨w1.1, w1.2.2, by norm_num at hflt ⊢; omega, hchk⟩

theorem readHeaderLength_terminates (is64bit : Bool) (cur : Bytes) :
    Terminates (readHeaderLength is64bit cur) := by
  unfold readHeaderLength
  split
  · exact Bytes.iget_terminates _ _
  · exact Bytes.iget_terminates _ _

theorem readHeaderLength_sameMap {is64bit : Bool} {cur r : Bytes} {v : Nat} (hm : cur.Mapped)
    (h : readHeaderLength is64bit cur = .ok (v, r)) : r.SameMap cur := by
  unfold readHeaderLength at h
  split at h
  · exact (Bytes.iget_forward hm (by omega) h).1.sameMap
  · exact (Bytes.iget_forward hm (by omega) h).1.sameMap

end DWARF5DebugMachine

end ObjReader

namespace ObjReader

namespace DWARF5DebugMachine

open dwarf5

/-! ## Termination: the constructor -/

theorem mapped_of_fields {c r : Bytes} (ho : r.org = c.org) (hmem : r.mem = c.mem)
    (hm : c.Mapped) : r.Mapped :=
  Bytes.SameMap.mapped ⟨ho, hmem⟩ hm

/-- The header parse over line data in a mapped file ends. -/
theorem readHeader_terminates (lineData lineStrs : Bytes) (hm : lineData.Mapped) :
    Terminates (readHeader lineData lineStrs) := by
  unfold readHeader
  refine Terminates.bind (readUnitLength_terminates _) (fun p hp => ?_)
  obtain ⟨length, is64bit, c0⟩ := p
  have hm0 : c0.Mapped := (readUnitLength_forward hm hp).1.sameMap.mapped hm
  dsimp only
  refine Terminates.bind (Bytes.slice_terminates _ _) (fun nextUnit _ => ?_)
  have hmt : (c0.truncate length).Mapped := mapped_of_fields rfl rfl hm0
  refine Terminates.bind (Bytes.iget_terminates _ _) (fun p1 h1 => ?_)
  obtain ⟨version, c1⟩ := p1
  have hm1 := (Bytes.iget_forward hmt (by omega) h1).1.sameMap.mapped hmt
  dsimp only
  refine Terminates.bind (Bytes.iget_terminates _ _) (fun p2 h2 => ?_)
  obtain ⟨addrSize, c2⟩ := p2
  have hm2 := (Bytes.iget_forward hm1 (by omega) h2).1.sameMap.mapped hm1
  dsimp only
  refine Terminates.bind (Bytes.iget_terminates _ _) (fun p3 h3 => ?_)
  obtain ⟨segSelectorSize, c3⟩ := p3
  have hm3 := (Bytes.iget_forward hm2 (by omega) h3).1.sameMap.mapped hm2
  dsimp only
  refine Terminates.bind (readHeaderLength_terminates _ _) (fun p4 h4 => ?_)
  obtain ⟨headerLength, c4⟩ := p4
  have hm4 := (readHeaderLength_sameMap hm3 h4).mapped hm3
  dsimp only
  refine Terminates.bind (Bytes.slice_terminates _ _) (fun programStart _ => ?_)
  refine Terminates.bind (Bytes.iget_terminates _ _) (fun p5 h5 => ?_)
  obtain ⟨minInsnLength, c5⟩ := p5
  have hm5 := (Bytes.iget_forward hm4 (by omega) h5).1.sameMap.mapped hm4
  dsimp only
  refine Terminates.bind (Bytes.iget_terminates _ _) (fun p6 h6 => ?_)
  obtain ⟨maxOpsPerInsn, c6⟩ := p6
  have hm6 := (Bytes.iget_forward hm5 (by omega) h6).1.sameMap.mapped hm5
  dsimp only
  refine Terminates.bind (Bytes.iget_terminates _ _) (fun p7 h7 => ?_)
  obtain ⟨defaultIsStmt, c7⟩ := p7
  have hm7 := (Bytes.iget_forward hm6 (by omega) h7).1.sameMap.mapped hm6
  dsimp only
  refine Terminates.bind (Bytes.iget_terminates _ _) (fun p8 h8 => ?_)
  obtain ⟨lineBase, c8⟩ := p8
  have hm8 := (Bytes.iget_forward hm7 (by omega) h8).1.sameMap.mapped hm7
  dsimp only
  refine Terminates.bind (Bytes.iget_terminates _ _) (fun p9 h9 => ?_)
  obtain ⟨lineRange, c9⟩ := p9
  have hm9 := (Bytes.iget_forward hm8 (by omega) h9).1.sameMap.mapped hm8
  dsimp only
  refine Terminates.bind (Bytes.iget_terminates _ _) (fun p10 h10 => ?_)
  obtain ⟨opcodeBase, c10⟩ := p10
  have hm10 := (Bytes.iget_forward hm9 (by omega) h10).1.sameMap.mapped hm9
  dsimp only
  split
  · exact Terminates.error (by decide)
  refine Terminates.bind (Terminates.pure _) (fun _ _ => ?_)
  refine Terminates.bind (readOpcodeLens_terminates _ _ _) (fun p11 h11 => ?_)
  obtain ⟨c11, lens⟩ := p11
  have hm11 := (readOpcodeLens_sameMap _ hm10 h11).mapped hm10
  dsimp only
  refine Terminates.bind (Bytes.iget_terminates _ _) (fun p12 h12 => ?_)
  obtain ⟨dirEntryFormatCount, c12⟩ := p12
  have hm12 := (Bytes.iget_forward hm11 (by omega) h12).1.sameMap.mapped hm11
  dsimp only
  refine Terminates.bind (readFormats_terminates _ _ _ hm12) (fun p13 h13 => ?_)
  obtain ⟨c13, dirEntryFormats⟩ := p13
  have hm13 := (readFormats_sameMap _ hm12 h13).mapped hm12
  dsimp only
  refine Terminates.bind (Bytes.uleb_terminates _ _ hm13) (fun p14 h14 => ?_)
  obtain ⟨dirCount, c14⟩ := p14
  have hm14 := (Bytes.uleb_forward hm13 h14).1.sameMap.mapped hm13
  dsimp only
  refine Terminates.bind (readRecords_terminates _ _ _ _ _ _ hm14) (fun p15 h15 => ?_)
  obtain ⟨c15, directories⟩ := p15
  have hm15 := (readRecords_sameMap _ _ _ _ hm14 h15).mapped hm14
  dsimp only
  refine Terminates.bind (Bytes.iget_terminates _ _) (fun p16 h16 => ?_)
  obtain ⟨fileEntryFormatCount, c16⟩ := p16
  have hm16 := (Bytes.iget_forward hm15 (by omega) h16).1.sameMap.mapped hm15
  dsimp only
  refine Terminates.bind (readFormats_terminates _ _ _ hm16) (fun p17 h17 => ?_)
  obtain ⟨c17, fileEntryFormats⟩ := p17
  have hm17 := (readFormats_sameMap _ hm16 h17).mapped hm16
  dsimp only
  refine Terminates.bind (Bytes.uleb_terminates _ _ hm17) (fun p18 h18 => ?_)
  obtain ⟨fileCount, c18⟩ := p18
  have hm18 := (Bytes.uleb_forward hm17 h18).1.sameMap.mapped hm17
  dsimp only
  refine Terminates.bind (readRecords_terminates _ _ _ _ _ _ hm18) (fun p19 _ => ?_)
  exact Terminates.pure _

/-- The constructor over line data in a mapped file ends. -/
theorem new_terminates (lineData lineStrs : Bytes) (hm : lineData.Mapped) :
    Terminates (new lineData lineStrs) := by
  unfold new
  refine Terminates.bind (readHeader_terminates _ _ hm) (fun p _ => ?_)
  obtain ⟨m, cur, ps⟩ := p
  dsimp only
  split
  · exact Terminates.pure _
  · exact Terminates.pure _

end DWARF5DebugMachine

end ObjReader

namespace ObjReader

namespace DWARF5DebugMachine

open dwarf5

/-! ## Termination: from unit to unit -/

/-- The cursor after the last file record points into the mapping of the line data. -/
theorem readHeader_sameMap {lineData lineStrs cur ps : Bytes} {m0 : DWARF5DebugMachine}
    (hm : lineData.Mapped) (h : readHeader lineData lineStrs = .ok (m0, cur, ps)) :
    cur.SameMap lineData := by
  obtain ⟨c0, c1, c2, c3, c4, c5, c6, c7, c8, c9, c10, c11, c12, c13, c14, c15, c16, c17,
    c18, headerLength, defaultIsStmt, lineBase, dirFormatCount, dirCount, fileFormatCount,
    fileCount, h0, h1, h2, h3, h4, h5, h6, h7, h8, h9, h10, h11, h12, hob, h14, h15, h16,
    h17, h18, h19, h20, h21, h22, -, -, -⟩ := readHeader_inv h
  have s0 := (readUnitLength_forward hm h0).1.sameMap
  have st : (c0.truncate m0.header_.length).SameMap lineData := ⟨s0.1, s0.2⟩
  have s1 := ((Bytes.iget_forward (st.mapped hm) (by omega) h2).1.sameMap).chain st
  have s2 := ((Bytes.iget_forward (s1.mapped hm) (by omega) h3).1.sameMap).chain s1
  have s3 := ((Bytes.iget_forward (s2.mapped hm) (by omega) h4).1.sameMap).chain s2
  have s4 := (readHeaderLength_sameMap (s3.mapped hm) h5).chain s3
  have s5 := ((Bytes.iget_forward (s4.mapped hm) (by omega) h7).1.sameMap).chain s4
  have s6 := ((Bytes.iget_forward (s5.mapped hm) (by omega) h8).1.sameMap).chain s5
  have s7 := ((Bytes.iget_forward (s6.mapped hm) (by omega) h9).1.sameMap).chain s6
  have s8 := ((Bytes.iget_forward (s7.mapped hm) (by omega) h10).1.sameMap).chain s7
  have s9 := ((Bytes.iget_forward (s8.mapped hm) (by omega) h11).1.sameMap).chain s8
  have s10 := ((Bytes.iget_forward (s9.mapped hm) (by omega) h12).1.sameMap).chain s9
  have s11 := (readOpcodeLens_sameMap _ (s10.mapped hm) h14).chain s10
  have s12 := ((Bytes.iget_forward (s11.mapped hm) (by omega) h15).1.sameMap).chain s11
  have s13 := (readFormats_sameMap _ (s12.mapped hm) h16).chain s12
  have s14 := ((Bytes.uleb_forward (s13.mapped hm) h17).1.sameMap).chain s13
  have s15 := (readRecords_sameMap _ _ _ _ (s14.mapped hm) h18).chain s14
  have s16 := ((Bytes.iget_forward (s15.mapped hm) (by omega) h19).1.sameMap).chain s15
  have s17 := (readFormats_sameMap _ (s16.mapped hm) h20).chain s16
  have s18 := ((Bytes.uleb_forward (s17.mapped hm) h21).1.sameMap).chain s17
  exact (readRecords_sameMap _ _ _ _ (s18.mapped hm) h22).chain s18

theorem check_of_le {k w : Nat} (hw : w < 2 ^ 64) (hk : w ≤ k) (hk2 : k < 2 ^ 64) :
    (k + 2 ^ 64 - w % 2 ^ 64) % 2 ^ 64 = k - w := by
  rw [Nat.mod_eq_of_lt hw, show k + 2 ^ 64 - w = (k - w) + 2 ^ 64 from by omega,
    Nat.add_mod_right, Nat.mod_eq_of_lt (by omega)]

/-- Of a machine the constructor has built over line data in a mapped file: the instruction
stream and the next-unit cursor point into the same mapping, the next-unit cursor has the
limit of the line data, and fewer mapped bytes lie ahead of it than of the line data. The
next-unit cursor that a wrapped range test lets through starts at the address 0 or past the
limit; it is counted as having no mapped bytes ahead when it starts in front of the file. -/
theorem new_progress {lineData lineStrs : Bytes} {m : DWARF5DebugMachine}
    (hm : lineData.Mapped) (h8 : 8 ≤ lineData.limit_) (hl : lineData.limit_ < 2 ^ 64)
    (h : new lineData lineStrs = .ok m) :
    m.insn_.SameMap lineData ∧ m.nextUnit_.SameMap lineData ∧
      m.nextUnit_.limit_ = lineData.limit_ ∧ m.nextUnit_.ahead < lineData.ahead := by
  obtain ⟨m0, cur, ps, hr, hmm⟩ := new_inv h
  have hcur := readHeader_sameMap hm hr
  obtain ⟨c0, c1, c2, c3, c4, c5, c6, c7, c8, c9, c10, c11, c12, c13, c14, c15, c16, c17,
    c18, headerLength, defaultIsStmt, lineBase, dirFormatCount, dirCount, fileFormatCount,
    fileCount, h0, h1, h2, h3, -, -, -, -, -, -, -, -, -, -, -, -, -, -, -, -, -, -, -, hins,
    -, -⟩ := readHeader_inv hr
  have hnu : m.nextUnit_ = m0.nextUnit_ := by
    rw [hmm]; split <;> rfl
  have hinsn : m.insn_.SameMap lineData := by
    rw [hmm]
    split
    · rw [hins]; exact ⟨rfl, rfl⟩
    · exact hcur
  obtain ⟨hf0, hl0, hL, -⟩ := readUnitLength_forward hm h0
  obtain ⟨hs, hlim, hbase, -⟩ := Bytes.slice_sameMap h1
  rw [hnu]
  refine ⟨hinsn, hs.chain hf0.sameMap, hlim.trans hl0, ?_⟩
  obtain ⟨ho, hmem, hlo, hlt, hup⟩ := hf0
  have hmt : (c0.truncate m0.header_.length).Mapped := mapped_of_fields ho hmem hm
  have hchk2 := Bytes.iget_check h2
  obtain ⟨hf2, hb2, hl2⟩ := Bytes.iget_forward hmt (by omega) h2
  have hchk3 := Bytes.iget_check h3
  have htl : (c0.truncate m0.header_.length).limit_ =
      min ((c0.base_ + m0.header_.length) % 2 ^ 64) c0.limit_ := rfl
  have htb : (c0.truncate m0.header_.length).base_ = c0.base_ := rfl
  rw [hl2, htl] at hchk3
  rw [htl, htb] at hchk2
  rw [hb2, htb] at hchk3
  have hM := hm.2
  have hO := hm.1
  unfold Bytes.ahead
  rw [hs.1, hs.2, ho, hmem, hbase, if_pos hlo]
  by_cases hwrap : c0.base_ + m0.header_.length < 2 ^ 64
  · rw [Nat.mod_eq_of_lt hwrap, if_pos (by omega)]
    omega
  · have hnb : (c0.base_ + m0.header_.length) % 2 ^ 64 =
        c0.base_ + m0.header_.length - 2 ^ 64 := by
      rw [Nat.mod_eq_sub_mod (by omega), Nat.mod_eq_of_lt (by omega)]
    rw [hnb] at hchk2 hchk3 ⊢
    rw [hl0] at hchk2 hchk3
    have hX : c0.base_ + m0.header_.length - 2 ^ 64 < c0.base_ := by omega
    have hzero : c0.base_ + m0.header_.length - 2 ^ 64 = 0 := by
      generalize c0.base_ + m0.header_.length - 2 ^ 64 = X at hX hchk2 hchk3
      have hk1 : min X lineData.limit_ ≤ X := Nat.min_le_left _ _
      have hk2 : min X lineData.limit_ = X ∨ min X lineData.limit_ = lineData.limit_ := by
        rcases Nat.le_total X lineData.limit_ with hle | hle
        · exact Or.inl (Nat.min_eq_left hle)
        · exact Or.inr (Nat.min_eq_right hle)
      generalize min X lineData.limit_ = k at hk1 hk2 hchk2 hchk3
      have hklt : k < 2 ^ 64 := by omega
      have hk0 : k = 0 := by
        by_contra hne
        by_cases h2k : 2 ≤ k
        · rw [check_of_le (by norm_num) h2k hklt] at hchk2
          omega
        · have hone : k = 1 := by omega
          subst hone
          rw [check_of_le (by norm_num) (Nat.le_refl 1) hklt] at hchk3
          omega
      omega
    rw [hzero, if_neg (by omega)]
    omega

end DWARF5DebugMachine

namespace DWARFDebugTable

/-- The outer loop of `sourceLocAtAddr`, entered without a machine on line data in a mapped
file, ends within `ahead + 1` rounds, `ahead` being the number of mapped bytes from the
start of the line data on: every round builds a machine over the line data, runs it to its
end and goes on with its next-unit cursor, which has fewer mapped bytes ahead. -/
theorem driveUnits_terminates : ∀ (fuel : Nat) (t : DWARFDebugTable), t.machine_ = none →
    t.lineData_.Mapped → 8 ≤ t.lineData_.limit_ → t.lineData_.limit_ < 2 ^ 64 →
    t.lineData_.ahead + 1 ≤ fuel → Terminates (driveUnits fuel t) := by
  intro fuel
  induction fuel with
  | zero => intro t _ _ _ _ h; omega
  | succ n ih =>
    intro t hnone hm h8 hl hfuel
    by_cases hd : t.lineData_.toBool = true
    · rw [driveUnits_none n hnone hd]
      refine Terminates.bind (DWARF5DebugMachine.new_terminates _ _ hm) (fun m hnew => ?_)
      obtain ⟨hins, hnu, hlim, hprog⟩ := DWARF5DebugMachine.new_progress hm h8 hl hnew
      refine Terminates.bind (driveMachine_terminates _ _ (by omega) (fun m2 h2 => ?_))
        (fun t2 ht2 => ?_)
      · cases h2
        refine ⟨hins.mapped hm, ?_⟩
        have := Bytes.ahead_le m.insn_
        show m.insn_.ahead + 2 ≤ m.nextUnit_.mem.length + 2
        rw [hnu.2, ← hins.2]
        omega
      · obtain ⟨hm2, hld⟩ := driveMachine_drains _ _ _ ht2
        have hld' : t2.lineData_ = m.nextUnit_ := hld
        refine ih t2 hm2 ?_ ?_ ?_ ?_
        · rw [hld']; exact hnu.mapped hm
        · rw [hld', hlim]; exact h8
        · rw [hld', hlim]; exact hl
        · rw [hld']; omega
    · have hd0 : t.lineData_.toBool = false := by simpa using hd
      rw [driveUnits_of_done n hnone hd0]
      exact Terminates.ok _

theorem floorLoc_terminates (locs : AddrMap SourceLoc) (addr : Nat) :
    Terminates (floorLoc locs addr) := by
  unfold floorLoc
  split
  · exact Terminates.error (by decide)
  · split
    · exact Terminates.ok _
    · exact Terminates.error (by decide)

/-- On a table without a pending machine whose line data lie in a mapped file (mapped away
from the address 0 and from the top of the address space, the limit being an address of at
least 8), `sourceLocAtAddr` ends for every content of the two sections and every address:
no loop of the model uses up its bound. -/
theorem sourceLocAtAddr_terminates (t : DWARFDebugTable) (addr : Nat)
    (hnone : t.machine_ = none) (hm : t.lineData_.Mapped) (h8 : 8 ≤ t.lineData_.limit_)
    (hl : t.lineData_.limit_ < 2 ^ 64) : Terminates (t.sourceLocAtAddr addr) := by
  unfold sourceLocAtAddr
  refine Terminates.bind
    (driveUnits_terminates _ t hnone hm h8 hl (by have := Bytes.ahead_le t.lineData_; omega))
    (fun t1 _ => ?_)
  exact Terminates.bind (floorLoc_terminates _ _) (fun _ _ => Terminates.pure _)

end DWARFDebugTable

end ObjReader

namespace ObjReader

namespace DWARFDebugTable

/-- For every content of the line section and of the string section, mapped away from the
address 0 and from the top of the address space, a query on the freshly built table ends. -/
theorem sourceLocAtAddr_of_new_terminates (lineData lineStrs : Bytes) (addr : Nat)
    (hm : lineData.Mapped) (h8 : 8 ≤ lineData.limit_) (hl : lineData.limit_ < 2 ^ 64) :
    Terminates ((DWARFDebugTable.new lineData lineStrs).sourceLocAtAddr addr) :=
  sourceLocAtAddr_terminates _ addr rfl hm h8 hl

end DWARFDebugTable

namespace DWARF5DebugMachine

set_option maxRecDepth 20000 in
/-- C34 fails on the code in its third part. For a 64-bit unit whose `unit_length` field
exceeds the address of the end of the section, the range test of `slice` wraps (see C24)
and the constructor completes with a next-unit cursor that starts far past the section:
on the 89-byte section `Sample.unitHuge` (`unit_length = 2 ^ 63`) the machine is built, its
instruction stream holds the 15 bytes of the program and emits the row at `0x1000`, and
`nextUnit_` starts `12 + 2 ^ 63` bytes after the start of the section; its `size()` is
`2 ^ 63 + 77`, not less than 89. `sourceLocAtAddr` then builds the next machine over that
cursor, whose first read is outside the section (a range error in this model, where the
range test precedes the load). The query does end, for this section as for every other
(`sourceLocAtAddr_terminates`): what decreases from unit to unit is the number of mapped
bytes ahead of the cursor, not its size. -/
theorem next_unit_cursor_not_shorter :
    (Sample.sections Sample.unitHuge).1.size = 89 ∧
    (new (Sample.sections Sample.unitHuge).1 (Sample.sections Sample.unitHuge).2).map
        (fun m => (m.header_.length, m.nextUnit_.base_, m.nextUnit_.size, m.insn_.size)) =
      .ok (2 ^ 63, 0x100000000 + 12 + 2 ^ 63, 2 ^ 63 + 77, 15) ∧
    ((new (Sample.sections Sample.unitHuge).1 (Sample.sections Sample.unitHuge).2) >>=
        fun m => m.nextLoc.map (fun r => (r.1.addr_, r.1.line_))) = .ok (0x1000, 1) ∧
    (Sample.tableOf Sample.unitHuge).sourceLocAtAddr 0x1000 = .error .rangeError ∧
    ∀ addr, Terminates ((Sample.tableOf Sample.unitHuge).sourceLocAtAddr addr) := by
  refine ⟨by decide, by decide, by decide, by decide, fun addr => ?_⟩
  exact DWARFDebugTable.sourceLocAtAddr_terminates _ addr rfl ⟨by decide, by decide⟩
    (by decide) (by decide)

end DWARF5DebugMachine

end ObjReader

namespace ObjReader

namespace AddrMap

variable {V : Type}

/-- A key below every key of the map is not in it. -/
theorem find_none_of_lt {m : AddrMap V} {k : Nat} (h : ∀ e ∈ m, k < e.1) : m.find k = none := by
  induction m with
  | nil => rfl
  | cons hd tl ih =>
    obtain ⟨k', v'⟩ := hd
    have h1 : k < k' := h (k', v') (List.mem_cons_self _ _)
    simp only [find]
    rw [if_neg (by omega)]
    exact ih (fun e he => h e (List.mem_cons_of_mem _ he))

/-- What `find` returns after `emplace(k, v)`: the entry the map had, and for a key it did
not have the new entry when the key is `k`. -/
theorem find_after_emplace {m : AddrMap V} (k : Nat) (v : V) (q : Nat) (h : Ascending m) :
    (m.emplace k v).find q =
      match m.find q with
      | some x => some x
      | none => if k = q then some v else none := by
  induction m with
  | nil => simp [emplace, find]
  | cons hd tl ih =>
    obtain ⟨k', v'⟩ := hd
    have htl : Ascending tl := (List.pairwise_cons.mp h).2
    have hhd := (List.pairwise_cons.mp h).1
    simp only [emplace]
    by_cases h1 : k < k'
    · rw [if_pos h1]
      by_cases hq : k = q
      · subst hq
        have hnone : find ((k', v') :: tl) k = none :=
          find_none_of_lt (by
            intro e he
            rcases List.mem_cons.mp he with he | he
            · subst he; exact h1
            · exact Nat.lt_trans h1 (hhd e he))
        rw [hnone]
        simp [find]
      · have : find ((k, v) :: (k', v') :: tl) q = find ((k', v') :: tl) q := by
          conv => lhs; unfold find
          rw [if_neg hq]
        rw [this]
        cases find ((k', v') :: tl) q with
        | none => simp [hq]
        | some x => rfl
    · rw [if_neg h1]
      by_cases h2 : k = k'
      · rw [if_pos h2]
        subst h2
        by_cases hq : k = q
        · subst hq
          simp [find]
        · simp only [find, if_neg hq]
          cases find tl q with
          | none => simp [hq]
          | some x => rfl
      · rw [if_neg h2]
        by_cases hq : k' = q
        · simp [find, hq]
        · simp only [find, if_neg hq]
          exact ih htl

end AddrMap

namespace NameMap

variable {K V : Type} [DecidableEq K]

/-- What `find` returns after `emplace(k, v)`: the entry the map had, and for a key it did
not have the new entry when the key is `k`. -/
theorem find_emplace_eq (m : NameMap K V) (k : K) (v : V) (q : K) :
    (m.emplace k v).find q =
      match m.find q with
      | some x => some x
      | none => if k = q then some v else none := by
  unfold emplace
  cases hk : m.find k with
  | some y =>
    simp only []
    cases hq : m.find q with
    | some x => rfl
    | none =>
      have : ¬ k = q := by
        intro e; subst e; rw [hk] at hq; cases hq
      simp [this]
  | none =>
    simp only []
    cases hq : m.find q with
    | some x => rw [find_append_of_find _ hq]
    | none =>
      rw [find_append_of_none _ hq]
      simp [find]

end NameMap

namespace SymbolTable

/-- The indexes after a run of `add` calls: under each address the symbol the table had,
else the first symbol added with that address; under each name the address the table had,
else that of the first symbol added with that name. -/
theorem find_foldl_add (syms : List Symbol) :
    ∀ (t : SymbolTable), t.byAddr_.Ascending →
      (syms.foldl add t).byAddr_.Ascending ∧
      (∀ k, (syms.foldl add t).byAddr_.find k =
        match t.byAddr_.find k with
        | some s => some s
        | none => syms.find? (fun s => s.addr = k)) ∧
      (∀ nm, (syms.foldl add t).byName_.find nm =
        match t.byName_.find nm with
        | some a => some a
        | none => (syms.find? (fun s => s.name = nm)).map (fun s => s.addr)) := by
  induction syms with
  | nil =>
    intro t h
    refine ⟨h, fun k => ?_, fun nm => ?_⟩
    · simp only [List.foldl_nil, List.find?_nil]
      cases t.byAddr_.find k <;> rfl
    · simp only [List.foldl_nil, List.find?_nil, Option.map_none']
      cases t.byName_.find nm <;> rfl
  | cons s rest ih =>
    intro t h
    have hs : (t.add s).byAddr_.Ascending := AddrMap.emplace_sorted s.addr s h
    obtain ⟨h1, h2, h3⟩ := ih (t.add s) hs
    refine ⟨h1, fun k => ?_, fun nm => ?_⟩
    · rw [List.foldl_cons, h2 k]
      show (match (t.byAddr_.emplace s.addr s).find k with
        | some s => some s
        | none => rest.find? (fun (s : Symbol) => s.addr = k)) = _
      rw [AddrMap.find_after_emplace s.addr s k h]
      cases t.byAddr_.find k with
      | some x => rfl
      | none =>
        by_cases hk : s.addr = k
        · simp [List.find?_cons, hk]
        · simp [List.find?_cons, hk]
    · rw [List.foldl_cons, h3 nm]
      show (match (t.byName_.emplace s.name s.addr).find nm with
        | some a => some a
        | none => (rest.find? (fun (s : Symbol) => s.name = nm)).map (fun (s : Symbol) => s.addr)) = _
      rw [NameMap.find_emplace_eq]
      cases t.byName_.find nm with
      | some x => rfl
      | none =>
        by_cases hk : s.name = nm
        · simp [List.find?_cons, hk]
        · simp [List.find?_cons, hk]

end SymbolTable

namespace macho

/-- C15, amended. For an `LC_SYMTAB` command of the mapped file whose `nsyms` symbol
records at file offset `symoff` are `rs`, each with the zero-terminated string `names r` at
offset `n_strx` of the string table and an `n_sect` that is the index of a section of the
section table, the callback of `genSymbolTable` returns, and the records it hands to the
table are those whose name is non-empty, whose `n_value` is nonzero and whose
`n_type & 0xEE` is `0x24`, `0x0A` or `0x0E` (`specAdded`). Afterwards the address index
holds under each address what it held before and, under an address it did not hold, the
symbol `{addr = n_value, name, section = atIndex(n_sect)}` of the first such record with
that `n_value`, and nothing when there is none; the name index holds under each name what
it held before and, under a name it did not hold, the `n_value` of the first such record
with that name. Every other record leaves both indexes as they are. -/
theorem genSymbolTable_keeps_first_classified (file strs : Bytes) (secTable : SectionTable)
    (ret : SymbolTable) (cmd symoff stroff strsize : Nat) (rs : List nlist_64)
    (names : nlist_64 → List Byte)
    (hbase : file.base_ = file.org) (hlimit : file.limit_ = file.org + file.mem.length)
    (hlt : file.limit_ < 2 ^ 64)
    (hcmd : file.field cmd 0 4 = .ok LC_SYMTAB)
    (hsymoff : file.field cmd 8 4 = .ok symoff)
    (hnsyms : file.field cmd 12 4 = .ok rs.length)
    (hstroff : file.field cmd 16 4 = .ok stroff)
    (hstrsize : file.field cmd 20 4 = .ok strsize)
    (hfit : symoff + 16 * rs.length ≤ file.mem.length)
    (hrecs : (file.mem.drop symoff).take (16 * rs.length) = (rs.map nlist_64.bytes).flatten)
    (hstrs : file.slice2 stroff strsize = .ok strs)
    (hnames : ∀ r ∈ rs, strs.str r.n_strx.val = .ok (names r))
    (hsect : ∀ r ∈ rs, 1 ≤ r.n_sect.val ∧ r.n_sect.val < secTable.byIndex_.length)
    (hasc : ret.byAddr_.Ascending) :
    ∃ t, symtabCommand file secTable ret cmd = .ok t ∧
      t.byAddr_.Ascending ∧
      (∀ k, t.byAddr_.find k =
        match ret.byAddr_.find k with
        | some s => some s
        | none =>
          ((rs.filter (fun r => specAdded (names r) r)).find?
            (fun r => r.n_value.val = k)).map
              (fun r => ({ addr := r.n_value.val, name := names r,
                           section_ := secTable.byIndex_.getD r.n_sect.val none } : Symbol))) ∧
      (∀ nm, t.byName_.find nm =
        match ret.byName_.find nm with
        | some a => some a
        | none =>
          ((rs.filter (fun r => specAdded (names r) r)).find?
            (fun r => names r = nm)).map (fun r => r.n_value.val)) := by
  have hrun := symtabCommand_eq_foldl file strs secTable ret cmd symoff stroff strsize rs
    names hbase hlimit hlt hcmd hsymoff hnsyms hstroff hstrsize hfit hrecs hstrs hnames hsect
  have hmap : (rs.filter (fun r => specAdded (names r) r)).foldl
      (fun t r => t.add (specSymbol secTable (names r) r)) ret =
      ((rs.filter (fun r => specAdded (names r) r)).map
        (fun r => specSymbol secTable (names r) r)).foldl SymbolTable.add ret := by
    rw [List.foldl_map]
  rw [hmap] at hrun
  obtain ⟨h1, h2, h3⟩ := SymbolTable.find_foldl_add
    ((rs.filter (fun r => specAdded (names r) r)).map
      (fun r => specSymbol secTable (names r) r)) ret hasc
  refine ⟨_, hrun, h1, fun k => ?_, fun nm => ?_⟩
  · rw [h2 k, List.find?_map]
    rfl
  · rw [h3 nm, List.find?_map, Option.map_map]
    rfl

set_option maxRecDepth 20000 in
/-- Witness for the amended C15: the `LC_SYMTAB` command of the sample file, at offset 264,
with the records of `_main` (`0x1000`) and `_helper` (`0x1008`) at offset 288 and the string
table at offset 320, run on the table the constructor leaves. -/
theorem genSymbolTable_keeps_first_classified_witness :
    ∃ t, symtabCommand (Bytes.ofList Sample.app)
        (SectionTable.build [Sample.text, Sample.const]) SymbolTable.new (0x100000000 + 264)
          = .ok t ∧
      t.byAddr_.Ascending ∧
      (∀ k, t.byAddr_.find k =
        match SymbolTable.new.byAddr_.find k with
        | some s => some s
        | none =>
          ((([⟨1, 0x0f, 1, 0, 0x1000⟩, ⟨7, 0x0e, 1, 0, 0x1008⟩] : List nlist_64).filter
            (fun r => specAdded
              (if r.n_strx.val = 1 then Sample.chars "_main" else Sample.chars "_helper") r)).find?
            (fun r => r.n_value.val = k)).map
              (fun r => ({ addr := r.n_value.val,
                           name := if r.n_strx.val = 1 then Sample.chars "_main"
                                   else Sample.chars "_helper",
                           section_ := (SectionTable.build [Sample.text, Sample.const]).byIndex_.getD
                             r.n_sect.val none } : Symbol))) ∧
      (∀ nm, t.byName_.find nm =
        match SymbolTable.new.byName_.find nm with
        | some a => some a
        | none =>
          ((([⟨1, 0x0f, 1, 0, 0x1000⟩, ⟨7, 0x0e, 1, 0, 0x1008⟩] : List nlist_64).filter
            (fun r => specAdded
              (if r.n_strx.val = 1 then Sample.chars "_main" else Sample.chars "_helper") r)).find?
            (fun r => (if r.n_strx.val = 1 then Sample.chars "_main"
                       else Sample.chars "_helper") = nm)).map (fun r => r.n_value.val)) :=
  genSymbolTable_keeps_first_classified (Bytes.ofList Sample.app)
    { Bytes.ofList Sample.app with base_ := 0x100000000 + 320, limit_ := 0x100000000 + 335 }
    (SectionTable.build [Sample.text, Sample.const]) SymbolTable.new (0x100000000 + 264) 288 320 15
    [⟨1, 0x0f, 1, 0, 0x1000⟩, ⟨7, 0x0e, 1, 0, 0x1008⟩]
    (fun r => if r.n_strx.val = 1 then Sample.chars "_main" else Sample.chars "_helper")
    (by decide) (by decide) (by decide) (by decide) (by decide) (by decide) (by decide)
    (by decide) (by decide) (by decide) (by decide)
    (by intro r hr; simp at hr; rcases hr with rfl | rfl <;> decide)
    (by intro r hr; simp at hr; rcases hr with rfl | rfl <;> decide)
    (by unfold AddrMap.Ascending; decide)

set_option maxRecDepth 20000 in
/-- C15 as stated fails. In `appSameAddress` the records of `_main` and `_helper` both have
a non-empty name, the nonzero `n_value` `0x1000`, a type `genSymbolTable` selects
(`0x0f & 0xEE = 0x0E`, `0x0e & 0xEE = 0x0E`) and `n_sect = 1`, the index of `__text`. After
`genSymbolTable` the address index holds the two sentinels and `_main` only:
`byAddr_.emplace` finds the key `0x1000` taken and drops the symbol of `_helper`, which
`atAddress` and `eachSymbol` therefore never return; its name alone is entered in the name
index. -/
theorem genSymbolTable_drops_record_at_taken_address :
    specAdded (Sample.chars "_main") ⟨1, 0x0f, 1, 0, 0x1000⟩ = true ∧
    specAdded (Sample.chars "_helper") ⟨7, 0x0e, 1, 0, 0x1000⟩ = true ∧
    genSymbolTable (Bytes.ofList Sample.appSameAddress)
        (SectionTable.build [Sample.text, Sample.const]) =
      .ok { byAddr_ := [(0, Symbol.empty),
                        (0x1000, ⟨0x1000, Sample.chars "_main", some Sample.text⟩),
                        (2 ^ 64 - 1, Symbol.empty)]
            byName_ := [(Sample.chars "_main", 0x1000), (Sample.chars "_helper", 0x1000)] } ∧
    (genSymbolTable (Bytes.ofList Sample.appSameAddress)
        (SectionTable.build [Sample.text, Sample.const])).map
      (fun t => t.atAddress 0x1000)
      = .ok (.ok (some ⟨0x1000, Sample.chars "_main", some Sample.text⟩)) := by
  refine ⟨by decide, by decide, by decide, by decide⟩

end macho

end ObjReader
